import Mathlib

/-!
Sensitive-data redaction engine (package `hide`), with the retry policy of
`http/client/retry` and the case conversion of `utils`.

A shallow embedding of `hide/json.go`, `hide/hide.go`, `hide/rule.go` and
`hide/options.go`, of `http/client/retry/utils.go` and of
`utils/naming_case.go`.  The repository code is embedded function by function.
The parts of the Go standard library the code calls are modelled in sections
of their own: the streaming `Decoder.Token`, `Marshal` and `Unmarshal` of
`encoding/json`, `strconv.ParseFloat` and `strconv.ParseInt`, the attributes
of `log/slog`, the character classes of `unicode` (the range tables above
U+00FF are a parameter) and the URL functions of `net/url`.  Text is modelled
as a list of Unicode characters (well-formed UTF-8); the body that `JSON`
truncates and the value of the text attribute it returns are lists of bytes.
-/

namespace hide

/-! ## Errors -/

/-- Errors that `MaskSensitiveJSONFields` can return: the three kinds of error
the `encoding/json` decoder reports, the `Marshal` error for an invalid number
literal, and the encoder's own `invalid state` error of `pushState`.  `Panic`
stands for a run-time panic of the decoder (it is never reached). -/
inductive Error where
  | EOF
  | ErrUnexpectedEOF
  | SyntaxError
  | InvalidNumber
  | InvalidState (state : Nat)
  | Panic
  deriving DecidableEq, Repr

/-! ## Model of `encoding/json`: tokens -/

/-- A `json.Token` as returned by a decoder on which `UseNumber` was called:
a delimiter, a string, a `json.Number` (the literal's text), a bool or nil. -/
inductive Token where
  | delim (c : Char)
  | str (s : String)
  | number (lit : String)
  | bool (b : Bool)
  | null
  deriving DecidableEq, Repr

/-! ## Model of `encoding/json`: the scanner on one scalar literal -/

/-- Whitespace of the JSON scanner (`isSpace` in scanner.go). -/
def isSpace (c : Char) : Bool :=
  c == ' ' || c == '\t' || c == '\r' || c == '\n'

/-- Decimal digit test used by the scanner. -/
def isDigit09 (c : Char) : Bool := '0' ≤ c && c ≤ '9'

/-- Hexadecimal digit test used by the scanner inside `\u` escapes. -/
def isHex (c : Char) : Bool :=
  ('0' ≤ c && c ≤ '9') || ('a' ≤ c && c ≤ 'f') || ('A' ≤ c && c ≤ 'F')

/-- The step functions of scanner.go that are reachable while one scalar
literal is read (`Decoder.Token` never hands a `[` or `{` to the scanner). -/
inductive ScanState where
  | beginValue
  | inString | inStringEsc | inStringEscU | inStringEscU1 | inStringEscU12 | inStringEscU123
  | neg | s1 | s0 | dot | dot0 | e | eSign | e0
  | t | tr | tru | f | fa | fal | fals | n | nu | nul
  | endValue
  deriving DecidableEq, Repr

/-- Outcome of one scanner step: go on in a new state, the value ended before
this byte (`scanEnd`), or a syntax error (`scanError`). -/
inductive ScanOp where
  | cont (s : ScanState)
  | finish
  | error
  deriving DecidableEq, Repr

/-- One step of the scanner: `s.step(&s, c)` of scanner.go, with an empty
parse stack (a scalar at the top level of the scanner). -/
def ScanState.step : ScanState → Char → ScanOp
  | .beginValue, c =>
    if isSpace c then .cont .beginValue
    else if c == '"' then .cont .inString
    else if c == '-' then .cont .neg
    else if c == '0' then .cont .s0
    else if c == 't' then .cont .t
    else if c == 'f' then .cont .f
    else if c == 'n' then .cont .n
    else if '1' ≤ c && c ≤ '9' then .cont .s1
    else .error
  | .inString, c =>
    if c == '"' then .cont .endValue
    else if c == '\\' then .cont .inStringEsc
    else if c.toNat < 0x20 then .error
    else .cont .inString
  | .inStringEsc, c =>
    if c == 'b' || c == 'f' || c == 'n' || c == 'r' || c == 't' || c == '\\' || c == '/'
        || c == '"' then .cont .inString
    else if c == 'u' then .cont .inStringEscU
    else .error
  | .inStringEscU, c => if isHex c then .cont .inStringEscU1 else .error
  | .inStringEscU1, c => if isHex c then .cont .inStringEscU12 else .error
  | .inStringEscU12, c => if isHex c then .cont .inStringEscU123 else .error
  | .inStringEscU123, c => if isHex c then .cont .inString else .error
  | .neg, c =>
    if c == '0' then .cont .s0
    else if '1' ≤ c && c ≤ '9' then .cont .s1
    else .error
  | .s1, c =>
    if isDigit09 c then .cont .s1
    else if c == '.' then .cont .dot
    else if c == 'e' || c == 'E' then .cont .e
    else .finish
  | .s0, c =>
    if c == '.' then .cont .dot
    else if c == 'e' || c == 'E' then .cont .e
    else .finish
  | .dot, c => if isDigit09 c then .cont .dot0 else .error
  | .dot0, c =>
    if isDigit09 c then .cont .dot0
    else if c == 'e' || c == 'E' then .cont .e
    else .finish
  | .e, c =>
    if c == '+' || c == '-' then .cont .eSign
    else if isDigit09 c then .cont .e0
    else .error
  | .eSign, c => if isDigit09 c then .cont .e0 else .error
  | .e0, c => if isDigit09 c then .cont .e0 else .finish
  | .t, c => if c == 'r' then .cont .tr else .error
  | .tr, c => if c == 'u' then .cont .tru else .error
  | .tru, c => if c == 'e' then .cont .endValue else .error
  | .f, c => if c == 'a' then .cont .fa else .error
  | .fa, c => if c == 'l' then .cont .fal else .error
  | .fal, c => if c == 's' then .cont .fals else .error
  | .fals, c => if c == 'e' then .cont .endValue else .error
  | .n, c => if c == 'u' then .cont .nu else .error
  | .nu, c => if c == 'l' then .cont .nul else .error
  | .nul, c => if c == 'l' then .cont .endValue else .error
  | .endValue, _ => .finish

/-- The scanning loop of `Decoder.readValue`: feeds bytes to the scanner until
it reports the end of the value; returns the literal and the unread rest.  At
the end of the input the scanner is fed a space: if that ends the value the
literal is complete, otherwise the input stopped inside a literal
(`io.ErrUnexpectedEOF`). -/
def readValue : ScanState → List Char → Except Error (List Char × List Char)
  | s, [] =>
    match s.step ' ' with
    | .finish => .ok ([], [])
    | _ => .error .ErrUnexpectedEOF
  | s, c :: cs =>
    match s.step c with
    | .finish => .ok ([], c :: cs)
    | .error => .error .SyntaxError
    | .cont s' =>
      match readValue s' cs with
      | .ok (lit, rest) => .ok (c :: lit, rest)
      | .error err => .error err

/-! ## Model of `encoding/json`: decoding a scalar literal -/

/-- Value of one hexadecimal digit. -/
def hexVal (c : Char) : Nat :=
  if '0' ≤ c && c ≤ '9' then c.toNat - 48
  else if 'a' ≤ c && c ≤ 'f' then c.toNat - 87
  else c.toNat - 55

/-- The rune of a `\uXXXX` escape at the head of the text (`getu4` of
decode.go), or `none` (Go: -1) when the text does not start with one. -/
def getu4 : List Char → Option Nat
  | '\\' :: 'u' :: a :: b :: c :: d :: _ =>
    if isHex a && isHex b && isHex c && isHex d then
      some (hexVal a * 4096 + hexVal b * 256 + hexVal c * 16 + hexVal d)
    else none
  | _ => none

/-- The replacement character U+FFFD. -/
def replacementChar : Char := Char.ofNat 0xFFFD

/-- Combining a surrogate pair: `utf16.DecodeRune`. -/
def utf16DecodeRune (r1 : Nat) (r2 : Option Nat) : Char :=
  match r2 with
  | some r2 =>
    if 0xD800 ≤ r1 && r1 < 0xDC00 && 0xDC00 ≤ r2 && r2 < 0xE000 then
      Char.ofNat ((r1 - 0xD800) * 1024 + (r2 - 0xDC00) + 0x10000)
    else replacementChar
  | none => replacementChar

/-- The body of `unquoteBytes` of decode.go on the text between the quotes:
escapes are replaced by the characters they denote; `none` when the text is
not the inside of a string literal. -/
def unquote : Nat → List Char → Option (List Char)
  | 0, _ => none
  | _ + 1, [] => some []
  | n + 1, c :: rest =>
    if c == '\\' then
      match rest with
      | [] => none
      | e :: rest1 =>
        if e == '"' || e == '\\' || e == '/' || e.toNat = 39 then
          (unquote n rest1).map (e :: ·)
        else if e == 'b' then (unquote n rest1).map ('\x08' :: ·)
        else if e == 'f' then (unquote n rest1).map ('\x0c' :: ·)
        else if e == 'n' then (unquote n rest1).map ('\n' :: ·)
        else if e == 'r' then (unquote n rest1).map ('\r' :: ·)
        else if e == 't' then (unquote n rest1).map ('\t' :: ·)
        else if e == 'u' then
          match getu4 (c :: e :: rest1) with
          | none => none
          | some rr =>
            let rest2 := rest1.drop 4
            if 0xD800 ≤ rr && rr < 0xE000 then
              let dec := utf16DecodeRune rr (getu4 rest2)
              if dec != replacementChar then (unquote n (rest2.drop 6)).map (dec :: ·)
              else (unquote n rest2).map (replacementChar :: ·)
            else (unquote n rest2).map (Char.ofNat rr :: ·)
        else none
    else if c == '"' || c.toNat < 0x20 then none
    else (unquote n rest).map (c :: ·)

/-- The value `Decode` stores for a scalar literal (`literalInterface` and
`literalStore` of decode.go, with `UseNumber`): nil, a bool, the unquoted
string, or the number literal's text as a `json.Number`. -/
def literalInterface (lit : List Char) : Except Error Token :=
  match lit with
  | [] => .error .Panic
  | c :: rest =>
    if c == 'n' then .ok .null
    else if c == 't' then .ok (.bool true)
    else if c == 'f' then .ok (.bool false)
    else if c == '"' then
      match unquote (rest.length + 1) rest.dropLast with
      | some s => .ok (.str (String.mk s))
      | none => .error .Panic
    else if c == '-' || isDigit09 c then .ok (.number (String.mk lit))
    else .error .Panic

/-! ## Model of `encoding/json`: `Decoder.Token` -/

/-- The token states of stream.go. -/
inductive TokenState where
  | tokenTopValue
  | tokenArrayStart
  | tokenArrayValue
  | tokenArrayComma
  | tokenObjectStart
  | tokenObjectKey
  | tokenObjectColon
  | tokenObjectValue
  | tokenObjectComma
  deriving DecidableEq, Repr

open TokenState

/-- A `json.Decoder` reading from a byte buffer: the unread input, the token
state and the stack of enclosing token states (top first). -/
structure Decoder where
  buf : List Char
  tokenState : TokenState
  tokenStack : List TokenState
  deriving DecidableEq, Repr

/-- The decoder `json.NewDecoder(bytes.NewReader(body))`. -/
def NewDecoder (body : List Char) : Decoder := ⟨body, tokenTopValue, []⟩

/-- Model of `tokenValueAllowed`. -/
def tokenValueAllowed : TokenState → Bool
  | tokenTopValue | tokenArrayStart | tokenArrayValue | tokenObjectValue => true
  | _ => false

/-- Model of `tokenValueEnd`. -/
def tokenValueEnd : TokenState → TokenState
  | tokenArrayStart | tokenArrayValue => tokenArrayComma
  | tokenObjectValue => tokenObjectComma
  | s => s

/-- Model of `Decoder.Decode` as `Token` calls it, at a non-space byte that is
not a delimiter: reads one scalar literal and converts it. -/
def Decode (buf : List Char) : Except Error (Token × List Char) :=
  match readValue .beginValue buf with
  | .error err => .error err
  | .ok (lit, rest) =>
    match literalInterface lit with
    | .error err => .error err
    | .ok tok => .ok (tok, rest)

/-- The nesting depth beyond which the decoder refuses an array or an object
(`maxNestingDepth` of scanner.go). -/
def maxNestingDepth : Nat := 10000

/-- The loop of `Decoder.Token` from token state `st` with stack `stack` over
the unread input: whitespace, `:` and `,` are skipped (the latter two only
where the token state expects them), a delimiter is checked against the token
state, anything else is decoded as a scalar.  An opening delimiter under
`maxNestingDepth` open arrays and objects is a syntax error.  The end of the
input is `io.EOF` wherever it falls between tokens. -/
def tokenLoop (st : TokenState) (stack : List TokenState) :
    List Char → Except Error (Token × Decoder)
  | [] => .error .EOF
  | c :: cs =>
    if isSpace c then tokenLoop st stack cs
    else if c == '[' then
      if tokenValueAllowed st ∧ stack.length < maxNestingDepth then
        .ok (.delim '[', ⟨cs, tokenArrayStart, st :: stack⟩)
      else .error .SyntaxError
    else if c == ']' then
      if st = tokenArrayStart ∨ st = tokenArrayComma then
        match stack with
        | top :: stack' => .ok (.delim ']', ⟨cs, tokenValueEnd top, stack'⟩)
        | [] => .error .Panic
      else .error .SyntaxError
    else if c == '{' then
      if tokenValueAllowed st ∧ stack.length < maxNestingDepth then
        .ok (.delim '{', ⟨cs, tokenObjectStart, st :: stack⟩)
      else .error .SyntaxError
    else if c == '}' then
      if st = tokenObjectStart ∨ st = tokenObjectComma then
        match stack with
        | top :: stack' => .ok (.delim '}', ⟨cs, tokenValueEnd top, stack'⟩)
        | [] => .error .Panic
      else .error .SyntaxError
    else if c == ':' then
      if st = tokenObjectColon then tokenLoop tokenObjectValue stack cs
      else .error .SyntaxError
    else if c == ',' then
      if st = tokenArrayComma then tokenLoop tokenArrayValue stack cs
      else if st = tokenObjectComma then tokenLoop tokenObjectKey stack cs
      else .error .SyntaxError
    else if c == '"' ∧ (st = tokenObjectStart ∨ st = tokenObjectKey) then
      match Decode (c :: cs) with
      | .error err => .error err
      | .ok (tok, rest) => .ok (tok, ⟨rest, tokenObjectColon, stack⟩)
    else if tokenValueAllowed st then
      match Decode (c :: cs) with
      | .error err => .error err
      | .ok (tok, rest) => .ok (tok, ⟨rest, tokenValueEnd st, stack⟩)
    else .error .SyntaxError

/-- Model of `(*Decoder).Token`. -/
def Decoder.Token (dec : Decoder) : Except Error (Token × Decoder) :=
  tokenLoop dec.tokenState dec.tokenStack dec.buf

/-! ## Model of `encoding/json`: `Marshal` of a token -/

/-- Lower-case hexadecimal digit. -/
def hexDigit (n : Nat) : Char :=
  if n < 10 then Char.ofNat (48 + n) else Char.ofNat (87 + n)

/-- Escaping of one character by `appendString` of encode.go with HTML
escaping on (the default of `Marshal`). -/
def escapeChar (c : Char) : List Char :=
  if c.toNat < 0x80 then
    if c == '\\' || c == '"' then ['\\', c]
    else if c == '\x08' then ['\\', 'b']
    else if c == '\x0c' then ['\\', 'f']
    else if c == '\n' then ['\\', 'n']
    else if c == '\r' then ['\\', 'r']
    else if c == '\t' then ['\\', 't']
    else if c.toNat < 0x20 || c == '<' || c == '>' || c == '&' then
      ['\\', 'u', '0', '0', hexDigit (c.toNat / 16), hexDigit (c.toNat % 16)]
    else [c]
  else if c.toNat = 0x2028 ∨ c.toNat = 0x2029 then
    ['\\', 'u', '2', '0', '2', hexDigit (c.toNat % 16)]
  else [c]

/-- The JSON encoding of a Go string: `json.Marshal(s)`. -/
def MarshalString (s : String) : String :=
  String.mk ('"' :: (s.data.flatMap escapeChar ++ ['"']))

/-- Model of `isValidNumber` of encode.go, last part: an optional exponent
(`e` or `E`, an optional sign, digits), then the end of the text. -/
def isValidNumberExp (s : List Char) : Bool :=
  match s with
  | x :: y :: r =>
    if x == 'e' || x == 'E' then
      if y == '+' || y == '-' then
        (if r.isEmpty then false else (r.dropWhile isDigit09).isEmpty)
      else ((y :: r).dropWhile isDigit09).isEmpty
    else false
  | _ => s.isEmpty

/-- Model of `isValidNumber` of encode.go after the integer digits: an
optional fraction (`.` and at least one digit), then the exponent part. -/
def isValidNumberTail (s : List Char) : Bool :=
  match s with
  | c :: d :: r =>
    if c == '.' && isDigit09 d then isValidNumberExp (r.dropWhile isDigit09)
    else isValidNumberExp s
  | _ => isValidNumberExp s

/-- Model of `isValidNumber` of encode.go: the JSON number grammar. -/
def isValidNumber (s : List Char) : Bool :=
  let s1 := match s with
    | c :: r => if c == '-' then r else s
    | [] => s
  match s1 with
  | [] => false
  | c :: r =>
    if c == '0' then isValidNumberTail r
    else if '1' ≤ c && c ≤ '9' then isValidNumberTail (r.dropWhile isDigit09)
    else false

/-- Model of `json.Marshal` on a non-delimiter token: the encoded text, or the
error `json: invalid number literal` for a `json.Number` that is not a number
(the empty `json.Number` encodes as `0`). -/
def Marshal : Token → Except Error String
  | .str s => .ok (MarshalString s)
  | .number lit =>
    let numStr := if lit = "" then "0" else lit
    if isValidNumber numStr.data then .ok numStr else .error .InvalidNumber
  | .bool true => .ok "true"
  | .bool false => .ok "false"
  | .null => .ok "null"
  | .delim c => .ok (Nat.repr c.toNat)

/-! ## Model of `unicode`: character classes -/

/-- The range tables `unicode.Letter` and `unicode.Digit` of Go's `unicode`
package for the runes above U+00FF.  They are data of the standard library
and are taken as a parameter. -/
structure UnicodeTables where
  Letter : Char → Bool
  Digit : Char → Bool

/-- Model of `unicode.IsLetter`: the Latin-1 property table below U+0100, the
range table `unicode.Letter` above. -/
def IsLetter (tab : UnicodeTables) (r : Char) : Bool :=
  if r.toNat ≤ 0xFF then
    ('A' ≤ r && r ≤ 'Z') || ('a' ≤ r && r ≤ 'z') || r.toNat = 0xAA || r.toNat = 0xB5
      || r.toNat = 0xBA || (0xC0 ≤ r.toNat && r.toNat ≤ 0xD6)
      || (0xD8 ≤ r.toNat && r.toNat ≤ 0xF6) || 0xF8 ≤ r.toNat
  else tab.Letter r

/-- Model of `unicode.IsDigit`: `0`..`9` below U+0100, the range table
`unicode.Digit` above. -/
def IsDigit (tab : UnicodeTables) (r : Char) : Bool :=
  if r.toNat ≤ 0xFF then '0' ≤ r && r ≤ '9' else tab.Digit r

/-! ## hide/rule.go: the transforms without a Converter -/

/-- Embeds `fullExclude`: one `*` per rune of the string. -/
def fullExclude (s : String) : String :=
  String.mk (List.replicate s.data.length '*')

/-- The loop of `maskName` from position counter `pos` in the current run of
letters. -/
def maskNameLoop (tab : UnicodeTables) : Nat → List Char → List Char
  | _, [] => []
  | pos, l :: rest =>
    if !IsLetter tab l then l :: maskNameLoop tab 0 rest
    else if pos < 2 then l :: maskNameLoop tab (pos + 1) rest
    else '*' :: maskNameLoop tab (pos + 1) rest

/-- Embeds `maskName`. -/
def maskName (tab : UnicodeTables) (name : String) : String :=
  let nameRune := name.data
  let nameLen := nameRune.length
  if nameLen > 2 then String.mk (maskNameLoop tab 0 nameRune)
  else fullExclude name

/-- The loop of `maskCardAndPhone` from index `i`. -/
def maskCardAndPhoneLoop (tab : UnicodeTables) (phoneLen : Nat) : Nat → List Char → List Char
  | _, [] => []
  | i, l :: rest =>
    let isDigit := IsDigit tab l
    if !isDigit || (i : Int) ≥ (phoneLen : Int) - 4 then
      l :: maskCardAndPhoneLoop tab phoneLen (i + 1) rest
    else '*' :: maskCardAndPhoneLoop tab phoneLen (i + 1) rest

/-- Embeds `maskCardAndPhone`. -/
def maskCardAndPhone (tab : UnicodeTables) (phone : String) : String :=
  let phoneRune := phone.data
  let phoneLen := phoneRune.length
  String.mk (maskCardAndPhoneLoop tab phoneLen 0 phoneRune)

/-- Model of `strings.Split(s, "@")`: the pieces between the `@` signs (always
at least one piece). -/
def splitAt : List Char → List (List Char)
  | [] => [[]]
  | c :: rest =>
    if c == '@' then [] :: splitAt rest
    else
      match splitAt rest with
      | piece :: pieces => (c :: piece) :: pieces
      | [] => [[c]]

/-- The loop of `maskEmail` over the runes of the address part from index `i`. -/
def maskEmailLoop : Nat → List Char → List Char
  | _, [] => []
  | i, l :: rest =>
    if i < 3 then l :: maskEmailLoop (i + 1) rest
    else '*' :: maskEmailLoop (i + 1) rest

/-- Embeds `maskEmail`. -/
def maskEmail (email : String) : String :=
  match splitAt email.data with
  | [] => fullExclude email
  | [_] => fullExclude email
  | addr :: domain :: _ =>
    let addrLen := addr.length
    if addrLen < 4 then String.mk (List.replicate addrLen '*' ++ '@' :: domain)
    else String.mk (maskEmailLoop 0 addr ++ '@' :: domain)

/-! ## Model of `net/url`

Go strings are byte strings; text is modelled as lists of characters, so the
bytes that percent-decoding produces are read back as UTF-8, a byte that is
not part of a well-formed sequence being read as U+FFFD. -/

namespace url

/-- The UTF-8 bytes of a character. -/
def utf8EncodeChar (c : Char) : List Nat :=
  let n := c.toNat
  if n < 0x80 then [n]
  else if n < 0x800 then [0xC0 + n / 64, 0x80 + n % 64]
  else if n < 0x10000 then [0xE0 + n / 4096, 0x80 + n / 64 % 64, 0x80 + n % 64]
  else [0xF0 + n / 262144, 0x80 + n / 4096 % 64, 0x80 + n / 64 % 64, 0x80 + n % 64]

/-- The UTF-8 bytes of a text. -/
def utf8Encode (s : List Char) : List Nat := s.flatMap utf8EncodeChar

/-- A continuation byte of UTF-8. -/
def isCont (b : Nat) : Bool := 0x80 ≤ b && b < 0xC0

/-- The first rune of a byte string and its width, as `utf8.DecodeRune`
computes them: an ill-formed sequence gives U+FFFD and width 1. -/
def decodeRune : List Nat → Char × Nat
  | [] => (replacementChar, 1)
  | b0 :: rest =>
    if b0 < 0x80 then (Char.ofNat b0, 1)
    else if 0xC2 ≤ b0 && b0 < 0xE0 then
      match rest with
      | b1 :: _ => if isCont b1 then (Char.ofNat ((b0 - 0xC0) * 64 + (b1 - 0x80)), 2)
        else (replacementChar, 1)
      | _ => (replacementChar, 1)
    else if 0xE0 ≤ b0 && b0 < 0xF0 then
      match rest with
      | b1 :: b2 :: _ =>
        let n := (b0 - 0xE0) * 4096 + (b1 - 0x80) * 64 + (b2 - 0x80)
        if isCont b1 && isCont b2 && 0x800 ≤ n && !(0xD800 ≤ n && n < 0xE000) then
          (Char.ofNat n, 3)
        else (replacementChar, 1)
      | _ => (replacementChar, 1)
    else if 0xF0 ≤ b0 && b0 < 0xF5 then
      match rest with
      | b1 :: b2 :: b3 :: _ =>
        let n := (b0 - 0xF0) * 262144 + (b1 - 0x80) * 4096 + (b2 - 0x80) * 64 + (b3 - 0x80)
        if isCont b1 && isCont b2 && isCont b3 && 0x10000 ≤ n && n < 0x110000 then
          (Char.ofNat n, 4)
        else (replacementChar, 1)
      | _ => (replacementChar, 1)
    else (replacementChar, 1)

/-- The runes of a byte string (`[]rune(s)`), for at most `fuel` runes. -/
def utf8DecodeN : Nat → List Nat → List Char
  | 0, _ => []
  | _ + 1, [] => []
  | fuel + 1, b :: bs =>
    let (c, n) := decodeRune (b :: bs)
    c :: utf8DecodeN fuel ((b :: bs).drop n)

/-- The runes of a byte string. -/
def utf8Decode (bs : List Nat) : List Char := utf8DecodeN bs.length bs

/-- The escaping modes of url.go. -/
inductive encoding where
  | encodePath
  | encodePathSegment
  | encodeHost
  | encodeZone
  | encodeUserPassword
  | encodeQueryComponent
  | encodeFragment
  deriving DecidableEq, Repr

open encoding

/-- Membership of a byte in a set of ASCII characters. -/
def byteIn (b : Nat) (set : String) : Bool := set.data.any (fun c => c.toNat == b)

/-- Model of `shouldEscape`. -/
def shouldEscape (c : Nat) (mode : encoding) : Bool :=
  if (97 ≤ c && c ≤ 122) || (65 ≤ c && c ≤ 90) || (48 ≤ c && c ≤ 57) then false
  else if (mode = encodeHost ∨ mode = encodeZone) ∧
      (byteIn c "!$&()*+,;=:[]<>\"" || c == 39) then false
  else if byteIn c "-_.~" then false
  else if byteIn c "$&+,/:;=?@" then
    match mode with
    | encodePath => c == 63
    | encodePathSegment => byteIn c "/;,?"
    | encodeUserPassword => byteIn c "@/?:"
    | encodeQueryComponent => true
    | encodeFragment => false
    | _ => true
  else if mode = encodeFragment ∧ byteIn c "!()*" then false
  else true

/-- Hexadecimal digit test on a byte (`ishex`). -/
def ishex (c : Nat) : Bool :=
  (48 ≤ c && c ≤ 57) || (97 ≤ c && c ≤ 102) || (65 ≤ c && c ≤ 70)

/-- Value of a hexadecimal digit byte (`unhex`). -/
def unhex (c : Nat) : Nat :=
  if 48 ≤ c && c ≤ 57 then c - 48
  else if 97 ≤ c && c ≤ 102 then c - 97 + 10
  else if 65 ≤ c && c ≤ 70 then c - 65 + 10
  else 0

/-- The bytes that `unescape` produces, or `none` for an ill-formed escape or
a byte the mode does not allow. -/
def unescapeBytes (mode : encoding) : List Nat → Option (List Nat)
  | [] => some []
  | 37 :: h1 :: h2 :: rest =>
    if !ishex h1 || !ishex h2 then none
    else if mode = encodeHost ∧ unhex h1 < 8 ∧ ¬ (h1 = 50 ∧ h2 = 53) then none
    else if mode = encodeZone ∧ ¬ (h1 = 50 ∧ h2 = 53) ∧ unhex h1 * 16 + unhex h2 ≠ 32 ∧
        shouldEscape (unhex h1 * 16 + unhex h2) encodeHost then none
    else (unescapeBytes mode rest).map (fun t => (unhex h1 * 16 + unhex h2) :: t)
  | c :: rest =>
    if c = 37 then none
    else if c = 43 then
      (unescapeBytes mode rest).map
        (fun t => (if mode = encodeQueryComponent then 32 else 43) :: t)
    else if (mode = encodeHost ∨ mode = encodeZone) ∧ c < 0x80 ∧ shouldEscape c encodeHost then
      none
    else (unescapeBytes mode rest).map (fun t => c :: t)

/-- Model of `unescape`. -/
def unescape (s : List Char) (mode : encoding) : Option (List Char) :=
  (unescapeBytes mode (utf8Encode s)).map utf8Decode

/-- Upper-case hexadecimal digit. -/
def upperhex (n : Nat) : Char :=
  if n < 10 then Char.ofNat (48 + n) else Char.ofNat (55 + n)

/-- Model of `escape`. -/
def escape (s : List Char) (mode : encoding) : List Char :=
  (utf8Encode s).flatMap fun c =>
    if c = 32 ∧ mode = encodeQueryComponent then ['+']
    else if shouldEscape c mode then ['%', upperhex (c / 16), upperhex (c % 16)]
    else [Char.ofNat c]

/-- Model of `QueryUnescape`. -/
def QueryUnescape (s : List Char) : Option (List Char) := unescape s encodeQueryComponent

/-- Model of `QueryEscape`. -/
def QueryEscape (s : List Char) : List Char := escape s encodeQueryComponent

/-- Model of `strings.Cut` with a one-byte separator: the text before the
first separator, the text after it, and whether it was found. -/
def cut (sep : Char) : List Char → List Char × List Char × Bool
  | [] => ([], [], false)
  | c :: rest =>
    if c = sep then ([], rest, true)
    else
      let (before, after, found) := cut sep rest
      (c :: before, after, found)

/-- Model of `strings.LastIndex` with a one-byte separator, as a cut: the
text before the last separator and the text after it. -/
def cutLast (sep : Char) (s : List Char) : Option (List Char × List Char) :=
  let (afterRev, beforeRev, found) := cut sep s.reverse
  if found then some (beforeRev.reverse, afterRev.reverse) else none

/-- The type `Values`: keys with their values, one entry per key. -/
abbrev Values := List (List Char × List (List Char))

/-- Model of `Values.Get`. -/
def Values.Get (v : Values) (key : List Char) : List Char :=
  match v.lookup key with
  | some (first :: _) => first
  | _ => []

/-- Model of `Values.Set`. -/
def Values.Set (v : Values) (key : List Char) (value : List Char) : Values :=
  if (v.lookup key).isSome then
    v.map (fun kv => if kv.1 = key then (key, [value]) else kv)
  else v ++ [(key, [value])]

/-- Appending a value to the entry of a key: `m[key] = append(m[key], value)`. -/
def Values.add (v : Values) (key : List Char) (value : List Char) : Values :=
  if (v.lookup key).isSome then
    v.map (fun kv => if kv.1 = key then (key, kv.2 ++ [value]) else kv)
  else v ++ [(key, [value])]

/-- Model of `parseQuery`, over the `&`-separated pairs of the query: pairs
with a semicolon or an ill-formed escape are skipped. -/
def parseQuery (m : Values) : List (List Char) → Values
  | [] => m
  | pair :: rest =>
    if pair.contains ';' then parseQuery m rest
    else if pair.isEmpty then parseQuery m rest
    else
      let (key, value, _) := cut '=' pair
      match QueryUnescape key with
      | none => parseQuery m rest
      | some key =>
        match QueryUnescape value with
        | none => parseQuery m rest
        | some value => parseQuery (m.add key value) rest

/-- Model of `strings.Split` with a one-byte separator. -/
def split (sep : Char) : List Char → List (List Char)
  | [] => [[]]
  | c :: rest =>
    if c = sep then [] :: split sep rest
    else
      match split sep rest with
      | piece :: pieces => (c :: piece) :: pieces
      | [] => [[c]]

/-- Model of `ParseQuery`, its error dropped as `URL.Query` does. -/
def ParseQuery (query : List Char) : Values := parseQuery [] (split '&' query)

/-- Lexicographic order of texts by code point (the byte order of UTF-8). -/
def textLE : List Char → List Char → Bool
  | [], _ => true
  | _ :: _, [] => false
  | a :: as, b :: bs => a.toNat < b.toNat || (a.toNat == b.toNat && textLE as bs)

/-- Insertion of an entry into a list sorted by key. -/
def insertSorted (kv : List Char × List (List Char)) : Values → Values
  | [] => [kv]
  | x :: rest => if textLE kv.1 x.1 then kv :: x :: rest else x :: insertSorted kv rest

/-- The entries sorted by key (`slices.Sort(keys)`). -/
def sortByKey (v : Values) : Values := v.foldr insertSorted []

/-- Model of `Values.Encode`. -/
def Values.Encode (v : Values) : List Char :=
  let pairs := (sortByKey v).flatMap fun kv =>
    kv.2.map fun value => QueryEscape kv.1 ++ '=' :: QueryEscape value
  [] |> pairs.foldl fun buf pair => if buf.isEmpty then pair else buf ++ '&' :: pair

/-- The type `Userinfo`. -/
structure Userinfo where
  username : List Char
  password : List Char
  passwordSet : Bool
  deriving DecidableEq, Repr

/-- The type `URL`. -/
structure URL where
  Scheme : List Char
  Opaque : List Char
  User : Option Userinfo
  Host : List Char
  Path : List Char
  RawPath : List Char
  OmitHost : Bool
  ForceQuery : Bool
  RawQuery : List Char
  Fragment : List Char
  RawFragment : List Char
  deriving DecidableEq, Repr

/-- Model of `getScheme`: the scheme and the rest, or `none` for the error
`missing protocol scheme`. -/
def getSchemeLoop (rawURL : List Char) : Nat → List Char → Option (List Char × List Char)
  | _, [] => some ([], rawURL)
  | i, c :: rest =>
    if ('a' ≤ c && c ≤ 'z') || ('A' ≤ c && c ≤ 'Z') then getSchemeLoop rawURL (i + 1) rest
    else if ('0' ≤ c && c ≤ '9') || c == '+' || c == '-' || c == '.' then
      if i = 0 then some ([], rawURL) else getSchemeLoop rawURL (i + 1) rest
    else if c == ':' then
      if i = 0 then none else some (rawURL.take i, rest)
    else some ([], rawURL)

/-- Model of `getScheme`. -/
def getScheme (rawURL : List Char) : Option (List Char × List Char) :=
  getSchemeLoop rawURL 0 rawURL

/-- Model of `stringContainsCTLByte`. -/
def stringContainsCTLByte (s : List Char) : Bool :=
  s.any fun c => c.toNat < 0x20 || c.toNat == 0x7f

/-- Model of `validOptionalPort`. -/
def validOptionalPort : List Char → Bool
  | [] => true
  | c :: rest => c == ':' && rest.all fun b => '0' ≤ b && b ≤ '9'

/-- Model of `validUserinfo`. -/
def validUserinfo (s : List Char) : Bool :=
  s.all fun r =>
    ('A' ≤ r && r ≤ 'Z') || ('a' ≤ r && r ≤ 'z') || ('0' ≤ r && r ≤ '9')
      || byteIn r.toNat "-._:~!$&()*+,;=%@" || r.toNat == 39

/-- The index of the first `%25` in a text, as a cut. -/
def cutZone : List Char → Option (List Char × List Char)
  | [] => none
  | c :: rest =>
    if (c :: rest).take 3 = ['%', '2', '5'] then some ([], c :: rest)
    else (cutZone rest).map fun p => (c :: p.1, p.2)

/-- Model of `parseIPv4Fields` of net/netip, as far as it decides whether the
text is an IPv4 address: four decimal fields between dots, each from 0 to 255
and without a leading zero. -/
def validIPv4 (s : List Char) : Bool :=
  let fields := split '.' s
  fields.length == 4 && fields.all fun f =>
    !f.isEmpty && f.all (fun c => '0' ≤ c && c ≤ '9') && (f.length == 1 || f.head? != some '0')
      && f.foldl (fun n c => n * 10 + (c.toNat - '0'.toNat)) 0 ≤ 255

/-- The loop of `parseIPv6` of net/netip over the groups of the address, as
far as it decides whether the text is an address: `i` is the number of bytes
filled so far, `ellipsis` whether a `::` was met.  A group has one to four
hexadecimal digits; a dot after the digits starts the embedded IPv4 address
that ends the text. -/
def parseIPv6Loop : Nat → Nat → Bool → List Char → Bool
  | 0, _, _, _ => false
  | fuel + 1, i, ellipsis, s =>
    if 16 ≤ i then false
    else
      let off := (s.takeWhile isHex).length
      if 4 < off ∨ off = 0 then false
      else if (s.drop off).head? = some '.' then
        (ellipsis || i == 12) && decide (i + 4 ≤ 16) && validIPv4 s
          && (if i + 4 < 16 then ellipsis else !ellipsis)
      else
        match s.drop off with
        | [] => if i + 2 < 16 then ellipsis else !ellipsis
        | c :: rest =>
          if c ≠ ':' ∨ rest = [] then false
          else
            match rest with
            | ':' :: rest2 =>
              if ellipsis then false
              else if rest2 = [] then decide (i + 2 < 16)
              else parseIPv6Loop fuel (i + 2) true rest2
            | _ => parseIPv6Loop fuel (i + 2) ellipsis rest

/-- Model of `parseIPv6` of net/netip, as far as it decides whether the text
is an address: a zone after `%` must not be empty, a leading `::` can be the
whole address. -/
def parseIPv6 (s : List Char) : Bool :=
  let (addr, zone, found) := cut '%' s
  if found ∧ zone = [] then false
  else
    match addr with
    | ':' :: ':' :: rest =>
      if rest = [] then true else parseIPv6Loop (rest.length + 1) 0 true rest
    | _ => parseIPv6Loop (addr.length + 1) 0 false addr

/-- The text is read by `netip.ParseAddr` as an address that is not an IPv4
address: the first of the bytes `.`, `:` and `%` in it is a colon, and
`parseIPv6` accepts it. -/
def isIPv6Literal (s : List Char) : Bool :=
  match s.find? fun c => c == '.' || c == ':' || c == '%' with
  | some ':' => parseIPv6 s
  | _ => false

/-- Model of `parseHost`, as in Go 1.26 and later: a host with a `[` is an IP
literal from its last `[` to its last `]`, with an optional port after it, and
only an IPv6 address can stand between the brackets (`netip.ParseAddr`).  A
port that is not valid is an error, so the `]` stands after the `[` where the
text between them is taken.  In a host without `[` the port starts at the
first colon, so a second colon is an error. -/
def parseHost (host : List Char) : Option (List Char) :=
  match cutLast '[' host with
  | some (_, afterOpen) =>
    match cutLast ']' host with
    | none => none
    | some (_, colonPort) =>
      if !validOptionalPort colonPort then none
      else
        match unescape colonPort encodeHost, cutLast ']' afterOpen with
        | some unescapedColonPort, some (hostname, _) =>
          let unescapedHostname :=
            match cutZone hostname with
            | some (h1, zone) =>
              match unescape h1 encodeHost, unescape zone encodeZone with
              | some hostPart, some zonePart => some (hostPart ++ zonePart)
              | _, _ => none
            | none => unescape hostname encodeHost
          match unescapedHostname with
          | some h =>
            if isIPv6Literal h then some ('[' :: h ++ ']' :: unescapedColonPort) else none
          | none => none
        | _, _ => none
  | none =>
    match cut ':' host with
    | (_, port, true) =>
      if !validOptionalPort (':' :: port) then none else unescape host encodeHost
    | _ => unescape host encodeHost

/-- Model of `parseAuthority`. -/
def parseAuthority (authority : List Char) : Option (Option Userinfo × List Char) :=
  match cutLast '@' authority with
  | none => (parseHost authority).map fun host => (none, host)
  | some (userinfo, hostPart) =>
    match parseHost hostPart with
    | none => none
    | some host =>
      if !validUserinfo userinfo then none
      else if !userinfo.contains ':' then
        (unescape userinfo encodeUserPassword).map fun u => (some ⟨u, [], false⟩, host)
      else
        let (username, password, _) := cut ':' userinfo
        match unescape username encodeUserPassword, unescape password encodeUserPassword with
        | some u, some p => some (some ⟨u, p, true⟩, host)
        | _, _ => none

/-- Model of `(*URL).setPath`. -/
def URL.setPath (u : URL) (p : List Char) : Option URL :=
  match unescape p encodePath with
  | none => none
  | some path =>
    some { u with Path := path, RawPath := if p = escape path encodePath then [] else p }

/-- Model of `(*URL).setFragment`. -/
def URL.setFragment (u : URL) (f : List Char) : Option URL :=
  match unescape f encodeFragment with
  | none => none
  | some frag =>
    some { u with Fragment := frag,
                  RawFragment := if f = escape frag encodeFragment then [] else f }

/-- Model of `strings.Count(s, "?")`. -/
def countQ (s : List Char) : Nat := s.count '?'

/-- Model of `parse(rawURL, false)`. -/
def parse (rawURL : List Char) : Option URL :=
  if stringContainsCTLByte rawURL then none
  else
    let url : URL := ⟨[], [], none, [], [], [], false, false, [], [], []⟩
    if rawURL = ['*'] then some { url with Path := ['*'] }
    else
      match getScheme rawURL with
      | none => none
      | some (scheme, rest) =>
        let url := { url with Scheme := scheme.map Char.toLower }
        let (rest, url) :=
          if rest.getLast? = some '?' ∧ countQ rest = 1 then
            (rest.dropLast, { url with ForceQuery := true })
          else
            let (before, after, _) := cut '?' rest
            (before, { url with RawQuery := after })
        if rest.head? ≠ some '/' ∧ url.Scheme ≠ [] then some { url with Opaque := rest }
        else if rest.head? ≠ some '/' ∧ (cut '/' rest).1.contains ':' then none
        else if (url.Scheme ≠ [] ∨ rest.take 3 ≠ ['/', '/', '/']) ∧ rest.take 2 = ['/', '/'] then
          let (authority, path, found) := cut '/' (rest.drop 2)
          match parseAuthority authority with
          | none => none
          | some (user, host) =>
            { url with User := user, Host := host }.setPath (if found then '/' :: path else [])
        else if url.Scheme ≠ [] ∧ rest.head? = some '/' then
          { url with OmitHost := true }.setPath rest
        else url.setPath rest

/-- Model of `url.Parse`. -/
def Parse (rawURL : List Char) : Option URL :=
  let (u, frag, _) := cut '#' rawURL
  match parse u with
  | none => none
  | some url => if frag = [] then some url else url.setFragment frag

/-- Model of `(*URL).Query`. -/
def URL.Query (u : URL) : Values := ParseQuery u.RawQuery

/-- Model of `validEncoded`. -/
def validEncoded (s : List Char) (mode : encoding) : Bool :=
  (utf8Encode s).all fun c =>
    byteIn c "!$&()*+,;=:@[]%" || c == 39 || !shouldEscape c mode

/-- Model of `(*URL).EscapedPath`. -/
def URL.EscapedPath (u : URL) : List Char :=
  if u.RawPath ≠ [] ∧ validEncoded u.RawPath encodePath ∧
      unescape u.RawPath encodePath = some u.Path then u.RawPath
  else if u.Path = ['*'] then ['*']
  else escape u.Path encodePath

/-- Model of `(*URL).EscapedFragment`. -/
def URL.EscapedFragment (u : URL) : List Char :=
  if u.RawFragment ≠ [] ∧ validEncoded u.RawFragment encodeFragment ∧
      unescape u.RawFragment encodeFragment = some u.Fragment then u.RawFragment
  else escape u.Fragment encodeFragment

/-- Model of `(*Userinfo).String`. -/
def Userinfo.String (u : Userinfo) : List Char :=
  escape u.username encodeUserPassword ++
    (if u.passwordSet then ':' :: escape u.password encodeUserPassword else [])

/-- Model of `(*URL).String`. -/
def URL.String (u : URL) : List Char :=
  let buf := if u.Scheme ≠ [] then u.Scheme ++ [':'] else []
  let buf :=
    if u.Opaque ≠ [] then buf ++ u.Opaque
    else
      let buf :=
        if u.Scheme ≠ [] ∨ u.Host ≠ [] ∨ u.User.isSome then
          if u.OmitHost ∧ u.Host = [] ∧ u.User.isNone then buf
          else
            let buf := if u.Host ≠ [] ∨ u.Path ≠ [] ∨ u.User.isSome then buf ++ ['/', '/'] else buf
            let buf := match u.User with
              | some ui => buf ++ ui.String ++ ['@']
              | none => buf
            if u.Host ≠ [] then buf ++ escape u.Host encodeHost else buf
        else buf
      let path := u.EscapedPath
      let buf := if path ≠ [] ∧ path.head? ≠ some '/' ∧ u.Host ≠ [] then buf ++ ['/'] else buf
      let buf := if buf = [] ∧ (cut '/' path).1.contains ':' then buf ++ ['.', '/'] else buf
      buf ++ path
  let buf := if u.ForceQuery ∨ u.RawQuery ≠ [] then buf ++ '?' :: u.RawQuery else buf
  if u.Fragment ≠ [] then buf ++ '#' :: u.EscapedFragment else buf

/-- Model of `(*URL).Redacted`. -/
def URL.Redacted (u : URL) : List Char :=
  match u.User with
  | some ui =>
    if ui.passwordSet then
      { u with User := some ⟨ui.username, ['x', 'x', 'x', 'x', 'x'], true⟩ }.String
    else u.String
  | none => u.String

end url

/-! ## hide/rule.go, hide/options.go: rules and the Converter -/

/-- The `transform` of a `rule`: one of the five transforms of rule.go, or any
other function (the `Rule` interface can be implemented outside the package). -/
inductive Transform where
  | fullExclude
  | maskName
  | maskEmail
  | maskCardAndPhone
  | maskURL
  | custom (f : String → String)

/-- Embeds the struct `rule`. -/
structure rule where
  transform : Transform
  pattern : List String

/-- Embeds `(*rule).Fields`. -/
def rule.Fields (r : rule) : List String := r.pattern

/-- Embeds `WithMaskPhoneAndCardRule`. -/
def WithMaskPhoneAndCardRule (pattern : List String) : rule := ⟨.maskCardAndPhone, pattern⟩

/-- Embeds `WithMaskNameRule`. -/
def WithMaskNameRule (pattern : List String) : rule := ⟨.maskName, pattern⟩

/-- Embeds `WithMaskEmailRule`. -/
def WithMaskEmailRule (pattern : List String) : rule := ⟨.maskEmail, pattern⟩

/-- Embeds `WithFullExcludeRule`. -/
def WithFullExcludeRule (pattern : List String) : rule := ⟨.fullExclude, pattern⟩

/-- Embeds `WithMaskURLRule`. -/
def WithMaskURLRule (pattern : List String) : rule := ⟨.maskURL, pattern⟩

/-- Embeds the struct `Converter`: the map from field name to rule, as an
association list (the first entry for a key is the map's entry). -/
structure Converter where
  fields : List (String × rule)

/-- The inner loop of `NewConverter` over the fields of one rule: `none` is
the panic `logic error, multiple rules for field`. -/
def NewConverterFields (r : rule) :
    List String → List (String × rule) → Option (List (String × rule))
  | [], fields => some fields
  | field :: rest, fields =>
    if (fields.lookup field).isSome then none
    else NewConverterFields r rest (fields ++ [(field, r)])

/-- The outer loop of `NewConverter` over the rules. -/
def NewConverterRules : List rule → List (String × rule) → Option (List (String × rule))
  | [], fields => some fields
  | r :: rest, fields =>
    match NewConverterFields r r.Fields fields with
    | none => none
    | some fields => NewConverterRules rest fields

/-- Embeds `NewConverter`: the Converter, or `none` when it panics. -/
def NewConverter (rules : List rule) : Option Converter :=
  (NewConverterRules rules []).map Converter.mk

/-- Embeds `maskURL`.  `converter` is the method `Hide` of the Converter that
`defaultConverter.Load()` returns, `none` when the pointer is nil. -/
def maskURL (converter : Option (String → String → String)) (s : String) : String :=
  match converter with
  | none => s
  | some converterHide =>
    let s := if !s.data.contains '?' && s.data.contains '=' then "?" ++ s else s
    match url.Parse s.data with
    | none => fullExclude s
    | some u =>
      let oldValues := u.Query
      let oldValues := oldValues |> (oldValues.map Prod.fst).foldl fun values key =>
        values.Set key (converterHide (String.mk key) (String.mk (values.Get key))).data
      let escapeQuery := (url.QueryUnescape oldValues.Encode).getD []
      String.mk { u with RawQuery := escapeQuery }.Redacted

/-- Embeds `(*Converter).Hide` with `(*rule).Hide` inlined, for at most `fuel`
nested calls through `maskURL`. -/
def Converter.HideN (tab : UnicodeTables) (defaultConverter : Option Converter) :
    Nat → Converter → String → String → String
  | 0, _, _, val => val
  | fuel + 1, c, key, val =>
    match c.fields.lookup key with
    | none => val
    | some rule =>
      match rule.transform with
      | .fullExclude => fullExclude val
      | .maskName => maskName tab val
      | .maskEmail => maskEmail val
      | .maskCardAndPhone => maskCardAndPhone tab val
      | .maskURL =>
        maskURL (defaultConverter.map fun converter =>
          Converter.HideN tab defaultConverter fuel converter) val
      | .custom f => f val

/-- Embeds `(*Converter).Hide`.  A nested call through `maskURL` is on a
query value, which is shorter than the string it comes from, so the length of
the value bounds the nesting. -/
def Converter.Hide (tab : UnicodeTables) (defaultConverter : Option Converter)
    (c : Converter) (key val : String) : String :=
  c.HideN tab defaultConverter (val.length + 1) key val

/-- Embeds `Hide` of hide.go; `defaultConverter` is the value of the global
`defaultConverter` pointer (`none` for nil). -/
def Hide (tab : UnicodeTables) (defaultConverter : Option Converter) (key val : String) :
    String :=
  match defaultConverter with
  | some convert => convert.Hide tab defaultConverter key val
  | none => val

/-! ## hide/json.go: the streaming encoder -/

/-- The encoder state `unknown`. -/
abbrev unknown : Nat := 0
/-- The encoder state `object`. -/
abbrev object : Nat := 1
/-- The encoder state `objectEnd`. -/
abbrev objectEnd : Nat := 2
/-- The encoder state `fieldName`. -/
abbrev fieldName : Nat := 3
/-- The encoder state `fieldValue`. -/
abbrev fieldValue : Nat := 4
/-- The encoder state `array`. -/
abbrev array : Nat := 5
/-- The encoder state `arrayValue`. -/
abbrev arrayValue : Nat := 6
/-- The encoder state `arrayEnd`. -/
abbrev arrayEnd : Nat := 7

/-- Embeds the type `intStack`. -/
abbrev intStack := List Nat

/-- Embeds `intStack.push`. -/
def intStack.push (s : intStack) (v : Nat) : intStack := s ++ [v]

/-- Embeds `intStack.pop`. -/
def intStack.pop (s : intStack) : intStack × Nat :=
  if s.length = 0 then (s, 0)
  else
    let l := s.length
    (s.take (l - 1), s.getD (l - 1) 0)

/-- The local variables of `MaskSensitiveJSONFields` that its closures
capture: the output builder, the state, the state stack and the last field
name. -/
structure Encoder where
  strBuilder : String
  state : Nat
  stateStack : intStack
  lastFieldName : String
  deriving DecidableEq, Repr

/-- Embeds the closure `beforeNextValue` (writes to a `strings.Builder` never
fail, so it always returns nil). -/
def beforeNextValue (enc : Encoder) : Encoder :=
  if enc.state = fieldValue then
    { enc with strBuilder := enc.strBuilder ++ ",", state := fieldName }
  else if enc.state = fieldName then
    { enc with strBuilder := enc.strBuilder ++ ":", state := fieldValue }
  else if enc.state = arrayValue then
    { enc with strBuilder := enc.strBuilder ++ "," }
  else if enc.state = array then
    { enc with state := arrayValue }
  else if enc.state = object then
    { enc with state := fieldName }
  else enc

/-- Embeds the closure `pushState`. -/
def pushState (enc : Encoder) : Except Error Encoder :=
  if enc.state = object ∨ enc.state = fieldValue then
    .ok { enc with stateStack := enc.stateStack.push fieldValue }
  else if enc.state = array ∨ enc.state = arrayValue then
    .ok { enc with stateStack := enc.stateStack.push arrayValue }
  else if enc.state = unknown then
    .ok { enc with stateStack := enc.stateStack.push unknown }
  else .error (.InvalidState enc.state)

/-- Embeds the closure `setState`. -/
def setState (newState : Nat) (enc : Encoder) : Except Error Encoder :=
  if newState = object then
    let enc := beforeNextValue enc
    let enc := { enc with strBuilder := enc.strBuilder ++ "\x7b" }
    match pushState enc with
    | .error err => .error err
    | .ok enc => .ok { enc with state := newState }
  else if newState = objectEnd then
    let enc := { enc with strBuilder := enc.strBuilder ++ "\x7d" }
    let (stack, st) := enc.stateStack.pop
    .ok { enc with stateStack := stack, state := st }
  else if newState = array then
    let enc := beforeNextValue enc
    let enc := { enc with strBuilder := enc.strBuilder ++ "[" }
    match pushState enc with
    | .error err => .error err
    | .ok enc => .ok { enc with state := newState }
  else if newState = arrayEnd then
    let enc := { enc with strBuilder := enc.strBuilder ++ "]" }
    let (stack, st) := enc.stateStack.pop
    .ok { enc with stateStack := stack, state := st }
  else .ok enc

/-- The body of the `for` loop of `MaskSensitiveJSONFields` for one token: a
delimiter goes to `setState`; any other token is preceded by
`beforeNextValue`, a string is passed through `Hide` (under the last field
name when the state is `fieldValue`, under the empty name otherwise), and the
token is written as `json.Marshal` encodes it. -/
def processToken (tab : UnicodeTables) (defaultConverter : Option Converter)
    (enc : Encoder) (token : Token) : Except Error Encoder :=
  match token with
  | .delim v =>
    if v = '{' then setState object enc
    else if v = '}' then setState objectEnd enc
    else if v = '[' then setState array enc
    else if v = ']' then setState arrayEnd enc
    else .ok enc
  | .str dataType =>
    let enc := beforeNextValue enc
    let enc := if enc.state = fieldName then { enc with lastFieldName := dataType } else enc
    let currentFieldName := if enc.state = fieldName then ""
      else if enc.state = fieldValue then enc.lastFieldName else ""
    match Marshal (.str (Hide tab defaultConverter currentFieldName dataType)) with
    | .error err => .error err
    | .ok jsonBytes => .ok { enc with strBuilder := enc.strBuilder ++ jsonBytes }
  | dataType =>
    let enc := beforeNextValue enc
    match Marshal dataType with
    | .error err => .error err
    | .ok jsonBytes => .ok { enc with strBuilder := enc.strBuilder ++ jsonBytes }

/-- The `for` loop of `MaskSensitiveJSONFields`, for at most `fuel` tokens:
`none` when the fuel runs out before the decoder stops. -/
def maskLoop (tab : UnicodeTables) (defaultConverter : Option Converter) :
    Nat → Decoder → Encoder → Option (String × Option Error)
  | 0, _, _ => none
  | fuel + 1, decoder, enc =>
    match decoder.Token with
    | .error err => some (enc.strBuilder, if err = .EOF then none else some err)
    | .ok (token, decoder) =>
      match processToken tab defaultConverter enc token with
      | .error err => some ("", some err)
      | .ok enc => maskLoop tab defaultConverter fuel decoder enc

/-- Embeds `MaskSensitiveJSONFields`: the returned string and error (`none`
for nil).  Every token takes at least one byte of the body, so one more
iteration than the body has bytes is enough fuel. -/
def MaskSensitiveJSONFields (tab : UnicodeTables) (defaultConverter : Option Converter)
    (body : String) : Option (String × Option Error) :=
  maskLoop tab defaultConverter (body.length + 1) (NewDecoder body.data) ⟨"", unknown, [], ""⟩

/-- Unicode tables with no letter or digit above U+00FF, for evaluation. -/
def tab0 : UnicodeTables := ⟨fun _ => false, fun _ => false⟩

/-- The rules of `setTestConvertor` of hide_test.go. -/
def testRules : List rule :=
  [WithMaskNameRule ["lastname"], WithMaskEmailRule ["email"],
   WithFullExcludeRule ["token", "password"]]

/-- The Converter that `setTestConvertor` of hide_test.go installs. -/
def testConverter : Converter :=
  ⟨[("lastname", WithMaskNameRule ["lastname"]), ("email", WithMaskEmailRule ["email"]),
    ("token", WithFullExcludeRule ["token", "password"]),
    ("password", WithFullExcludeRule ["token", "password"])]⟩

/-! ## JSON documents and their token streams -/

mutual
/-- A JSON value: the abstract syntax of a JSON document.  Numbers carry the
text of their literal, as `json.Number` does. -/
inductive JValue where
  | null
  | bool (b : Bool)
  | num (lit : String)
  | str (s : String)
  | arr (elems : JElems)
  | obj (members : JMembers)
/-- The elements of a JSON array, in order. -/
inductive JElems where
  | nil
  | cons (v : JValue) (rest : JElems)
/-- The members of a JSON object, in order. -/
inductive JMembers where
  | nil
  | cons (k : String) (v : JValue) (rest : JMembers)
end

mutual
/-- The token stream of a JSON value: what `Decoder.Token` returns, call after
call, on a document denoting the value. -/
def JValue.tokens : JValue → List Token
  | .null => [.null]
  | .bool b => [.bool b]
  | .num lit => [.number lit]
  | .str s => [.str s]
  | .arr es => .delim '[' :: (es.tokens ++ [.delim ']'])
  | .obj ms => .delim '{' :: (ms.tokens ++ [.delim '}'])
/-- The token stream of the elements of an array. -/
def JElems.tokens : JElems → List Token
  | .nil => []
  | .cons v rest => v.tokens ++ rest.tokens
/-- The token stream of the members of an object. -/
def JMembers.tokens : JMembers → List Token
  | .nil => []
  | .cons k v rest => .str k :: (v.tokens ++ rest.tokens)
end

mutual
/-- The compact JSON text of a value, strings encoded as `json.Marshal`
encodes them and number literals written as they are. -/
def JValue.render : JValue → String
  | .null => "null"
  | .bool true => "true"
  | .bool false => "false"
  | .num lit => lit
  | .str s => MarshalString s
  | .arr es => "[" ++ es.render true ++ "]"
  | .obj ms => "\x7b" ++ ms.render true ++ "\x7d"
/-- The text of the elements of an array, each but the first after a comma. -/
def JElems.render (first : Bool) : JElems → String
  | .nil => ""
  | .cons v rest => (if first then "" else ",") ++ v.render ++ rest.render false
/-- The text of the members of an object, each but the first after a comma. -/
def JMembers.render (first : Bool) : JMembers → String
  | .nil => ""
  | .cons k v rest =>
    (if first then "" else ",") ++ MarshalString k ++ ":" ++ v.render ++ rest.render false
end

mutual
/-- What the encoder does to a value that stands under field name `field`
(the empty name when the value is not the direct value of an object member):
a string becomes `h field s`, every field name `k` becomes `h "" k`, array
elements are treated under the empty name, other scalars are kept. -/
def JValue.masked (h : String → String → String) (field : String) : JValue → JValue
  | .str s => .str (h field s)
  | .arr es => .arr (es.masked h)
  | .obj ms => .obj (ms.masked h)
  | .null => .null
  | .bool b => .bool b
  | .num lit => .num lit
/-- The elements of an array after masking. -/
def JElems.masked (h : String → String → String) : JElems → JElems
  | .nil => .nil
  | .cons v rest => .cons (v.masked h "") (rest.masked h)
/-- The members of an object after masking. -/
def JMembers.masked (h : String → String → String) : JMembers → JMembers
  | .nil => .nil
  | .cons k v rest => .cons (h "" k) (v.masked h k) (rest.masked h)
end

mutual
/-- Every number literal of the value is a JSON number (`isValidNumber`). -/
def JValue.numbersValid : JValue → Bool
  | .num lit => lit != "" && isValidNumber lit.data
  | .arr es => es.numbersValid
  | .obj ms => ms.numbersValid
  | _ => true
/-- Every number literal among the elements is a JSON number. -/
def JElems.numbersValid : JElems → Bool
  | .nil => true
  | .cons v rest => v.numbersValid && rest.numbersValid
/-- Every number literal among the members is a JSON number. -/
def JMembers.numbersValid : JMembers → Bool
  | .nil => true
  | .cons _ v rest => v.numbersValid && rest.numbersValid
end

/-- The `for` loop of `MaskSensitiveJSONFields` over a list of tokens. -/
def processTokens (tab : UnicodeTables) (defaultConverter : Option Converter) :
    Encoder → List Token → Except Error Encoder
  | enc, [] => .ok enc
  | enc, token :: rest =>
    match processToken tab defaultConverter enc token with
    | .error err => .error err
    | .ok enc => processTokens tab defaultConverter enc rest

/-- All the tokens the decoder returns, call after call and for at most `fuel`
calls, with the error that ends the stream. -/
def drain : Nat → Decoder → Option (List Token × Error)
  | 0, _ => none
  | fuel + 1, decoder =>
    match decoder.Token with
    | .error err => some ([], err)
    | .ok (token, decoder) =>
      match drain fuel decoder with
      | some (tokens, err) => some (token :: tokens, err)
      | none => none

/-- The token stream of a body and the error that ends it. -/
def decodeAll (body : String) : Option (List Token × Error) :=
  drain (body.length + 1) (NewDecoder body.data)

/-- The body is a JSON document denoting the value `d`: the decoder returns
the tokens of `d` and then reaches the end of the input.  The decoder refuses
an array or an object under `maxNestingDepth` open ones, so such a `d` is
nested at most `maxNestingDepth` deep. -/
def IsDocument (body : String) (d : JValue) : Prop :=
  decodeAll body = some (d.tokens, .EOF)

/-- The punctuation `beforeNextValue` writes before a value in state `st`. -/
def sepOf (st : Nat) : String :=
  if st = fieldName then ":" else if st = arrayValue then "," else ""

/-- The state in which a value that starts in state `st` leaves the encoder. -/
def afterOf (st : Nat) : Nat :=
  if st = fieldName then fieldValue else if st = array then arrayValue else st

/-- The field name under which a string value in state `st` is passed to
`Hide`: the last field name right after a field name, the empty name
elsewhere. -/
def keyOf (st : Nat) (lastFieldName : String) : String :=
  if st = fieldName then lastFieldName else ""

/-- The states in which the encoder can meet the first token of a value. -/
def ValuePos (st : Nat) : Prop :=
  st = unknown ∨ st = fieldName ∨ st = array ∨ st = arrayValue

/-- A token `Marshal` encodes without error as a scalar: not a delimiter, and
a number only when its literal is a JSON number. -/
def Token.scalarOK : Token → Bool
  | .number lit => lit != "" && isValidNumber lit.data
  | .delim _ => false
  | _ => true

/-- A token the decoder can return: one of the four delimiters, or a scalar
that `Marshal` encodes. -/
def Token.OK : Token → Bool
  | .delim c => c == '[' || c == ']' || c == '\x7b' || c == '\x7d'
  | t => t.scalarOK

/-- The encoder state that goes with a token state of the decoder. -/
def encStateOf : TokenState → Nat
  | tokenTopValue => unknown
  | tokenArrayStart => array
  | tokenArrayValue => arrayValue
  | tokenArrayComma => arrayValue
  | tokenObjectStart => object
  | tokenObjectKey => fieldValue
  | tokenObjectColon => fieldName
  | tokenObjectValue => fieldName
  | tokenObjectComma => fieldValue

/-- The encoder's state stack that goes with the decoder's token stack. -/
def encStackOf (stack : List TokenState) : intStack :=
  (stack.map (fun st => encStateOf (tokenValueEnd st))).reverse

/-- The encoder and the decoder are in step: the encoder's state and stack are
the ones that go with the decoder's token state and stack. -/
def InStep (dec : Decoder) (enc : Encoder) : Prop :=
  enc.state = encStateOf dec.tokenState ∧ enc.stateStack = encStackOf dec.tokenStack

/-! ## Properties of the masked value, stated on the JSON value -/

mutual
/-- Output `out` has, at every depth, `h k s` wherever `d` has a string `s`
as the direct value of an object member named `k`; nothing is said about
other values. -/
def JValue.membersHidden (h : String → String → String) : JValue → JValue → Prop
  | .arr es, out =>
    match out with
    | .arr es1 => es.membersHidden h es1
    | _ => False
  | .obj ms, out =>
    match out with
    | .obj ms1 => ms.membersHidden h ms1
    | _ => False
  | _, _ => True
/-- The elements correspond one to one, each pair as `JValue.membersHidden`. -/
def JElems.membersHidden (h : String → String → String) : JElems → JElems → Prop
  | .nil, out => out = .nil
  | .cons v rest, out =>
    match out with
    | .cons v1 rest1 => v.membersHidden h v1 ∧ rest.membersHidden h rest1
    | .nil => False
/-- The members correspond one to one; a member `k : s` with a string value
has the value `h k s` in the output. -/
def JMembers.membersHidden (h : String → String → String) : JMembers → JMembers → Prop
  | .nil, out => out = .nil
  | .cons k v rest, out =>
    match out with
    | .cons _ v1 rest1 =>
      (match v with
        | .str s => v1 = .str (h k s)
        | _ => v.membersHidden h v1) ∧ rest.membersHidden h rest1
    | .nil => False
end

mutual
/-- Output `out` has, at every depth, `h "" s` wherever `d` has a string `s`
as an element of an array; nothing is said about other values. -/
def JValue.elementsHidden (h : String → String → String) : JValue → JValue → Prop
  | .arr es, out =>
    match out with
    | .arr es1 => es.elementsHidden h es1
    | _ => False
  | .obj ms, out =>
    match out with
    | .obj ms1 => ms.elementsHidden h ms1
    | _ => False
  | _, _ => True
/-- The elements correspond one to one; a string element `s` is `h "" s` in
the output. -/
def JElems.elementsHidden (h : String → String → String) : JElems → JElems → Prop
  | .nil, out => out = .nil
  | .cons v rest, out =>
    match out with
    | .cons v1 rest1 =>
      (match v with
        | .str s => v1 = .str (h "" s)
        | _ => v.elementsHidden h v1) ∧ rest.elementsHidden h rest1
    | .nil => False
/-- The members correspond one to one, their values as `JValue.elementsHidden`. -/
def JMembers.elementsHidden (h : String → String → String) : JMembers → JMembers → Prop
  | .nil, out => out = .nil
  | .cons _ v rest, out =>
    match out with
    | .cons _ v1 rest1 => v.elementsHidden h v1 ∧ rest.elementsHidden h rest1
    | .nil => False
end

mutual
/-- The structure of a value: the nesting of objects and arrays with the
number and order of members and elements; every scalar becomes null and, when
`keepNames` is false, every field name the empty name. -/
def JValue.shape (keepNames : Bool) : JValue → JValue
  | .arr es => .arr (es.shape keepNames)
  | .obj ms => .obj (ms.shape keepNames)
  | _ => .null
/-- The structure of the elements of an array. -/
def JElems.shape (keepNames : Bool) : JElems → JElems
  | .nil => .nil
  | .cons v rest => .cons (v.shape keepNames) (rest.shape keepNames)
/-- The structure of the members of an object. -/
def JMembers.shape (keepNames : Bool) : JMembers → JMembers
  | .nil => .nil
  | .cons k v rest =>
    .cons (if keepNames then k else "") (v.shape keepNames) (rest.shape keepNames)
end

/-- Reference definition of `(*rule).Hide`: the rule's transform applied to
the value (`converter` is what `maskURL` loads). -/
def rule.Hide (tab : UnicodeTables) (converter : Option (String → String → String))
    (r : rule) (val : String) : String :=
  match r.transform with
  | .fullExclude => fullExclude val
  | .maskName => maskName tab val
  | .maskEmail => maskEmail val
  | .maskCardAndPhone => maskCardAndPhone tab val
  | .maskURL => maskURL converter val
  | .custom f => f val

/-- Reference definition of `Hide`, in the words of the specification: the
value unchanged when no Converter is active or no rule of the active
Converter claims the key, else the transform of the rule that claims the key
applied to the value.  `rules` are the rules the active Converter was built
from. -/
def HideRef (tab : UnicodeTables) (rules : Option (List rule))
    (converter : Option (String → String → String)) (key val : String) : String :=
  match rules with
  | none => val
  | some rs =>
    match rs.find? (fun r => decide (key ∈ r.pattern)) with
    | none => val
    | some r => r.Hide tab converter val

/-- One of the five transforms of rule.go. -/
def Transform.builtin : Transform → Bool
  | .custom _ => false
  | _ => true

instance (body : String) (d : JValue) : Decidable (IsDocument body d) := by
  unfold IsDocument; infer_instance

/-! ## Inputs of the tests and scenarios -/

/-- The document of the nested-field scenario. -/
def bioBody : String := "\x7b\"bio\":\x7b\"lastname\":\"Last\"\x7d\x7d"

/-- The value of `bioBody`. -/
def bioDoc : JValue := .obj (.cons "bio" (.obj (.cons "lastname" (.str "Last") .nil)) .nil)

/-- A document with a secret inside an array. -/
def arrayBody : String := "\x7b\"password\":[\"awesome\"]\x7d"

/-- The value of `arrayBody`. -/
def arrayDoc : JValue := .obj (.cons "password" (.arr (.cons (.str "awesome") .nil)) .nil)

/-- A Converter with a full-exclusion rule on the empty field name, as
`NewConverter(WithFullExcludeRule([]string{""}))` builds it. -/
def emptyNameConverter : Converter := ⟨[("", WithFullExcludeRule [""])]⟩

/-- A small document with one member. -/
def smallBody : String := "\x7b\"a\":\"b\"\x7d"

/-- The value of `smallBody`. -/
def smallDoc : JValue := .obj (.cons "a" (.str "b") .nil)

/-- The input of the truncation scenario: cut after the field name `d`. -/
def truncatedBody : String := "\x7b\"a\":\"b\",\"c\":\x7b\"d\""

/-- An input cut between two tokens, inside an open object. -/
def cutBody : String := "\x7b\"a\":\"b\""

/-- The constant `input` of json_test.go. -/
def testInput : String :=
  "\n\x7b\n \"username\": \"employee\",\n \"email\": \"employer@now.com\",\n \"id\": 2,\n \"age\": null,\n \"cvc\": 123,\n \"password\": \"awesome\",\n \"bio\": \x7b\"lastname\": \"Last\"\x7d\n\x7d\n"

/-- The constant `partialInput` of json_test.go. -/
def partialInput : String :=
  "\n\x7b\n \"username\": \"employee\",\n \"email\": \"employer@now.com\",\n \"id\": 2,\n \"age\": null,\n \"cvc\": 123,\n \"password\": \"awesome\",\n \"bio\": \x7b\"la\n\x7d\n"

/-- An input cut inside a string literal. -/
def cutInsideBody : String := "\x7b\"a\":\"b"

/-- The text that can follow a value in compact JSON text: nothing, a comma or
a closing delimiter. -/
def Follow (rest : List Char) : Prop :=
  rest = [] ∨ ∃ c cs, rest = c :: cs ∧ (c = ',' ∨ c = ']' ∨ c = '\x7d')

/-- Successive calls of `Token` from a decoder return the tokens and leave the
decoder in the final state. -/
inductive Yields : Decoder → List Token → Decoder → Prop where
  | nil (dec : Decoder) : Yields dec [] dec
  | cons {dec dec1 dec2 : Decoder} {t : Token} {ts : List Token} :
      dec.Token = .ok (t, dec1) → Yields dec1 ts dec2 → Yields dec (t :: ts) dec2

/-- The value of `testInput`. -/
def testDoc : JValue :=
  .obj (.cons "username" (.str "employee") (.cons "email" (.str "employer@now.com")
    (.cons "id" (.num "2") (.cons "age" .null (.cons "cvc" (.num "123")
      (.cons "password" (.str "awesome")
        (.cons "bio" (.obj (.cons "lastname" (.str "Last") .nil)) .nil)))))))

/-- The text `TestMaskSensitiveJSONFields` expects. -/
def testOutput : String :=
  "\x7b\"username\":\"employee\",\"email\":\"emp*****@now.com\",\"id\":2,\"age\":null,\"cvc\":123,\"password\":\"*******\",\"bio\":\x7b\"lastname\":\"La**\"\x7d\x7d"

/-- The compact text of `testInput` with no value altered. -/
def testPlainOutput : String :=
  "\x7b\"username\":\"employee\",\"email\":\"employer@now.com\",\"id\":2,\"age\":null,\"cvc\":123,\"password\":\"awesome\",\"bio\":\x7b\"lastname\":\"Last\"\x7d\x7d"

/-- One rule of each of the five kinds of options.go. -/
def fiveRules : List rule :=
  [WithFullExcludeRule ["password"], WithMaskNameRule ["name"], WithMaskEmailRule ["email"],
   WithMaskPhoneAndCardRule ["phone"], WithMaskURLRule ["url"]]

/-- The Converter `NewConverter` builds from `fiveRules`. -/
def fiveConverter : Converter :=
  ⟨[("password", WithFullExcludeRule ["password"]), ("name", WithMaskNameRule ["name"]),
    ("email", WithMaskEmailRule ["email"]), ("phone", WithMaskPhoneAndCardRule ["phone"]),
    ("url", WithMaskURLRule ["url"])]⟩

/-! ## Reference definitions and inputs for the transforms -/

/-- The text before the first `@`, the text after it, and whether there is
one. -/
def cutAt : List Char → List Char × List Char × Bool
  | [] => ([], [], false)
  | c :: rest =>
    if c == '@' then ([], rest, true)
    else
      let (before, after, found) := cutAt rest
      (c :: before, after, found)

/-- Reference definition of `maskEmail`, in the words of the specification:
split on the first `@`; without one the whole string is excluded; a local part
of fewer than 4 characters is masked entirely, a longer one keeps its first 3
characters; the domain is kept. -/
def maskEmailRef (s : String) : String :=
  let (addr, domain, found) := cutAt s.data
  if !found then fullExclude s
  else
    let masked :=
      if addr.length < 4 then List.replicate addr.length '*'
      else addr.take 3 ++ List.replicate (addr.length - 3) '*'
    String.mk (masked ++ '@' :: domain)

/-- An excerpt of the range table `unicode.Letter`: the ranges U+03F7..U+0481
and U+048A..U+052F (Greek and Cyrillic letters), for evaluation. -/
def cyrillicTab : UnicodeTables :=
  ⟨fun c => (0x3F7 ≤ c.toNat && c.toNat ≤ 0x481) || (0x48A ≤ c.toNat && c.toNat ≤ 0x52F),
    fun _ => false⟩

/-- The length of the run of letters that ends a text: the position of the
next character in its run of consecutive letters. -/
def runLen (tab : UnicodeTables) (pre : List Char) : Nat :=
  (pre.reverse.takeWhile (IsLetter tab)).length

mutual
/-- The non-string content of a value: every string and every field name is
replaced by the empty string; numbers (their literal text), booleans, null and
the structure are kept. -/
def JValue.nonStrings : JValue → JValue
  | .str _ => .str ""
  | .arr es => .arr es.nonStrings
  | .obj ms => .obj ms.nonStrings
  | .null => .null
  | .bool b => .bool b
  | .num lit => .num lit
/-- The non-string content of the elements of an array. -/
def JElems.nonStrings : JElems → JElems
  | .nil => .nil
  | .cons v rest => .cons v.nonStrings rest.nonStrings
/-- The non-string content of the members of an object. -/
def JMembers.nonStrings : JMembers → JMembers
  | .nil => .nil
  | .cons _ v rest => .cons "" v.nonStrings rest.nonStrings
end

/-- A Converter whose one full-exclusion rule claims the empty field name and
the field name `*`, as `NewConverter(WithFullExcludeRule([]string{"", "*"}))`
builds it. -/
def starConverter : Converter :=
  ⟨[("", WithFullExcludeRule ["", "*"]), ("*", WithFullExcludeRule ["", "*"])]⟩

/-- A document whose values are numbers, booleans and null. -/
def scalarBody : String := "\x7b\"id\": 2.50, \"ok\": true, \"age\": null, \"n\": [-1e3, false]\x7d"

/-- The value of `scalarBody`. -/
def scalarDoc : JValue :=
  .obj (.cons "id" (.num "2.50") (.cons "ok" (.bool true) (.cons "age" .null
    (.cons "n" (.arr (.cons (.num "-1e3") (.cons (.bool false) .nil))) .nil))))

/-- A Converter with a full-exclusion rule on every field name of
`scalarBody`. -/
def scalarConverter : Converter :=
  ⟨[("id", WithFullExcludeRule ["id", "ok", "age", "n"]),
    ("ok", WithFullExcludeRule ["id", "ok", "age", "n"]),
    ("age", WithFullExcludeRule ["id", "ok", "age", "n"]),
    ("n", WithFullExcludeRule ["id", "ok", "age", "n"])]⟩

/-- The Converter `NewConverter(WithFullExcludeRule([]string{"token",
"password"}))` builds. -/
def passwordConverter : Converter :=
  ⟨[("token", WithFullExcludeRule ["token", "password"]),
    ("password", WithFullExcludeRule ["token", "password"])]⟩

/-- The compact text of `testInput` with the password excluded. -/
def passwordOutput : String :=
  "\x7b\"username\":\"employee\",\"email\":\"employer@now.com\",\"id\":2,\"age\":null,\"cvc\":123,\"password\":\"*******\",\"bio\":\x7b\"lastname\":\"Last\"\x7d\x7d"

/-- The string `maskURL` parses: a string with `=` and without `?` gets a
leading `?`. -/
def queryPrefixed (s : String) : String :=
  if !s.data.contains '?' && s.data.contains '=' then "?" ++ s else s

/-- The query of the masked-URL scenario. -/
def queryURL : String := "?id=2&password=awesome&ref=head"

/-- The URL `url.Parse` returns for `queryURL`. -/
def queryParsed : url.URL :=
  ⟨[], [], none, [], [], [], false, false, "id=2&password=awesome&ref=head".data, [], []⟩

end hide

namespace hide

/-- A rule that lists the field `a` twice. -/
def twiceRule : rule := WithFullExcludeRule ["a", "a"]

end hide

/-! ## http/client/retry/utils.go: the retry policy and the `Retry-After` header

`int64` values are integers, wrapped where the code multiplies them.  Instants
of package `time` are integers (nanoseconds since the epoch); a
`time.Duration` is an integer number of nanoseconds. -/

namespace retry

/-- The constant `time.Second`, in nanoseconds. -/
def Second : Int := 1000000000

/-- The value an `int64` holds after an arithmetic result `x`: `x` modulo
`2^64`, in the range of `int64`. -/
def wrapInt64 (x : Int) : Int := (x + 2 ^ 63) % 2 ^ 64 - 2 ^ 63

/-- The loop of `strconv.ParseUint(s, 10, 64)` over the bytes of `s`, from the
value `n` read so far: `none` for a byte that is not a decimal digit
(`ErrSyntax`) and for a value above `2^64 - 1` (`ErrRange`). -/
def parseUintLoop : List Char → Nat → Option Nat
  | [], n => some n
  | c :: rest, n =>
    if '0' ≤ c ∧ c ≤ '9' then
      if n ≥ (2 ^ 64 - 1) / 10 + 1 then none
      else
        let n1 := n * 10 + (c.toNat - 48)
        if n1 > 2 ^ 64 - 1 then none else parseUintLoop rest n1
    else none

/-- Model of `strconv.ParseUint(s, 10, 64)`, `none` for an error. -/
def ParseUint (s : List Char) : Option Nat :=
  if s = [] then none else parseUintLoop s 0

/-- Model of `strconv.ParseInt(s, 10, 64)`, `none` for an error: an optional
sign, decimal digits, and a value in the range of `int64`. -/
def ParseInt (s : String) : Option Int :=
  match s.data with
  | [] => none
  | c :: rest =>
    let neg := c == '-'
    let digits := if c == '+' || c == '-' then rest else c :: rest
    match ParseUint digits with
    | none => none
    | some un =>
      if !neg && un ≥ 2 ^ 63 then none
      else if neg && un > 2 ^ 63 then none
      else some (if neg then - (un : Int) else (un : Int))

/-- The comparison `match` of time/format.go: equal up to the case of ASCII
letters. -/
def matchFold : List Char → List Char → Bool
  | [], _ => true
  | _ :: _, [] => false
  | c1 :: r1, c2 :: r2 =>
    (if c1 = c2 then true
     else
      let l1 := c1.toNat ||| 0x20
      let l2 := c2.toNat ||| 0x20
      l1 = l2 && 97 ≤ l1 && l1 ≤ 122) && matchFold r1 r2

/-- The array `shortDayNames` of time/format.go. -/
def shortDayNames : List String := ["Sun", "Mon", "Tue", "Wed", "Thu", "Fri", "Sat"]

/-- Model of `lookup(shortDayNames, value)` of time/format.go: whether the
text starts with the short name of a day of the week. -/
def lookupDayName (value : List Char) : Bool :=
  shortDayNames.any fun name => decide (name.length ≤ value.length) &&
    matchFold (value.take name.length) name.data

/-- The parts of package `time` the code relies on, taken as a parameter:
what `time.Parse(time.RFC1123, value)` returns for a text that starts with the
name of a day (the instant, `none` for an error), and the instant that
`timeNow()` returns. -/
structure Clock where
  parseAfterDayName : String → Option Int
  timeNow : Int

/-- Model of `time.Parse(time.RFC1123, value)`: the layout
`Mon, 02 Jan 2006 15:04:05 MST` starts with the short name of a day, and a
text that does not start with one is an error. -/
def Clock.Parse (clock : Clock) (value : String) : Option Int :=
  if lookupDayName value.data then clock.parseAfterDayName value else none

/-- Model of `Time.Sub`: the difference of two instants, kept within the range
of a `time.Duration`. -/
def timeSub (t u : Int) : Int :=
  if t - u > 2 ^ 63 - 1 then 2 ^ 63 - 1
  else if t - u < - 2 ^ 63 then - 2 ^ 63
  else t - u

/-- Embeds `parseRetryAfterHeader`. -/
def parseRetryAfterHeader (clock : Clock) (headers : List String) : Int × Bool :=
  match headers with
  | [] => (0, false)
  | header :: _ =>
    if header = "" then (0, false)
    else
      match ParseInt header with
      | some sleep =>
        if sleep < 0 then (0, false)
        else (wrapInt64 (Second * sleep), true)
      | none =>
        match clock.Parse header with
        | none => (0, false)
        | some retryTime =>
          let untilTime := timeSub retryTime clock.timeNow
          if untilTime > 0 then (untilTime, true) else (0, true)

/-- An `*http.Response`, as far as the policy reads it. -/
structure Response where
  StatusCode : Int
  Status : String
  deriving DecidableEq, Repr

/-- An `error` handed to the policy by the transport: a `*url.Error` with the
text of `v.Error()` and whether `v.Err` is a
`*tls.CertificateVerificationError`, or any other error. -/
inductive TransportError where
  | urlError (text : String) (certificateVerification : Bool)
  | other (text : String)
  deriving DecidableEq, Repr

/-- The errors `baseRetryPolicy` returns: the `*url.Error` it was given, or
`unexpected HTTP status`. -/
inductive PolicyError where
  | transport (err : TransportError)
  | unexpectedStatus (status : String)
  deriving DecidableEq, Repr

/-- The errors of a `context.Context`. -/
inductive ContextError where
  | Canceled
  | DeadlineExceeded
  deriving DecidableEq, Repr

/-- Whether the text holds `pat` somewhere: `MatchString` of a regular
expression that is a plain text. -/
def matchPlain (pat s : List Char) : Bool :=
  s.tails.any fun t => pat.isPrefixOf t

/-- `redirectsErrorRe.MatchString`: the text ends in `stopped after`, one or
more decimal digits and `redirects`. -/
def redirectsErrorRe (s : String) : Bool :=
  let r := s.data.reverse
  " redirects".data.reverse.isPrefixOf r &&
    (let r1 := r.drop 10
     !(r1.takeWhile fun c => decide ('0' ≤ c ∧ c ≤ '9')).isEmpty &&
       "stopped after ".data.reverse.isPrefixOf
         (r1.dropWhile fun c => decide ('0' ≤ c ∧ c ≤ '9')))

/-- `schemeErrorRe.MatchString`. -/
def schemeErrorRe (s : String) : Bool := matchPlain "unsupported protocol scheme".data s.data

/-- `invalidHeaderErrorRe.MatchString`. -/
def invalidHeaderErrorRe (s : String) : Bool := matchPlain "invalid header".data s.data

/-- `notTrustedErrorRe.MatchString`. -/
def notTrustedErrorRe (s : String) : Bool := matchPlain "certificate is not trusted".data s.data

/-- Embeds `baseRetryPolicy`; `none` is the nil-pointer panic on a nil
response without an error. -/
def baseRetryPolicy (resp : Option Response) (err : Option TransportError) :
    Option (Bool × Option PolicyError) :=
  match err with
  | some e =>
    match e with
    | .urlError text cert =>
      if redirectsErrorRe text then some (false, some (.transport e))
      else if schemeErrorRe text then some (false, some (.transport e))
      else if invalidHeaderErrorRe text then some (false, some (.transport e))
      else if notTrustedErrorRe text then some (false, some (.transport e))
      else if cert then some (false, some (.transport e))
      else some (true, none)
    | .other _ => some (true, none)
  | none =>
    match resp with
    | none => none
    | some resp =>
      if resp.StatusCode = 429 then some (true, none)
      else if resp.StatusCode = 0 ∨ (resp.StatusCode ≥ 500 ∧ resp.StatusCode ≠ 501) then
        some (true, some (.unexpectedStatus resp.Status))
      else some (false, none)

/-- Embeds `DefaultRetryPolicy`; `ctxErr` is what `ctx.Err()` returns. -/
def DefaultRetryPolicy (ctxErr : Option ContextError) (resp : Option Response)
    (err : Option TransportError) : Option (Bool × Option ContextError) :=
  match ctxErr with
  | some e => some (false, some e)
  | none =>
    match baseRetryPolicy resp err with
    | none => none
    | some (shouldRetry, _) => some (shouldRetry, none)

/-- A clock for evaluation: no date is parsed, the time is zero. -/
def clock0 : Clock := ⟨fun _ => none, 0⟩

end retry

/-! ## utils/naming_case.go: splitting a name into words -/

namespace utils

/-- The data of Go's `unicode` package that the code reads above U+00FF: the
range tables `unicode.Upper`, `unicode.Lower` and `unicode.Digit`, and the
case mapping of `unicode.ToLower` above U+007F.  They are taken as a
parameter. -/
structure CaseTables where
  Upper : Char → Bool
  Lower : Char → Bool
  Digit : Char → Bool
  ToLower : Char → Char

/-- Model of `unicode.IsUpper`: the Latin-1 property table below U+0100, the
range table above. -/
def IsUpper (tab : CaseTables) (r : Char) : Bool :=
  if r.toNat ≤ 0xFF then
    ('A' ≤ r && r ≤ 'Z') || (0xC0 ≤ r.toNat && r.toNat ≤ 0xD6)
      || (0xD8 ≤ r.toNat && r.toNat ≤ 0xDE)
  else tab.Upper r

/-- Model of `unicode.IsLower`: the Latin-1 property table below U+0100, the
range table above. -/
def IsLower (tab : CaseTables) (r : Char) : Bool :=
  if r.toNat ≤ 0xFF then
    ('a' ≤ r && r ≤ 'z') || r.toNat = 0xB5 || (0xDF ≤ r.toNat && r.toNat ≤ 0xF6)
      || 0xF8 ≤ r.toNat
  else tab.Lower r

/-- Model of `unicode.IsDigit`. -/
def IsDigit (tab : CaseTables) (r : Char) : Bool :=
  if r.toNat ≤ 0xFF then '0' ≤ r && r ≤ '9' else tab.Digit r

/-- The `switch` of `split` that classifies a rune: 1 lower case, 2 upper
case, 3 digit, 4 anything else. -/
def classOf (tab : CaseTables) (r : Char) : Nat :=
  if IsLower tab r then 1
  else if IsUpper tab r then 2
  else if IsDigit tab r then 3
  else 4

/-- The first loop of `split`, over the runes of the text: a rune of the class
of the one before it, and every digit, is appended to the last run
(`runes[len(runes)-1]`), any other rune starts a run.  `none` is the panic
`index out of range`. -/
def splitRuns (tab : CaseTables) : List Char → List (List Char) → Nat →
    Option (List (List Char))
  | [], runes, _ => some runes
  | r :: rest, runes, lastClass =>
    let cls := classOf tab r
    if cls = lastClass ∨ cls = 3 then
      match runes.getLast? with
      | none => none
      | some last => splitRuns tab rest (runes.dropLast ++ [last ++ [r]]) cls
    else splitRuns tab rest (runes ++ [[r]]) cls

/-- The second loop of `split`, `count` iterations from index `i`: when run
`i` starts with an upper-case rune and run `i+1` with a lower-case one, the
last rune of run `i` moves to the front of run `i+1`.  `none` is the panic
`index out of range`. -/
def moveUpper (tab : CaseTables) : Nat → Nat → List (List Char) → Option (List (List Char))
  | 0, _, runes => some runes
  | count + 1, i, runes =>
    match runes[i]?, runes[i + 1]? with
    | some a, some b =>
      match a.head? with
      | none => none
      | some a0 =>
        if IsUpper tab a0 then
          match b.head? with
          | none => none
          | some b0 =>
            if IsLower tab b0 then
              match a.getLast? with
              | none => none
              | some l =>
                moveUpper tab count (i + 1) ((runes.set (i + 1) (l :: b)).set i a.dropLast)
            else moveUpper tab count (i + 1) runes
        else moveUpper tab count (i + 1) runes
    | _, _ => none

/-- Embeds `split`: the words of the text, `none` when the function panics. -/
def split (tab : CaseTables) (src : String) : Option (List String) :=
  match splitRuns tab src.data [] 0 with
  | none => none
  | some runes =>
    match moveUpper tab (runes.length - 1) 0 runes with
    | none => none
    | some runes => some ((runes.filter fun s => decide (s.length > 0)).map String.mk)

/-- Model of `strings.Join`. -/
def Join (elems : List String) (sep : String) : String :=
  match elems with
  | [] => ""
  | e :: rest => rest.foldl (fun acc x => acc ++ sep ++ x) e

/-- Model of `strings.ToLower`. -/
def ToLower (tab : CaseTables) (s : String) : String :=
  String.mk (s.data.map fun c =>
    if c.toNat < 0x80 then (if 'A' ≤ c ∧ c ≤ 'Z' then Char.ofNat (c.toNat + 32) else c)
    else tab.ToLower c)

/-- Embeds `ToSnakeCase`. -/
def ToSnakeCase (tab : CaseTables) (str : String) : Option String :=
  (split tab str).map fun words => Join words "_"

/-- The last element of `strings.Split(caller, ".")`, which is never empty of
elements. -/
def lastOfPath (caller : String) : String :=
  String.mk ((hide.url.split '.' caller.data).getLastD [])

/-- Embeds `GetOpNameBySnakeCase`. -/
def GetOpNameBySnakeCase (tab : CaseTables) (caller : String) : Option String :=
  (split tab (lastOfPath caller)).map fun words => ToLower tab (Join words "_")

/-- Embeds `GetOpName`. -/
def GetOpName (tab : CaseTables) (caller : String) : Option String :=
  (split tab (lastOfPath caller)).map fun words => ToLower tab (Join words " ")

/-- Tables with nothing above U+00FF, for evaluation. -/
def caseTab0 : CaseTables := ⟨fun _ => false, fun _ => false, fun _ => false, fun c => c⟩

end utils

namespace hide

/-! ## Documents that differ in fully excluded secrets only -/

/-- The transform is `fullExclude`. -/
def Transform.isFullExclude : Transform → Bool
  | .fullExclude => true
  | _ => false

/-- The Converter has a full-exclusion rule for the field name. -/
def Converter.fullyExcludes (c : Converter) (key : String) : Bool :=
  match c.fields.lookup key with
  | some r => r.transform.isFullExclude
  | none => false

mutual
/-- Two values are identical except for the contents of fully excluded
secrets: they have the same structure, field names and scalars, and two
strings that stand as the direct value of a member whose name is `secret`
(`field` is that name; `none` for a value that is not the direct value of a
member) need only have the same number of characters. -/
def JValue.sameButSecrets (secret : String → Bool) (field : Option String) :
    JValue → JValue → Bool
  | .null, d => match d with
    | .null => true
    | _ => false
  | .bool b, d => match d with
    | .bool b1 => b == b1
    | _ => false
  | .num lit, d => match d with
    | .num lit1 => lit == lit1
    | _ => false
  | .str s, d => match d with
    | .str s1 =>
      match field with
      | some k => if secret k then s.length == s1.length else s == s1
      | none => s == s1
    | _ => false
  | .arr es, d => match d with
    | .arr es1 => es.sameButSecrets secret es1
    | _ => false
  | .obj ms, d => match d with
    | .obj ms1 => ms.sameButSecrets secret ms1
    | _ => false
/-- The elements correspond one to one. -/
def JElems.sameButSecrets (secret : String → Bool) : JElems → JElems → Bool
  | .nil, d => match d with
    | .nil => true
    | _ => false
  | .cons v rest, d => match d with
    | .cons v1 rest1 => v.sameButSecrets secret none v1 && rest.sameButSecrets secret rest1
    | .nil => false
/-- The members correspond one to one and have the same names. -/
def JMembers.sameButSecrets (secret : String → Bool) : JMembers → JMembers → Bool
  | .nil, d => match d with
    | .nil => true
    | _ => false
  | .cons k v rest, d => match d with
    | .cons k1 v1 rest1 =>
      k == k1 && v.sameButSecrets secret (some k) v1 && rest.sameButSecrets secret rest1
    | .nil => false
end

/-- A document with a password and a token. -/
def secretBody : String := "\x7b\"user\":\"ann\",\"password\":\"awesome\",\"x\":[\"awesome\"]\x7d"

/-- The value of `secretBody`. -/
def secretDoc : JValue :=
  .obj (.cons "user" (.str "ann") (.cons "password" (.str "awesome")
    (.cons "x" (.arr (.cons (.str "awesome") .nil)) .nil)))

/-- The document `secretBody` with another password of the same length. -/
def secretBody2 : String :=
  "\x7b \"user\": \"ann\", \"password\": \"1234567\", \"x\": [\"awesome\"] \x7d"

/-- The value of `secretBody2`. -/
def secretDoc2 : JValue :=
  .obj (.cons "user" (.str "ann") (.cons "password" (.str "1234567")
    (.cons "x" (.arr (.cons (.str "awesome") .nil)) .nil)))

end hide

namespace hide

/-! ## Model of `strconv.ParseFloat` on a JSON number -/

/-- A finite `float64`: the value `mant * 2 ^ exp`, negated when `neg`.  A
normal number has `2 ^ 52 ≤ mant < 2 ^ 53` and `-1074 ≤ exp ≤ 971`; a
subnormal number and zero have `mant < 2 ^ 52` and `exp = -1074`. -/
structure Float64 where
  neg : Bool
  mant : Nat
  exp : Int
  deriving DecidableEq, Repr

/-- The value of a text of decimal digits, read after the value `acc`. -/
def digitsValue (ds : List Char) (acc : Nat) : Nat :=
  ds.foldl (fun a c => a * 10 + (c.toNat - 48)) acc

/-- The power `b ^ n` by repeated squaring, for an exponent of at most `fuel`
binary digits. -/
def power (b : Nat) : Nat → Nat → Nat
  | 0, _ => 1
  | fuel + 1, n =>
    if n = 0 then 1 else (power b fuel (n / 2)) ^ 2 * (if n % 2 = 1 then b else 1)

/-- The number of binary digits of `n`, for at most `fuel` digits. -/
def bitLen : Nat → Nat → Nat
  | 0, _ => 0
  | fuel + 1, n =>
    if n = 0 then 0
    else if n < 2 ^ 64 then bitLen fuel (n / 2) + 1
    else bitLen fuel (n / 2 ^ 64) + 64

/-- The `float64` nearest to `m * 10 ^ e10` (ties to the even mantissa), as
`strconv.ParseFloat` returns it; `none` when the nearest value is beyond the
largest `float64` (`ErrRange`).  A value too small for a `float64` rounds to a
subnormal number or to zero without an error. -/
def roundFloat64 (neg : Bool) (m : Nat) (e10 : Int) : Option Float64 :=
  if m = 0 then some ⟨neg, 0, -1074⟩
  else
    let num := if 0 ≤ e10 then m * power 10 e10.toNat e10.toNat else m
    let den := if 0 ≤ e10 then 1 else power 10 (-e10).toNat (-e10).toNat
    let l : Int := (bitLen num num : Int) - (bitLen den den : Int)
    let e0 : Int := max (l - 53) (-1074)
    let q0 := if 0 ≤ e0 then num / (den * power 2 e0.toNat e0.toNat)
      else num * power 2 (-e0).toNat (-e0).toNat / den
    let e1 : Int := if q0 ≥ 2 ^ 53 then e0 + 1 else e0
    let n := if 0 ≤ e1 then num else num * power 2 (-e1).toNat (-e1).toNat
    let d := if 0 ≤ e1 then den * power 2 e1.toNat e1.toNat else den
    let q := n / d
    let r := n % d
    let q1 := if 2 * r > d ∨ (2 * r = d ∧ q % 2 = 1) then q + 1 else q
    let (q2, e2) := if q1 = 2 ^ 53 then (2 ^ 52, e1 + 1) else (q1, e1)
    if e2 > 971 then none else some ⟨neg, q2, e2⟩

/-- The exponent part of a JSON number: `e` or `E`, an optional sign and
digits, or nothing; `none` for any other text. -/
def exponentPart : List Char → Option Int
  | [] => some 0
  | c :: rest =>
    if c == 'e' || c == 'E' then
      match rest with
      | [] => none
      | s :: ds =>
        if s == '-' then
          if ds ≠ [] ∧ ds.all isDigit09 then some (- (digitsValue ds 0 : Int)) else none
        else if s == '+' then
          if ds ≠ [] ∧ ds.all isDigit09 then some (digitsValue ds 0 : Int) else none
        else if (s :: ds).all isDigit09 then some (digitsValue (s :: ds) 0 : Int) else none
    else none

/-- Model of `convertNumber` of decode.go without `UseNumber`:
`strconv.ParseFloat(s, 64)` on the text of a JSON number (the scanner lets no
other text through): the sign, the integer digits, the fraction digits and the
exponent give the decimal value, which is rounded to the nearest `float64`.
`none` is the error of a value out of range. -/
def convertNumber (s : List Char) : Option Float64 :=
  let neg := s.head? = some '-'
  let s1 := if neg then s.tail else s
  let intDigits := s1.takeWhile isDigit09
  let s2 := s1.dropWhile isDigit09
  let fracDigits := match s2 with
    | '.' :: r => r.takeWhile isDigit09
    | _ => []
  let s3 := match s2 with
    | '.' :: r => r.dropWhile isDigit09
    | _ => s2
  if intDigits = [] then none
  else
    match exponentPart s3 with
    | none => none
    | some e => roundFloat64 neg (digitsValue (intDigits ++ fracDigits) 0) (e - fracDigits.length)

/-! ## Model of `encoding/json`: `Unmarshal` into a `map[string]any` -/

/-- A Go value of type `any` as `Unmarshal` builds it: nil, a bool, a
`float64`, a string, a `[]any` or a `map[string]any`.  A map is the list of
its entries, one per key, in the order in which the keys were first set (Go
leaves the order of a map unspecified). -/
inductive GoValue where
  | nil
  | bool (b : Bool)
  | float64 (f : Float64)
  | string (s : String)
  | slice (elems : List GoValue)
  | map (entries : List (String × GoValue))

/-- The assignment `m[key] = v` on a map. -/
def mapSet (m : List (String × GoValue)) (key : String) (v : GoValue) :
    List (String × GoValue) :=
  if (m.lookup key).isSome then m.map fun kv => if kv.1 = key then (key, v) else kv
  else m ++ [(key, v)]

mutual
/-- The Go value `Unmarshal` builds for a JSON value (`valueInterface` of
decode.go): `none` when a number is out of the range of `float64`. -/
def JValue.toGo : JValue → Option GoValue
  | .null => some .nil
  | .bool b => some (.bool b)
  | .num lit => (convertNumber lit.data).map .float64
  | .str s => some (.string s)
  | .arr es => es.toGo.map .slice
  | .obj ms => (ms.toGo []).map .map
/-- The elements `arrayInterface` builds. -/
def JElems.toGo : JElems → Option (List GoValue)
  | .nil => some []
  | .cons v rest =>
    match v.toGo, rest.toGo with
    | some x, some xs => some (x :: xs)
    | _, _ => none
/-- The map `objectInterface` builds, from the entries `m` set so far: a
member sets the entry of its name, so the last member of a name wins. -/
def JMembers.toGo (m : List (String × GoValue)) : JMembers → Option (List (String × GoValue))
  | .nil => some m
  | .cons k v rest =>
    match v.toGo with
    | none => none
    | some x => rest.toGo (mapSet m k x)
end

mutual
/-- The nesting depth of a value: the number of arrays and objects open at
its innermost point. -/
def JValue.depth : JValue → Nat
  | .arr es => es.depth + 1
  | .obj ms => ms.depth + 1
  | _ => 0
/-- The largest depth among the elements. -/
def JElems.depth : JElems → Nat
  | .nil => 0
  | .cons v rest => max v.depth rest.depth
/-- The largest depth among the member values. -/
def JMembers.depth : JMembers → Nat
  | .nil => 0
  | .cons _ v rest => max v.depth rest.depth
end

/-- What the token at the head of the input starts, for `parseTokens`: a
value, the elements of an array up to its `]`, or the members of an object up
to its closing brace. -/
inductive ParseGoal where
  | value
  | elems
  | members
  deriving DecidableEq, Repr

/-- What `parseTokens` has read. -/
inductive Parsed where
  | value (v : JValue)
  | elems (es : JElems)
  | members (ms : JMembers)

/-- The JSON value a token stream denotes, with the tokens left over, for
at most `fuel` nested steps. -/
def parseTokens : Nat → ParseGoal → List Token → Option (Parsed × List Token)
  | 0, _, _ => none
  | _ + 1, _, [] => none
  | fuel + 1, .value, tok :: rest =>
    match tok with
    | .null => some (.value .null, rest)
    | .bool b => some (.value (.bool b), rest)
    | .number lit => some (.value (.num lit), rest)
    | .str s => some (.value (.str s), rest)
    | .delim c =>
      if c = '[' then
        match parseTokens fuel .elems rest with
        | some (.elems es, rest1) => some (.value (.arr es), rest1)
        | _ => none
      else if c = '\x7b' then
        match parseTokens fuel .members rest with
        | some (.members ms, rest1) => some (.value (.obj ms), rest1)
        | _ => none
      else none
  | fuel + 1, .elems, tok :: rest =>
    if tok = .delim ']' then some (.elems .nil, rest)
    else
      match parseTokens fuel .value (tok :: rest) with
      | some (.value v, rest1) =>
        match parseTokens fuel .elems rest1 with
        | some (.elems es, rest2) => some (.elems (.cons v es), rest2)
        | _ => none
      | _ => none
  | fuel + 1, .members, tok :: rest =>
    match tok with
    | .delim c => if c = '\x7d' then some (.members .nil, rest) else none
    | .str k =>
      match parseTokens fuel .value rest with
      | some (.value v, rest1) =>
        match parseTokens fuel .members rest1 with
        | some (.members ms, rest2) => some (.members (.cons k v ms), rest2)
        | _ => none
      | _ => none
    | _ => none


/-- Model of `json.Unmarshal(data, &mapVal)` for a nil `mapVal` of type
`map[string]any`: the map, `none` for an error.  `checkValid` accepts a text
that holds one JSON value (the grammar the scanner behind `Decoder.Token`
reads, then the end of the input) nested at most `maxNestingDepth` deep.  An
object is stored member by member, the value `null` leaves the map nil (no
entry), any other value is an `UnmarshalTypeError`, as is a number out of the
range of `float64`. -/
def Unmarshal (data : String) : Option (List (String × GoValue)) :=
  match decodeAll data with
  | some (toks, .EOF) =>
    match parseTokens (toks.length + 1) .value toks with
    | some (.value v, []) =>
      if v.depth > maxNestingDepth then none
      else
        match v with
        | .obj ms => ms.toGo []
        | .null => some []
        | _ => none
    | _ => none
  | _ => none

/-! ## Model of `log/slog`: attributes -/

namespace slog

/-- The type `slog.Kind`. -/
inductive Kind where
  | KindAny
  | KindBool
  | KindDuration
  | KindFloat64
  | KindInt64
  | KindString
  | KindTime
  | KindUint64
  | KindGroup
  | KindLogValuer
  deriving DecidableEq, Repr

mutual
/-- The type `slog.Value`, by kind.  A value of kind `KindAny` holds a Go
value of any other type; a time is an instant in nanoseconds; a `LogValuer`
is given by the value it resolves to. -/
inductive Value where
  | AnyValue (v : GoValue)
  | BoolValue (b : Bool)
  | DurationValue (d : Int)
  | Float64Value (f : Float64)
  | Int64Value (n : Int)
  | StringValue (s : String)
  | TimeValue (t : Int)
  | Uint64Value (n : Nat)
  | GroupValue (as : List Attr)
  | LogValuer (v : Value)
/-- The type `slog.Attr`: a key and a value. -/
inductive Attr where
  | mk (Key : String) (Value : Value)
end

/-- The field `Key` of an `Attr`. -/
def Attr.Key : Attr → String
  | .mk k _ => k

/-- The field `Value` of an `Attr`. -/
def Attr.Value : Attr → Value
  | .mk _ v => v

/-- Model of `(Value).Kind`. -/
def Value.Kind : Value → Kind
  | .AnyValue _ => .KindAny
  | .BoolValue _ => .KindBool
  | .DurationValue _ => .KindDuration
  | .Float64Value _ => .KindFloat64
  | .Int64Value _ => .KindInt64
  | .StringValue _ => .KindString
  | .TimeValue _ => .KindTime
  | .Uint64Value _ => .KindUint64
  | .GroupValue _ => .KindGroup
  | .LogValuer _ => .KindLogValuer

/-- Model of `slog.AnyValue` on a value that `Unmarshal` built: a string, a
bool and a `float64` get the kind of their type, any other value (nil, a
slice, a map) the kind `KindAny`. -/
def AnyValue : GoValue → Value
  | .string s => .StringValue s
  | .bool b => .BoolValue b
  | .float64 f => .Float64Value f
  | v => .AnyValue v

/-- Model of `slog.String` (the name `String` is the type of texts here). -/
def StringAttr (key value : String) : Attr := .mk key (.StringValue value)

/-- Model of `slog.Any`. -/
def Any (key : String) (value : GoValue) : Attr := .mk key (AnyValue value)

/-- The constant `badKey`. -/
def badKey : String := "!BADKEY"

/-- Model of `argsToAttrSlice`: a string followed by a value is an attribute
with that key, a string at the end and any other value are attributes under
`badKey`. -/
def argsToAttrSlice : List GoValue → List Attr
  | [] => []
  | [.string x] => [StringAttr badKey x]
  | .string x :: v :: rest => Any x v :: argsToAttrSlice rest
  | x :: rest => Any badKey x :: argsToAttrSlice rest

/-- Model of `(Value).isEmptyGroup`. -/
def Value.isEmptyGroup : Value → Bool
  | .GroupValue as => as.isEmpty
  | _ => false

/-- Model of `slog.GroupValue`: the group of the attributes that are not
empty groups. -/
def GroupValue (as : List Attr) : Value :=
  .GroupValue (as.filter fun a => !a.Value.isEmptyGroup)

/-- Model of `slog.Group`. -/
def Group (key : String) (args : List GoValue) : Attr :=
  .mk key (GroupValue (argsToAttrSlice args))

end slog

/-! ## hide/json.go: `JSON`, and hide/hide.go: `Attrs` -/

/-- The text of a byte string, rune by rune as `utf8.DecodeRune` reads it.
The decoder reads the bytes of a string literal in this way, and a byte that
is not ASCII is a syntax error outside a string literal whether it is read as
a byte or as a rune. -/
def textOf (bytes : List Nat) : String := String.mk (url.utf8Decode bytes)

/-- The attribute `JSON` returns.  A text attribute is `slog.String(key,
value)` for a Go string `value` that need not be well-formed UTF-8 (it can be
`string(val[:limit])`, cut inside a character), so the value is given by its
bytes; a group attribute is the `slog.Attr` that `slog.Group` returns. -/
inductive JSONAttr where
  | text (key : String) (value : List Nat)
  | group (attr : slog.Attr)

/-- Embeds `JSON`; `val` are the bytes of the body, `none` is the panic of
`val[:limit]` for a negative limit.  The string `maskVal` is held by its
bytes: the bytes of the text the encoder returned or, when that is empty, the
bytes `val[:limit]` as they are; `json.Unmarshal` reads them as the decoder
does.  The arguments of `slog.Group` are the keys and values of the map, which
Go ranges over in an unspecified order. -/
def JSON (tab : UnicodeTables) (defaultConverter : Option Converter) (key : String)
    (val : List Nat) (limit : Int) (textAttr : Bool) : Option JSONAttr :=
  let stringKey := key ++ "_text"
  let limit := if (val.length : Int) < limit then (val.length : Int) else limit
  if limit < 0 then none
  else
    match MaskSensitiveJSONFields tab defaultConverter (textOf (val.take limit.toNat)) with
    | none => none
    | some (maskVal, err) =>
      let maskVal :=
        if maskVal = "" then val.take limit.toNat else url.utf8Encode maskVal.data
      if err.isSome || textAttr then some (.text stringKey maskVal)
      else
        match Unmarshal (textOf maskVal) with
        | none => some (.text stringKey maskVal)
        | some mapVal =>
          some (.group (slog.Group key (mapVal.flatMap fun kv => [GoValue.string kv.1, kv.2])))

/-- The loop of `Attrs` from index `i`, for `count` attributes: an attribute
of kind `KindString` gets the value `Hide(attr.Key, val)`. -/
def AttrsLoop (tab : UnicodeTables) (defaultConverter : Option Converter) :
    Nat → Nat → List slog.Attr → List slog.Attr
  | 0, _, attrs => attrs
  | count + 1, i, attrs =>
    match attrs[i]? with
    | some (.mk key (.StringValue val)) =>
      AttrsLoop tab defaultConverter count (i + 1)
        (attrs.set i (.mk key (.StringValue (Hide tab defaultConverter key val))))
    | _ => AttrsLoop tab defaultConverter count (i + 1) attrs

/-- Embeds `Attrs`. -/
def Attrs (tab : UnicodeTables) (defaultConverter : Option Converter)
    (attrs : List slog.Attr) : List slog.Attr :=
  AttrsLoop tab defaultConverter attrs.length 0 attrs

/-- The bytes of the test input. -/
def testInputBytes : List Nat := url.utf8Encode testInput.data

/-- The body of `TestWrongType` (a raw string literal: `\n` is a backslash and
the letter n). -/
def wrongTypeBody : String := "<xml version=1.0>\\n<tag>close</tag>"

/-- The bytes of the character U+00E9, of which a limit of 1 keeps the first. -/
def cutCharBytes : List Nat := [195, 169]

end hide

namespace hide

/-- What `Attrs` does to one attribute: the value of an attribute of kind
`KindString` is passed through `Hide` under the attribute's key. -/
def hideAttr (tab : UnicodeTables) (defaultConverter : Option Converter) :
    slog.Attr → slog.Attr
  | .mk key (.StringValue val) => .mk key (.StringValue (Hide tab defaultConverter key val))
  | a => a

/-- The attributes of the third case of `TestHideAttrs`. -/
def secretAttrs : List slog.Attr :=
  [slog.StringAttr "token" "whefF63o5tA", slog.StringAttr "password" "Sa&24rjfso"]

end hide

namespace hide

/-! ## Reference definitions for `JSON` -/

mutual
/-- Every number of the value is in the range of `float64`:
`strconv.ParseFloat` returns it without an error. -/
def JValue.numbersInRange : JValue → Bool
  | .num lit => (convertNumber lit.data).isSome
  | .arr es => es.numbersInRange
  | .obj ms => ms.numbersInRange
  | _ => true
/-- Every number among the elements is in the range of `float64`. -/
def JElems.numbersInRange : JElems → Bool
  | .nil => true
  | .cons v rest => v.numbersInRange && rest.numbersInRange
/-- Every number among the members is in the range of `float64`. -/
def JMembers.numbersInRange : JMembers → Bool
  | .nil => true
  | .cons _ v rest => v.numbersInRange && rest.numbersInRange
end

/-- The text is accepted by `json.Unmarshal` into a `map[string]any`: it is
one JSON value, null or an object, nested at most `maxNestingDepth` deep and
with every number in the range of `float64`. -/
def ParsesAsMap (s : String) : Prop :=
  ∃ d, IsDocument s d ∧ d.depth ≤ maxNestingDepth ∧ d.numbersInRange = true ∧
    (d = .null ∨ ∃ ms, d = .obj ms)

/-- The field names of the members, in order. -/
def JMembers.names : JMembers → List String
  | .nil => []
  | .cons k _ rest => k :: rest.names

/-- The value of the last member named `key`. -/
def JMembers.lastValue (key : String) : JMembers → Option JValue
  | .nil => none
  | .cons k v rest =>
    match rest.lastValue key with
    | some x => some x
    | none => if k = key then some v else none

/-- The bytes of the JSON value `null`. -/
def nullBytes : List Nat := url.utf8Encode "null".data

/-- An object with a number beyond the range of `float64`. -/
def hugeNumberBody : String := "\x7b\"a\":1e999\x7d"

/-- The value of `hugeNumberBody`. -/
def hugeNumberDoc : JValue := .obj (.cons "a" (.num "1e999") .nil)

/-- The members of `testDoc`. -/
def testMembers : JMembers :=
  .cons "username" (.str "employee") (.cons "email" (.str "employer@now.com")
    (.cons "id" (.num "2") (.cons "age" .null (.cons "cvc" (.num "123")
      (.cons "password" (.str "awesome")
        (.cons "bio" (.obj (.cons "lastname" (.str "Last") .nil)) .nil))))))

/-- The attributes `TestJSONField` expects (`expectedData`), in the order of
the fields of `testInput`; the numbers 2 and 123 as `float64`. -/
def testEntries : List slog.Attr :=
  [slog.StringAttr "username" "employee", slog.StringAttr "email" "emp*****@now.com",
   .mk "id" (.Float64Value ⟨false, 2 ^ 52, -51⟩), slog.Any "age" .nil,
   .mk "cvc" (.Float64Value ⟨false, 123 * 2 ^ 46, -46⟩),
   slog.StringAttr "password" "*******",
   slog.Any "bio" (.map [("lastname", .string "La**")])]

end hide

namespace hide

/-! ## Documents nested deeper than the decoder accepts -/

/-- The value `v` inside `n` arrays of one element each. -/
def nestArrays : Nat → JValue → JValue
  | 0, v => v
  | n + 1, v => .arr (.cons (nestArrays n v) .nil)

/-- The text `n` opening brackets: what the encoder has written when the
decoder refuses the next opening delimiter. -/
def openBrackets (n : Nat) : String := String.mk (List.replicate n '[')

end hide

namespace hide

open TokenState

/-! ## The loop of the encoder over a token list -/

theorem maskLoop_of_drain (tab : UnicodeTables) (g : Option Converter) :
    ∀ (fuel : Nat) (dec : Decoder) (enc : Encoder) (toks : List Token) (e : Error),
      drain fuel dec = some (toks, e) →
      maskLoop tab g fuel dec enc =
        match processTokens tab g enc toks with
        | .error err => some ("", some err)
        | .ok enc1 => some (enc1.strBuilder, if e = .EOF then none else some e) := by
  intro fuel
  induction fuel with
  | zero => intro dec enc toks e h; simp [drain] at h
  | succ n ih =>
    intro dec enc toks e h
    unfold drain at h
    unfold maskLoop
    cases hT : dec.Token with
    | error err =>
      rw [hT] at h
      simp only [Option.some.injEq, Prod.mk.injEq] at h
      obtain ⟨h1, h2⟩ := h
      subst h1; subst h2
      simp [processTokens]
    | ok p =>
      obtain ⟨tok, dec1⟩ := p
      rw [hT] at h
      simp only at h
      cases hd : drain n dec1 with
      | none => rw [hd] at h; simp at h
      | some q =>
        obtain ⟨ts, e1⟩ := q
        rw [hd] at h
        simp only [Option.some.injEq, Prod.mk.injEq] at h
        obtain ⟨h1, h2⟩ := h
        subst h1; subst h2
        simp only [processTokens]
        cases hp : processToken tab g enc tok with
        | error err => simp
        | ok enc1 => simpa using ih dec1 enc1 ts e1 hd

theorem processTokens_append (tab : UnicodeTables) (g : Option Converter) :
    ∀ (a b : List Token) (enc : Encoder),
      processTokens tab g enc (a ++ b) =
        match processTokens tab g enc a with
        | .error err => .error err
        | .ok enc1 => processTokens tab g enc1 b := by
  intro a
  induction a with
  | nil => intro b enc; simp [processTokens]
  | cons t ts ih =>
    intro b enc
    simp only [List.cons_append, processTokens]
    cases processToken tab g enc t with
    | error err => simp
    | ok enc1 => simpa using ih b enc1

theorem intStack_pop_push (s : intStack) (v : Nat) : (s.push v).pop = (s, v) := by
  simp [intStack.push, intStack.pop, List.getD]

theorem beforeNextValue_valuePos (enc : Encoder) (h : ValuePos enc.state) :
    beforeNextValue enc =
      { enc with strBuilder := enc.strBuilder ++ sepOf enc.state, state := afterOf enc.state } := by
  obtain ⟨out, st, stack, last⟩ := enc
  simp only [ValuePos] at h
  rcases h with h | h | h | h <;> subst h <;>
    simp [beforeNextValue, sepOf, afterOf]

theorem afterOf_cases (st : Nat) (h : ValuePos st) :
    afterOf st = unknown ∨ afterOf st = fieldValue ∨ afterOf st = arrayValue := by
  rcases h with h | h | h | h <;> subst h <;> simp [afterOf]

/-- Opening a container at a value position: the separator and the opening
delimiter are written, the state to come back to is pushed. -/
theorem setState_open (enc : Encoder) (h : ValuePos enc.state) :
    setState object enc = .ok ⟨enc.strBuilder ++ sepOf enc.state ++ "\x7b", object,
        enc.stateStack.push (afterOf enc.state), enc.lastFieldName⟩ ∧
    setState array enc = .ok ⟨enc.strBuilder ++ sepOf enc.state ++ "[", array,
        enc.stateStack.push (afterOf enc.state), enc.lastFieldName⟩ := by
  obtain ⟨out, st, stack, last⟩ := enc
  simp only [ValuePos] at h
  rcases h with h | h | h | h <;> subst h <;>
    simp [setState, beforeNextValue, pushState, sepOf, afterOf]

/-- Closing a container whose opening pushed `st`. -/
theorem setState_close (out : String) (cur : Nat) (stack : intStack) (st : Nat) (last : String) :
    setState objectEnd ⟨out, cur, stack.push st, last⟩ = .ok ⟨out ++ "\x7d", st, stack, last⟩ ∧
    setState arrayEnd ⟨out, cur, stack.push st, last⟩ = .ok ⟨out ++ "]", st, stack, last⟩ := by
  simp [setState, intStack_pop_push]

theorem processToken_scalar (tab : UnicodeTables) (g : Option Converter) (enc : Encoder)
    (h : ValuePos enc.state) (tok : Token) (text : String)
    (hnd : ∀ c, tok ≠ .delim c) (hns : ∀ s, tok ≠ .str s) (hm : Marshal tok = .ok text) :
    processToken tab g enc tok =
      .ok ⟨enc.strBuilder ++ sepOf enc.state ++ text, afterOf enc.state, enc.stateStack,
        enc.lastFieldName⟩ := by
  cases tok with
  | delim c => exact absurd rfl (hnd c)
  | str s => exact absurd rfl (hns s)
  | number lit => simp only [processToken, hm, beforeNextValue_valuePos enc h]
  | bool b => simp only [processToken, hm, beforeNextValue_valuePos enc h]
  | null => simp only [processToken, hm, beforeNextValue_valuePos enc h]

theorem processToken_string (tab : UnicodeTables) (g : Option Converter) (enc : Encoder)
    (h : ValuePos enc.state) (s : String) :
    processToken tab g enc (.str s) =
      .ok ⟨enc.strBuilder ++ sepOf enc.state ++
          MarshalString (Hide tab g (keyOf enc.state enc.lastFieldName) s),
        afterOf enc.state, enc.stateStack, enc.lastFieldName⟩ := by
  obtain ⟨out, st, stack, last⟩ := enc
  simp only [ValuePos] at h
  rcases h with h | h | h | h <;> subst h <;>
    simp [processToken, beforeNextValue, Marshal, sepOf, afterOf, keyOf]

theorem processToken_key (tab : UnicodeTables) (g : Option Converter) (enc : Encoder)
    (h : enc.state = object ∨ enc.state = fieldValue) (k : String) :
    processToken tab g enc (.str k) =
      .ok ⟨enc.strBuilder ++ (if enc.state = object then "" else ",") ++
          MarshalString (Hide tab g "" k), fieldName, enc.stateStack, k⟩ := by
  obtain ⟨out, st, stack, last⟩ := enc
  rcases h with h | h <;> simp only at h <;> subst h <;>
    simp [processToken, beforeNextValue, Marshal]

mutual
theorem value_tokens (tab : UnicodeTables) (g : Option Converter) :
    (d : JValue) → (enc : Encoder) → ValuePos enc.state → d.numbersValid = true →
    ∃ last, processTokens tab g enc d.tokens =
      .ok ⟨enc.strBuilder ++ sepOf enc.state ++
          (d.masked (Hide tab g) (keyOf enc.state enc.lastFieldName)).render,
        afterOf enc.state, enc.stateStack, last⟩
  | .null, enc, h, _ => by
    refine ⟨enc.lastFieldName, ?_⟩
    simp [JValue.tokens, processTokens, JValue.masked, JValue.render,
      processToken_scalar tab g enc h .null "null" (by simp) (by simp) rfl]
  | .bool true, enc, h, _ => by
    refine ⟨enc.lastFieldName, ?_⟩
    simp [JValue.tokens, processTokens, JValue.masked, JValue.render,
      processToken_scalar tab g enc h (.bool true) "true" (by simp) (by simp) rfl]
  | .bool false, enc, h, _ => by
    refine ⟨enc.lastFieldName, ?_⟩
    simp [JValue.tokens, processTokens, JValue.masked, JValue.render,
      processToken_scalar tab g enc h (.bool false) "false" (by simp) (by simp) rfl]
  | .num lit, enc, h, hv => by
    refine ⟨enc.lastFieldName, ?_⟩
    simp only [JValue.numbersValid, Bool.and_eq_true, bne_iff_ne, ne_eq] at hv
    have hm : Marshal (.number lit) = .ok lit := by simp [Marshal, hv.1, hv.2]
    simp [JValue.tokens, processTokens, JValue.masked, JValue.render,
      processToken_scalar tab g enc h (.number lit) lit (by simp) (by simp) hm]
  | .str s, enc, h, _ => by
    refine ⟨enc.lastFieldName, ?_⟩
    simp [JValue.tokens, processTokens, JValue.masked, JValue.render,
      processToken_string tab g enc h s]
  | .arr es, enc, h, hv => by
    simp only [JValue.numbersValid] at hv
    have hopen := (setState_open enc h).2
    obtain ⟨last, st1, hes⟩ := elems_tokens tab g es
      ⟨enc.strBuilder ++ sepOf enc.state ++ "[", array,
        enc.stateStack.push (afterOf enc.state), enc.lastFieldName⟩ (Or.inl rfl) hv
    refine ⟨last, ?_⟩
    have hclose := (setState_close
      (enc.strBuilder ++ sepOf enc.state ++ "[" ++ (es.masked (Hide tab g)).render true)
      st1 enc.stateStack (afterOf enc.state) last).2
    simp only [decide_True, String.append_assoc] at hes hclose hopen
    simp [JValue.tokens, processTokens, processToken, processTokens_append, hopen, hes, hclose,
      JValue.masked, JValue.render, String.append_assoc]
  | .obj ms, enc, h, hv => by
    simp only [JValue.numbersValid] at hv
    have hopen := (setState_open enc h).1
    obtain ⟨last, st1, hms⟩ := members_tokens tab g ms
      ⟨enc.strBuilder ++ sepOf enc.state ++ "\x7b", object,
        enc.stateStack.push (afterOf enc.state), enc.lastFieldName⟩ (Or.inl rfl) hv
    refine ⟨last, ?_⟩
    have hclose := (setState_close
      (enc.strBuilder ++ sepOf enc.state ++ "\x7b" ++ (ms.masked (Hide tab g)).render true)
      st1 enc.stateStack (afterOf enc.state) last).1
    simp only [decide_True, String.append_assoc] at hms hclose hopen
    simp [JValue.tokens, processTokens, processToken, processTokens_append, hopen, hms, hclose,
      JValue.masked, JValue.render, String.append_assoc]
theorem elems_tokens (tab : UnicodeTables) (g : Option Converter) :
    (es : JElems) → (enc : Encoder) → (enc.state = array ∨ enc.state = arrayValue) →
    es.numbersValid = true →
    ∃ last st1, processTokens tab g enc es.tokens =
      .ok ⟨enc.strBuilder ++ (es.masked (Hide tab g)).render (decide (enc.state = array)),
        st1, enc.stateStack, last⟩
  | .nil, enc, _, _ => by
    refine ⟨enc.lastFieldName, enc.state, ?_⟩
    simp [JElems.tokens, processTokens, JElems.masked, JElems.render]
  | .cons v rest, enc, h, hv => by
    simp only [JElems.numbersValid, Bool.and_eq_true] at hv
    have hpos : ValuePos enc.state := by
      rcases h with h | h
      · exact Or.inr (Or.inr (Or.inl h))
      · exact Or.inr (Or.inr (Or.inr h))
    obtain ⟨last1, hval⟩ := value_tokens tab g v enc hpos hv.1
    have hafter : afterOf enc.state = arrayValue := by
      rcases h with h | h <;> simp [afterOf, h]
    have hkey : keyOf enc.state enc.lastFieldName = "" := by
      rcases h with h | h <;> simp [keyOf, h]
    have hsep : sepOf enc.state = if decide (enc.state = array) = true then "" else "," := by
      rcases h with h | h <;> simp [sepOf, h]
    obtain ⟨last, st1, hrest⟩ := elems_tokens tab g rest
      ⟨enc.strBuilder ++ sepOf enc.state ++ (v.masked (Hide tab g) "").render, arrayValue,
        enc.stateStack, last1⟩ (Or.inr rfl) hv.2
    refine ⟨last, st1, ?_⟩
    rw [hafter, hkey] at hval
    simp only [show (arrayValue = array) = False from by simp, decide_False] at hrest
    rw [hsep] at hval hrest
    simp only [String.append_assoc, decide_eq_true_eq] at hval hrest
    simp [JElems.tokens, processTokens_append, hval, hrest, JElems.masked, JElems.render,
      String.append_assoc]
theorem members_tokens (tab : UnicodeTables) (g : Option Converter) :
    (ms : JMembers) → (enc : Encoder) → (enc.state = object ∨ enc.state = fieldValue) →
    ms.numbersValid = true →
    ∃ last st1, processTokens tab g enc ms.tokens =
      .ok ⟨enc.strBuilder ++ (ms.masked (Hide tab g)).render (decide (enc.state = object)),
        st1, enc.stateStack, last⟩
  | .nil, enc, _, _ => by
    refine ⟨enc.lastFieldName, enc.state, ?_⟩
    simp [JMembers.tokens, processTokens, JMembers.masked, JMembers.render]
  | .cons k v rest, enc, h, hv => by
    simp only [JMembers.numbersValid, Bool.and_eq_true] at hv
    have hkeytok := processToken_key tab g enc h k
    obtain ⟨last1, hval⟩ := value_tokens tab g v
      ⟨enc.strBuilder ++ (if enc.state = object then "" else ",") ++
        MarshalString (Hide tab g "" k), fieldName, enc.stateStack, k⟩
      (Or.inr (Or.inl rfl)) hv.1
    simp only [show sepOf fieldName = ":" from by simp [sepOf],
      show afterOf fieldName = fieldValue from by simp [afterOf],
      show keyOf fieldName k = k from by simp [keyOf]] at hval
    obtain ⟨last, st1, hrest⟩ := members_tokens tab g rest
      ⟨enc.strBuilder ++ (if enc.state = object then "" else ",") ++
          MarshalString (Hide tab g "" k) ++ ":" ++ (v.masked (Hide tab g) k).render,
        fieldValue, enc.stateStack, last1⟩ (Or.inr rfl) hv.2
    refine ⟨last, st1, ?_⟩
    simp only [show (fieldValue = object) = False from by simp, decide_False] at hrest
    simp only [String.append_assoc] at hval hrest hkeytok
    simp [JMembers.tokens, processTokens, processTokens_append, hkeytok, hval, hrest,
      JMembers.masked, JMembers.render, String.append_assoc]
end
theorem digit_props (c : Char) (h : isDigit09 c = true) :
    c ≠ '.' ∧ c ≠ 'e' ∧ c ≠ 'E' ∧ c ≠ '+' ∧ c ≠ '-' := by
  refine ⟨?_, ?_, ?_, ?_, ?_⟩ <;> (intro heq; subst heq; revert h; decide)

theorem dropWhile_digit_cons (c : Char) (l : List Char) (h : isDigit09 c = true) :
    (c :: l).dropWhile isDigit09 = l.dropWhile isDigit09 := by
  simp [List.dropWhile, h]

theorem dropWhile_nondigit_cons (c : Char) (l : List Char) (h : isDigit09 c = false) :
    (c :: l).dropWhile isDigit09 = c :: l := by
  simp [List.dropWhile, h]

theorem readValue_e0 : ∀ (buf : List Char) (l r : List Char),
    readValue .e0 buf = .ok (l, r) → l.dropWhile isDigit09 = [] := by
  intro buf
  induction buf with
  | nil =>
    intro l r h
    have hs : ScanState.step .e0 ' ' = .finish := by decide
    simp only [readValue, hs, Except.ok.injEq, Prod.mk.injEq] at h
    rw [← h.1]; rfl
  | cons c cs ih =>
    intro l r h
    simp only [readValue, ScanState.step] at h
    by_cases hd : isDigit09 c = true
    · simp only [hd, if_true] at h
      cases hr : readValue .e0 cs with
      | error e => simp [hr] at h
      | ok p =>
        obtain ⟨l1, r1⟩ := p
        simp only [hr, Except.ok.injEq, Prod.mk.injEq] at h
        rw [← h.1, dropWhile_digit_cons c l1 hd]
        exact ih l1 r1 hr
    · simp only [hd] at h
      simp only [Bool.false_eq_true, if_false, Except.ok.injEq, Prod.mk.injEq] at h
      rw [← h.1]; rfl

theorem readValue_eSign : ∀ (buf : List Char) (l r : List Char),
    readValue .eSign buf = .ok (l, r) →
    ∃ d l1, l = d :: l1 ∧ isDigit09 d = true ∧ l1.dropWhile isDigit09 = [] := by
  intro buf l r h
  cases buf with
  | nil =>
    have hs : ScanState.step .eSign ' ' = .error := by decide
    simp [readValue, hs] at h
  | cons c cs =>
    simp only [readValue, ScanState.step] at h
    by_cases hd : isDigit09 c = true
    · simp only [hd, if_true] at h
      cases hr : readValue .e0 cs with
      | error e => simp [hr] at h
      | ok p =>
        obtain ⟨l1, r1⟩ := p
        simp only [hr, Except.ok.injEq, Prod.mk.injEq] at h
        exact ⟨c, l1, h.1.symm, hd, readValue_e0 cs l1 r1 hr⟩
    · simp [hd] at h

theorem readValue_e (x : Char) (hx : x = 'e' ∨ x = 'E') : ∀ (buf : List Char) (l r : List Char),
    readValue .e buf = .ok (l, r) → isValidNumberExp (x :: l) = true := by
  intro buf l r h
  cases buf with
  | nil =>
    have hs : ScanState.step .e ' ' = .error := by decide
    simp [readValue, hs] at h
  | cons c cs =>
    have hxe : (x == 'e' || x == 'E') = true := by rcases hx with hx | hx <;> subst hx <;> decide
    simp only [readValue, ScanState.step] at h
    by_cases hsg : (c == '+' || c == '-') = true
    · simp only [hsg, if_true] at h
      cases hr : readValue .eSign cs with
      | error e => simp [hr] at h
      | ok p =>
        obtain ⟨l1, r1⟩ := p
        simp only [hr, Except.ok.injEq, Prod.mk.injEq] at h
        obtain ⟨d, l2, hl, hd, hdrop⟩ := readValue_eSign cs l1 r1 hr
        rw [← h.1, hl]
        simp only [isValidNumberExp, hxe, hsg, if_true, List.isEmpty_cons, Bool.false_eq_true,
          if_false, dropWhile_digit_cons d l2 hd, hdrop, List.isEmpty_nil]
    · simp only [hsg, Bool.false_eq_true, if_false] at h
      by_cases hd : isDigit09 c = true
      · simp only [hd, if_true] at h
        cases hr : readValue .e0 cs with
        | error e => simp [hr] at h
        | ok p =>
          obtain ⟨l1, r1⟩ := p
          simp only [hr, Except.ok.injEq, Prod.mk.injEq] at h
          rw [← h.1]
          simp only [isValidNumberExp, hxe, hsg, if_true, Bool.false_eq_true, if_false,
            dropWhile_digit_cons c l1 hd, readValue_e0 cs l1 r1 hr, List.isEmpty_nil]
      · simp [hd] at h

theorem exp_char_not_digit (c : Char) (h : (c == 'e' || c == 'E') = true) :
    isDigit09 c = false ∧ (c == '.') = false := by
  simp only [Bool.or_eq_true, beq_iff_eq] at h
  rcases h with h | h <;> subst h <;> decide

theorem readValue_dot0 : ∀ (buf : List Char) (l r : List Char),
    readValue .dot0 buf = .ok (l, r) → isValidNumberExp (l.dropWhile isDigit09) = true := by
  intro buf
  induction buf with
  | nil =>
    intro l r h
    have hs : ScanState.step .dot0 ' ' = .finish := by decide
    simp only [readValue, hs, Except.ok.injEq, Prod.mk.injEq] at h
    rw [← h.1]; rfl
  | cons c cs ih =>
    intro l r h
    simp only [readValue, ScanState.step] at h
    by_cases hd : isDigit09 c = true
    · simp only [hd, if_true] at h
      cases hr : readValue .dot0 cs with
      | error e => simp [hr] at h
      | ok p =>
        obtain ⟨l1, r1⟩ := p
        simp only [hr, Except.ok.injEq, Prod.mk.injEq] at h
        rw [← h.1, dropWhile_digit_cons c l1 hd]
        exact ih l1 r1 hr
    · simp only [hd, Bool.false_eq_true, if_false] at h
      by_cases he : (c == 'e' || c == 'E') = true
      · simp only [he, if_true] at h
        cases hr : readValue .e cs with
        | error e => simp [hr] at h
        | ok p =>
          obtain ⟨l1, r1⟩ := p
          simp only [hr, Except.ok.injEq, Prod.mk.injEq] at h
          rw [← h.1, dropWhile_nondigit_cons c l1 (exp_char_not_digit c he).1]
          have hc : c = 'e' ∨ c = 'E' := by simpa using he
          exact readValue_e c hc cs l1 r1 hr
      · simp only [he, Bool.false_eq_true, if_false, Except.ok.injEq, Prod.mk.injEq] at h
        rw [← h.1]; rfl

theorem readValue_dot : ∀ (buf : List Char) (l r : List Char),
    readValue .dot buf = .ok (l, r) →
    ∃ d l1, l = d :: l1 ∧ isDigit09 d = true ∧
      isValidNumberExp (l1.dropWhile isDigit09) = true := by
  intro buf l r h
  cases buf with
  | nil =>
    have hs : ScanState.step .dot ' ' = .error := by decide
    simp [readValue, hs] at h
  | cons c cs =>
    simp only [readValue, ScanState.step] at h
    by_cases hd : isDigit09 c = true
    · simp only [hd, if_true] at h
      cases hr : readValue .dot0 cs with
      | error e => simp [hr] at h
      | ok p =>
        obtain ⟨l1, r1⟩ := p
        simp only [hr, Except.ok.injEq, Prod.mk.injEq] at h
        exact ⟨c, l1, h.1.symm, hd, readValue_dot0 cs l1 r1 hr⟩
    · simp [hd] at h

theorem readValue_s0 : ∀ (buf : List Char) (l r : List Char),
    readValue .s0 buf = .ok (l, r) → isValidNumberTail l = true := by
  intro buf l r h
  cases buf with
  | nil =>
    have hs : ScanState.step .s0 ' ' = .finish := by decide
    simp only [readValue, hs, Except.ok.injEq, Prod.mk.injEq] at h
    rw [← h.1]; rfl
  | cons c cs =>
    simp only [readValue, ScanState.step] at h
    by_cases hdot : (c == '.') = true
    · simp only [hdot, if_true] at h
      cases hr : readValue .dot cs with
      | error e => simp [hr] at h
      | ok p =>
        obtain ⟨l1, r1⟩ := p
        simp only [hr, Except.ok.injEq, Prod.mk.injEq] at h
        obtain ⟨d, l2, hl, hd, hexp⟩ := readValue_dot cs l1 r1 hr
        rw [← h.1, hl]
        simp only [isValidNumberTail, hdot, hd, Bool.and_self, if_true, hexp]
    · simp only [hdot, Bool.false_eq_true, if_false] at h
      by_cases he : (c == 'e' || c == 'E') = true
      · simp only [he, if_true] at h
        cases hr : readValue .e cs with
        | error e => simp [hr] at h
        | ok p =>
          obtain ⟨l1, r1⟩ := p
          simp only [hr, Except.ok.injEq, Prod.mk.injEq] at h
          have hc : c = 'e' ∨ c = 'E' := by simpa using he
          have hexp := readValue_e c hc cs l1 r1 hr
          rw [← h.1]
          cases l1 with
          | nil => simpa [isValidNumberTail] using hexp
          | cons d l2 => simp only [isValidNumberTail, hdot, Bool.false_and, Bool.false_eq_true,
              if_false, hexp]
      · simp only [he, Bool.false_eq_true, if_false, Except.ok.injEq, Prod.mk.injEq] at h
        rw [← h.1]; rfl

theorem readValue_s1 : ∀ (buf : List Char) (l r : List Char),
    readValue .s1 buf = .ok (l, r) → isValidNumberTail (l.dropWhile isDigit09) = true := by
  intro buf
  induction buf with
  | nil =>
    intro l r h
    have hs : ScanState.step .s1 ' ' = .finish := by decide
    simp only [readValue, hs, Except.ok.injEq, Prod.mk.injEq] at h
    rw [← h.1]; rfl
  | cons c cs ih =>
    intro l r h
    have hstep : ScanState.step .s1 c =
        if isDigit09 c then .cont .s1 else ScanState.step .s0 c := by
      simp only [ScanState.step]
    by_cases hd : isDigit09 c = true
    · simp only [readValue, hstep, hd, if_true] at h
      cases hr : readValue .s1 cs with
      | error e => simp [hr] at h
      | ok p =>
        obtain ⟨l1, r1⟩ := p
        simp only [hr, Except.ok.injEq, Prod.mk.injEq] at h
        rw [← h.1, dropWhile_digit_cons c l1 hd]
        exact ih l1 r1 hr
    · have h0 : readValue .s0 (c :: cs) = .ok (l, r) := by
        simp only [readValue, hstep, hd, Bool.false_eq_true, if_false] at h
        simpa only [readValue] using h
      have hl : l.dropWhile isDigit09 = l := by
        cases l with
        | nil => rfl
        | cons d l2 =>
          have hdc : d = c := by
            simp only [readValue] at h0
            split at h0 <;> try simp at h0
            rename_i st hst
            cases hr : readValue st cs with
            | error e => simp [hr] at h0
            | ok p => simp [hr] at h0; exact h0.1.1.symm
          subst hdc
          exact dropWhile_nondigit_cons d l2 (by simpa using hd)
      rw [hl]
      exact readValue_s0 (c :: cs) l r h0

theorem readValue_append : ∀ (buf : List Char) (s : ScanState) (l r : List Char),
    readValue s buf = .ok (l, r) → buf = l ++ r := by
  intro buf
  induction buf with
  | nil =>
    intro s l r h
    simp only [readValue] at h
    split at h <;> simp at h
    simp [h.1, h.2]
  | cons c cs ih =>
    intro s l r h
    simp only [readValue] at h
    split at h
    · simp only [Except.ok.injEq, Prod.mk.injEq] at h
      simp [h.1.symm, h.2.symm]
    · simp at h
    · rename_i st hst
      cases hr : readValue st cs with
      | error e => simp [hr] at h
      | ok p =>
        obtain ⟨l1, r1⟩ := p
        simp only [hr, Except.ok.injEq, Prod.mk.injEq] at h
        rw [← h.1, ← h.2, List.cons_append, ← ih st l1 r1 hr]

theorem readValue_neg : ∀ (buf : List Char) (l r : List Char),
    readValue .neg buf = .ok (l, r) → isValidNumber ('-' :: l) = true := by
  intro buf l r h
  cases buf with
  | nil =>
    have hs : ScanState.step .neg ' ' = .error := by decide
    simp [readValue, hs] at h
  | cons c cs =>
    simp only [readValue, ScanState.step] at h
    by_cases h0 : (c == '0') = true
    · simp only [h0, if_true] at h
      cases hr : readValue .s0 cs with
      | error e => simp [hr] at h
      | ok p =>
        obtain ⟨l1, r1⟩ := p
        simp only [hr, Except.ok.injEq, Prod.mk.injEq] at h
        rw [← h.1]
        simp [isValidNumber, h0, readValue_s0 cs l1 r1 hr]
    · simp only [h0, Bool.false_eq_true, if_false] at h
      by_cases h19 : ('1' ≤ c && c ≤ '9') = true
      · simp only [h19, if_true] at h
        cases hr : readValue .s1 cs with
        | error e => simp [hr] at h
        | ok p =>
          obtain ⟨l1, r1⟩ := p
          simp only [hr, Except.ok.injEq, Prod.mk.injEq] at h
          rw [← h.1]
          have := readValue_s1 cs l1 r1 hr
          simp only [isValidNumber, beq_self_eq_true, if_true, h0, Bool.false_eq_true, if_false,
            h19, this]
      · simp [h19] at h

/-- What `Decode` returns at a non-space byte: a scalar token that `Marshal`
encodes, and an unread rest that is shorter than the input. -/
theorem Decode_ok (c : Char) (cs : List Char) (hc : isSpace c = false) (tok : Token)
    (rest : List Char) (h : Decode (c :: cs) = .ok (tok, rest)) :
    tok.scalarOK = true ∧ rest.length < (c :: cs).length := by
  simp only [Decode] at h
  cases hr : readValue .beginValue (c :: cs) with
  | error e => simp [hr] at h
  | ok p =>
    obtain ⟨l, r⟩ := p
    simp only [hr] at h
    cases hl : literalInterface l with
    | error e => simp [hl] at h
    | ok t =>
      simp only [hl, Except.ok.injEq, Prod.mk.injEq] at h
      obtain ⟨h1, h2⟩ := h
      subst h1; subst h2
      have happ := readValue_append (c :: cs) .beginValue l r hr
      have hstep := hr
      simp only [readValue] at hstep
      have hlit : ∃ l1, l = c :: l1 := by
        split at hstep
        · rename_i hfin
          simp only [ScanState.step, hc, Bool.false_eq_true, if_false] at hfin
          repeat' split at hfin
          all_goals simp at hfin
        · simp at hstep
        · rename_i st hst
          cases hr2 : readValue st cs with
          | error e => simp [hr2] at hstep
          | ok p => simp [hr2] at hstep; exact ⟨p.1, hstep.1.symm⟩
      obtain ⟨l1, hl1⟩ := hlit
      subst hl1
      have hlen : r.length < (c :: cs).length := by
        rw [happ]; simp only [List.cons_append, List.length_cons, List.length_append]; omega
      refine ⟨?_, hlen⟩
      simp only [literalInterface] at hl
      by_cases hn : (c == 'n') = true
      · simp only [hn, if_true, Except.ok.injEq] at hl; subst hl; rfl
      simp only [hn, Bool.false_eq_true, if_false] at hl
      by_cases ht : (c == 't') = true
      · simp only [ht, if_true, Except.ok.injEq] at hl; subst hl; rfl
      simp only [ht, Bool.false_eq_true, if_false] at hl
      by_cases hf : (c == 'f') = true
      · simp only [hf, if_true, Except.ok.injEq] at hl; subst hl; rfl
      simp only [hf, Bool.false_eq_true, if_false] at hl
      by_cases hq : (c == '"') = true
      · simp only [hq, if_true] at hl
        split at hl
        · simp only [Except.ok.injEq] at hl; subst hl; rfl
        · simp at hl
      simp only [hq, Bool.false_eq_true, if_false] at hl
      split at hl
      · simp only [Except.ok.injEq] at hl
        subst hl
        simp only [Token.scalarOK, Bool.and_eq_true, bne_iff_ne, ne_eq]
        refine ⟨by simp [String.ext_iff], ?_⟩
        simp only [readValue, ScanState.step, hc, hq, hn, ht, hf, Bool.false_eq_true,
          if_false] at hr
        by_cases hm : (c == '-') = true
        · simp only [hm, if_true] at hr
          have hcm : c = '-' := by simpa using hm
          cases hr2 : readValue .neg cs with
          | error e => simp [hr2] at hr
          | ok p =>
            obtain ⟨l2, r2⟩ := p
            simp only [hr2, Except.ok.injEq, Prod.mk.injEq, List.cons.injEq, true_and] at hr
            rw [hr.1] at hr2
            rw [hcm]
            exact readValue_neg cs l1 r2 hr2
        simp only [hm, Bool.false_eq_true, if_false] at hr
        by_cases h0 : (c == '0') = true
        · simp only [h0, if_true] at hr
          cases hr2 : readValue .s0 cs with
          | error e => simp [hr2] at hr
          | ok p =>
            obtain ⟨l2, r2⟩ := p
            simp only [hr2, Except.ok.injEq, Prod.mk.injEq, List.cons.injEq, true_and] at hr
            rw [hr.1] at hr2
            simp [isValidNumber, hm, h0, readValue_s0 cs l1 r2 hr2]
        simp only [h0, Bool.false_eq_true, if_false] at hr
        by_cases h19 : ('1' ≤ c && c ≤ '9') = true
        · simp only [h19, if_true] at hr
          cases hr2 : readValue .s1 cs with
          | error e => simp [hr2] at hr
          | ok p =>
            obtain ⟨l2, r2⟩ := p
            simp only [hr2, Except.ok.injEq, Prod.mk.injEq, List.cons.injEq, true_and] at hr
            rw [hr.1] at hr2
            have := readValue_s1 cs l1 r2 hr2
            simp only [isValidNumber, hm, Bool.false_eq_true, if_false, h0, h19, if_true, this]
        · simp [h19] at hr
      · simp at hl

/-- Every successful call of `Token` returns a well-formed token and leaves a
strictly shorter unread input. -/
theorem tokenLoop_ok : ∀ (buf : List Char) (st : TokenState) (stack : List TokenState)
    (tok : Token) (dec : Decoder), tokenLoop st stack buf = .ok (tok, dec) →
    tok.OK = true ∧ dec.buf.length < buf.length := by
  intro buf
  induction buf with
  | nil => intro st stack tok dec h; simp [tokenLoop] at h
  | cons c cs ih =>
    intro st stack tok dec h
    have hrec : ∀ (st1 : TokenState), tokenLoop st1 stack cs = .ok (tok, dec) →
        tok.OK = true ∧ dec.buf.length < (c :: cs).length := by
      intro st1 h1
      obtain ⟨ht, hd⟩ := ih st1 stack tok dec h1
      exact ⟨ht, by simp only [List.length_cons]; omega⟩
    have hdelim : ∀ (ch : Char) (d : Decoder), ch = '[' ∨ ch = ']' ∨ ch = '\x7b' ∨ ch = '\x7d' →
        d.buf = cs → (Except.ok (Token.delim ch, d) : Except Error (Token × Decoder)) =
          .ok (tok, dec) → tok.OK = true ∧ dec.buf.length < (c :: cs).length := by
      intro ch d hch hbuf heq
      simp only [Except.ok.injEq, Prod.mk.injEq] at heq
      obtain ⟨ht, hd⟩ := heq
      subst ht; subst hd
      refine ⟨?_, by simp [hbuf]⟩
      rcases hch with hch | hch | hch | hch <;> subst hch <;> decide
    have hdecode : isSpace c = false → ∀ (st1 : TokenState),
        (match Decode (c :: cs) with
          | .error err => (.error err : Except Error (Token × Decoder))
          | .ok (t, rest) => .ok (t, ⟨rest, st1, stack⟩)) = .ok (tok, dec) →
        tok.OK = true ∧ dec.buf.length < (c :: cs).length := by
      intro hsp st1 heq
      cases hD : Decode (c :: cs) with
      | error e => simp [hD] at heq
      | ok p =>
        obtain ⟨t, r⟩ := p
        simp only [hD, Except.ok.injEq, Prod.mk.injEq] at heq
        obtain ⟨ht, hd⟩ := heq
        subst ht; subst hd
        obtain ⟨hok, hlen⟩ := Decode_ok c cs hsp t r hD
        refine ⟨?_, hlen⟩
        cases t <;> simp_all [Token.OK, Token.scalarOK]
    unfold tokenLoop at h
    by_cases h1 : isSpace c = true
    · simp only [h1, if_true] at h; exact hrec st h
    simp only [h1, Bool.false_eq_true, if_false] at h
    have hsp : isSpace c = false := by simpa using h1
    by_cases h2 : (c == '[') = true
    · simp only [h2, if_true] at h
      split at h
      · exact hdelim _ _ (Or.inl rfl) rfl h
      · simp at h
    simp only [h2, Bool.false_eq_true, if_false] at h
    by_cases h3 : (c == ']') = true
    · simp only [h3, if_true] at h
      split at h
      · split at h
        · exact hdelim _ _ (Or.inr (Or.inl rfl)) rfl h
        · simp at h
      · simp at h
    simp only [h3, Bool.false_eq_true, if_false] at h
    by_cases h4 : (c == '\x7b') = true
    · simp only [h4, if_true] at h
      split at h
      · exact hdelim _ _ (Or.inr (Or.inr (Or.inl rfl))) rfl h
      · simp at h
    simp only [h4, Bool.false_eq_true, if_false] at h
    by_cases h5 : (c == '\x7d') = true
    · simp only [h5, if_true] at h
      split at h
      · split at h
        · exact hdelim _ _ (Or.inr (Or.inr (Or.inr rfl))) rfl h
        · simp at h
      · simp at h
    simp only [h5, Bool.false_eq_true, if_false] at h
    by_cases h6 : (c == ':') = true
    · simp only [h6, if_true] at h
      split at h
      · exact hrec _ h
      · simp at h
    simp only [h6, Bool.false_eq_true, if_false] at h
    by_cases h7 : (c == ',') = true
    · simp only [h7, if_true] at h
      split at h
      · exact hrec _ h
      · split at h
        · exact hrec _ h
        · simp at h
    simp only [h7, Bool.false_eq_true, if_false] at h
    split at h
    · exact hdecode hsp _ h
    · split at h
      · exact hdecode hsp _ h
      · simp at h

theorem Token_ok (dec : Decoder) (tok : Token) (dec1 : Decoder)
    (h : dec.Token = .ok (tok, dec1)) : tok.OK = true ∧ dec1.buf.length < dec.buf.length :=
  tokenLoop_ok dec.buf dec.tokenState dec.tokenStack tok dec1 h

/-- With more fuel than unread bytes the decoder stops before the fuel runs out. -/
theorem drain_total : ∀ (fuel : Nat) (dec : Decoder), dec.buf.length < fuel →
    ∃ toks e, drain fuel dec = some (toks, e) := by
  intro fuel
  induction fuel with
  | zero => intro dec h; omega
  | succ n ih =>
    intro dec h
    unfold drain
    cases hT : dec.Token with
    | error e => exact ⟨[], e, rfl⟩
    | ok p =>
      obtain ⟨tok, dec1⟩ := p
      have hlt := (Token_ok dec tok dec1 hT).2
      obtain ⟨toks, e, hd⟩ := ih dec1 (by omega)
      exact ⟨tok :: toks, e, by simp [hd]⟩

theorem drain_tokens_ok : ∀ (fuel : Nat) (dec : Decoder) (toks : List Token) (e : Error),
    drain fuel dec = some (toks, e) → ∀ t ∈ toks, t.OK = true := by
  intro fuel
  induction fuel with
  | zero => intro dec toks e h; simp [drain] at h
  | succ n ih =>
    intro dec toks e h
    unfold drain at h
    cases hT : dec.Token with
    | error err =>
      simp only [hT, Option.some.injEq, Prod.mk.injEq] at h
      rw [← h.1]; simp
    | ok p =>
      obtain ⟨tok, dec1⟩ := p
      simp only [hT] at h
      cases hd : drain n dec1 with
      | none => simp [hd] at h
      | some q =>
        obtain ⟨ts, e1⟩ := q
        simp only [hd, Option.some.injEq, Prod.mk.injEq] at h
        rw [← h.1]
        intro t ht
        rcases List.mem_cons.mp ht with ht | ht
        · rw [ht]; exact (Token_ok dec tok dec1 hT).1
        · exact ih dec1 ts e1 hd t ht

mutual
theorem numbersValid_of_tokens :
    (d : JValue) → (∀ t ∈ d.tokens, t.OK = true) → d.numbersValid = true
  | .null, _ => rfl
  | .bool _, _ => rfl
  | .str _, _ => rfl
  | .num lit, h => by
    have := h (.number lit) (by simp [JValue.tokens])
    simpa [Token.OK, Token.scalarOK, JValue.numbersValid] using this
  | .arr es, h => by
    simp only [JValue.numbersValid]
    exact numbersValid_of_tokens_elems es (fun t ht => h t (by simp [JValue.tokens, ht]))
  | .obj ms, h => by
    simp only [JValue.numbersValid]
    exact numbersValid_of_tokens_members ms (fun t ht => h t (by simp [JValue.tokens, ht]))
theorem numbersValid_of_tokens_elems :
    (es : JElems) → (∀ t ∈ es.tokens, t.OK = true) → es.numbersValid = true
  | .nil, _ => rfl
  | .cons v rest, h => by
    simp only [JElems.numbersValid, Bool.and_eq_true]
    exact ⟨numbersValid_of_tokens v (fun t ht => h t (by simp [JElems.tokens, ht])),
      numbersValid_of_tokens_elems rest (fun t ht => h t (by simp [JElems.tokens, ht]))⟩
theorem numbersValid_of_tokens_members :
    (ms : JMembers) → (∀ t ∈ ms.tokens, t.OK = true) → ms.numbersValid = true
  | .nil, _ => rfl
  | .cons _ v rest, h => by
    simp only [JMembers.numbersValid, Bool.and_eq_true]
    exact ⟨numbersValid_of_tokens v (fun t ht => h t (by simp [JMembers.tokens, ht])),
      numbersValid_of_tokens_members rest (fun t ht => h t (by simp [JMembers.tokens, ht]))⟩
end

/-- On a JSON document denoting `d` the encoder returns the text of the masked
value and a nil error. -/
theorem mask_document (tab : UnicodeTables) (g : Option Converter) (body : String)
    (d : JValue) (h : IsDocument body d) :
    MaskSensitiveJSONFields tab g body =
      some ((d.masked (Hide tab g) "").render, none) := by
  unfold IsDocument decodeAll at h
  have hv : d.numbersValid = true :=
    numbersValid_of_tokens d (drain_tokens_ok _ _ _ _ h)
  obtain ⟨last, hp⟩ := value_tokens tab g d ⟨"", unknown, [], ""⟩ (Or.inl rfl) hv
  unfold MaskSensitiveJSONFields
  rw [maskLoop_of_drain tab g _ _ _ _ _ h, hp]
  simp [sepOf, keyOf]

theorem Decode_quote (cs : List Char) (tok : Token) (rest : List Char)
    (h : Decode ('"' :: cs) = .ok (tok, rest)) : ∃ s, tok = .str s := by
  simp only [Decode] at h
  have hs : ScanState.step .beginValue '"' = .cont .inString := by decide
  simp only [readValue, hs] at h
  cases hr : readValue .inString cs with
  | error e => simp [hr] at h
  | ok p =>
    obtain ⟨l1, r1⟩ := p
    simp only [hr] at h
    have h1 : ('"' == 'n') = false := by decide
    have h2 : ('"' == 't') = false := by decide
    have h3 : ('"' == 'f') = false := by decide
    simp only [literalInterface, h1, h2, h3, Bool.false_eq_true, if_false, beq_self_eq_true,
      if_true] at h
    split at h
    · simp at h
    · rename_i t r hl
      split at hl
      · simp only [Except.ok.injEq, Prod.mk.injEq] at h hl
        exact ⟨_, by rw [← h.1, ← hl]⟩
      · simp at hl

theorem valueAllowed_pos (st : TokenState) (h : tokenValueAllowed st = true) :
    ValuePos (encStateOf st) ∧ afterOf (encStateOf st) = encStateOf (tokenValueEnd st) := by
  cases st <;> simp [tokenValueAllowed] at h <;>
    simp [ValuePos, encStateOf, afterOf, tokenValueEnd]

theorem encStackOf_cons (st : TokenState) (stack : List TokenState) :
    encStackOf (st :: stack) = (encStackOf stack).push (encStateOf (tokenValueEnd st)) := by
  simp [encStackOf, intStack.push]

/-- One step of the simulation: the encoder accepts every token the decoder
returns and stays in step with it. -/
theorem tokenLoop_inStep (tab : UnicodeTables) (g : Option Converter) :
    ∀ (buf : List Char) (st : TokenState) (stack : List TokenState) (enc : Encoder)
      (tok : Token) (dec : Decoder),
      enc.state = encStateOf st → enc.stateStack = encStackOf stack →
      tokenLoop st stack buf = .ok (tok, dec) →
      ∃ enc1, processToken tab g enc tok = .ok enc1 ∧ InStep dec enc1 := by
  intro buf
  induction buf with
  | nil => intro st stack enc tok dec _ _ h; simp [tokenLoop] at h
  | cons c cs ih =>
    intro st stack enc tok dec hst hstack h
    obtain ⟨out, est, estack, last⟩ := enc
    simp only at hst hstack
    subst hst; subst hstack
    have hopen : tokenValueAllowed st = true → ∀ (ch : Char) (d : Decoder) (ns : TokenState)
        (es : Nat), (ch = '[' ∧ ns = tokenArrayStart ∧ es = array) ∨
          (ch = '\x7b' ∧ ns = tokenObjectStart ∧ es = object) →
        d = ⟨cs, ns, st :: stack⟩ →
        (Except.ok (Token.delim ch, d) : Except Error (Token × Decoder)) = .ok (tok, dec) →
        ∃ enc1, processToken tab g ⟨out, encStateOf st, encStackOf stack, last⟩ tok = .ok enc1 ∧
          InStep dec enc1 := by
      intro hva ch d ns es hch hd heq
      simp only [Except.ok.injEq, Prod.mk.injEq] at heq
      obtain ⟨ht, hdd⟩ := heq
      subst ht; subst hdd; subst hd
      obtain ⟨hpos, haft⟩ := valueAllowed_pos st hva
      have ho := setState_open ⟨out, encStateOf st, encStackOf stack, last⟩ hpos
      rcases hch with ⟨h1, h2, _⟩ | ⟨h1, h2, _⟩ <;> subst h1 <;> subst h2
      · refine ⟨_, by simp only [processToken]; exact ho.2, rfl, ?_⟩
        simp only [encStackOf_cons, haft]
      · refine ⟨_, by simp only [processToken]; exact ho.1, rfl, ?_⟩
        simp only [encStackOf_cons, haft]
    have hclose : ∀ (ch : Char) (top : TokenState) (stack1 : List TokenState),
        ch = ']' ∨ ch = '\x7d' → stack = top :: stack1 →
        (Except.ok (Token.delim ch, (⟨cs, tokenValueEnd top, stack1⟩ : Decoder)) :
          Except Error (Token × Decoder)) = .ok (tok, dec) →
        ∃ enc1, processToken tab g ⟨out, encStateOf st, encStackOf stack, last⟩ tok = .ok enc1 ∧
          InStep dec enc1 := by
      intro ch top stack1 hch hs heq
      simp only [Except.ok.injEq, Prod.mk.injEq] at heq
      obtain ⟨ht, hdd⟩ := heq
      subst ht; subst hdd; subst hs
      have hc := setState_close out (encStateOf st) (encStackOf stack1)
        (encStateOf (tokenValueEnd top)) last
      rw [← encStackOf_cons] at hc
      rcases hch with h1 | h1 <;> subst h1
      · exact ⟨_, by simp only [processToken]; exact hc.2, rfl, rfl⟩
      · exact ⟨_, by simp only [processToken]; exact hc.1, rfl, rfl⟩
    have hvalue : isSpace c = false → tokenValueAllowed st = true →
        (match Decode (c :: cs) with
          | .error err => (.error err : Except Error (Token × Decoder))
          | .ok (t, rest) => .ok (t, ⟨rest, tokenValueEnd st, stack⟩)) = .ok (tok, dec) →
        ∃ enc1, processToken tab g ⟨out, encStateOf st, encStackOf stack, last⟩ tok = .ok enc1 ∧
          InStep dec enc1 := by
      intro hsp hva heq
      cases hD : Decode (c :: cs) with
      | error e => simp [hD] at heq
      | ok p =>
        obtain ⟨t, r⟩ := p
        simp only [hD, Except.ok.injEq, Prod.mk.injEq] at heq
        obtain ⟨ht, hdd⟩ := heq
        subst ht; subst hdd
        obtain ⟨hpos, haft⟩ := valueAllowed_pos st hva
        have hok := (Decode_ok c cs hsp t r hD).1
        cases t with
        | delim ch => simp [Token.scalarOK] at hok
        | str s =>
          exact ⟨_, processToken_string tab g ⟨out, encStateOf st, encStackOf stack, last⟩ hpos s,
            ⟨haft, rfl⟩⟩
        | number lit =>
          simp only [Token.scalarOK, Bool.and_eq_true, bne_iff_ne, ne_eq] at hok
          have hm : Marshal (.number lit) = .ok lit := by simp [Marshal, hok.1, hok.2]
          exact ⟨_, processToken_scalar tab g ⟨out, encStateOf st, encStackOf stack, last⟩ hpos
            (.number lit) lit (by simp) (by simp) hm, ⟨haft, rfl⟩⟩
        | bool b =>
          have hm : ∃ text, Marshal (.bool b) = .ok text := by cases b <;> simp [Marshal]
          obtain ⟨text, hm⟩ := hm
          exact ⟨_, processToken_scalar tab g ⟨out, encStateOf st, encStackOf stack, last⟩ hpos
            (.bool b) text (by simp) (by simp) hm, ⟨haft, rfl⟩⟩
        | null =>
          exact ⟨_, processToken_scalar tab g ⟨out, encStateOf st, encStackOf stack, last⟩ hpos
            .null "null" (by simp) (by simp) rfl, ⟨haft, rfl⟩⟩
    unfold tokenLoop at h
    by_cases h1 : isSpace c = true
    · simp only [h1, if_true] at h; exact ih st stack _ tok dec rfl rfl h
    simp only [h1, Bool.false_eq_true, if_false] at h
    have hsp : isSpace c = false := by simpa using h1
    by_cases h2 : (c == '[') = true
    · simp only [h2, if_true] at h
      split at h
      · rename_i hva; exact hopen hva.1 _ _ _ _ (Or.inl ⟨rfl, rfl, rfl⟩) rfl h
      · simp at h
    simp only [h2, Bool.false_eq_true, if_false] at h
    by_cases h3 : (c == ']') = true
    · simp only [h3, if_true] at h
      split at h
      · split at h
        · exact hclose _ _ _ (Or.inl rfl) rfl h
        · simp at h
      · simp at h
    simp only [h3, Bool.false_eq_true, if_false] at h
    by_cases h4 : (c == '\x7b') = true
    · simp only [h4, if_true] at h
      split at h
      · rename_i hva; exact hopen hva.1 _ _ _ _ (Or.inr ⟨rfl, rfl, rfl⟩) rfl h
      · simp at h
    simp only [h4, Bool.false_eq_true, if_false] at h
    by_cases h5 : (c == '\x7d') = true
    · simp only [h5, if_true] at h
      split at h
      · split at h
        · exact hclose _ _ _ (Or.inr rfl) rfl h
        · simp at h
      · simp at h
    simp only [h5, Bool.false_eq_true, if_false] at h
    by_cases h6 : (c == ':') = true
    · simp only [h6, if_true] at h
      split at h
      · rename_i hcol
        exact ih tokenObjectValue stack _ tok dec (by simp [hcol, encStateOf]) rfl h
      · simp at h
    simp only [h6, Bool.false_eq_true, if_false] at h
    by_cases h7 : (c == ',') = true
    · simp only [h7, if_true] at h
      split at h
      · rename_i hcom
        exact ih tokenArrayValue stack _ tok dec (by simp [hcom, encStateOf]) rfl h
      · split at h
        · rename_i hcom
          exact ih tokenObjectKey stack _ tok dec (by simp [hcom, encStateOf]) rfl h
        · simp at h
    simp only [h7, Bool.false_eq_true, if_false] at h
    split at h
    · rename_i hkey
      obtain ⟨hq, hstate⟩ := hkey
      have hcq : c = '"' := by simpa using hq
      subst hcq
      cases hD : Decode ('"' :: cs) with
      | error e => simp [hD] at h
      | ok p =>
        obtain ⟨t, r⟩ := p
        simp only [hD, Except.ok.injEq, Prod.mk.injEq] at h
        obtain ⟨ht, hdd⟩ := h
        subst ht; subst hdd
        obtain ⟨s, hs⟩ := Decode_quote cs t r hD
        subst hs
        have hobj : encStateOf st = object ∨ encStateOf st = fieldValue := by
          rcases hstate with hst | hst <;> subst hst <;> simp [encStateOf]
        exact ⟨_, processToken_key tab g ⟨out, encStateOf st, encStackOf stack, last⟩ hobj s,
          ⟨rfl, rfl⟩⟩
    · split at h
      · rename_i hva; exact hvalue hsp hva h
      · simp at h
/-- The encoder accepts the whole token stream of the decoder. -/
theorem drain_inStep (tab : UnicodeTables) (g : Option Converter) :
    ∀ (fuel : Nat) (dec : Decoder) (enc : Encoder) (toks : List Token) (e : Error),
      InStep dec enc → drain fuel dec = some (toks, e) →
      ∃ enc1, processTokens tab g enc toks = .ok enc1 := by
  intro fuel
  induction fuel with
  | zero => intro dec enc toks e _ h; simp [drain] at h
  | succ n ih =>
    intro dec enc toks e hstep h
    unfold drain at h
    cases hT : dec.Token with
    | error err =>
      simp only [hT, Option.some.injEq, Prod.mk.injEq] at h
      rw [← h.1]; exact ⟨enc, rfl⟩
    | ok p =>
      obtain ⟨tok, dec1⟩ := p
      simp only [hT] at h
      cases hd : drain n dec1 with
      | none => simp [hd] at h
      | some q =>
        obtain ⟨ts, e1⟩ := q
        simp only [hd, Option.some.injEq, Prod.mk.injEq] at h
        rw [← h.1]
        obtain ⟨enc1, hp, hstep1⟩ :=
          tokenLoop_inStep tab g dec.buf dec.tokenState dec.tokenStack enc tok dec1
            hstep.1 hstep.2 hT
        obtain ⟨enc2, hp2⟩ := ih dec1 enc1 ts e1 hstep1 hd
        exact ⟨enc2, by simp [processTokens, hp, hp2]⟩

/-- The result of `MaskSensitiveJSONFields` on any body: the text the loop
emitted for the tokens the decoder returned, with the decoder's error unless
that is `io.EOF`. -/
theorem mask_result (tab : UnicodeTables) (g : Option Converter) (body : String)
    (toks : List Token) (e : Error) (h : decodeAll body = some (toks, e)) :
    ∃ enc, processTokens tab g ⟨"", unknown, [], ""⟩ toks = .ok enc ∧
      MaskSensitiveJSONFields tab g body =
        some (enc.strBuilder, if e = .EOF then none else some e) := by
  unfold decodeAll at h
  obtain ⟨enc, hp⟩ := drain_inStep tab g _ (NewDecoder body.data) ⟨"", unknown, [], ""⟩ toks e
    ⟨rfl, rfl⟩ h
  refine ⟨enc, hp, ?_⟩
  unfold MaskSensitiveJSONFields
  rw [maskLoop_of_drain tab g _ _ _ _ _ h, hp]

/-- The decoder stops on every body within the fuel `MaskSensitiveJSONFields`
gives the loop. -/
theorem decodeAll_total (body : String) : ∃ toks e, decodeAll body = some (toks, e) :=
  drain_total (body.length + 1) (NewDecoder body.data) (Nat.lt_succ_self _)

/-! ## The nesting limit of the decoder -/

/-- What a successful call of `Token` does to the stack of the decoder: an
opening delimiter is pushed, and only under `maxNestingDepth` open arrays and
objects; a closing delimiter pops; any other token leaves the stack. -/
theorem tokenLoop_stack : ∀ (buf : List Char) (st : TokenState) (stack : List TokenState)
    (tok : Token) (dec : Decoder), tokenLoop st stack buf = .ok (tok, dec) →
    ((tok = .delim '[' ∨ tok = .delim '\x7b') ∧ dec.tokenStack.length = stack.length + 1 ∧
        stack.length < maxNestingDepth) ∨
      ((tok = .delim ']' ∨ tok = .delim '\x7d') ∧ dec.tokenStack.length + 1 = stack.length) ∨
      ((∀ c, tok ≠ .delim c) ∧ dec.tokenStack = stack) := by
  intro buf
  induction buf with
  | nil => intro st stack tok dec h; simp [tokenLoop] at h
  | cons c cs ih =>
    intro st stack tok dec h
    have hdecode : isSpace c = false → ∀ (st1 : TokenState),
        (match Decode (c :: cs) with
          | .error err => (.error err : Except Error (Token × Decoder))
          | .ok (t, rest) => .ok (t, ⟨rest, st1, stack⟩)) = .ok (tok, dec) →
        (∀ c, tok ≠ .delim c) ∧ dec.tokenStack = stack := by
      intro hsp st1 heq
      cases hD : Decode (c :: cs) with
      | error e => simp [hD] at heq
      | ok p =>
        obtain ⟨t, r⟩ := p
        simp only [hD, Except.ok.injEq, Prod.mk.injEq] at heq
        obtain ⟨ht, hd⟩ := heq
        subst ht; subst hd
        obtain ⟨hok, _⟩ := Decode_ok c cs hsp t r hD
        refine ⟨?_, rfl⟩
        intro ch hch
        subst hch
        simp [Token.scalarOK] at hok
    unfold tokenLoop at h
    by_cases h1 : isSpace c = true
    · simp only [h1, if_true] at h; exact ih st stack tok dec h
    simp only [h1, Bool.false_eq_true, if_false] at h
    have hsp : isSpace c = false := by simpa using h1
    by_cases h2 : (c == '[') = true
    · simp only [h2, if_true] at h
      split at h
      · rename_i hva
        simp only [Except.ok.injEq, Prod.mk.injEq] at h
        obtain ⟨ht, hd⟩ := h
        subst ht; subst hd
        exact Or.inl ⟨Or.inl rfl, rfl, hva.2⟩
      · simp at h
    simp only [h2, Bool.false_eq_true, if_false] at h
    by_cases h3 : (c == ']') = true
    · simp only [h3, if_true] at h
      split at h
      · split at h
        · simp only [Except.ok.injEq, Prod.mk.injEq] at h
          obtain ⟨ht, hd⟩ := h
          subst ht; subst hd
          exact Or.inr (Or.inl ⟨Or.inl rfl, rfl⟩)
        · simp at h
      · simp at h
    simp only [h3, Bool.false_eq_true, if_false] at h
    by_cases h4 : (c == '\x7b') = true
    · simp only [h4, if_true] at h
      split at h
      · rename_i hva
        simp only [Except.ok.injEq, Prod.mk.injEq] at h
        obtain ⟨ht, hd⟩ := h
        subst ht; subst hd
        exact Or.inl ⟨Or.inr rfl, rfl, hva.2⟩
      · simp at h
    simp only [h4, Bool.false_eq_true, if_false] at h
    by_cases h5 : (c == '\x7d') = true
    · simp only [h5, if_true] at h
      split at h
      · split at h
        · simp only [Except.ok.injEq, Prod.mk.injEq] at h
          obtain ⟨ht, hd⟩ := h
          subst ht; subst hd
          exact Or.inr (Or.inl ⟨Or.inr rfl, rfl⟩)
        · simp at h
      · simp at h
    simp only [h5, Bool.false_eq_true, if_false] at h
    by_cases h6 : (c == ':') = true
    · simp only [h6, if_true] at h
      split at h
      · exact ih _ stack tok dec h
      · simp at h
    simp only [h6, Bool.false_eq_true, if_false] at h
    by_cases h7 : (c == ',') = true
    · simp only [h7, if_true] at h
      split at h
      · exact ih _ stack tok dec h
      · split at h
        · exact ih _ stack tok dec h
        · simp at h
    simp only [h7, Bool.false_eq_true, if_false] at h
    split at h
    · exact Or.inr (Or.inr (hdecode hsp _ h))
    · split at h
      · exact Or.inr (Or.inr (hdecode hsp _ h))
      · simp at h

theorem drain_cons (fuel : Nat) (dec : Decoder) (t : Token) (ts : List Token) (e : Error)
    (h : drain fuel dec = some (t :: ts, e)) :
    ∃ f dec1, fuel = f + 1 ∧ dec.Token = .ok (t, dec1) ∧ drain f dec1 = some (ts, e) := by
  cases fuel with
  | zero => simp [drain] at h
  | succ n =>
    unfold drain at h
    cases hT : dec.Token with
    | error err => simp [hT] at h
    | ok p =>
      obtain ⟨tok, dec1⟩ := p
      simp only [hT] at h
      cases hd : drain n dec1 with
      | none => simp [hd] at h
      | some q =>
        obtain ⟨ts1, e1⟩ := q
        simp only [hd, Option.some.injEq, Prod.mk.injEq, List.cons.injEq] at h
        obtain ⟨⟨h1, h2⟩, h3⟩ := h
        subst h1; subst h2; subst h3
        exact ⟨n, dec1, rfl, rfl, hd⟩

mutual
/-- A value whose tokens the decoder returns fits under the nesting limit,
and after its tokens the stack of the decoder is as deep as before. -/
theorem depth_of_drain : (d : JValue) → ∀ (fuel : Nat) (dec : Decoder) (rest : List Token)
    (e : Error), drain fuel dec = some (d.tokens ++ rest, e) →
    dec.tokenStack.length ≤ maxNestingDepth →
    dec.tokenStack.length + d.depth ≤ maxNestingDepth ∧
      ∃ fuel1 dec1, drain fuel1 dec1 = some (rest, e) ∧
        dec1.tokenStack.length = dec.tokenStack.length
  | .null, fuel, dec, rest, e, h, hl => by
    obtain ⟨f, dec1, _, hT, hd⟩ := drain_cons fuel dec _ _ e h
    rcases tokenLoop_stack _ _ _ _ _ hT with ⟨h1, _⟩ | ⟨h1, _⟩ | ⟨_, h2⟩
    · simp at h1
    · simp at h1
    · exact ⟨by simpa [JValue.depth] using hl, f, dec1, hd, by rw [h2]⟩
  | .bool b, fuel, dec, rest, e, h, hl => by
    obtain ⟨f, dec1, _, hT, hd⟩ := drain_cons fuel dec _ _ e h
    rcases tokenLoop_stack _ _ _ _ _ hT with ⟨h1, _⟩ | ⟨h1, _⟩ | ⟨_, h2⟩
    · simp at h1
    · simp at h1
    · exact ⟨by simpa [JValue.depth] using hl, f, dec1, hd, by rw [h2]⟩
  | .num lit, fuel, dec, rest, e, h, hl => by
    obtain ⟨f, dec1, _, hT, hd⟩ := drain_cons fuel dec _ _ e h
    rcases tokenLoop_stack _ _ _ _ _ hT with ⟨h1, _⟩ | ⟨h1, _⟩ | ⟨_, h2⟩
    · simp at h1
    · simp at h1
    · exact ⟨by simpa [JValue.depth] using hl, f, dec1, hd, by rw [h2]⟩
  | .str s, fuel, dec, rest, e, h, hl => by
    obtain ⟨f, dec1, _, hT, hd⟩ := drain_cons fuel dec _ _ e h
    rcases tokenLoop_stack _ _ _ _ _ hT with ⟨h1, _⟩ | ⟨h1, _⟩ | ⟨_, h2⟩
    · simp at h1
    · simp at h1
    · exact ⟨by simpa [JValue.depth] using hl, f, dec1, hd, by rw [h2]⟩
  | .arr es, fuel, dec, rest, e, h, hl => by
    have htok : (JValue.arr es).tokens ++ rest =
        .delim '[' :: (es.tokens ++ (.delim ']' :: rest)) := by
      simp [JValue.tokens]
    rw [htok] at h
    obtain ⟨f, dec1, _, hT, hd⟩ := drain_cons fuel dec _ _ e h
    rcases tokenLoop_stack _ _ _ _ _ hT with ⟨_, h2, h3⟩ | ⟨h1, _⟩ | ⟨h1, _⟩
    · obtain ⟨hdep, f2, dec2, hd2, hl2⟩ := depth_of_drain_elems es f dec1 _ e hd (by omega)
      obtain ⟨f3, dec3, _, hT3, hd3⟩ := drain_cons f2 dec2 _ _ e hd2
      refine ⟨by simp only [JValue.depth]; omega, f3, dec3, hd3, ?_⟩
      rcases tokenLoop_stack _ _ _ _ _ hT3 with ⟨h4, _⟩ | ⟨_, h5⟩ | ⟨h4, _⟩
      · simp at h4
      · omega
      · exact absurd rfl (h4 ']')
    · simp at h1
    · exact absurd rfl (h1 '[')
  | .obj ms, fuel, dec, rest, e, h, hl => by
    have htok : (JValue.obj ms).tokens ++ rest =
        .delim '\x7b' :: (ms.tokens ++ (.delim '\x7d' :: rest)) := by
      simp [JValue.tokens]
    rw [htok] at h
    obtain ⟨f, dec1, _, hT, hd⟩ := drain_cons fuel dec _ _ e h
    rcases tokenLoop_stack _ _ _ _ _ hT with ⟨_, h2, h3⟩ | ⟨h1, _⟩ | ⟨h1, _⟩
    · obtain ⟨hdep, f2, dec2, hd2, hl2⟩ := depth_of_drain_members ms f dec1 _ e hd (by omega)
      obtain ⟨f3, dec3, _, hT3, hd3⟩ := drain_cons f2 dec2 _ _ e hd2
      refine ⟨by simp only [JValue.depth]; omega, f3, dec3, hd3, ?_⟩
      rcases tokenLoop_stack _ _ _ _ _ hT3 with ⟨h4, _⟩ | ⟨_, h5⟩ | ⟨h4, _⟩
      · simp at h4
      · omega
      · exact absurd rfl (h4 '\x7d')
    · simp at h1
    · exact absurd rfl (h1 '\x7b')
theorem depth_of_drain_elems : (es : JElems) → ∀ (fuel : Nat) (dec : Decoder)
    (rest : List Token) (e : Error), drain fuel dec = some (es.tokens ++ rest, e) →
    dec.tokenStack.length ≤ maxNestingDepth →
    dec.tokenStack.length + es.depth ≤ maxNestingDepth ∧
      ∃ fuel1 dec1, drain fuel1 dec1 = some (rest, e) ∧
        dec1.tokenStack.length = dec.tokenStack.length
  | .nil, fuel, dec, rest, e, h, hl => by
    simp only [JElems.tokens, List.nil_append] at h
    exact ⟨by simpa [JElems.depth] using hl, fuel, dec, h, rfl⟩
  | .cons v r, fuel, dec, rest, e, h, hl => by
    simp only [JElems.tokens, List.append_assoc] at h
    obtain ⟨h1, f1, dec1, hd1, hl1⟩ := depth_of_drain v fuel dec _ e h hl
    obtain ⟨h2, f2, dec2, hd2, hl2⟩ := depth_of_drain_elems r f1 dec1 rest e hd1 (by omega)
    refine ⟨by simp only [JElems.depth]; omega, f2, dec2, hd2, by omega⟩
theorem depth_of_drain_members : (ms : JMembers) → ∀ (fuel : Nat) (dec : Decoder)
    (rest : List Token) (e : Error), drain fuel dec = some (ms.tokens ++ rest, e) →
    dec.tokenStack.length ≤ maxNestingDepth →
    dec.tokenStack.length + ms.depth ≤ maxNestingDepth ∧
      ∃ fuel1 dec1, drain fuel1 dec1 = some (rest, e) ∧
        dec1.tokenStack.length = dec.tokenStack.length
  | .nil, fuel, dec, rest, e, h, hl => by
    simp only [JMembers.tokens, List.nil_append] at h
    exact ⟨by simpa [JMembers.depth] using hl, fuel, dec, h, rfl⟩
  | .cons k v r, fuel, dec, rest, e, h, hl => by
    simp only [JMembers.tokens, List.cons_append, List.append_assoc] at h
    obtain ⟨f0, dec0, _, hT, hd0⟩ := drain_cons fuel dec _ _ e h
    have hs : dec0.tokenStack = dec.tokenStack := by
      rcases tokenLoop_stack _ _ _ _ _ hT with ⟨h1, _⟩ | ⟨h1, _⟩ | ⟨_, h2⟩
      · simp at h1
      · simp at h1
      · exact h2
    obtain ⟨h1, f1, dec1, hd1, hl1⟩ := depth_of_drain v f0 dec0 _ e hd0 (by rw [hs]; exact hl)
    obtain ⟨h2, f2, dec2, hd2, hl2⟩ := depth_of_drain_members r f1 dec1 rest e hd1 (by omega)
    rw [hs] at h1 hl1
    refine ⟨by simp only [JMembers.depth]; omega, f2, dec2, hd2, by omega⟩
end

/-- A JSON document is nested at most `maxNestingDepth` deep: the decoder
refuses the opening delimiter of anything deeper. -/
theorem isDocument_depth (body : String) (d : JValue) (h : IsDocument body d) :
    d.depth ≤ maxNestingDepth := by
  unfold IsDocument decodeAll at h
  have h1 : drain (body.length + 1) (NewDecoder body.data) = some (d.tokens ++ [], .EOF) := by
    simpa using h
  have := (depth_of_drain d _ _ [] .EOF h1 (by simp [NewDecoder])).1
  simpa [NewDecoder] using this

theorem tokenLoop_open (st : TokenState) (stack : List TokenState) (X : List Char)
    (h : tokenValueAllowed st = true) (hlen : stack.length < maxNestingDepth) :
    tokenLoop st stack ('[' :: X) = .ok (.delim '[', ⟨X, tokenArrayStart, st :: stack⟩) ∧
    tokenLoop st stack ('\x7b' :: X) = .ok (.delim '\x7b', ⟨X, tokenObjectStart, st :: stack⟩) := by
  constructor
  · simp [tokenLoop, h, hlen, show isSpace '[' = false from by decide]
  · simp [tokenLoop, h, hlen, show isSpace '\x7b' = false from by decide]

/-! ## Documents nested deeper than the decoder accepts -/

theorem nestArrays_depth (v : JValue) : ∀ n, (nestArrays n v).depth = n + v.depth
  | 0 => by simp [nestArrays]
  | n + 1 => by
    simp only [nestArrays, JValue.depth, JElems.depth, nestArrays_depth v n]
    omega

theorem nestArrays_numbersValid (v : JValue) :
    ∀ n, (nestArrays n v).numbersValid = v.numbersValid
  | 0 => rfl
  | n + 1 => by
    simp only [nestArrays, JValue.numbersValid, JElems.numbersValid, nestArrays_numbersValid v n,
      Bool.and_true]

theorem nestArrays_render (v : JValue) : ∀ n, (nestArrays n v).render.data =
    List.replicate n '[' ++ (v.render.data ++ List.replicate n ']')
  | 0 => by simp [nestArrays]
  | n + 1 => by
    have e : (nestArrays (n + 1) v).render.data = '[' :: ((nestArrays n v).render.data ++ [']']) := by
      simp [nestArrays, JValue.render, JElems.render, String.data_append]
    rw [e, nestArrays_render v n, List.replicate_succ, List.replicate_succ' n ']']
    simp

/-- The decoder on `n` opening brackets that reach the nesting limit, followed
by one more opening delimiter: it returns the `n` brackets and then a syntax
error. -/
theorem drain_deep : ∀ (n : Nat) (st : TokenState) (stack : List TokenState) (c : Char)
    (rest : List Char) (fuel : Nat), tokenValueAllowed st = true →
    stack.length + n = maxNestingDepth → (c = '[' ∨ c = '\x7b') → n < fuel →
    drain fuel ⟨List.replicate n '[' ++ c :: rest, st, stack⟩ =
      some (List.replicate n (.delim '['), .SyntaxError)
  | 0, st, stack, c, rest, fuel, hva, hlen, hc, hf => by
    obtain ⟨f, rfl⟩ : ∃ f, fuel = f + 1 := ⟨fuel - 1, by omega⟩
    have hnot : ¬ (tokenValueAllowed st = true ∧ stack.length < maxNestingDepth) := by
      intro h
      omega
    have hT : tokenLoop st stack (c :: rest) = .error .SyntaxError := by
      rcases hc with rfl | rfl
      · simp [tokenLoop, hnot, show isSpace '[' = false from by decide]
      · simp [tokenLoop, hnot, show isSpace '\x7b' = false from by decide]
    simp [drain, Decoder.Token, hT]
  | n + 1, st, stack, c, rest, fuel, hva, hlen, hc, hf => by
    obtain ⟨f, rfl⟩ : ∃ f, fuel = f + 1 := ⟨fuel - 1, by omega⟩
    have hT := (tokenLoop_open st stack (List.replicate n '[' ++ c :: rest) hva (by omega)).1
    have ih := drain_deep n tokenArrayStart (st :: stack) c rest f rfl
      (by simp only [List.length_cons]; omega) hc (by omega)
    simp only [drain, Decoder.Token, List.replicate_succ, List.cons_append, hT, ih]

/-- The encoder on `n` opening brackets in a row writes them one after the
other. -/
theorem processTokens_opens (tab : UnicodeTables) (g : Option Converter) :
    ∀ (n : Nat) (enc : Encoder), (enc.state = unknown ∨ enc.state = array) →
    ∃ enc1, processTokens tab g enc (List.replicate n (.delim '[')) = .ok enc1 ∧
      enc1.strBuilder = enc.strBuilder ++ openBrackets n
  | 0, enc, _ => ⟨enc, rfl, by simp [openBrackets, String.ext_iff]⟩
  | n + 1, enc, h => by
    have hpos : ValuePos enc.state := by
      rcases h with h | h
      · exact Or.inl h
      · exact Or.inr (Or.inr (Or.inl h))
    have hsep : sepOf enc.state = "" := by
      rcases h with h | h <;> rw [h] <;> rfl
    have ho := (setState_open enc hpos).2
    obtain ⟨enc1, h1, h2⟩ := processTokens_opens tab g n
      ⟨enc.strBuilder ++ sepOf enc.state ++ "[", array,
        enc.stateStack.push (afterOf enc.state), enc.lastFieldName⟩ (Or.inr rfl)
    refine ⟨enc1, ?_, ?_⟩
    · simp only [List.replicate_succ, processTokens, processToken]
      simp only [show ¬ ('[' = '\x7b') from by decide, show ¬ ('[' = '\x7d') from by decide,
        if_false, if_true, ho, h1]
    · rw [h2, hsep]
      simp [openBrackets, String.ext_iff, String.data_append, List.replicate_succ]

theorem length_eq_data (s : String) : s.length = s.data.length := rfl

/-- A value that is an array or an object, inside `maxNestingDepth` arrays:
the decoder refuses its opening delimiter, and the encoder returns the opening
brackets written so far with the syntax error of the decoder. -/
theorem deep_nesting_cut (tab : UnicodeTables) (g : Option Converter) (v : JValue) (c : Char)
    (rest : List Char) (hv : v.render.data = c :: rest) (hc : c = '[' ∨ c = '\x7b') :
    MaskSensitiveJSONFields tab g (nestArrays maxNestingDepth v).render =
      some (openBrackets maxNestingDepth, some .SyntaxError) := by
  have hd : decodeAll (nestArrays maxNestingDepth v).render =
      some (List.replicate maxNestingDepth (.delim '['), .SyntaxError) := by
    unfold decodeAll NewDecoder
    rw [length_eq_data, nestArrays_render, hv]
    have := drain_deep maxNestingDepth tokenTopValue [] c
      (rest ++ List.replicate maxNestingDepth ']')
      ((List.replicate maxNestingDepth '[' ++
        (c :: rest ++ List.replicate maxNestingDepth ']')).length + 1) rfl (by simp) hc
      (by simp only [List.length_append, List.length_replicate]; omega)
    simpa using this
  obtain ⟨enc, hp, hm⟩ := mask_result tab g _ _ _ hd
  obtain ⟨enc1, hp1, hs⟩ := processTokens_opens tab g maxNestingDepth ⟨"", unknown, [], ""⟩
    (Or.inl rfl)
  rw [hp] at hp1
  simp only [Except.ok.injEq] at hp1
  subst hp1
  rw [hm, hs]
  simp

/-- The deep documents are JSON values with valid numbers, nested deeper than
`maxNestingDepth`. -/
theorem deep_document (v : JValue) (hv : v.numbersValid = true) (hd : 0 < v.depth) :
    (nestArrays maxNestingDepth v).numbersValid = true ∧
      maxNestingDepth < (nestArrays maxNestingDepth v).depth := by
  rw [nestArrays_numbersValid, nestArrays_depth]
  exact ⟨hv, by omega⟩



mutual
theorem masked_membersHidden (h : String → String → String) :
    (d : JValue) → (field : String) → d.membersHidden h (d.masked h field)
  | .null, _ => by simp [JValue.membersHidden]
  | .bool _, _ => by simp [JValue.membersHidden]
  | .num _, _ => by simp [JValue.membersHidden]
  | .str _, _ => by simp [JValue.membersHidden]
  | .arr es, _ => by
    simp only [JValue.masked, JValue.membersHidden]
    exact masked_membersHidden_elems h es
  | .obj ms, _ => by
    simp only [JValue.masked, JValue.membersHidden]
    exact masked_membersHidden_members h ms
theorem masked_membersHidden_elems (h : String → String → String) :
    (es : JElems) → es.membersHidden h (es.masked h)
  | .nil => by simp [JElems.membersHidden, JElems.masked]
  | .cons v rest => by
    simp only [JElems.masked, JElems.membersHidden]
    exact ⟨masked_membersHidden h v "", masked_membersHidden_elems h rest⟩
theorem masked_membersHidden_members (h : String → String → String) :
    (ms : JMembers) → ms.membersHidden h (ms.masked h)
  | .nil => by simp [JMembers.membersHidden, JMembers.masked]
  | .cons k v rest => by
    simp only [JMembers.masked, JMembers.membersHidden]
    refine ⟨?_, masked_membersHidden_members h rest⟩
    cases v with
    | str s => simp [JValue.masked]
    | null => exact masked_membersHidden h .null k
    | bool b => exact masked_membersHidden h (.bool b) k
    | num l => exact masked_membersHidden h (.num l) k
    | arr es => exact masked_membersHidden h (.arr es) k
    | obj ms1 => exact masked_membersHidden h (.obj ms1) k
end

mutual
theorem masked_elementsHidden (h : String → String → String) :
    (d : JValue) → (field : String) → d.elementsHidden h (d.masked h field)
  | .null, _ => by simp [JValue.elementsHidden]
  | .bool _, _ => by simp [JValue.elementsHidden]
  | .num _, _ => by simp [JValue.elementsHidden]
  | .str _, _ => by simp [JValue.elementsHidden]
  | .arr es, _ => by
    simp only [JValue.masked, JValue.elementsHidden]
    exact masked_elementsHidden_elems h es
  | .obj ms, _ => by
    simp only [JValue.masked, JValue.elementsHidden]
    exact masked_elementsHidden_members h ms
theorem masked_elementsHidden_elems (h : String → String → String) :
    (es : JElems) → es.elementsHidden h (es.masked h)
  | .nil => by simp [JElems.elementsHidden, JElems.masked]
  | .cons v rest => by
    simp only [JElems.masked, JElems.elementsHidden]
    refine ⟨?_, masked_elementsHidden_elems h rest⟩
    cases v with
    | str s => simp [JValue.masked]
    | null => exact masked_elementsHidden h .null ""
    | bool b => exact masked_elementsHidden h (.bool b) ""
    | num l => exact masked_elementsHidden h (.num l) ""
    | arr es => exact masked_elementsHidden h (.arr es) ""
    | obj ms1 => exact masked_elementsHidden h (.obj ms1) ""
theorem masked_elementsHidden_members (h : String → String → String) :
    (ms : JMembers) → ms.elementsHidden h (ms.masked h)
  | .nil => by simp [JMembers.elementsHidden, JMembers.masked]
  | .cons k v rest => by
    simp only [JMembers.masked, JMembers.elementsHidden]
    exact ⟨masked_elementsHidden h v k, masked_elementsHidden_members h rest⟩
end

mutual
theorem masked_shape (h : String → String → String) (keep : Bool)
    (hk : keep = true → ∀ k, h "" k = k) :
    (d : JValue) → (field : String) → (d.masked h field).shape keep = d.shape keep
  | .null, _ => rfl
  | .bool _, _ => rfl
  | .num _, _ => rfl
  | .str _, _ => rfl
  | .arr es, _ => by
    simp only [JValue.masked, JValue.shape, masked_shape_elems h keep hk es]
  | .obj ms, _ => by
    simp only [JValue.masked, JValue.shape, masked_shape_members h keep hk ms]
theorem masked_shape_elems (h : String → String → String) (keep : Bool)
    (hk : keep = true → ∀ k, h "" k = k) :
    (es : JElems) → (es.masked h).shape keep = es.shape keep
  | .nil => rfl
  | .cons v rest => by
    simp only [JElems.masked, JElems.shape, masked_shape h keep hk v "",
      masked_shape_elems h keep hk rest]
theorem masked_shape_members (h : String → String → String) (keep : Bool)
    (hk : keep = true → ∀ k, h "" k = k) :
    (ms : JMembers) → (ms.masked h).shape keep = ms.shape keep
  | .nil => rfl
  | .cons k v rest => by
    simp only [JMembers.masked, JMembers.shape, masked_shape h keep hk v k,
      masked_shape_members h keep hk rest]
    cases keep with
    | false => simp
    | true => simp [hk rfl k]
end

/-! ## Claims on the streaming encoder -/

/-- C1, counterexample: the document `bioDoc` inside 10000 arrays is a JSON
value whose string member `lastname` is nested deeper than the decoder
accepts.  With the name rule on `lastname` the encoder returns the 10000
opening brackets and the syntax error of the decoder: the member is not
emitted. -/
theorem deep_member_not_emitted :
    (nestArrays maxNestingDepth bioDoc).numbersValid = true ∧
      maxNestingDepth < (nestArrays maxNestingDepth bioDoc).depth ∧
      MaskSensitiveJSONFields tab0 (some testConverter)
          (nestArrays maxNestingDepth bioDoc).render =
        some (openBrackets maxNestingDepth, some .SyntaxError) :=
  ⟨(deep_document bioDoc rfl (by decide)).1, (deep_document bioDoc rfl (by decide)).2,
    deep_nesting_cut tab0 (some testConverter) bioDoc '\x7b' _ rfl (Or.inr rfl)⟩

/-- C1, amended: for every Converter and every JSON document the decoder
accepts, which is nested at most 10000 deep, the encoder returns the text of
the masked value with a nil error, and each string that is the direct value of
an object member named `k`, at any depth of that nesting, is emitted as the
JSON encoding of `Hide(k, value)`. -/
theorem member_strings_hidden (tab : UnicodeTables) (g : Option Converter) (body : String)
    (d : JValue) (h : IsDocument body d) :
    MaskSensitiveJSONFields tab g body = some ((d.masked (Hide tab g) "").render, none) ∧
      d.membersHidden (Hide tab g) (d.masked (Hide tab g) "") ∧
      d.depth ≤ maxNestingDepth :=
  ⟨mask_document tab g body d h, masked_membersHidden (Hide tab g) d "",
    isDocument_depth body d h⟩

/-- Witness of the amended C1, the nested-field scenario: with the name rule
on `lastname`, the document `bioBody` becomes the same document with `La**`. -/
theorem member_strings_hidden_witness :
    IsDocument bioBody bioDoc ∧
      MaskSensitiveJSONFields tab0 (some testConverter) bioBody =
        some ("\x7b\"bio\":\x7b\"lastname\":\"La**\"\x7d\x7d", none) :=
  ⟨by decide,
    (member_strings_hidden tab0 (some testConverter) bioBody bioDoc (by decide)).1.trans
      (by decide)⟩

/-- C3, counterexample: with the full-exclusion rule on `password`, the string
inside the array that is the value of `password` is emitted as it is, although
`Hide("password", "awesome")` is `*******`.  And inside 10000 arrays the same
document is nested deeper than the decoder accepts: the encoder returns the
10000 opening brackets and a syntax error, and the string is not emitted. -/
theorem array_element_not_hidden_by_member_name :
    IsDocument arrayBody arrayDoc ∧
      MaskSensitiveJSONFields tab0 (some testConverter) arrayBody =
        some ("\x7b\"password\":[\"awesome\"]\x7d", none) ∧
      MarshalString (Hide tab0 (some testConverter) "password" "awesome") = "\"*******\"" ∧
      maxNestingDepth < (nestArrays maxNestingDepth arrayDoc).depth ∧
      MaskSensitiveJSONFields tab0 (some testConverter)
          (nestArrays maxNestingDepth arrayDoc).render =
        some (openBrackets maxNestingDepth, some .SyntaxError) :=
  ⟨by decide, by decide, by decide, (deep_document arrayDoc rfl (by decide)).2,
    deep_nesting_cut tab0 (some testConverter) arrayDoc '\x7b' _ rfl (Or.inr rfl)⟩

/-- C3, amended: for every Converter and every JSON document the decoder
accepts, which is nested at most 10000 deep, a string that is an element of an
array is emitted as the JSON encoding of `Hide("", value)`, under the empty
field name, whatever member the array is the value of. -/
theorem array_strings_hidden_under_empty_name (tab : UnicodeTables) (g : Option Converter)
    (body : String) (d : JValue) (h : IsDocument body d) :
    MaskSensitiveJSONFields tab g body = some ((d.masked (Hide tab g) "").render, none) ∧
      d.elementsHidden (Hide tab g) (d.masked (Hide tab g) "") ∧
      d.depth ≤ maxNestingDepth :=
  ⟨mask_document tab g body d h, masked_elementsHidden (Hide tab g) d "",
    isDocument_depth body d h⟩

/-- Witness of the amended C3: with a full-exclusion rule on the empty field
name the string in the array is masked (and so is the field name). -/
theorem array_strings_hidden_under_empty_name_witness :
    IsDocument arrayBody arrayDoc ∧
      MaskSensitiveJSONFields tab0 (some emptyNameConverter) arrayBody =
        some ("\x7b\"********\":[\"*******\"]\x7d", none) :=
  ⟨by decide,
    (array_strings_hidden_under_empty_name tab0 (some emptyNameConverter) arrayBody arrayDoc
      (by decide)).1.trans (by decide)⟩

/-- C4, counterexample: a Converter whose full-exclusion rule claims the empty
field name (`NewConverter` builds it) masks the field name `a`.  And inside
10000 arrays the same document is nested deeper than the decoder accepts: with
the Converter of the tests, which does not claim the empty name, the encoder
returns the 10000 opening brackets and a syntax error, and no field name is
emitted. -/
theorem field_name_masked_by_empty_name_rule :
    (NewConverter [WithFullExcludeRule [""]]).map (fun c => c.fields.map Prod.fst) =
        some (emptyNameConverter.fields.map Prod.fst) ∧
      IsDocument smallBody smallDoc ∧
      MaskSensitiveJSONFields tab0 (some emptyNameConverter) smallBody =
        some ("\x7b\"*\":\"b\"\x7d", none) ∧
      maxNestingDepth < (nestArrays maxNestingDepth smallDoc).depth ∧
      MaskSensitiveJSONFields tab0 (some testConverter)
          (nestArrays maxNestingDepth smallDoc).render =
        some (openBrackets maxNestingDepth, some .SyntaxError) :=
  ⟨by decide, by decide, by decide, (deep_document smallDoc rfl (by decide)).2,
    deep_nesting_cut tab0 (some testConverter) smallDoc '\x7b' _ rfl (Or.inr rfl)⟩

theorem Hide_empty_name (tab : UnicodeTables) (g : Option Converter)
    (hno : ∀ c, g = some c → c.fields.lookup "" = none) (k : String) : Hide tab g "" k = k := by
  cases g with
  | none => rfl
  | some c => simp [Hide, Converter.Hide, Converter.HideN, hno c rfl]

/-- C4, amended: for every Converter none of whose rules claims the empty field
name and every JSON document the decoder accepts, which is nested at most
10000 deep, every object field name is emitted unchanged: the output has the
structure of the input with the same field names. -/
theorem field_names_unchanged (tab : UnicodeTables) (g : Option Converter) (body : String)
    (d : JValue) (hdoc : IsDocument body d)
    (hno : ∀ c, g = some c → c.fields.lookup "" = none) :
    MaskSensitiveJSONFields tab g body = some ((d.masked (Hide tab g) "").render, none) ∧
      (d.masked (Hide tab g) "").shape true = d.shape true ∧
      d.depth ≤ maxNestingDepth :=
  ⟨mask_document tab g body d hdoc,
    masked_shape (Hide tab g) true (fun _ => Hide_empty_name tab g hno) d "",
    isDocument_depth body d hdoc⟩

/-- Witness of the amended C4: the test Converter claims `lastname`, `email`,
`token` and `password`; the field names `bio` and `lastname` stay. -/
theorem field_names_unchanged_witness :
    IsDocument bioBody bioDoc ∧
      (∀ c, some testConverter = some c → c.fields.lookup "" = none) ∧
      (bioDoc.masked (Hide tab0 (some testConverter)) "").shape true = bioDoc.shape true :=
  ⟨by decide, by intro c hc; cases hc; rfl,
    (field_names_unchanged tab0 (some testConverter) bioBody bioDoc (by decide)
      (by intro c hc; cases hc; rfl)).2.1⟩

theorem tokens_ne_cut (d : JValue) :
    d.tokens ≠ [Token.delim '\x7b', Token.str "a", Token.str "b"] := by
  intro h
  cases d with
  | null => simp [JValue.tokens] at h
  | bool b => simp [JValue.tokens] at h
  | num l => simp [JValue.tokens] at h
  | str s => simp [JValue.tokens] at h
  | arr es => simp [JValue.tokens] at h
  | obj ms =>
    simp only [JValue.tokens, List.cons.injEq, true_and] at h
    have := congrArg List.getLast? h
    simp at this

/-- C5, counterexample: the input `cutBody` stops between two tokens inside an
open object; it is no JSON document, and the encoder returns it with a nil
error. -/
theorem cut_between_tokens_gives_nil_error :
    (¬ ∃ d, IsDocument cutBody d) ∧
      MaskSensitiveJSONFields tab0 none cutBody = some ("\x7b\"a\":\"b\"", none) := by
  refine ⟨?_, by decide⟩
  rintro ⟨d, hd⟩
  unfold IsDocument at hd
  have hc : decodeAll cutBody =
      some ([Token.delim '\x7b', Token.str "a", Token.str "b"], Error.EOF) := by decide
  rw [hc] at hd
  simp only [Option.some.injEq, Prod.mk.injEq, and_true] at hd
  exact tokens_ne_cut d hd.symm

/-- C5, amended: for every input, the error the encoder returns is the error
on which the tokenizer stops, unless that is the end of the input: malformed
text and text cut inside a literal give a non-nil error, an input that ends
between two tokens gives a nil error. -/
theorem error_is_decoder_error (tab : UnicodeTables) (g : Option Converter) (body : String)
    (toks : List Token) (e : Error) (h : decodeAll body = some (toks, e)) :
    ∃ out, MaskSensitiveJSONFields tab g body =
      some (out, if e = .EOF then none else some e) := by
  obtain ⟨enc, _, hm⟩ := mask_result tab g body toks e h
  exact ⟨enc.strBuilder, hm⟩

/-- Witness of the amended C5: an input cut inside a string literal gives the
error `io.ErrUnexpectedEOF`. -/
theorem error_is_decoder_error_witness :
    decodeAll cutInsideBody =
        some ([Token.delim '\x7b', Token.str "a"], Error.ErrUnexpectedEOF) ∧
      ∃ out, MaskSensitiveJSONFields tab0 none cutInsideBody =
        some (out, some Error.ErrUnexpectedEOF) :=
  ⟨by decide,
    error_is_decoder_error tab0 none cutInsideBody [Token.delim '\x7b', Token.str "a"]
      Error.ErrUnexpectedEOF (by decide)⟩

/-- C6, counterexample: on the truncated input the tokenizer still returns the
field name `d` and then reports the end of the input, so the encoder returns
the text up to and including `"d"` with a nil error. -/
theorem truncated_input_result :
    MaskSensitiveJSONFields tab0 none truncatedBody =
      some ("\x7b\"a\":\"b\",\"c\":\x7b\"d\"", none) := by
  decide

/-- C6, amended: on the truncated input the encoder returns, for every
Converter, the text of every token read (the field name `d` included), strings
passed through `Hide`, together with a nil error. -/
theorem truncated_input_general (tab : UnicodeTables) (g : Option Converter) :
    MaskSensitiveJSONFields tab g truncatedBody =
      some ("\x7b" ++ MarshalString (Hide tab g "" "a") ++ ":" ++
        MarshalString (Hide tab g "a" "b") ++ "," ++ MarshalString (Hide tab g "" "c") ++
        ":" ++ "\x7b" ++ MarshalString (Hide tab g "" "d"), none) := by
  have hd : drain (truncatedBody.length + 1) (NewDecoder truncatedBody.data) =
      some ([Token.delim '\x7b', Token.str "a", Token.str "b", Token.str "c",
        Token.delim '\x7b', Token.str "d"], Error.EOF) := by decide
  unfold MaskSensitiveJSONFields
  rw [maskLoop_of_drain tab g _ _ _ _ _ hd]
  simp [processTokens, processToken, setState, beforeNextValue, pushState, Marshal,
    intStack.push, String.append_assoc]

theorem NewConverterFields_lookup (r : rule) : ∀ (fs : List String)
    (fields out : List (String × rule)), NewConverterFields r fs fields = some out →
    ∀ key, out.lookup key =
      match fields.lookup key with
      | some x => some x
      | none => if key ∈ fs then some r else none := by
  intro fs
  induction fs with
  | nil =>
    intro fields out h key
    simp only [NewConverterFields, Option.some.injEq] at h
    subst h
    cases fields.lookup key <;> simp
  | cons f rest ih =>
    intro fields out h key
    simp only [NewConverterFields] at h
    split at h
    · simp at h
    · rename_i hnone
      have hf : fields.lookup f = none := by
        cases hl : fields.lookup f with
        | none => rfl
        | some x => simp [hl] at hnone
      rw [ih _ _ h key, List.lookup_append]
      cases hk : fields.lookup key with
      | some x => simp
      | none =>
        by_cases hkf : key = f
        · subst hkf
          simp [List.lookup]
        · have hne : (key == f) = false := by simpa using hkf
          simp [List.lookup, hne, hkf]

theorem NewConverterRules_lookup : ∀ (rules : List rule) (fields out : List (String × rule)),
    NewConverterRules rules fields = some out →
    ∀ key, out.lookup key =
      match fields.lookup key with
      | some x => some x
      | none => rules.find? (fun r => decide (key ∈ r.pattern)) := by
  intro rules
  induction rules with
  | nil =>
    intro fields out h key
    simp only [NewConverterRules, Option.some.injEq] at h
    subst h
    cases fields.lookup key <;> simp
  | cons r rest ih =>
    intro fields out h key
    simp only [NewConverterRules] at h
    cases hf : NewConverterFields r r.Fields fields with
    | none => simp [hf] at h
    | some mid =>
      simp only [hf] at h
      rw [ih mid out h key, NewConverterFields_lookup r r.Fields fields mid hf key]
      cases hk : fields.lookup key with
      | some x => simp
      | none =>
        by_cases hkr : key ∈ r.pattern
        · simp [rule.Fields, hkr, List.find?_cons]
        · simp [rule.Fields, hkr, List.find?_cons]

/-- The map of a Converter that `NewConverter` built sends a key to the first
rule that claims it. -/
theorem NewConverter_lookup (rules : List rule) (c : Converter)
    (h : NewConverter rules = some c) (key : String) :
    c.fields.lookup key = rules.find? (fun r => decide (key ∈ r.pattern)) := by
  unfold NewConverter at h
  cases hr : NewConverterRules rules [] with
  | none => simp [hr] at h
  | some out =>
    simp only [hr, Option.map_some', Option.some.injEq] at h
    subst h
    simpa using NewConverterRules_lookup rules [] out hr key

/-- C8: `Hide` equals its reference definition for every key and value (the
empty key included): the value unchanged when no Converter is active or no
rule of the active Converter claims the key, else the transform of the rule
that claims the key applied to the value. -/
theorem Hide_eq_reference (tab : UnicodeTables) (rules : List rule) (c : Converter)
    (h : NewConverter rules = some c) (key val : String) :
    Hide tab none key val = HideRef tab none none key val ∧
      Hide tab (some c) key val =
        HideRef tab (some rules) (some (c.HideN tab (some c) val.length)) key val := by
  refine ⟨rfl, ?_⟩
  simp only [Hide, Converter.Hide, Converter.HideN, HideRef, NewConverter_lookup rules c h key]
  cases rules.find? (fun r => decide (key ∈ r.pattern)) with
  | none => rfl
  | some r =>
    simp only [rule.Hide, Option.map_some']

/-- Witness of C8: the cases of `TestHideByKeyValue` with the Converter of the
tests. -/
theorem Hide_eq_reference_witness :
    NewConverter testRules = some testConverter ∧
      Hide tab0 (some testConverter) "password" "secret" = "******" ∧
      Hide tab0 (some testConverter) "" "load" = "load" ∧
      Hide tab0 (some testConverter) "username" "" = "" ∧
      HideRef tab0 (some testRules)
        (some (testConverter.HideN tab0 (some testConverter) "secret".length))
        "password" "secret" = "******" :=
  ⟨rfl, by decide, by decide, by decide,
    (Hide_eq_reference tab0 testRules testConverter rfl "password" "secret").2.symm.trans
      (by decide)⟩

/-! ## The decoder reads back the text the encoder writes -/

theorem follow_step (st : ScanState) (hst : st = .s0 ∨ st = .s1 ∨ st = .dot0 ∨ st = .e0)
    (rest : List Char) (hf : Follow rest) : readValue st rest = .ok ([], rest) := by
  rcases hf with hf | ⟨c, cs, hf, hc⟩
  · subst hf
    rcases hst with h | h | h | h <;> subst h <;> rfl
  · subst hf
    rcases hc with hc | hc | hc <;> subst hc <;>
      rcases hst with h | h | h | h <;> subst h <;> rfl

theorem readValue_cons_cont (st st1 : ScanState) (c : Char) (buf l r : List Char)
    (hs : st.step c = .cont st1) (h : readValue st1 buf = .ok (l, r)) :
    readValue st (c :: buf) = .ok (c :: l, r) := by
  simp only [readValue, hs, h]

theorem scan_e0 : ∀ (l rest : List Char), l.dropWhile isDigit09 = [] → Follow rest →
    readValue .e0 (l ++ rest) = .ok (l, rest) := by
  intro l
  induction l with
  | nil => intro rest _ hf; exact follow_step .e0 (by simp) rest hf
  | cons c l ih =>
    intro rest hd hf
    by_cases hc : isDigit09 c = true
    · rw [dropWhile_digit_cons c l hc] at hd
      exact readValue_cons_cont .e0 .e0 c _ _ _ (by simp [ScanState.step, hc]) (ih rest hd hf)
    · rw [dropWhile_nondigit_cons c l (by simpa using hc)] at hd
      simp at hd

theorem scan_exp (st : ScanState) (hst : st = .s0 ∨ st = .s1 ∨ st = .dot0)
    (l rest : List Char) (hl : isValidNumberExp l = true) (hf : Follow rest) :
    readValue st (l ++ rest) = .ok (l, rest) := by
  cases l with
  | nil => exact follow_step st (by rcases hst with h | h | h <;> simp [h]) rest hf
  | cons x l1 =>
    cases l1 with
    | nil => simp [isValidNumberExp] at hl
    | cons y r =>
      simp only [isValidNumberExp] at hl
      by_cases hx : (x == 'e' || x == 'E') = true
      · simp only [hx, if_true] at hl
        obtain ⟨hxd, hxdot⟩ := exp_char_not_digit x hx
        have hstep : st.step x = .cont .e := by
          rcases hst with h | h | h <;> subst h <;> simp [ScanState.step, hx, hxd, hxdot]
        refine readValue_cons_cont st .e x _ _ _ hstep ?_
        by_cases hy : (y == '+' || y == '-') = true
        · simp only [hy, if_true] at hl
          cases r with
          | nil => simp at hl
          | cons d r1 =>
            simp only [List.isEmpty_cons, Bool.false_eq_true, if_false] at hl
            by_cases hd : isDigit09 d = true
            · rw [dropWhile_digit_cons d r1 hd] at hl
              have hr1 : r1.dropWhile isDigit09 = [] := by simpa using hl
              refine readValue_cons_cont .e .eSign y _ _ _ (by simp [ScanState.step, hy]) ?_
              exact readValue_cons_cont .eSign .e0 d _ _ _ (by simp [ScanState.step, hd])
                (scan_e0 r1 rest hr1 hf)
            · rw [dropWhile_nondigit_cons d r1 (by simpa using hd)] at hl
              simp at hl
        · simp only [hy, Bool.false_eq_true, if_false] at hl
          by_cases hd : isDigit09 y = true
          · rw [dropWhile_digit_cons y r hd] at hl
            have hr : r.dropWhile isDigit09 = [] := by simpa using hl
            exact readValue_cons_cont .e .e0 y _ _ _ (by simp [ScanState.step, hy, hd])
              (scan_e0 r rest hr hf)
          · rw [dropWhile_nondigit_cons y r (by simpa using hd)] at hl
            simp at hl
      · simp [hx] at hl

theorem scan_dot0 : ∀ (l rest : List Char), isValidNumberExp (l.dropWhile isDigit09) = true →
    Follow rest → readValue .dot0 (l ++ rest) = .ok (l, rest) := by
  intro l
  induction l with
  | nil => intro rest _ hf; exact follow_step .dot0 (by simp) rest hf
  | cons c l ih =>
    intro rest hd hf
    by_cases hc : isDigit09 c = true
    · rw [dropWhile_digit_cons c l hc] at hd
      exact readValue_cons_cont .dot0 .dot0 c _ _ _ (by simp [ScanState.step, hc])
        (ih rest hd hf)
    · rw [dropWhile_nondigit_cons c l (by simpa using hc)] at hd
      exact scan_exp .dot0 (by simp) (c :: l) rest hd hf

theorem scan_tail (l rest : List Char) (hl : isValidNumberTail l = true) (hf : Follow rest) :
    readValue .s0 (l ++ rest) = .ok (l, rest) := by
  have hexp : isValidNumberExp l = true → readValue .s0 (l ++ rest) = .ok (l, rest) :=
    fun h => scan_exp .s0 (by simp) l rest h hf
  cases l with
  | nil => exact hexp hl
  | cons c l1 =>
    cases l1 with
    | nil => exact hexp hl
    | cons d r =>
      simp only [isValidNumberTail] at hl
      by_cases hcd : (c == '.' && isDigit09 d) = true
      · simp only [hcd, if_true] at hl
        simp only [Bool.and_eq_true] at hcd
        refine readValue_cons_cont .s0 .dot c _ _ _ (by simp [ScanState.step, hcd.1]) ?_
        exact readValue_cons_cont .dot .dot0 d _ _ _ (by simp [ScanState.step, hcd.2])
          (scan_dot0 r rest hl hf)
      · simp only [hcd, Bool.false_eq_true, if_false] at hl
        exact hexp hl

theorem scan_s1 : ∀ (l rest : List Char), isValidNumberTail (l.dropWhile isDigit09) = true →
    Follow rest → readValue .s1 (l ++ rest) = .ok (l, rest) := by
  intro l
  induction l with
  | nil => intro rest _ hf; exact follow_step .s1 (by simp) rest hf
  | cons c l ih =>
    intro rest hd hf
    by_cases hc : isDigit09 c = true
    · rw [dropWhile_digit_cons c l hc] at hd
      exact readValue_cons_cont .s1 .s1 c _ _ _ (by simp [ScanState.step, hc]) (ih rest hd hf)
    · rw [dropWhile_nondigit_cons c l (by simpa using hc)] at hd
      have h0 := scan_tail (c :: l) rest hd hf
      have hcf : isDigit09 c = false := by simpa using hc
      simp only [List.cons_append, readValue, ScanState.step] at h0 ⊢
      simpa only [hcf, Bool.false_eq_true, if_false] using h0

/-- The decoder reads a number literal back: followed by nothing, a comma or a
closing delimiter, the literal is the next token and the rest is unread. -/
theorem Decode_number (lit : String) (rest : List Char) (hne : lit ≠ "")
    (hv : isValidNumber lit.data = true) (hf : Follow rest) :
    Decode (lit.data ++ rest) = .ok (.number lit, rest) ∧
      ∃ c l, lit.data = c :: l ∧ (c = '-' ∨ isDigit09 c = true) := by
  obtain ⟨l⟩ := lit
  simp only at hv ⊢
  cases l with
  | nil => exact absurd rfl hne
  | cons c l1 =>
    have key : ∀ (l2 : List Char), (c = '-' ∨ isDigit09 c = true) →
        readValue .beginValue ((c :: l1) ++ rest) = .ok (c :: l1, rest) →
        Decode ((c :: l1) ++ rest) = .ok (.number ⟨c :: l1⟩, rest) := by
      intro _ hc hr
      have hn : (c == 'n') = false ∧ (c == 't') = false ∧ (c == 'f') = false ∧
          (c == '"') = false := by
        rcases hc with hc | hc
        · subst hc; decide
        · refine ⟨?_, ?_, ?_, ?_⟩ <;>
            (apply Bool.eq_false_iff.mpr; intro heq
             have := eq_of_beq heq; subst this; revert hc; decide)
      have hcc : (c == '-' || isDigit09 c) = true := by
        rcases hc with hc | hc
        · subst hc; decide
        · simp [hc]
      simp only [Decode, hr, literalInterface, hn.1, hn.2.1, hn.2.2.1, hn.2.2.2,
        Bool.false_eq_true, if_false, hcc, if_true]
    by_cases hm : (c == '-') = true
    · have hcm : c = '-' := by simpa using hm
      subst hcm
      refine ⟨key [] (Or.inl rfl) ?_, _, _, rfl, Or.inl rfl⟩
      refine readValue_cons_cont .beginValue .neg '-' _ _ _ (by decide) ?_
      simp only [isValidNumber, beq_self_eq_true, if_true] at hv
      cases l1 with
      | nil => simp at hv
      | cons d l2 =>
        simp only at hv
        by_cases h0 : (d == '0') = true
        · simp only [h0, if_true] at hv
          exact readValue_cons_cont .neg .s0 d _ _ _ (by simp [ScanState.step, h0])
            (scan_tail l2 rest hv hf)
        · simp only [h0, Bool.false_eq_true, if_false] at hv
          by_cases h19 : ('1' ≤ d && d ≤ '9') = true
          · simp only [h19, if_true] at hv
            exact readValue_cons_cont .neg .s1 d _ _ _ (by simp [ScanState.step, h0, h19])
              (scan_s1 l2 rest hv hf)
          · simp [h19] at hv
    · simp only [isValidNumber, hm, Bool.false_eq_true, if_false] at hv
      by_cases h0 : (c == '0') = true
      · have hc0 : c = '0' := by simpa using h0
        subst hc0
        simp only [beq_self_eq_true, if_true] at hv
        refine ⟨key [] (Or.inr (by decide)) ?_, _, _, rfl, Or.inr (by decide)⟩
        exact readValue_cons_cont .beginValue .s0 '0' _ _ _ (by decide)
          (scan_tail l1 rest hv hf)
      · simp only [h0, Bool.false_eq_true, if_false] at hv
        by_cases h19 : ('1' ≤ c && c ≤ '9') = true
        · simp only [h19, if_true] at hv
          have hdig : isDigit09 c = true := by
            simp only [isDigit09, Bool.and_eq_true, decide_eq_true_eq] at h19 ⊢
            exact ⟨le_trans (by decide) h19.1, h19.2⟩
          have hstep : ScanState.step .beginValue c = .cont .s1 := by
            have hsp : isSpace c = false := by
              apply Bool.eq_false_iff.mpr; intro hs
              simp only [isSpace, Bool.or_eq_true, beq_iff_eq] at hs
              rcases hs with ((hs | hs) | hs) | hs <;> (subst hs; revert hdig; decide)
            have hq : (c == '"') = false ∧ (c == 't') = false ∧ (c == 'f') = false ∧
                (c == 'n') = false := by
              refine ⟨?_, ?_, ?_, ?_⟩ <;>
                (apply Bool.eq_false_iff.mpr; intro heq
                 have := eq_of_beq heq; subst this; revert hdig; decide)
            simp [ScanState.step, hsp, hq.1, hq.2.1, hq.2.2.1, hq.2.2.2, hm, h0, h19]
          refine ⟨key [] (Or.inr hdig) ?_, _, _, rfl, Or.inr hdig⟩
          exact readValue_cons_cont .beginValue .s1 c _ _ _ hstep (scan_s1 l1 rest hv hf)
        · simp [h19] at hv

theorem isHex_hexDigit : ∀ n, n < 16 → isHex (hexDigit n) = true ∧ hexVal (hexDigit n) = n := by
  decide

theorem readValue_endValue (rest : List Char) : readValue .endValue rest = .ok ([], rest) := by
  cases rest <;> rfl

theorem toNat_ne_of_ge (c d : Char) (h : d.toNat < c.toNat) : (c == d) = false := by
  apply Bool.eq_false_iff.mpr
  intro heq
  have := eq_of_beq heq
  subst this
  omega

/-- The scanner accepts the escaped form of one character inside a string. -/
theorem scan_escapeChar (c : Char) (X l r : List Char)
    (h : readValue .inString X = .ok (l, r)) :
    readValue .inString (escapeChar c ++ X) = .ok (escapeChar c ++ l, r) := by
  have hu : ∀ (a b e f : Char), isHex a = true → isHex b = true → isHex e = true →
      isHex f = true →
      readValue .inString ('\\' :: 'u' :: a :: b :: e :: f :: X) =
        .ok ('\\' :: 'u' :: a :: b :: e :: f :: l, r) := by
    intro a b e f ha hb he hf
    refine readValue_cons_cont .inString .inStringEsc _ _ _ _ (by decide) ?_
    refine readValue_cons_cont .inStringEsc .inStringEscU _ _ _ _ (by decide) ?_
    refine readValue_cons_cont .inStringEscU .inStringEscU1 _ _ _ _
      (by simp [ScanState.step, ha]) ?_
    refine readValue_cons_cont .inStringEscU1 .inStringEscU12 _ _ _ _
      (by simp [ScanState.step, hb]) ?_
    refine readValue_cons_cont .inStringEscU12 .inStringEscU123 _ _ _ _
      (by simp [ScanState.step, he]) ?_
    exact readValue_cons_cont .inStringEscU123 .inString _ _ _ _
      (by simp [ScanState.step, hf]) h
  have h2 : ∀ (e : Char), ScanState.step .inStringEsc e = .cont .inString →
      readValue .inString ('\\' :: e :: X) = .ok ('\\' :: e :: l, r) := by
    intro e he
    refine readValue_cons_cont .inString .inStringEsc _ _ _ _ (by decide) ?_
    exact readValue_cons_cont .inStringEsc .inString _ _ _ _ he h
  unfold escapeChar
  split_ifs with h80 hq hb hf hn hr ht hlow h2028
  · simp only [List.cons_append, List.nil_append]
    refine h2 c ?_
    simp only [Bool.or_eq_true, beq_iff_eq] at hq
    rcases hq with hq | hq <;> subst hq <;> decide
  · exact h2 'b' (by decide)
  · exact h2 'f' (by decide)
  · exact h2 'n' (by decide)
  · exact h2 'r' (by decide)
  · exact h2 't' (by decide)
  · have h1 := isHex_hexDigit (c.toNat / 16) (by omega)
    have h3 := isHex_hexDigit (c.toNat % 16) (by omega)
    exact hu '0' '0' _ _ (by decide) (by decide) h1.1 h3.1
  · simp only [List.cons_append, List.nil_append]
    simp only [Bool.or_eq_true, beq_iff_eq, not_or, decide_eq_true_eq] at hq hlow
    have hq1 : (c == '"') = false := by simpa using hq.2
    have hq2 : (c == '\\') = false := by simpa using hq.1
    have hq3 : ¬ c.toNat < 32 := by
      have := hlow.1.1.1
      simpa using this
    exact readValue_cons_cont .inString .inString _ _ _ _
      (by simp [ScanState.step, hq1, hq2, hq3]) h
  · have h3 := isHex_hexDigit (c.toNat % 16) (by omega)
    exact hu '2' '0' '2' _ (by decide) (by decide) (by decide) h3.1
  · simp only [List.cons_append, List.nil_append]
    have hge : 128 ≤ c.toNat := by omega
    have hq1 : (c == '"') = false := toNat_ne_of_ge c '"' (by
      have : ('"' : Char).toNat = 34 := by decide
      omega)
    have hq2 : (c == '\\') = false := toNat_ne_of_ge c '\\' (by
      have : ('\\' : Char).toNat = 92 := by decide
      omega)
    have hq3 : ¬ c.toNat < 32 := by omega
    exact readValue_cons_cont .inString .inString _ _ _ _
      (by simp [ScanState.step, hq1, hq2, hq3]) h

/-- The scanner accepts the text of an encoded string up to its closing quote. -/
theorem scan_string : ∀ (s rest : List Char),
    readValue .inString (s.flatMap escapeChar ++ '"' :: rest) =
      .ok (s.flatMap escapeChar ++ ['"'], rest) := by
  intro s
  induction s with
  | nil =>
    intro rest
    exact readValue_cons_cont .inString .endValue '"' _ _ _ (by decide)
      (readValue_endValue rest)
  | cons c s ih =>
    intro rest
    simp only [List.flatMap_cons, List.append_assoc]
    exact scan_escapeChar c _ _ _ (ih rest)

theorem unquote_u (n : Nat) (a b e f : Char) (X : List Char) (rr : Nat)
    (hg : getu4 ('\\' :: 'u' :: a :: b :: e :: f :: X) = some rr)
    (hs : ¬ (0xD800 ≤ rr ∧ rr < 0xE000)) :
    unquote (n + 1) ('\\' :: 'u' :: a :: b :: e :: f :: X) =
      (unquote n X).map (Char.ofNat rr :: ·) := by
  have h1 : (('u' : Char) == '"' || ('u' : Char) == '\\' || ('u' : Char) == '/'
      || decide (('u' : Char).toNat = 39)) = false := by decide
  have hs2 : (decide (0xD800 ≤ rr) && decide (rr < 0xE000)) = false := by
    simpa using hs
  simp only [unquote, beq_self_eq_true, if_true, h1, Bool.false_eq_true, if_false,
    show (('u' : Char) == 'b') = false from by decide,
    show (('u' : Char) == 'f') = false from by decide,
    show (('u' : Char) == 'n') = false from by decide,
    show (('u' : Char) == 'r') = false from by decide,
    show (('u' : Char) == 't') = false from by decide, hg, hs2, List.drop_succ_cons,
    List.drop_zero]

/-- Unquoting undoes the escaping of one character. -/
theorem unquote_escapeChar (c : Char) (X : List Char) (n : Nat) :
    unquote (n + 1) (escapeChar c ++ X) = (unquote n X).map (c :: ·) := by
  have h2 : ∀ (e d : Char), unquote (n + 1) ('\\' :: e :: X) = (unquote n X).map (d :: ·) →
      d = c → unquote (n + 1) ('\\' :: e :: X) = (unquote n X).map (c :: ·) := by
    intro e d h hd; rw [← hd]; exact h
  unfold escapeChar
  split_ifs with h80 hq hb hf hn hr ht hlow h2028
  · simp only [List.cons_append, List.nil_append]
    simp only [Bool.or_eq_true, beq_iff_eq] at hq
    rcases hq with hq | hq <;> subst hq <;> simp [unquote]
  · exact h2 'b' '\x08' (by simp [unquote]) (eq_of_beq hb).symm
  · exact h2 'f' '\x0c' (by simp [unquote]) (eq_of_beq hf).symm
  · exact h2 'n' '\n' (by simp [unquote]) (eq_of_beq hn).symm
  · exact h2 'r' '\r' (by simp [unquote]) (eq_of_beq hr).symm
  · exact h2 't' '\t' (by simp [unquote]) (eq_of_beq ht).symm
  · have h1 := isHex_hexDigit (c.toNat / 16) (by omega)
    have h3 := isHex_hexDigit (c.toNat % 16) (by omega)
    have hg : getu4 ('\\' :: 'u' :: '0' :: '0' :: hexDigit (c.toNat / 16) ::
        hexDigit (c.toNat % 16) :: X) = some c.toNat := by
      have h00 : isHex '0' = true ∧ hexVal '0' = 0 := by decide
      simp only [getu4, h00.1, h1.1, h3.1, Bool.and_self, if_true, h00.2, h1.2, h3.2,
        Option.some.injEq]
      omega
    have := unquote_u n '0' '0' _ _ X c.toNat hg (by omega)
    simpa [Char.ofNat_toNat] using this
  · simp only [List.cons_append, List.nil_append]
    simp only [Bool.or_eq_true, beq_iff_eq, not_or, decide_eq_true_eq] at hq hlow
    have hq1 : (c == '"') = false := by simpa using hq.2
    have hq2 : (c == '\\') = false := by simpa using hq.1
    have hq3 : ¬ c.toNat < 32 := by
      have := hlow.1.1.1
      simpa using this
    simp [unquote, hq1, hq2, hq3]
  · have h3 := isHex_hexDigit (c.toNat % 16) (by omega)
    have hg : getu4 ('\\' :: 'u' :: '2' :: '0' :: '2' :: hexDigit (c.toNat % 16) :: X) =
        some c.toNat := by
      have h00 : isHex '0' = true ∧ hexVal '0' = 0 := by decide
      have h22 : isHex '2' = true ∧ hexVal '2' = 2 := by decide
      simp only [getu4, h00.1, h22.1, h3.1, Bool.and_self, if_true, h00.2, h22.2, h3.2,
        Option.some.injEq]
      omega
    have := unquote_u n '2' '0' '2' _ X c.toNat hg (by omega)
    simpa [Char.ofNat_toNat] using this
  · simp only [List.cons_append, List.nil_append]
    have hge : 128 ≤ c.toNat := by omega
    have hq1 : (c == '"') = false := toNat_ne_of_ge c '"' (by
      have : ('"' : Char).toNat = 34 := by decide
      omega)
    have hq2 : (c == '\\') = false := toNat_ne_of_ge c '\\' (by
      have : ('\\' : Char).toNat = 92 := by decide
      omega)
    have hq3 : ¬ c.toNat < 32 := by omega
    simp [unquote, hq1, hq2, hq3]

theorem escapeChar_length (c : Char) : 1 ≤ (escapeChar c).length := by
  unfold escapeChar
  split_ifs <;> simp

theorem unquote_string : ∀ (s : List Char) (n : Nat), (s.flatMap escapeChar).length < n →
    unquote n (s.flatMap escapeChar) = some s := by
  intro s
  induction s with
  | nil =>
    intro n hn
    cases n with
    | zero => simp at hn
    | succ m => simp [unquote]
  | cons c s ih =>
    intro n hn
    cases n with
    | zero => simp at hn
    | succ m =>
      simp only [List.flatMap_cons, List.length_append] at hn ⊢
      have := escapeChar_length c
      rw [unquote_escapeChar c _ m, ih m (by omega)]
      rfl

/-- The decoder reads an encoded string back, whatever follows it. -/
theorem Decode_string (s : String) (rest : List Char) :
    Decode ((MarshalString s).data ++ rest) = .ok (.str s, rest) := by
  have hr : readValue .beginValue
      ('"' :: (s.data.flatMap escapeChar ++ '"' :: rest)) =
      .ok ('"' :: (s.data.flatMap escapeChar ++ ['"']), rest) :=
    readValue_cons_cont .beginValue .inString '"' _ _ _ (by decide) (scan_string s.data rest)
  have hu := unquote_string s.data ((s.data.flatMap escapeChar ++ ['"']).length + 1)
    (by simp only [List.length_append, List.length_singleton]; omega)
  have hbuf : (MarshalString s).data ++ rest =
      '"' :: (s.data.flatMap escapeChar ++ '"' :: rest) := by
    simp [MarshalString]
  rw [hbuf]
  simp only [Decode, hr, literalInterface, show (('"' : Char) == 'n') = false from by decide,
    show (('"' : Char) == 't') = false from by decide,
    show (('"' : Char) == 'f') = false from by decide, beq_self_eq_true, if_true,
    Bool.false_eq_true, if_false, List.dropLast_concat, hu]

theorem yields_append {a b c : Decoder} {xs ys : List Token} (h1 : Yields a xs b)
    (h2 : Yields b ys c) : Yields a (xs ++ ys) c := by
  induction h1 with
  | nil dec => simpa using h2
  | cons ht _ ih => exact Yields.cons ht (ih h2)

theorem drain_of_yields {dec dec1 : Decoder} {toks : List Token} (h : Yields dec toks dec1)
    (e : Error) (he : dec1.Token = .error e) :
    ∀ fuel, dec.buf.length < fuel → drain fuel dec = some (toks, e) := by
  induction h with
  | nil d =>
    intro fuel hf
    cases fuel with
    | zero => omega
    | succ n => simp [drain, he]
  | cons ht _ ih =>
    intro fuel hf
    cases fuel with
    | zero => omega
    | succ n =>
      have hlt := (Token_ok _ _ _ ht).2
      simp [drain, ht, ih he n (by omega)]

theorem tokenLoop_close (top : TokenState) (stack : List TokenState) (X : List Char) :
    (∀ st, st = tokenArrayStart ∨ st = tokenArrayComma →
      tokenLoop st (top :: stack) (']' :: X) =
        .ok (.delim ']', ⟨X, tokenValueEnd top, stack⟩)) ∧
    (∀ st, st = tokenObjectStart ∨ st = tokenObjectComma →
      tokenLoop st (top :: stack) ('\x7d' :: X) =
        .ok (.delim '\x7d', ⟨X, tokenValueEnd top, stack⟩)) := by
  constructor
  · intro st h
    simp [tokenLoop, h, show isSpace ']' = false from by decide]
  · intro st h
    simp [tokenLoop, h, show isSpace '\x7d' = false from by decide]

theorem tokenLoop_skip (stack : List TokenState) (X : List Char) :
    tokenLoop tokenArrayComma stack (',' :: X) = tokenLoop tokenArrayValue stack X ∧
    tokenLoop tokenObjectComma stack (',' :: X) = tokenLoop tokenObjectKey stack X ∧
    tokenLoop tokenObjectColon stack (':' :: X) = tokenLoop tokenObjectValue stack X := by
  refine ⟨?_, ?_, ?_⟩
  · simp [tokenLoop, show isSpace ',' = false from by decide]
  · simp [tokenLoop, show isSpace ',' = false from by decide]
  · simp [tokenLoop, show isSpace ':' = false from by decide]

/-- The characters a scalar literal can start with. -/
theorem scalar_start_props (c : Char)
    (hc : c = '"' ∨ c = '-' ∨ isDigit09 c = true ∨ c = 'n' ∨ c = 't' ∨ c = 'f') :
    isSpace c = false ∧ (c == '[') = false ∧ (c == ']') = false ∧ (c == '\x7b') = false ∧
      (c == '\x7d') = false ∧ (c == ':') = false ∧ (c == ',') = false := by
  rcases hc with h | h | h | h | h | h
  · subst h; decide
  · subst h; decide
  · have hne : ∀ d : Char, isDigit09 d = false → (c == d) = false := by
      intro d hd
      apply Bool.eq_false_iff.mpr
      intro heq
      have := eq_of_beq heq
      subst this
      simp [h] at hd
    refine ⟨?_, hne _ (by decide), hne _ (by decide), hne _ (by decide), hne _ (by decide),
      hne _ (by decide), hne _ (by decide)⟩
    apply Bool.eq_false_iff.mpr
    intro hs
    simp only [isSpace, Bool.or_eq_true, beq_iff_eq] at hs
    rcases hs with ((hs | hs) | hs) | hs <;> (subst hs; revert h; decide)
  · subst h; decide
  · subst h; decide
  · subst h; decide

theorem tokenLoop_value (st : TokenState) (stack : List TokenState) (c : Char)
    (cs : List Char) (hva : tokenValueAllowed st = true)
    (hc : c = '"' ∨ c = '-' ∨ isDigit09 c = true ∨ c = 'n' ∨ c = 't' ∨ c = 'f') :
    tokenLoop st stack (c :: cs) =
      match Decode (c :: cs) with
      | .error err => .error err
      | .ok (tok, rest) => .ok (tok, ⟨rest, tokenValueEnd st, stack⟩) := by
  obtain ⟨h1, h2, h3, h4, h5, h6, h7⟩ := scalar_start_props c hc
  have hkey : ¬ ((c == '"') = true ∧ (st = tokenObjectStart ∨ st = tokenObjectKey)) := by
    rintro ⟨_, hst | hst⟩ <;> subst hst <;> simp [tokenValueAllowed] at hva
  unfold tokenLoop
  simp only [h1, h2, h3, h4, h5, h6, h7, Bool.false_eq_true, if_false, hkey, hva, if_true]

theorem tokenLoop_key (st : TokenState) (stack : List TokenState) (cs : List Char)
    (hst : st = tokenObjectStart ∨ st = tokenObjectKey) :
    tokenLoop st stack ('"' :: cs) =
      match Decode ('"' :: cs) with
      | .error err => .error err
      | .ok (tok, rest) => .ok (tok, ⟨rest, tokenObjectColon, stack⟩) := by
  obtain ⟨h1, h2, h3, h4, h5, h6, h7⟩ := scalar_start_props '"' (Or.inl rfl)
  unfold tokenLoop
  simp only [h1, h2, h3, h4, h5, h6, h7, Bool.false_eq_true, if_false, beq_self_eq_true,
    true_and, hst, if_true]

theorem Decode_literal (rest : List Char) :
    Decode ('n' :: 'u' :: 'l' :: 'l' :: rest) = .ok (.null, rest) ∧
    Decode ('t' :: 'r' :: 'u' :: 'e' :: rest) = .ok (.bool true, rest) ∧
    Decode ('f' :: 'a' :: 'l' :: 's' :: 'e' :: rest) = .ok (.bool false, rest) := by
  have hn : readValue .beginValue ('n' :: 'u' :: 'l' :: 'l' :: rest) =
      .ok (['n', 'u', 'l', 'l'], rest) :=
    readValue_cons_cont _ .n _ _ _ _ (by decide) <|
    readValue_cons_cont _ .nu _ _ _ _ (by decide) <|
    readValue_cons_cont _ .nul _ _ _ _ (by decide) <|
    readValue_cons_cont _ .endValue _ _ _ _ (by decide) (readValue_endValue rest)
  have ht : readValue .beginValue ('t' :: 'r' :: 'u' :: 'e' :: rest) =
      .ok (['t', 'r', 'u', 'e'], rest) :=
    readValue_cons_cont _ .t _ _ _ _ (by decide) <|
    readValue_cons_cont _ .tr _ _ _ _ (by decide) <|
    readValue_cons_cont _ .tru _ _ _ _ (by decide) <|
    readValue_cons_cont _ .endValue _ _ _ _ (by decide) (readValue_endValue rest)
  have hf : readValue .beginValue ('f' :: 'a' :: 'l' :: 's' :: 'e' :: rest) =
      .ok (['f', 'a', 'l', 's', 'e'], rest) :=
    readValue_cons_cont _ .f _ _ _ _ (by decide) <|
    readValue_cons_cont _ .fa _ _ _ _ (by decide) <|
    readValue_cons_cont _ .fal _ _ _ _ (by decide) <|
    readValue_cons_cont _ .fals _ _ _ _ (by decide) <|
    readValue_cons_cont _ .endValue _ _ _ _ (by decide) (readValue_endValue rest)
  refine ⟨?_, ?_, ?_⟩
  · simp only [Decode, hn]; rfl
  · simp only [Decode, ht]; rfl
  · simp only [Decode, hf]; rfl

theorem follow_elems (r : JElems) (rest : List Char) :
    Follow ((r.render false).data ++ ']' :: rest) := by
  cases r with
  | nil => exact Or.inr ⟨']', rest, by simp [JElems.render], Or.inr (Or.inl rfl)⟩
  | cons v r1 =>
    exact Or.inr ⟨',', _, by simp [JElems.render, String.data_append]; rfl, Or.inl rfl⟩

theorem follow_members (r : JMembers) (rest : List Char) :
    Follow ((r.render false).data ++ '\x7d' :: rest) := by
  cases r with
  | nil => exact Or.inr ⟨'\x7d', rest, by simp [JMembers.render], Or.inr (Or.inr rfl)⟩
  | cons k v r1 =>
    exact Or.inr ⟨',', _, by simp [JMembers.render, String.data_append]; rfl, Or.inl rfl⟩

theorem yields_scalar (dec : Decoder) (st : TokenState) (stack : List TokenState) (c : Char)
    (cs rest : List Char) (tok : Token) (hva : tokenValueAllowed st = true)
    (hc : c = '"' ∨ c = '-' ∨ isDigit09 c = true ∨ c = 'n' ∨ c = 't' ∨ c = 'f')
    (hd : Decode (c :: cs) = .ok (tok, rest)) (hdec : dec.Token = tokenLoop st stack (c :: cs)) :
    Yields dec [tok] ⟨rest, tokenValueEnd st, stack⟩ := by
  refine Yields.cons ?_ (Yields.nil _)
  rw [hdec, tokenLoop_value st stack c cs hva hc, hd]

mutual
/-- The decoder reads the text of a value back as its tokens. -/
theorem value_yields : (d : JValue) → ∀ (dec : Decoder) (st : TokenState)
    (stack : List TokenState) (rest : List Char), tokenValueAllowed st = true → Follow rest →
    d.numbersValid = true → stack.length + d.depth ≤ maxNestingDepth →
    dec.Token = tokenLoop st stack (d.render.data ++ rest) →
    Yields dec d.tokens ⟨rest, tokenValueEnd st, stack⟩
  | .null, dec, st, stack, rest, hva, _, _, _, hdec =>
    yields_scalar dec st stack 'n' _ rest .null hva (by simp) (Decode_literal rest).1 hdec
  | .bool true, dec, st, stack, rest, hva, _, _, _, hdec =>
    yields_scalar dec st stack 't' _ rest (.bool true) hva (by simp)
      (Decode_literal rest).2.1 hdec
  | .bool false, dec, st, stack, rest, hva, _, _, _, hdec =>
    yields_scalar dec st stack 'f' _ rest (.bool false) hva (by simp)
      (Decode_literal rest).2.2 hdec
  | .num lit, dec, st, stack, rest, hva, hf, hv, _, hdec => by
    simp only [JValue.numbersValid, Bool.and_eq_true, bne_iff_ne, ne_eq] at hv
    obtain ⟨hD, c, l, hl, hc⟩ := Decode_number lit rest hv.1 hv.2 hf
    simp only [JValue.render, hl, List.cons_append] at hdec hD
    refine yields_scalar dec st stack c _ rest (.number lit) hva ?_ hD hdec
    rcases hc with hc | hc
    · exact Or.inr (Or.inl hc)
    · exact Or.inr (Or.inr (Or.inl hc))
  | .str s, dec, st, stack, rest, hva, _, _, _, hdec => by
    have hD := Decode_string s rest
    have hbuf : (MarshalString s).data ++ rest =
        '"' :: (s.data.flatMap escapeChar ++ '"' :: rest) := by
      simp [MarshalString]
    simp only [JValue.render, hbuf] at hdec
    rw [hbuf] at hD
    exact yields_scalar dec st stack '"' _ rest (.str s) hva (Or.inl rfl) hD hdec
  | .arr es, dec, st, stack, rest, hva, _, hv, hdp, hdec => by
    simp only [JValue.numbersValid] at hv
    simp only [JValue.depth] at hdp
    have hbuf : (JValue.arr es).render.data ++ rest =
        '[' :: ((es.render true).data ++ ']' :: rest) := by
      simp [JValue.render, String.data_append]
    rw [hbuf, (tokenLoop_open st stack _ hva (by omega)).1] at hdec
    obtain ⟨st2, hst2, hes⟩ := elems_yields es true (st :: stack) rest hv
      (by simp only [List.length_cons]; omega)
    have hclose := (tokenLoop_close st stack rest).1 st2 hst2
    simp only [JValue.tokens]
    exact Yields.cons hdec (yields_append hes (Yields.cons hclose (Yields.nil _)))
  | .obj ms, dec, st, stack, rest, hva, _, hv, hdp, hdec => by
    simp only [JValue.numbersValid] at hv
    simp only [JValue.depth] at hdp
    have hbuf : (JValue.obj ms).render.data ++ rest =
        '\x7b' :: ((ms.render true).data ++ '\x7d' :: rest) := by
      simp [JValue.render, String.data_append]
    rw [hbuf, (tokenLoop_open st stack _ hva (by omega)).2] at hdec
    obtain ⟨st2, hst2, hms⟩ := members_yields ms true (st :: stack) rest hv
      (by simp only [List.length_cons]; omega)
    have hclose := (tokenLoop_close st stack rest).2 st2 hst2
    simp only [JValue.tokens]
    exact Yields.cons hdec (yields_append hms (Yields.cons hclose (Yields.nil _)))
/-- The decoder reads the text of the elements of an array back. -/
theorem elems_yields : (es : JElems) → ∀ (first : Bool) (stack : List TokenState)
    (rest : List Char), es.numbersValid = true →
    stack.length + es.depth ≤ maxNestingDepth →
    ∃ st2, (st2 = tokenArrayStart ∨ st2 = tokenArrayComma) ∧
      Yields ⟨(es.render first).data ++ ']' :: rest,
          if first then tokenArrayStart else tokenArrayComma, stack⟩
        es.tokens ⟨']' :: rest, st2, stack⟩
  | .nil, first, stack, rest, _, _ => by
    refine ⟨if first then tokenArrayStart else tokenArrayComma, ?_, ?_⟩
    · cases first <;> simp
    · simp only [JElems.render, JElems.tokens]
      exact Yields.nil _
  | .cons v r, first, stack, rest, hv, hdp => by
    simp only [JElems.numbersValid, Bool.and_eq_true] at hv
    simp only [JElems.depth] at hdp
    obtain ⟨st2, hst2, hr⟩ := elems_yields r false stack rest hv.2 (by omega)
    refine ⟨st2, hst2, ?_⟩
    simp only [JElems.tokens]
    refine yields_append ?_ hr
    have hfol := follow_elems r rest
    cases first with
    | true =>
      have := value_yields v
        ⟨((JElems.cons v r).render true).data ++ ']' :: rest, tokenArrayStart, stack⟩
        tokenArrayStart stack ((r.render false).data ++ ']' :: rest) rfl hfol hv.1 (by omega)
        (by simp [Decoder.Token, JElems.render, String.data_append])
      simpa [tokenValueEnd] using this
    | false =>
      have := value_yields v
        ⟨((JElems.cons v r).render false).data ++ ']' :: rest, tokenArrayComma, stack⟩
        tokenArrayValue stack ((r.render false).data ++ ']' :: rest) rfl hfol hv.1 (by omega)
        (by
          have hbuf : ((JElems.cons v r).render false).data ++ ']' :: rest =
              ',' :: (v.render.data ++ ((r.render false).data ++ ']' :: rest)) := by
            simp [JElems.render, String.data_append]
          simp only [Decoder.Token, hbuf, (tokenLoop_skip stack _).1])
      simpa [tokenValueEnd] using this
/-- The decoder reads the text of the members of an object back. -/
theorem members_yields : (ms : JMembers) → ∀ (first : Bool) (stack : List TokenState)
    (rest : List Char), ms.numbersValid = true →
    stack.length + ms.depth ≤ maxNestingDepth →
    ∃ st2, (st2 = tokenObjectStart ∨ st2 = tokenObjectComma) ∧
      Yields ⟨(ms.render first).data ++ '\x7d' :: rest,
          if first then tokenObjectStart else tokenObjectComma, stack⟩
        ms.tokens ⟨'\x7d' :: rest, st2, stack⟩
  | .nil, first, stack, rest, _, _ => by
    refine ⟨if first then tokenObjectStart else tokenObjectComma, ?_, ?_⟩
    · cases first <;> simp
    · simp only [JMembers.render, JMembers.tokens]
      exact Yields.nil _
  | .cons k v r, first, stack, rest, hv, hdp => by
    simp only [JMembers.numbersValid, Bool.and_eq_true] at hv
    simp only [JMembers.depth] at hdp
    obtain ⟨st2, hst2, hr⟩ := members_yields r false stack rest hv.2 (by omega)
    refine ⟨st2, hst2, ?_⟩
    simp only [JMembers.tokens]
    have hfol := follow_members r rest
    have hkeyD := Decode_string k
      (':' :: (v.render.data ++ ((r.render false).data ++ '\x7d' :: rest)))
    have hkbuf : (MarshalString k).data ++
        ':' :: (v.render.data ++ ((r.render false).data ++ '\x7d' :: rest)) =
        '"' :: (k.data.flatMap escapeChar ++
          '"' :: ':' :: (v.render.data ++ ((r.render false).data ++ '\x7d' :: rest))) := by
      simp [MarshalString]
    rw [hkbuf] at hkeyD
    have hval := value_yields v
      ⟨':' :: (v.render.data ++ ((r.render false).data ++ '\x7d' :: rest)),
        tokenObjectColon, stack⟩
      tokenObjectValue stack ((r.render false).data ++ '\x7d' :: rest) rfl hfol hv.1
      (by omega)
      (by simp only [Decoder.Token, (tokenLoop_skip stack _).2.2])
    have hval2 : Yields
        ⟨':' :: (v.render.data ++ ((r.render false).data ++ '\x7d' :: rest)),
          tokenObjectColon, stack⟩
        (v.tokens ++ r.tokens) ⟨'\x7d' :: rest, st2, stack⟩ :=
      yields_append hval (by simpa [tokenValueEnd] using hr)
    refine Yields.cons ?_ hval2
    cases first with
    | true =>
      have hbuf : ((JMembers.cons k v r).render true).data ++ '\x7d' :: rest =
          '"' :: (k.data.flatMap escapeChar ++
            '"' :: ':' :: (v.render.data ++ ((r.render false).data ++ '\x7d' :: rest))) := by
        simp [JMembers.render, String.data_append, MarshalString]
      simp only [Decoder.Token, hbuf, if_true,
        tokenLoop_key tokenObjectStart stack _ (Or.inl rfl), hkeyD]
    | false =>
      have hbuf : ((JMembers.cons k v r).render false).data ++ '\x7d' :: rest =
          ',' :: '"' :: (k.data.flatMap escapeChar ++
            '"' :: ':' :: (v.render.data ++ ((r.render false).data ++ '\x7d' :: rest))) := by
        simp [JMembers.render, String.data_append, MarshalString]
      simp only [Decoder.Token, hbuf, Bool.false_eq_true, if_false, (tokenLoop_skip stack _).2.1,
        tokenLoop_key tokenObjectKey stack _ (Or.inr rfl), hkeyD]
end

/-- The compact text of a JSON value whose number literals are JSON numbers
and that is nested at most `maxNestingDepth` deep is a JSON document denoting
that value. -/
theorem render_isDocument (d : JValue) (hv : d.numbersValid = true)
    (hdp : d.depth ≤ maxNestingDepth) : IsDocument d.render d := by
  unfold IsDocument decodeAll
  have hy := value_yields d (NewDecoder d.render.data) tokenTopValue [] [] rfl (Or.inl rfl) hv
    (by simpa using hdp) (by simp [Decoder.Token, NewDecoder])
  exact drain_of_yields hy .EOF rfl _ (Nat.lt_succ_self _)

mutual
theorem masked_numbersValid (h : String → String → String) :
    (d : JValue) → (field : String) → (d.masked h field).numbersValid = d.numbersValid
  | .null, _ => rfl
  | .bool _, _ => rfl
  | .num _, _ => rfl
  | .str _, _ => rfl
  | .arr es, _ => by
    simp only [JValue.masked, JValue.numbersValid, masked_numbersValid_elems h es]
  | .obj ms, _ => by
    simp only [JValue.masked, JValue.numbersValid, masked_numbersValid_members h ms]
theorem masked_numbersValid_elems (h : String → String → String) :
    (es : JElems) → (es.masked h).numbersValid = es.numbersValid
  | .nil => rfl
  | .cons v rest => by
    simp only [JElems.masked, JElems.numbersValid, masked_numbersValid h v "",
      masked_numbersValid_elems h rest]
theorem masked_numbersValid_members (h : String → String → String) :
    (ms : JMembers) → (ms.masked h).numbersValid = ms.numbersValid
  | .nil => rfl
  | .cons k v rest => by
    simp only [JMembers.masked, JMembers.numbersValid, masked_numbersValid h v k,
      masked_numbersValid_members h rest]
end

mutual
theorem masked_id (h : String → String → String) (hid : ∀ k s, h k s = s) :
    (d : JValue) → (field : String) → d.masked h field = d
  | .null, _ => rfl
  | .bool _, _ => rfl
  | .num _, _ => rfl
  | .str s, _ => by simp only [JValue.masked, hid]
  | .arr es, _ => by simp only [JValue.masked, masked_id_elems h hid es]
  | .obj ms, _ => by simp only [JValue.masked, masked_id_members h hid ms]
theorem masked_id_elems (h : String → String → String) (hid : ∀ k s, h k s = s) :
    (es : JElems) → es.masked h = es
  | .nil => rfl
  | .cons v rest => by
    simp only [JElems.masked, masked_id h hid v "", masked_id_elems h hid rest]
theorem masked_id_members (h : String → String → String) (hid : ∀ k s, h k s = s) :
    (ms : JMembers) → ms.masked h = ms
  | .nil => rfl
  | .cons k v rest => by
    simp only [JMembers.masked, hid, masked_id h hid v k, masked_id_members h hid rest]
end

theorem isDocument_numbersValid (body : String) (d : JValue) (h : IsDocument body d) :
    d.numbersValid = true :=
  numbersValid_of_tokens d (drain_tokens_ok _ _ _ _ h)

mutual
theorem masked_depth (h : String → String → String) :
    (d : JValue) → (field : String) → (d.masked h field).depth = d.depth
  | .null, _ => rfl
  | .bool _, _ => rfl
  | .num _, _ => rfl
  | .str _, _ => rfl
  | .arr es, _ => by simp only [JValue.masked, JValue.depth, masked_depth_elems h es]
  | .obj ms, _ => by simp only [JValue.masked, JValue.depth, masked_depth_members h ms]
theorem masked_depth_elems (h : String → String → String) :
    (es : JElems) → (es.masked h).depth = es.depth
  | .nil => rfl
  | .cons v rest => by
    simp only [JElems.masked, JElems.depth, masked_depth h v "", masked_depth_elems h rest]
theorem masked_depth_members (h : String → String → String) :
    (ms : JMembers) → (ms.masked h).depth = ms.depth
  | .nil => rfl
  | .cons k v rest => by
    simp only [JMembers.masked, JMembers.depth, masked_depth h v k,
      masked_depth_members h rest]
end

theorem masked_isDocument (tab : UnicodeTables) (g : Option Converter) (body : String)
    (d : JValue) (h : IsDocument body d) :
    IsDocument (d.masked (Hide tab g) "").render (d.masked (Hide tab g) "") :=
  render_isDocument _ (by rw [masked_numbersValid]; exact isDocument_numbersValid body d h)
    (by rw [masked_depth]; exact isDocument_depth body d h)

/-- C2, counterexample: 10001 arrays one inside the other are a JSON value
nested deeper than the decoder accepts.  The encoder returns a syntax error
and the first 10000 opening brackets only. -/
theorem deep_arrays_cut :
    (nestArrays maxNestingDepth (.arr .nil)).numbersValid = true ∧
      (nestArrays maxNestingDepth (.arr .nil)).depth = maxNestingDepth + 1 ∧
      MaskSensitiveJSONFields tab0 (some testConverter)
          (nestArrays maxNestingDepth (.arr .nil)).render =
        some (openBrackets maxNestingDepth, some .SyntaxError) :=
  ⟨(deep_document (.arr .nil) rfl (by decide)).1, nestArrays_depth _ _,
    deep_nesting_cut tab0 (some testConverter) (.arr .nil) '[' _ rfl (Or.inl rfl)⟩

/-- C2, amended: for every JSON document `d` the decoder accepts (object, array
or scalar at top level), which is nested at most 10000 deep, and every
Converter, the encoder returns a nil error and a string that is itself a JSON
document, with the structure of `d` at every depth: the same nesting of
objects and arrays, the same number and order of members and elements. -/
theorem structure_preserved (tab : UnicodeTables) (g : Option Converter) (body : String)
    (d : JValue) (h : IsDocument body d) :
    MaskSensitiveJSONFields tab g body = some ((d.masked (Hide tab g) "").render, none) ∧
      IsDocument (d.masked (Hide tab g) "").render (d.masked (Hide tab g) "") ∧
      (d.masked (Hide tab g) "").shape false = d.shape false ∧
      d.depth ≤ maxNestingDepth :=
  ⟨mask_document tab g body d h, masked_isDocument tab g body d h,
    masked_shape (Hide tab g) false (by simp) d "", isDocument_depth body d h⟩

set_option maxRecDepth 100000 in
/-- Witness of the amended C2: `TestMaskSensitiveJSONFields`; the input of the
test is a document, the output is the expected text, and it is a document of
the same structure. -/
theorem structure_preserved_witness :
    IsDocument testInput testDoc ∧
      MaskSensitiveJSONFields tab0 (some testConverter) testInput = some (testOutput, none) ∧
      IsDocument testOutput (testDoc.masked (Hide tab0 (some testConverter)) "") ∧
      (testDoc.masked (Hide tab0 (some testConverter)) "").shape false =
        testDoc.shape false := by
  have hdoc : IsDocument testInput testDoc := by decide
  have h := structure_preserved tab0 (some testConverter) testInput testDoc hdoc
  have hout : (testDoc.masked (Hide tab0 (some testConverter)) "").render = testOutput := by
    decide
  rw [hout] at h
  exact ⟨hdoc, h.1, h.2.1, h.2.2.1⟩

/-- C10, counterexample: the value of the test input inside 10000 arrays is a
JSON value nested deeper than the decoder accepts.  With no Converter
configured the encoder returns the 10000 opening brackets and a syntax error,
not a re-serialization of the value. -/
theorem deep_document_not_reserialized :
    (nestArrays maxNestingDepth testDoc).numbersValid = true ∧
      maxNestingDepth < (nestArrays maxNestingDepth testDoc).depth ∧
      MaskSensitiveJSONFields tab0 none (nestArrays maxNestingDepth testDoc).render =
        some (openBrackets maxNestingDepth, some .SyntaxError) :=
  ⟨(deep_document testDoc (by decide) (by decide)).1,
    (deep_document testDoc (by decide) (by decide)).2,
    deep_nesting_cut tab0 none testDoc '\x7b' _ rfl (Or.inr rfl)⟩

/-- C10, amended: with no Converter configured, for every JSON document `d` the
decoder accepts, which is nested at most 10000 deep, the encoder returns the
compact text of `d` itself, no value altered, and that text is a JSON document
that decodes to `d`. -/
theorem no_converter_reserializes (tab : UnicodeTables) (body : String) (d : JValue)
    (h : IsDocument body d) :
    MaskSensitiveJSONFields tab none body = some (d.render, none) ∧
      IsDocument d.render d ∧ d.depth ≤ maxNestingDepth := by
  have hm := mask_document tab none body d h
  rw [masked_id (Hide tab none) (fun _ _ => rfl) d ""] at hm
  exact ⟨hm, render_isDocument d (isDocument_numbersValid body d h) (isDocument_depth body d h),
    isDocument_depth body d h⟩

set_option maxRecDepth 100000 in
/-- Witness of the amended C10: the input of the tests without a Converter. -/
theorem no_converter_reserializes_witness :
    IsDocument testInput testDoc ∧
      MaskSensitiveJSONFields tab0 none testInput = some (testPlainOutput, none) ∧
      IsDocument testPlainOutput testDoc := by
  have hdoc : IsDocument testInput testDoc := by decide
  have h := no_converter_reserializes tab0 testInput testDoc hdoc
  have hout : testDoc.render = testPlainOutput := by decide
  rw [hout] at h
  exact ⟨hdoc, h.1, h.2.1⟩

/-- C9: for every Converter built from rules of the five kinds and every key,
`Hide(key, "")` is the empty string; each of the five transforms maps the
empty string to the empty string. -/
theorem Hide_empty_value (tab : UnicodeTables) (rules : List rule) (c : Converter)
    (h : NewConverter rules = some c) (hb : ∀ r ∈ rules, r.transform.builtin = true)
    (key : String) :
    Hide tab (some c) key "" = "" ∧
      (fullExclude "" = "" ∧ maskName tab "" = "" ∧ maskEmail "" = "" ∧
        maskCardAndPhone tab "" = "" ∧ ∀ converter, maskURL converter "" = "") := by
  have hurl : ∀ converter, maskURL converter "" = "" := by
    intro converter
    cases converter <;> rfl
  refine ⟨?_, rfl, rfl, rfl, rfl, hurl⟩
  simp only [Hide, Converter.Hide, Converter.HideN, NewConverter_lookup rules c h key]
  cases hf : rules.find? (fun r => decide (key ∈ r.pattern)) with
  | none => rfl
  | some r =>
    have hr := hb r (List.mem_of_find?_eq_some hf)
    simp only
    cases ht : r.transform with
    | fullExclude => rfl
    | maskName => rfl
    | maskEmail => rfl
    | maskCardAndPhone => rfl
    | maskURL => exact hurl _
    | custom f => simp [ht, Transform.builtin] at hr

/-- Witness of C9: a Converter with one rule of each kind; the empty value
stays empty under every key. -/
theorem Hide_empty_value_witness :
    NewConverter fiveRules = some fiveConverter ∧
      (∀ r ∈ fiveRules, r.transform.builtin = true) ∧
      Hide tab0 (some fiveConverter) "url" "" = "" ∧
      Hide tab0 (some fiveConverter) "phone" "" = "" := by
  have hb : ∀ r ∈ fiveRules, r.transform.builtin = true := by
    intro r hr
    simp only [fiveRules, List.mem_cons, List.mem_singleton, List.not_mem_nil, or_false] at hr
    rcases hr with hr | hr | hr | hr | hr <;> subst hr <;> rfl
  exact ⟨rfl, hb, (Hide_empty_value tab0 fiveRules fiveConverter rfl hb "url").1,
    (Hide_empty_value tab0 fiveRules fiveConverter rfl hb "phone").1⟩

/-! ## Claims on the transforms -/

/-- C13: for every string `s`, `fullExclude(s)` has as many characters as `s`
and consists only of `*`; `awesome` becomes `*******`. -/
theorem fullExclude_stars (s : String) :
    (fullExclude s).length = s.length ∧ (∀ c ∈ (fullExclude s).data, c = '*') ∧
      fullExclude "awesome" = "*******" := by
  refine ⟨?_, ?_, by decide⟩
  · show (List.replicate s.data.length '*').length = s.data.length
    exact List.length_replicate _ _
  · intro c hc
    simp only [fullExclude] at hc
    exact List.eq_of_mem_replicate hc

theorem splitAt_cutAt : ∀ (l : List Char),
    splitAt l =
      match cutAt l with
      | (before, after, true) => before :: splitAt after
      | (before, _, false) => [before] := by
  intro l
  induction l with
  | nil => rfl
  | cons c rest ih =>
    by_cases hc : (c == '@') = true
    · simp [splitAt, cutAt, hc]
    · simp only [splitAt, cutAt, hc, Bool.false_eq_true, if_false]
      rw [ih]
      rcases hcut : cutAt rest with ⟨before, after, found⟩
      cases found <;> simp

theorem cutAt_count : ∀ (l : List Char),
    (cutAt l).2.2 = false → l.count '@' = 0 := by
  intro l
  induction l with
  | nil => intro _; rfl
  | cons c rest ih =>
    intro h
    by_cases hc : (c == '@') = true
    · simp [cutAt, hc] at h
    · simp only [cutAt, hc, Bool.false_eq_true, if_false] at h
      have hne : c ≠ '@' := by simpa using hc
      rw [List.count_cons_of_ne hne.symm]
      exact ih h

theorem cutAt_count_found : ∀ (l : List Char),
    (cutAt l).2.2 = true → l.count '@' = (cutAt l).2.1.count '@' + 1 := by
  intro l
  induction l with
  | nil => intro h; simp [cutAt] at h
  | cons c rest ih =>
    intro h
    by_cases hc : (c == '@') = true
    · have hce : c = '@' := by simpa using hc
      subst hce
      simp [cutAt]
    · simp only [cutAt, hc, Bool.false_eq_true, if_false] at h ⊢
      have hne : c ≠ '@' := by simpa using hc
      rw [List.count_cons_of_ne hne.symm]
      exact ih h

theorem splitAt_no_at (l : List Char) (h : l.count '@' = 0) : splitAt l = [l] := by
  induction l with
  | nil => rfl
  | cons c rest ih =>
    by_cases hc : (c == '@') = true
    · have hce : c = '@' := by simpa using hc
      subst hce
      simp at h
    · have hne : c ≠ '@' := by simpa using hc
      rw [List.count_cons_of_ne hne.symm] at h
      simp [splitAt, hc, ih h]

theorem maskEmailLoop_eq : ∀ (l : List Char) (i : Nat),
    maskEmailLoop i l = l.take (3 - i) ++ List.replicate (l.length - (3 - i)) '*' := by
  intro l
  induction l with
  | nil => intro i; simp [maskEmailLoop]
  | cons c rest ih =>
    intro i
    by_cases hi : i < 3
    · simp only [maskEmailLoop, hi, if_true, ih (i + 1)]
      have h1 : 3 - i = (3 - (i + 1)) + 1 := by omega
      rw [h1, List.take_succ_cons]
      simp
    · simp only [maskEmailLoop, hi, if_false, ih (i + 1)]
      have h1 : 3 - i = 0 := by omega
      have h2 : 3 - (i + 1) = 0 := by omega
      simp [h1, h2, List.replicate_succ]

/-- C14: `maskEmail` equals its reference definition on every string with at
most one `@`. -/
theorem maskEmail_eq_reference (s : String) (h : s.data.count '@' ≤ 1) :
    maskEmail s = maskEmailRef s := by
  unfold maskEmail maskEmailRef
  rw [splitAt_cutAt]
  rcases hcut : cutAt s.data with ⟨addr, domain, found⟩
  cases found with
  | false => simp
  | true =>
    have hc := cutAt_count_found s.data (by rw [hcut])
    rw [hcut] at hc
    simp only at hc
    have hd : domain.count '@' = 0 := by omega
    simp only [splitAt_no_at domain hd, Bool.not_true, Bool.false_eq_true, if_false]
    by_cases hl : addr.length < 4
    · simp [hl]
    · simp [hl, maskEmailLoop_eq]

/-- Witness of C14: the cases of `TestMaskEmail`. -/
theorem maskEmail_eq_reference_witness :
    "normal@email.com".data.count '@' ≤ 1 ∧
      maskEmailRef "normal@email.com" = "nor***@email.com" ∧
      maskEmail "normal@email.com" = "nor***@email.com" ∧
      maskEmail "a@custom.site" = "*@custom.site" ∧ maskEmail "site.com" = "********" :=
  ⟨by decide, (maskEmail_eq_reference "normal@email.com" (by decide)).symm.trans (by decide),
    by decide, by decide, by decide⟩

/-- C15, the code at the failing input: on a string with two `@` the text from
the second `@` on is dropped, where the claim has `*@b@c`. -/
theorem maskEmail_two_at :
    maskEmail "a@b@c" = "*@b" ∧ maskEmailRef "a@b@c" = "*@b@c" := by
  decide

/-- C19, counterexample: `Jo-1` has two letters and four characters; `maskName`
returns it as it is, `fullExclude` gives four asterisks. -/
theorem maskName_two_letters_not_excluded :
    ("Jo-1".data.filter (IsLetter tab0)).length = 2 ∧ maskName tab0 "Jo-1" = "Jo-1" ∧
      fullExclude "Jo-1" = "****" := by
  decide

/-- C19, amended: for every string of at most 2 characters, letters or not,
`maskName(s)` equals `fullExclude(s)`. -/
theorem maskName_short (tab : UnicodeTables) (s : String) (h : s.length ≤ 2) :
    maskName tab s = fullExclude s := by
  have h2 : ¬ s.data.length > 2 := by
    simp only [String.length] at h
    omega
  simp only [maskName]
  rw [if_neg h2]

/-- Witness of the amended C19: the first case of `TestMaskName`. -/
theorem maskName_short_witness :
    "Ян".length ≤ 2 ∧ maskName cyrillicTab "Ян" = "**" :=
  ⟨by decide, (maskName_short cyrillicTab "Ян" (by decide)).trans (by decide)⟩

theorem maskCardAndPhoneLoop_get (tab : UnicodeTables) (n : Nat) : ∀ (l : List Char) (i k : Nat),
    (maskCardAndPhoneLoop tab n i l)[k]? =
      l[k]?.map (fun c => if IsDigit tab c = true ∧ i + k + 4 < n then '*' else c) := by
  intro l
  induction l with
  | nil => intro i k; simp [maskCardAndPhoneLoop]
  | cons c rest ih =>
    intro i k
    cases k with
    | zero =>
      by_cases hd : IsDigit tab c = true
      · by_cases hi : i + 4 < n
        · have : ¬ ((i : Int) ≥ (n : Int) - 4) := by omega
          simp [maskCardAndPhoneLoop, hd, hi, this]
        · have : (i : Int) ≥ (n : Int) - 4 := by omega
          simp [maskCardAndPhoneLoop, hd, hi, this]
      · simp [maskCardAndPhoneLoop, hd]
    | succ k =>
      have hidx : i + 1 + k + 4 < n ↔ i + (k + 1) + 4 < n := by omega
      by_cases hk : (!IsDigit tab c || decide ((i : Int) ≥ (n : Int) - 4)) = true
      · simp only [maskCardAndPhoneLoop, hk, if_true, List.getElem?_cons_succ, ih (i + 1) k, hidx]
      · simp only [maskCardAndPhoneLoop, hk, Bool.false_eq_true, if_false,
          List.getElem?_cons_succ, ih (i + 1) k, hidx]

theorem maskCardAndPhoneLoop_length (tab : UnicodeTables) (n : Nat) : ∀ (l : List Char)
    (i : Nat), (maskCardAndPhoneLoop tab n i l).length = l.length := by
  intro l
  induction l with
  | nil => intro i; rfl
  | cons c rest ih =>
    intro i
    simp only [maskCardAndPhoneLoop]
    split <;> simp [ih]

theorem maskCardAndPhoneLoop_split (tab : UnicodeTables) (n : Nat) : ∀ (l : List Char)
    (i : Nat), i + l.length = n →
    maskCardAndPhoneLoop tab n i l =
      (l.take (l.length - 4)).map (fun c => if IsDigit tab c then '*' else c) ++
        l.drop (l.length - 4) := by
  intro l
  induction l with
  | nil => intro i _; rfl
  | cons c rest ih =>
    intro i hn
    simp only [List.length_cons] at hn
    have ihr := ih (i + 1) (by omega)
    by_cases hlast : rest.length + 1 ≤ 4
    · have h0 : rest.length + 1 - 4 = 0 := by omega
      have h1 : rest.length - 4 = 0 := by omega
      have hi : (i : Int) ≥ (n : Int) - 4 := by omega
      simp only [h1, List.take_zero, List.map_nil, List.nil_append, List.drop_zero] at ihr
      simp [maskCardAndPhoneLoop, hi, h0, ihr]
    · have h0 : rest.length + 1 - 4 = (rest.length - 4) + 1 := by omega
      have hi : ¬ ((i : Int) ≥ (n : Int) - 4) := by omega
      simp only [List.length_cons, h0, List.take_succ_cons, List.map_cons, List.drop_succ_cons,
        List.cons_append, maskCardAndPhoneLoop, hi, decide_False, Bool.or_false, ihr]
      by_cases hd : IsDigit tab c = true <;> simp [hd]

/-- C16, counterexample: the third case of `TestMaskPhone`; the string has 11
digits, its last 4 characters are `3-11`, and only 3 digits stay visible: the
fourth digit from the end is masked. -/
theorem maskCardAndPhone_three_digits_visible :
    ("7-(999)-666-33-11".data.filter (IsDigit tab0)).length = 11 ∧
      maskCardAndPhone tab0 "7-(999)-666-33-11" = "*-(***)-***-*3-11" := by
  decide

/-- C16, amended: for every string, `maskCardAndPhone` keeps the last 4
characters as they are and, before them, turns every digit into `*` and leaves
every separator untouched. -/
theorem maskCardAndPhone_keeps_last_four_characters (tab : UnicodeTables) (s : String) :
    (maskCardAndPhone tab s).data =
      (s.data.take (s.data.length - 4)).map (fun c => if IsDigit tab c then '*' else c) ++
        s.data.drop (s.data.length - 4) := by
  simp only [maskCardAndPhone]
  exact maskCardAndPhoneLoop_split tab s.data.length s.data 0 (by omega)

/-- C17, counterexample: a string that holds an asterisk already; the output
has `*` at index 0 although the character there is no digit. -/
theorem maskCardAndPhone_asterisk_kept :
    (maskCardAndPhone tab0 "**** 1234").data[0]? = some '*' ∧
      ("**** 1234".data[0]?.map (IsDigit tab0)) = some false := by
  decide

/-- C17, amended: for every string `s` of `n` characters the output has `n`
characters, and its character at index `i` is `*` when `s[i]` is a digit and
`i < n - 4`, and is `s[i]` otherwise. -/
theorem maskCardAndPhone_positional (tab : UnicodeTables) (s : String) :
    (maskCardAndPhone tab s).length = s.length ∧
      ∀ i, (maskCardAndPhone tab s).data[i]? =
        s.data[i]?.map (fun c =>
          if IsDigit tab c = true ∧ i + 4 < s.length then '*' else c) := by
  constructor
  · exact maskCardAndPhoneLoop_length tab s.data.length s.data 0
  · intro i
    simp only [maskCardAndPhone, String.length]
    simpa using maskCardAndPhoneLoop_get tab s.data.length s.data 0 i

theorem runLen_append (tab : UnicodeTables) (pre : List Char) (c : Char) :
    runLen tab (pre ++ [c]) = if IsLetter tab c then runLen tab pre + 1 else 0 := by
  simp only [runLen, List.reverse_append, List.reverse_singleton, List.singleton_append,
    List.takeWhile_cons]
  split <;> simp

theorem maskNameLoop_get (tab : UnicodeTables) : ∀ (l pre : List Char) (k : Nat),
    (maskNameLoop tab (runLen tab pre) l)[k]? =
      l[k]?.map (fun c =>
        if !IsLetter tab c then c
        else if runLen tab (pre ++ l.take k) < 2 then c else '*') := by
  intro l
  induction l with
  | nil => intro pre k; simp [maskNameLoop]
  | cons c rest ih =>
    intro pre k
    have hnext := runLen_append tab pre c
    cases k with
    | zero =>
      by_cases hl : IsLetter tab c = true
      · by_cases hp : runLen tab pre < 2 <;> simp [maskNameLoop, hl, hp]
      · simp [maskNameLoop, hl]
    | succ k =>
      have hpre : pre ++ (c :: rest).take (k + 1) = (pre ++ [c]) ++ rest.take k := by simp
      have ihk := ih (pre ++ [c]) k
      rw [hnext] at ihk
      by_cases hl : IsLetter tab c = true
      · simp only [hl, if_true] at ihk
        by_cases hp : runLen tab pre < 2
        · simp only [maskNameLoop, hl, Bool.not_true, Bool.false_eq_true, if_false, hp, if_true,
            List.getElem?_cons_succ, hpre, ihk]
        · simp only [maskNameLoop, hl, Bool.not_true, Bool.false_eq_true, if_false, hp,
            List.getElem?_cons_succ, hpre, ihk]
      · simp only [hl, Bool.false_eq_true, if_false] at ihk
        simp only [maskNameLoop, hl, Bool.not_false, if_true, List.getElem?_cons_succ, hpre, ihk]

theorem maskNameLoop_length (tab : UnicodeTables) : ∀ (l : List Char) (pos : Nat),
    (maskNameLoop tab pos l).length = l.length := by
  intro l
  induction l with
  | nil => intro pos; rfl
  | cons c rest ih =>
    intro pos
    simp only [maskNameLoop]
    split
    · simp [ih]
    · split <;> simp [ih]

/-- C18: for every string of more than 2 characters, `maskName` returns a
string of the same character count in which every non-letter is copied
unchanged and every letter is kept if it is the 1st or 2nd letter of its
maximal run of consecutive letters and replaced by `*` otherwise. -/
theorem maskName_runs (tab : UnicodeTables) (s : String) (h : s.length > 2) :
    (maskName tab s).length = s.length ∧
      ∀ i, (maskName tab s).data[i]? =
        s.data[i]?.map (fun c =>
          if !IsLetter tab c then c
          else if runLen tab (s.data.take i) < 2 then c else '*') := by
  have h2 : s.data.length > 2 := h
  simp only [maskName]
  rw [if_pos h2]
  constructor
  · exact maskNameLoop_length tab s.data 0
  · intro i
    have := maskNameLoop_get tab s.data [] i
    simpa [runLen] using this

/-- Witness of C18: cases of `TestMaskName`; the Cyrillic letters are letters
by the excerpt `cyrillicTab` of `unicode.Letter`. -/
theorem maskName_runs_witness :
    "John Doe".length > 2 ∧ (maskName tab0 "John Doe").length = "John Doe".length ∧
      maskName tab0 "John Doe" = "Jo** Do*" ∧
      maskName cyrillicTab "Сан-Себастьян" = "Са*-Се*******" ∧
      maskName cyrillicTab "Ким Чи Мин" = "Ки* Чи Ми*" :=
  ⟨by decide, (maskName_runs tab0 "John Doe" (by decide)).1, by decide, by decide, by decide⟩

mutual
theorem masked_nonStrings (h : String → String → String) :
    (d : JValue) → (field : String) → (d.masked h field).nonStrings = d.nonStrings
  | .null, _ => rfl
  | .bool _, _ => rfl
  | .num _, _ => rfl
  | .str _, _ => rfl
  | .arr es, _ => by
    simp only [JValue.masked, JValue.nonStrings, masked_nonStrings_elems h es]
  | .obj ms, _ => by
    simp only [JValue.masked, JValue.nonStrings, masked_nonStrings_members h ms]
theorem masked_nonStrings_elems (h : String → String → String) :
    (es : JElems) → (es.masked h).nonStrings = es.nonStrings
  | .nil => rfl
  | .cons v rest => by
    simp only [JElems.masked, JElems.nonStrings, masked_nonStrings h v "",
      masked_nonStrings_elems h rest]
theorem masked_nonStrings_members (h : String → String → String) :
    (ms : JMembers) → (ms.masked h).nonStrings = ms.nonStrings
  | .nil => rfl
  | .cons k v rest => by
    simp only [JMembers.masked, JMembers.nonStrings, masked_nonStrings h v k,
      masked_nonStrings_members h rest]
end

/-- C11, counterexample: the document `scalarDoc`, whose values are numbers,
booleans and null, inside 10000 arrays is a JSON value nested deeper than the
decoder accepts.  The encoder returns the 10000 opening brackets and a syntax
error: none of the scalars is emitted. -/
theorem deep_scalars_not_emitted :
    (nestArrays maxNestingDepth scalarDoc).numbersValid = true ∧
      maxNestingDepth < (nestArrays maxNestingDepth scalarDoc).depth ∧
      MaskSensitiveJSONFields tab0 (some scalarConverter)
          (nestArrays maxNestingDepth scalarDoc).render =
        some (openBrackets maxNestingDepth, some .SyntaxError) :=
  ⟨(deep_document scalarDoc (by decide) (by decide)).1,
    (deep_document scalarDoc (by decide) (by decide)).2,
    deep_nesting_cut tab0 (some scalarConverter) scalarDoc '\x7b' _ rfl (Or.inr rfl)⟩

/-- C11, amended: for every Converter and every JSON document the decoder
accepts, which is nested at most 10000 deep, every number, `true`, `false` and
`null` of the document is in the output unchanged, whatever field it sits
under; a number is written with the text of its literal. -/
theorem scalars_unchanged (tab : UnicodeTables) (g : Option Converter) (body : String)
    (d : JValue) (h : IsDocument body d) :
    MaskSensitiveJSONFields tab g body = some ((d.masked (Hide tab g) "").render, none) ∧
      (d.masked (Hide tab g) "").nonStrings = d.nonStrings ∧
      (∀ lit, (JValue.num lit).render = lit) ∧
      d.depth ≤ maxNestingDepth :=
  ⟨mask_document tab g body d h, masked_nonStrings (Hide tab g) d "", fun _ => rfl,
    isDocument_depth body d h⟩

/-- Witness of the amended C11: every field of the document has a
full-exclusion rule, and the numbers (with the text `2.50` and `-1e3` of the
input), booleans and null are emitted as they are. -/
theorem scalars_unchanged_witness :
    IsDocument scalarBody scalarDoc ∧
      MaskSensitiveJSONFields tab0 (some scalarConverter) scalarBody =
        some ("\x7b\"id\":2.50,\"ok\":true,\"age\":null,\"n\":[-1e3,false]\x7d", none) :=
  ⟨by decide,
    (scalars_unchanged tab0 (some scalarConverter) scalarBody scalarDoc (by decide)).1.trans
      (by decide)⟩

mutual
theorem masked_idem (h : String → String → String) (hk : ∀ k, h "" k = k)
    (hh : ∀ k s, h k (h k s) = h k s) :
    (d : JValue) → (field : String) → (d.masked h field).masked h field = d.masked h field
  | .null, _ => rfl
  | .bool _, _ => rfl
  | .num _, _ => rfl
  | .str s, _ => by simp only [JValue.masked, hh]
  | .arr es, _ => by simp only [JValue.masked, masked_idem_elems h hk hh es]
  | .obj ms, _ => by simp only [JValue.masked, masked_idem_members h hk hh ms]
theorem masked_idem_elems (h : String → String → String) (hk : ∀ k, h "" k = k)
    (hh : ∀ k s, h k (h k s) = h k s) :
    (es : JElems) → (es.masked h).masked h = es.masked h
  | .nil => rfl
  | .cons v rest => by
    simp only [JElems.masked, masked_idem h hk hh v "", masked_idem_elems h hk hh rest]
theorem masked_idem_members (h : String → String → String) (hk : ∀ k, h "" k = k)
    (hh : ∀ k s, h k (h k s) = h k s) :
    (ms : JMembers) → (ms.masked h).masked h = ms.masked h
  | .nil => rfl
  | .cons k v rest => by
    simp only [JMembers.masked, hk, masked_idem h hk hh v k, masked_idem_members h hk hh rest]
end

theorem fullExclude_idem (s : String) : fullExclude (fullExclude s) = fullExclude s := by
  simp [fullExclude]

theorem Hide_fullExclude_idem (tab : UnicodeTables) (c : Converter)
    (hfull : ∀ k r, c.fields.lookup k = some r → r.transform = .fullExclude)
    (k s : String) :
    Hide tab (some c) k (Hide tab (some c) k s) = Hide tab (some c) k s := by
  simp only [Hide, Converter.Hide, Converter.HideN]
  cases hl : c.fields.lookup k with
  | none => rfl
  | some r =>
    simp only [hfull k r hl]
    exact fullExclude_idem s

/-- C12, counterexample: the one rule of `starConverter` is a full-exclusion
rule; it claims the empty field name and `*`.  The first pass masks the field
name `a` to `*`, the second pass then masks the value under that new name. -/
theorem second_pass_changes_output :
    NewConverter [WithFullExcludeRule ["", "*"]] = some starConverter ∧
      MaskSensitiveJSONFields tab0 (some starConverter) smallBody =
        some ("\x7b\"*\":\"b\"\x7d", none) ∧
      MaskSensitiveJSONFields tab0 (some starConverter) "\x7b\"*\":\"b\"\x7d" =
        some ("\x7b\"*\":\"*\"\x7d", none) :=
  ⟨rfl, by decide, by decide⟩

/-- C12, amended: for every Converter whose rules are all full-exclusion rules
and none of whose rules claims the empty field name, and every JSON document
the decoder accepts, which is nested at most 10000 deep, the encoder returns
an output with a nil error, and applying the encoder to that output returns it
unchanged. -/
theorem idempotent_under_full_exclusion (tab : UnicodeTables) (c : Converter) (body : String)
    (d : JValue) (hdoc : IsDocument body d)
    (hfull : ∀ k r, c.fields.lookup k = some r → r.transform = .fullExclude)
    (hno : c.fields.lookup "" = none) :
    (∃ out, MaskSensitiveJSONFields tab (some c) body = some (out, none) ∧
      MaskSensitiveJSONFields tab (some c) out = some (out, none)) ∧
    d.depth ≤ maxNestingDepth := by
  refine ⟨⟨(d.masked (Hide tab (some c)) "").render, mask_document tab (some c) body d hdoc,
    ?_⟩, isDocument_depth body d hdoc⟩
  have h2 := mask_document tab (some c) _ _ (masked_isDocument tab (some c) body d hdoc)
  have hk : ∀ k, Hide tab (some c) "" k = k :=
    Hide_empty_name tab (some c) (by intro c1 hc1; cases hc1; exact hno)
  rw [masked_idem (Hide tab (some c)) hk (Hide_fullExclude_idem tab c hfull) d ""] at h2
  exact h2

set_option maxRecDepth 100000 in
/-- Witness of the amended C12: a Converter with the full-exclusion rule of
the tests; the output of the first pass is returned by the second pass. -/
theorem idempotent_under_full_exclusion_witness :
    IsDocument testInput testDoc ∧
      MaskSensitiveJSONFields tab0 (some passwordConverter) testInput =
        some (passwordOutput, none) ∧
      MaskSensitiveJSONFields tab0 (some passwordConverter) passwordOutput =
        some (passwordOutput, none) := by
  have hdoc : IsDocument testInput testDoc := by decide
  obtain ⟨out, h1, h2⟩ := (idempotent_under_full_exclusion tab0 passwordConverter testInput
    testDoc hdoc
    (by
      intro k r hl
      simp only [passwordConverter, List.lookup] at hl
      split at hl
      · cases hl; rfl
      · split at hl
        · cases hl; rfl
        · simp at hl)
    rfl).1
  have h0 : MaskSensitiveJSONFields tab0 (some passwordConverter) testInput =
      some (passwordOutput, none) := by decide
  rw [h0] at h1
  simp only [Option.some.injEq, Prod.mk.injEq, and_true] at h1
  subst h1
  exact ⟨hdoc, h0, h2⟩

/-! ## `maskURL` -/

theorem lookup_map_ne (k : List Char) (y : List (List Char)) (k1 : List Char) (hne : k1 ≠ k) :
    ∀ (v : url.Values),
      (v.map (fun kv => if kv.1 = k then (k, y) else kv)).lookup k1 = v.lookup k1 := by
  intro v
  induction v with
  | nil => rfl
  | cons p rest ih =>
    obtain ⟨a, b⟩ := p
    by_cases ha : a = k
    · subst ha
      have h1 : (k1 == a) = false := by simpa using hne
      simp only [List.map_cons, if_true, List.lookup_cons, h1, ih]
    · by_cases hk : k1 = a
      · subst hk
        simp [List.map_cons, ha, List.lookup_cons]
      · have h1 : (k1 == a) = false := by simpa using hk
        simp only [List.map_cons, ha, if_false, List.lookup_cons, h1, ih]

theorem Set_eq_map (v : url.Values) (k x : List Char) (h : (v.lookup k).isSome = true) :
    v.Set k x = v.map (fun kv => if kv.1 = k then (k, [x]) else kv) := by
  simp [url.Values.Set, h]

theorem map_keys_of_fst (g : List Char × List (List Char) → List Char × List (List Char))
    (hg : ∀ p, (g p).1 = p.1) (v : url.Values) : (v.map g).map Prod.fst = v.map Prod.fst := by
  rw [List.map_map]
  apply List.map_congr_left
  intro p _
  exact hg p

theorem map_entry_keys (k : List Char) (y : List (List Char)) (v : url.Values) :
    (v.map (fun kv => if kv.1 = k then (k, y) else kv)).map Prod.fst = v.map Prod.fst :=
  map_keys_of_fst _ (by intro p; by_cases h : p.1 = k <;> simp [h]) v

theorem lookup_isSome_of_mem_keys (v : url.Values) (k : List Char)
    (h : k ∈ v.map Prod.fst) : (v.lookup k).isSome = true := by
  simp only [List.mem_map] at h
  obtain ⟨p, hp, hk⟩ := h
  rw [List.lookup_isSome_iff]
  exact ⟨p, hp, by simp [hk]⟩

/-- The loop of `maskURL` over the keys: every entry whose key is in the list
gets the one value `f key (Get key)`. -/
theorem fold_Set (f : List Char → List Char → List Char) : ∀ (ks : List (List Char))
    (v : url.Values), ks.Nodup → (∀ k ∈ ks, k ∈ v.map Prod.fst) →
    ks.foldl (fun values key => values.Set key (f key (values.Get key))) v =
      v.map (fun kv => if kv.1 ∈ ks then (kv.1, [f kv.1 (v.Get kv.1)]) else kv) := by
  intro ks
  induction ks with
  | nil => intro v _ _; simp
  | cons k ks ih =>
    intro v hnd hmem
    have hk : (v.lookup k).isSome = true :=
      lookup_isSome_of_mem_keys v k (hmem k (List.mem_cons_self _ _))
    simp only [List.foldl_cons, Set_eq_map v k _ hk]
    have hnd1 := (List.nodup_cons.mp hnd).2
    have hkn := (List.nodup_cons.mp hnd).1
    rw [ih _ hnd1 (by
      intro k1 hk1
      rw [map_entry_keys]
      exact hmem k1 (List.mem_cons_of_mem _ hk1))]
    rw [List.map_map]
    apply List.map_congr_left
    intro kv _
    simp only [Function.comp]
    by_cases hkv : kv.1 = k
    · simp [hkv, hkn]
    · have hget : url.Values.Get
          (v.map (fun kv => if kv.1 = k then (k, [f k (v.Get k)]) else kv)) kv.1 =
          v.Get kv.1 := by
        simp only [url.Values.Get, lookup_map_ne k _ kv.1 hkv v]
      simp only [hkv, if_false, List.mem_cons, false_or, hget]

theorem add_keys_nodup (v : url.Values) (k x : List Char) (h : (v.map Prod.fst).Nodup) :
    ((v.add k x).map Prod.fst).Nodup := by
  unfold url.Values.add
  split
  · have : (v.map (fun kv => if kv.1 = k then (k, kv.2 ++ [x]) else kv)).map Prod.fst =
        v.map Prod.fst :=
      map_keys_of_fst _ (by intro p; by_cases h : p.1 = k <;> simp [h]) v
    rw [this]; exact h
  · rename_i hnone
    have hn : v.lookup k = none := by
      cases hl : v.lookup k with
      | none => rfl
      | some b => simp [hl] at hnone
    rw [List.lookup_eq_none_iff] at hn
    simp only [List.map_append, List.map_cons, List.map_nil]
    refine List.Nodup.append h (List.nodup_singleton k) ?_
    intro a ha hmem
    simp only [List.mem_singleton] at hmem
    subst hmem
    simp only [List.mem_map] at ha
    obtain ⟨p, hp, hpa⟩ := ha
    have := hn p hp
    simp [hpa] at this

theorem parseQuery_nodup : ∀ (pairs : List (List Char)) (m : url.Values),
    (m.map Prod.fst).Nodup → ((url.parseQuery m pairs).map Prod.fst).Nodup := by
  intro pairs
  induction pairs with
  | nil => intro m h; simpa [url.parseQuery] using h
  | cons p rest ih =>
    intro m h
    unfold url.parseQuery
    split
    · exact ih m h
    · split
      · exact ih m h
      · simp only
        split
        · exact ih m h
        · split
          · exact ih m h
          · exact ih _ (add_keys_nodup m _ _ h)

theorem Query_nodup (u : url.URL) : (u.Query.map Prod.fst).Nodup :=
  parseQuery_nodup _ [] (by simp)

theorem lookup_of_mem_nodup : ∀ (v : url.Values), (v.map Prod.fst).Nodup →
    ∀ kv ∈ v, v.lookup kv.1 = some kv.2 := by
  intro v
  induction v with
  | nil => intro _ kv h; simp at h
  | cons p rest ih =>
    intro hnd kv hkv
    obtain ⟨a, b⟩ := p
    simp only [List.map_cons, List.nodup_cons] at hnd
    rcases List.mem_cons.mp hkv with h | h
    · subst h; simp
    · have hne : kv.1 ≠ a := by
        intro heq
        exact hnd.1 (by rw [← heq]; exact List.mem_map_of_mem Prod.fst h)
      have h1 : (kv.1 == a) = false := by simpa using hne
      simp only [List.lookup_cons, h1]
      exact ih hnd.2 kv h

/-- What `maskURL` returns for a string that parses, with `hide` for the
method `Hide` of the active Converter: the parsed URL, its query replaced by
the decoded encoding of the parameters, each with the one value
`hide key (first value)`. -/
theorem maskURL_parsed (hide : String → String → String) (s : String) (u : url.URL)
    (hp : url.Parse (queryPrefixed s).data = some u) :
    maskURL (some hide) s =
      String.mk { u with
        RawQuery := (url.QueryUnescape (url.Values.Encode (u.Query.map fun (kv : List Char × List (List Char)) =>
          (kv.1, [(hide (String.mk kv.1) (String.mk (u.Query.Get kv.1))).data])))).getD [] }.Redacted := by
  simp only [queryPrefixed] at hp
  simp only [maskURL, hp]
  have hfold := fold_Set (fun key value => (hide (String.mk key) (String.mk value)).data)
    (u.Query.map Prod.fst) u.Query (Query_nodup u) (fun k hk => hk)
  rw [hfold]
  have hmap : (u.Query.map fun kv =>
      if kv.1 ∈ u.Query.map Prod.fst then
        (kv.1, [(hide (String.mk kv.1) (String.mk (u.Query.Get kv.1))).data]) else kv) =
      (u.Query.map fun kv =>
        (kv.1, [(hide (String.mk kv.1) (String.mk (u.Query.Get kv.1))).data])) := by
    apply List.map_congr_left
    intro kv hkv
    simp [List.mem_map_of_mem Prod.fst hkv]
  rw [hmap]

/-- C20, the code at the failing input: the parameter `a` is given twice and no
rule claims it, so the claim has both values in the result as they are;
`maskURL` keeps the first value and drops the second. -/
theorem maskURL_drops_repeated_parameter :
    (url.Parse (queryPrefixed "?a=1&a=2").data).isSome = true ∧
      maskURL (some (testConverter.Hide tab0 (some testConverter))) "?a=1&a=2" = "?a=1" ∧
      testConverter.Hide tab0 (some testConverter) "a" "1" = "1" ∧
      testConverter.Hide tab0 (some testConverter) "a" "2" = "2" := by
  decide

/-- The result of `maskURL` where no query parameter name is repeated: the
parsed URL (its password redacted) with the query replaced by the
percent-decoded encoding, sorted by name, of the parameters `url.ParseQuery`
reads from the input, each value `v` of parameter `k` replaced by
`Hide(k, v)`. -/
theorem maskURL_query (tab : UnicodeTables) (c : Converter) (s : String) (u : url.URL)
    (hp : url.Parse (queryPrefixed s).data = some u)
    (hsingle : ∀ kv ∈ u.Query, kv.2.length = 1) :
    maskURL (some (c.Hide tab (some c))) s =
      String.mk { u with
        RawQuery := (url.QueryUnescape (url.Values.Encode (u.Query.map fun (kv : List Char × List (List Char)) =>
          (kv.1, kv.2.map fun v =>
            (c.Hide tab (some c) (String.mk kv.1) (String.mk v)).data)))).getD [] }.Redacted := by
  rw [maskURL_parsed (c.Hide tab (some c)) s u hp]
  have hmap : (u.Query.map fun kv =>
      (kv.1, [(c.Hide tab (some c) (String.mk kv.1) (String.mk (u.Query.Get kv.1))).data])) =
      (u.Query.map fun kv =>
        (kv.1, kv.2.map fun v =>
          (c.Hide tab (some c) (String.mk kv.1) (String.mk v)).data)) := by
    apply List.map_congr_left
    intro kv hkv
    have hl := lookup_of_mem_nodup u.Query (Query_nodup u) kv hkv
    have h1 := hsingle kv hkv
    obtain ⟨k, vs⟩ := kv
    simp only at hl h1 ⊢
    match vs, h1 with
    | [v], _ => simp [url.Values.Get, hl]
  rw [hmap]

/-- The scenario of C20, where no name is repeated: `id` and `ref` have no
rule, `password` has the full-exclusion rule. -/
theorem maskURL_query_witness :
    url.Parse (queryPrefixed queryURL).data = some queryParsed ∧
      (∀ kv ∈ queryParsed.Query, kv.2.length = 1) ∧
      maskURL (some (testConverter.Hide tab0 (some testConverter))) queryURL =
        "?id=2&password=*******&ref=head" :=
  ⟨by decide, by decide,
    (maskURL_query tab0 testConverter queryURL queryParsed (by decide) (by decide)).trans
      (by decide)⟩

/-! ## The nesting of `maskURL` is bounded by the length of the value -/

theorem char_valid_nat (c : Char) :
    c.toNat < 0xD800 ∨ (0xDFFF < c.toNat ∧ c.toNat < 0x110000) := c.valid

theorem decodeRune_encode (c : Char) (rest : List Nat) :
    url.decodeRune (url.utf8EncodeChar c ++ rest) = (c, (url.utf8EncodeChar c).length) := by
  have hv := char_valid_nat c
  have hof : Char.ofNat c.toNat = c := Char.ofNat_toNat c
  unfold url.utf8EncodeChar
  simp only
  by_cases h1 : c.toNat < 0x80
  · simp only [h1, if_true, List.singleton_append, url.decodeRune, List.length_singleton, hof]
  · simp only [h1, if_false]
    by_cases h2 : c.toNat < 0x800
    · have e1 : c.toNat / 64 * 64 + c.toNat % 64 = c.toNat := by omega
      have a1 : ¬ (0xC0 + c.toNat / 64 < 0x80) := by omega
      have a2 : 0xC2 ≤ 0xC0 + c.toNat / 64 ∧ 0xC0 + c.toNat / 64 < 0xE0 := by omega
      have a3 : url.isCont (0x80 + c.toNat % 64) = true := by
        simp only [url.isCont, Bool.and_eq_true, decide_eq_true_eq]; omega
      simp [h2, url.decodeRune, a1, a2, a3, e1, hof]
    · simp only [h2, if_false]
      by_cases h3 : c.toNat < 0x10000
      · have e1 : c.toNat / 4096 * 4096 + c.toNat / 64 % 64 * 64 + c.toNat % 64 = c.toNat := by
          omega
        have a1 : ¬ (0xE0 + c.toNat / 4096 < 0x80) := by omega
        have a2 : ¬ (0xC2 ≤ 0xE0 + c.toNat / 4096 ∧ 0xE0 + c.toNat / 4096 < 0xE0) := by omega
        have a2b : 0xE0 ≤ 0xE0 + c.toNat / 4096 ∧ 0xE0 + c.toNat / 4096 < 0xF0 := by omega
        have a3 : url.isCont (0x80 + c.toNat / 64 % 64) = true := by
          simp only [url.isCont, Bool.and_eq_true, decide_eq_true_eq]; omega
        have a4 : url.isCont (0x80 + c.toNat % 64) = true := by
          simp only [url.isCont, Bool.and_eq_true, decide_eq_true_eq]; omega
        have a5 : 0x800 ≤ c.toNat := by omega
        have a6 : c.toNat < 0xD800 ∨ 0xE000 ≤ c.toNat := by omega
        simp [h3, url.decodeRune, a1, a2, a2b, a3, a4, e1, a5, a6, hof]
      · have e1 : c.toNat / 262144 * 262144 + c.toNat / 4096 % 64 * 4096
            + c.toNat / 64 % 64 * 64 + c.toNat % 64 = c.toNat := by omega
        have a1 : ¬ (0xF0 + c.toNat / 262144 < 0x80) := by omega
        have a2 : ¬ (0xC2 ≤ 0xF0 + c.toNat / 262144 ∧ 0xF0 + c.toNat / 262144 < 0xE0) := by
          omega
        have a2b : ¬ (0xE0 ≤ 0xF0 + c.toNat / 262144 ∧ 0xF0 + c.toNat / 262144 < 0xF0) := by
          omega
        have a2c : 0xF0 ≤ 0xF0 + c.toNat / 262144 ∧ 0xF0 + c.toNat / 262144 < 0xF5 := by omega
        have a3 : url.isCont (0x80 + c.toNat / 4096 % 64) = true := by
          simp only [url.isCont, Bool.and_eq_true, decide_eq_true_eq]; omega
        have a4 : url.isCont (0x80 + c.toNat / 64 % 64) = true := by
          simp only [url.isCont, Bool.and_eq_true, decide_eq_true_eq]; omega
        have a5 : url.isCont (0x80 + c.toNat % 64) = true := by
          simp only [url.isCont, Bool.and_eq_true, decide_eq_true_eq]; omega
        have a6 : 0x10000 ≤ c.toNat ∧ c.toNat < 0x110000 := by omega
        simp [h3, url.decodeRune, a1, a2, a2b, a2c, a3, a4, a5, e1, a6, hof]

theorem encode_ascii (c : Char) (h : c.toNat < 0x80) : url.utf8EncodeChar c = [c.toNat] := by
  simp [url.utf8EncodeChar, h]

theorem encode_high (c : Char) (h : 0x80 ≤ c.toNat) :
    ∃ b0 bs, url.utf8EncodeChar c = b0 :: bs ∧ 0xC0 ≤ b0 ∧ ∀ b ∈ bs, 0x80 ≤ b := by
  have h1 : ¬ c.toNat < 0x80 := by omega
  unfold url.utf8EncodeChar
  simp only [h1, if_false]
  by_cases h2 : c.toNat < 0x800
  · refine ⟨_, _, by simp only [h2, if_true]; rfl, by omega, ?_⟩
    intro b hb; simp at hb; omega
  · simp only [h2, if_false]
    by_cases h3 : c.toNat < 0x10000
    · refine ⟨_, _, by simp only [h3, if_true]; rfl, by omega, ?_⟩
      intro b hb; simp at hb; omega
    · refine ⟨_, _, by simp only [h3, if_false]; rfl, by omega, ?_⟩
      intro b hb; simp at hb; omega

theorem decodeRune_width_aux (b0 : Nat) (r : List Nat) (c : Char) (n : Nat)
    (h : url.decodeRune (b0 :: r) = (c, n)) :
    n = 1 ∨
    (n = 2 ∧ ∃ b1 r1, r = b1 :: r1 ∧ url.isCont b1 = true) ∨
    (n = 3 ∧ ∃ b1 b2 r1, r = b1 :: b2 :: r1 ∧ url.isCont b1 = true ∧
      url.isCont b2 = true) ∨
    (n = 4 ∧ ∃ b1 b2 b3 r1, r = b1 :: b2 :: b3 :: r1 ∧
      url.isCont b1 = true ∧ url.isCont b2 = true ∧ url.isCont b3 = true) := by
  simp only [url.decodeRune] at h
  split_ifs at h with h1 h2 h3 h4
  · simp only [Prod.mk.injEq] at h; exact Or.inl h.2.symm
  · split at h
    · rename_i b1 r1
      split_ifs at h with hc
      · simp only [Prod.mk.injEq] at h
        exact Or.inr (Or.inl ⟨h.2.symm, b1, r1, rfl, hc⟩)
      · simp only [Prod.mk.injEq] at h; exact Or.inl h.2.symm
    · simp only [Prod.mk.injEq] at h; exact Or.inl h.2.symm
  · split at h
    · rename_i b1 b2 r1
      split_ifs at h with hc
      · simp only [Bool.and_eq_true] at hc
        simp only [Prod.mk.injEq] at h
        exact Or.inr (Or.inr (Or.inl ⟨h.2.symm, b1, b2, r1, rfl, hc.1.1.1, hc.1.1.2⟩))
      · simp only [Prod.mk.injEq] at h; exact Or.inl h.2.symm
    · simp only [Prod.mk.injEq] at h; exact Or.inl h.2.symm
  · split at h
    · rename_i b1 b2 b3 r1
      split_ifs at h with hc
      · simp only [Bool.and_eq_true] at hc
        simp only [Prod.mk.injEq] at h
        exact Or.inr (Or.inr (Or.inr ⟨h.2.symm, b1, b2, b3, r1, rfl, hc.1.1.1.1, hc.1.1.1.2,
          hc.1.1.2⟩))
      · simp only [Prod.mk.injEq] at h; exact Or.inl h.2.symm
    · simp only [Prod.mk.injEq] at h; exact Or.inl h.2.symm
  · simp only [Prod.mk.injEq] at h; exact Or.inl h.2.symm

theorem decodeRune_width (b0 : Nat) (r : List Nat) :
    (url.decodeRune (b0 :: r)).2 = 1 ∨
    ((url.decodeRune (b0 :: r)).2 = 2 ∧ ∃ b1 r1, r = b1 :: r1 ∧ url.isCont b1 = true) ∨
    ((url.decodeRune (b0 :: r)).2 = 3 ∧ ∃ b1 b2 r1, r = b1 :: b2 :: r1 ∧ url.isCont b1 = true ∧
      url.isCont b2 = true) ∨
    ((url.decodeRune (b0 :: r)).2 = 4 ∧ ∃ b1 b2 b3 r1, r = b1 :: b2 :: b3 :: r1 ∧
      url.isCont b1 = true ∧ url.isCont b2 = true ∧ url.isCont b3 = true) :=
  decodeRune_width_aux b0 r (url.decodeRune (b0 :: r)).1 (url.decodeRune (b0 :: r)).2 rfl

theorem segments_peel (segs : List (List Nat)) (b : Nat) (r : List Nat)
    (hs : ∀ seg ∈ segs, seg.length = 1 ∨ ∃ c : Char, 0x80 ≤ c.toNat ∧ seg = url.utf8EncodeChar c)
    (hf : segs.flatten = b :: r) (hb : url.isCont b = true) :
    ∃ segs1, segs = [b] :: segs1 ∧ r = segs1.flatten := by
  cases segs with
  | nil => simp at hf
  | cons seg segs1 =>
    rcases hs seg (List.mem_cons_self _ _) with h1 | ⟨c, hc, he⟩
    · match seg, h1 with
      | [x], _ =>
        simp only [List.flatten_cons, List.singleton_append, List.cons.injEq] at hf
        exact ⟨segs1, by rw [hf.1], hf.2.symm⟩
    · obtain ⟨b0, bs, hbs, hb0, _⟩ := encode_high c hc
      rw [he, hbs] at hf
      simp only [List.flatten_cons, List.cons_append, List.cons.injEq] at hf
      simp only [url.isCont, Bool.and_eq_true, decide_eq_true_eq] at hb
      omega

theorem decode_segments (fuel : Nat) : ∀ (segs : List (List Nat)),
    (∀ seg ∈ segs, seg.length = 1 ∨ ∃ c : Char, 0x80 ≤ c.toNat ∧ seg = url.utf8EncodeChar c) →
    (url.utf8DecodeN fuel segs.flatten).length ≤ segs.length := by
  induction fuel with
  | zero => intro segs _; simp [url.utf8DecodeN]
  | succ fuel ih =>
    intro segs hs
    cases segs with
    | nil => simp [url.utf8DecodeN]
    | cons seg segs1 =>
      have hs1 : ∀ seg ∈ segs1, seg.length = 1 ∨
          ∃ c : Char, 0x80 ≤ c.toNat ∧ seg = url.utf8EncodeChar c :=
        fun x hx => hs x (List.mem_cons_of_mem _ hx)
      rcases hs seg (List.mem_cons_self _ _) with h1 | ⟨c, hc, he⟩
      · match seg, h1 with
        | [b0], _ =>
          have hfl : ([b0] :: segs1).flatten = b0 :: segs1.flatten := rfl
          rw [hfl]
          simp only [url.utf8DecodeN, List.length_cons]
          rcases decodeRune_width b0 segs1.flatten with hw | ⟨hw, b1, r1, hr, c1⟩ |
              ⟨hw, b1, b2, r1, hr, c1, c2⟩ | ⟨hw, b1, b2, b3, r1, hr, c1, c2, c3⟩
          · rw [hw]
            have := ih segs1 hs1
            simpa using this
          · rw [hw]
            obtain ⟨segs2, e2, hr2⟩ := segments_peel segs1 b1 r1 hs1 hr c1
            have hs2 : ∀ seg ∈ segs2, seg.length = 1 ∨
                ∃ c : Char, 0x80 ≤ c.toNat ∧ seg = url.utf8EncodeChar c :=
              fun x hx => hs1 x (by rw [e2]; exact List.mem_cons_of_mem _ hx)
            have := ih segs2 hs2
            rw [hr, e2]
            simp only [List.drop_succ_cons, List.drop_zero, List.length_cons]
            rw [hr2]; omega
          · rw [hw]
            obtain ⟨segs2, e2, hr2⟩ := segments_peel segs1 b1 (b2 :: r1) hs1 hr c1
            have hs2 : ∀ seg ∈ segs2, seg.length = 1 ∨
                ∃ c : Char, 0x80 ≤ c.toNat ∧ seg = url.utf8EncodeChar c :=
              fun x hx => hs1 x (by rw [e2]; exact List.mem_cons_of_mem _ hx)
            obtain ⟨segs3, e3, hr3⟩ := segments_peel segs2 b2 r1 hs2 hr2.symm c2
            have hs3 : ∀ seg ∈ segs3, seg.length = 1 ∨
                ∃ c : Char, 0x80 ≤ c.toNat ∧ seg = url.utf8EncodeChar c :=
              fun x hx => hs2 x (by rw [e3]; exact List.mem_cons_of_mem _ hx)
            have := ih segs3 hs3
            rw [hr, e2, e3]
            simp only [List.drop_succ_cons, List.drop_zero, List.length_cons]
            rw [hr3]; omega
          · rw [hw]
            obtain ⟨segs2, e2, hr2⟩ := segments_peel segs1 b1 (b2 :: b3 :: r1) hs1 hr c1
            have hs2 : ∀ seg ∈ segs2, seg.length = 1 ∨
                ∃ c : Char, 0x80 ≤ c.toNat ∧ seg = url.utf8EncodeChar c :=
              fun x hx => hs1 x (by rw [e2]; exact List.mem_cons_of_mem _ hx)
            obtain ⟨segs3, e3, hr3⟩ := segments_peel segs2 b2 (b3 :: r1) hs2 hr2.symm c2
            have hs3 : ∀ seg ∈ segs3, seg.length = 1 ∨
                ∃ c : Char, 0x80 ≤ c.toNat ∧ seg = url.utf8EncodeChar c :=
              fun x hx => hs2 x (by rw [e3]; exact List.mem_cons_of_mem _ hx)
            obtain ⟨segs4, e4, hr4⟩ := segments_peel segs3 b3 r1 hs3 hr3.symm c3
            have hs4 : ∀ seg ∈ segs4, seg.length = 1 ∨
                ∃ c : Char, 0x80 ≤ c.toNat ∧ seg = url.utf8EncodeChar c :=
              fun x hx => hs3 x (by rw [e4]; exact List.mem_cons_of_mem _ hx)
            have := ih segs4 hs4
            rw [hr, e2, e3, e4]
            simp only [List.drop_succ_cons, List.drop_zero, List.length_cons]
            rw [hr4]; omega
      · obtain ⟨b0, bs, hbs, _, _⟩ := encode_high c hc
        have hd := decodeRune_encode c segs1.flatten
        rw [he, List.flatten_cons]
        rw [hbs] at hd ⊢
        simp only [List.cons_append] at hd ⊢
        simp only [url.utf8DecodeN, hd, List.length_cons]
        have hdrop : List.drop (bs.length + 1) (b0 :: (bs ++ segs1.flatten)) = segs1.flatten := by
          simp
        rw [hdrop]
        have := ih segs1 hs1
        omega

theorem unescapeBytes_high (mode : url.encoding) (b : Nat) (q : List Nat) (h : 0x80 ≤ b) :
    url.unescapeBytes mode (b :: q) = (url.unescapeBytes mode q).map (fun t => b :: t) := by
  have h37 : b ≠ 37 := by omega
  have h43 : b ≠ 43 := by omega
  have hlt : ¬ b < 0x80 := by omega
  conv_lhs => unfold url.unescapeBytes
  split
  · rename_i heq; simp at heq
  · rename_i heq
    simp only [List.cons.injEq] at heq
    omega
  · rename_i c rest _ heq
    simp only [List.cons.injEq] at heq
    obtain ⟨rfl, rfl⟩ := heq
    simp [h37, h43, hlt]

theorem unescapeBytes_high_append (mode : url.encoding) (q : List Nat) : ∀ (p : List Nat),
    (∀ b ∈ p, 0x80 ≤ b) →
    url.unescapeBytes mode (p ++ q) = (url.unescapeBytes mode q).map (fun t => p ++ t) := by
  intro p
  induction p with
  | nil => intro _; simp
  | cons b p ih =>
    intro h
    rw [List.cons_append, unescapeBytes_high mode b _ (h b (List.mem_cons_self _ _)),
      ih (fun x hx => h x (List.mem_cons_of_mem _ hx))]
    rw [Option.map_map]
    rfl

theorem unescapeBytes_plain (mode : url.encoding) (b : Nat) (q out : List Nat) (hb : b ≠ 37)
    (h : url.unescapeBytes mode (b :: q) = some out) :
    ∃ x out1, out = x :: out1 ∧ url.unescapeBytes mode q = some out1 := by
  unfold url.unescapeBytes at h
  split at h
  · rename_i heq; simp at heq
  · rename_i heq
    simp only [List.cons.injEq] at heq
    omega
  · rename_i c rest _ heq
    simp only [List.cons.injEq] at heq
    obtain ⟨rfl, rfl⟩ := heq
    simp only [hb, if_false] at h
    split_ifs at h
    all_goals
      simp only [Option.map_eq_some'] at h
      obtain ⟨t, ht, rfl⟩ := h
      exact ⟨_, t, rfl, ht⟩

theorem unescapeBytes_escape (mode : url.encoding) (q out : List Nat)
    (h : url.unescapeBytes mode (37 :: q) = some out) :
    ∃ h1 h2 q1 x out1, q = h1 :: h2 :: q1 ∧ url.ishex h1 = true ∧ url.ishex h2 = true ∧
      out = x :: out1 ∧ url.unescapeBytes mode q1 = some out1 := by
  unfold url.unescapeBytes at h
  split at h
  · rename_i heq; simp at heq
  · rename_i h1 h2 rest heq
    simp only [List.cons.injEq, true_and] at heq
    subst heq
    split_ifs at h with c1 c2 c3
    simp only [Option.map_eq_some'] at h
    obtain ⟨t, ht, rfl⟩ := h
    simp only [Bool.or_eq_true, Bool.not_eq_true', not_or, Bool.not_eq_false] at c1
    exact ⟨h1, h2, rest, _, t, rfl, c1.1, c1.2, rfl, ht⟩
  · rename_i c rest _ heq
    simp only [List.cons.injEq] at heq
    obtain ⟨rfl, rfl⟩ := heq
    simp at h

theorem utf8Encode_cons (c : Char) (cs : List Char) :
    url.utf8Encode (c :: cs) = url.utf8EncodeChar c ++ url.utf8Encode cs := by
  simp [url.utf8Encode]

theorem utf8Encode_ascii_head (cs : List Char) (h : Nat) (r : List Nat)
    (he : url.utf8Encode cs = h :: r) (hh : h < 0x80) :
    ∃ c1 cs1, cs = c1 :: cs1 ∧ r = url.utf8Encode cs1 := by
  cases cs with
  | nil => simp [url.utf8Encode] at he
  | cons c1 cs1 =>
    rw [utf8Encode_cons] at he
    by_cases hc : c1.toNat < 0x80
    · rw [encode_ascii c1 hc] at he
      simp only [List.singleton_append, List.cons.injEq] at he
      exact ⟨c1, cs1, rfl, he.2.symm⟩
    · obtain ⟨b0, bs, hbs, hb0, _⟩ := encode_high c1 (by omega)
      rw [hbs] at he
      simp only [List.cons_append, List.cons.injEq] at he
      omega

theorem ishex_lt (h : Nat) (hh : url.ishex h = true) : h < 0x80 := by
  simp only [url.ishex, Bool.or_eq_true, Bool.and_eq_true, decide_eq_true_eq] at hh
  omega

theorem unescape_segments (mode : url.encoding) (n : Nat) : ∀ (s : List Char) (out : List Nat),
    s.length ≤ n → url.unescapeBytes mode (url.utf8Encode s) = some out →
    ∃ segs : List (List Nat), out = segs.flatten ∧ segs.length ≤ s.length ∧
      ∀ seg ∈ segs, seg.length = 1 ∨ ∃ c : Char, 0x80 ≤ c.toNat ∧ seg = url.utf8EncodeChar c := by
  induction n with
  | zero =>
    intro s out hn h
    have hs : s = [] := List.length_eq_zero.mp (by omega)
    subst hs
    simp only [url.utf8Encode, List.flatMap_nil, url.unescapeBytes, Option.some.injEq] at h
    exact ⟨[], by simp [← h], by simp, by simp⟩
  | succ n ih =>
    intro s out hn h
    cases s with
    | nil =>
      simp only [url.utf8Encode, List.flatMap_nil, url.unescapeBytes, Option.some.injEq] at h
      exact ⟨[], by simp [← h], by simp, by simp⟩
    | cons c cs =>
      rw [utf8Encode_cons] at h
      simp only [List.length_cons] at hn ⊢
      by_cases hc : c.toNat < 0x80
      · rw [encode_ascii c hc, List.singleton_append] at h
        by_cases h37 : c.toNat = 37
        · rw [h37] at h
          obtain ⟨h1, h2, q1, x, out1, hq, x1, x2, rfl, ho⟩ := unescapeBytes_escape mode _ _ h
          obtain ⟨c1, cs1, rfl, hq1⟩ := utf8Encode_ascii_head cs h1 _ hq (ishex_lt h1 x1)
          obtain ⟨c2, cs2, rfl, hq2⟩ := utf8Encode_ascii_head cs1 h2 _ hq1.symm (ishex_lt h2 x2)
          rw [hq2] at ho
          simp only [List.length_cons] at hn ⊢
          obtain ⟨segs, rfl, hl, hs⟩ := ih cs2 out1 (by omega) ho
          refine ⟨[x] :: segs, rfl, by simp only [List.length_cons]; omega, ?_⟩
          intro seg hseg
          rcases List.mem_cons.mp hseg with rfl | hm
          · exact Or.inl rfl
          · exact hs seg hm
        · obtain ⟨x, out1, rfl, ho⟩ := unescapeBytes_plain mode _ _ _ h37 h
          obtain ⟨segs, rfl, hl, hs⟩ := ih cs out1 (by omega) ho
          refine ⟨[x] :: segs, rfl, by simp only [List.length_cons]; omega, ?_⟩
          intro seg hseg
          rcases List.mem_cons.mp hseg with rfl | hm
          · exact Or.inl rfl
          · exact hs seg hm
      · obtain ⟨b0, bs, hbs, hb0, hbs2⟩ := encode_high c (by omega)
        have hall : ∀ b ∈ url.utf8EncodeChar c, 0x80 ≤ b := by
          intro b hb
          rw [hbs] at hb
          rcases List.mem_cons.mp hb with rfl | hm
          · omega
          · exact hbs2 b hm
        rw [unescapeBytes_high_append mode _ _ hall] at h
        simp only [Option.map_eq_some'] at h
        obtain ⟨out1, ho, rfl⟩ := h
        obtain ⟨segs, rfl, hl, hs⟩ := ih cs out1 (by omega) ho
        refine ⟨url.utf8EncodeChar c :: segs, rfl, by simp only [List.length_cons]; omega, ?_⟩
        intro seg hseg
        rcases List.mem_cons.mp hseg with rfl | hm
        · exact Or.inr ⟨c, by omega, rfl⟩
        · exact hs seg hm

theorem unescape_length (s t : List Char) (mode : url.encoding)
    (h : url.unescape s mode = some t) : t.length ≤ s.length := by
  simp only [url.unescape, Option.map_eq_some'] at h
  obtain ⟨out, ho, rfl⟩ := h
  obtain ⟨segs, rfl, hl, hs⟩ := unescape_segments mode s.length s out (Nat.le_refl _) ho
  exact Nat.le_trans (decode_segments _ segs hs) hl

theorem cut_cons_ne (sep c : Char) (rest : List Char) (h : c ≠ sep) :
    url.cut sep (c :: rest) =
      (c :: (url.cut sep rest).1, (url.cut sep rest).2.1, (url.cut sep rest).2.2) := by
  conv_lhs => unfold url.cut
  simp only [h, if_false]

theorem cut_after_lt (sep : Char) : ∀ (l : List Char), l ≠ [] →
    (url.cut sep l).2.1.length < l.length := by
  intro l
  induction l with
  | nil => intro h; exact absurd rfl h
  | cons c rest ih =>
    intro _
    by_cases hc : c = sep
    · simp [url.cut, hc]
    · rw [cut_cons_ne sep c rest hc]
      cases rest with
      | nil => simp [url.cut]
      | cons d rest1 =>
        have := ih (List.cons_ne_nil _ _)
        simp only [List.length_cons] at this ⊢
        omega

theorem cut_before_le (sep : Char) : ∀ (l : List Char),
    (url.cut sep l).1.length ≤ l.length := by
  intro l
  induction l with
  | nil => simp [url.cut]
  | cons c rest ih =>
    by_cases hc : c = sep
    · simp [url.cut, hc]
    · rw [cut_cons_ne sep c rest hc]
      simp only [List.length_cons]
      omega

theorem cut_after_le (sep : Char) (l : List Char) :
    (url.cut sep l).2.1.length ≤ l.length := by
  cases l with
  | nil => simp [url.cut]
  | cons c rest => exact Nat.le_of_lt (cut_after_lt sep _ (List.cons_ne_nil _ _))

theorem split_piece_le (sep : Char) : ∀ (l : List Char), ∀ p ∈ url.split sep l,
    p.length ≤ l.length := by
  intro l
  induction l with
  | nil => intro p hp; simp [url.split] at hp; simp [hp]
  | cons c rest ih =>
    intro p hp
    unfold url.split at hp
    split_ifs at hp with hc
    · rcases List.mem_cons.mp hp with rfl | hm
      · simp
      · have := ih p hm
        simp only [List.length_cons]; omega
    · split at hp
      · rename_i piece pieces heq
        rcases List.mem_cons.mp hp with rfl | hm
        · have := ih piece (by rw [heq]; exact List.mem_cons_self _ _)
          simp only [List.length_cons]; omega
        · have := ih p (by rw [heq]; exact List.mem_cons_of_mem _ hm)
          simp only [List.length_cons]; omega
      · simp only [List.mem_singleton] at hp
        subst hp
        simp

theorem add_values_lt (q : Nat) (v : url.Values) (k x : List Char)
    (hv : ∀ kv ∈ v, ∀ y ∈ kv.2, y.length < q) (hx : x.length < q) :
    ∀ kv ∈ v.add k x, ∀ y ∈ kv.2, y.length < q := by
  intro kv hkv y hy
  unfold url.Values.add at hkv
  split_ifs at hkv
  · simp only [List.mem_map] at hkv
    obtain ⟨p, hp, rfl⟩ := hkv
    split_ifs at hy
    · simp only [List.mem_append, List.mem_singleton] at hy
      rcases hy with hy | rfl
      · exact hv p hp y hy
      · exact hx
    · exact hv p hp y hy
  · simp only [List.mem_append, List.mem_singleton] at hkv
    rcases hkv with hkv | rfl
    · exact hv kv hkv y hy
    · simp only [List.mem_singleton] at hy
      subst hy; exact hx

theorem parseQuery_values_lt (q : Nat) : ∀ (pairs : List (List Char)) (m : url.Values),
    (∀ kv ∈ m, ∀ y ∈ kv.2, y.length < q) → (∀ p ∈ pairs, p.length ≤ q) →
    ∀ kv ∈ url.parseQuery m pairs, ∀ y ∈ kv.2, y.length < q := by
  intro pairs
  induction pairs with
  | nil => intro m h _; simpa [url.parseQuery] using h
  | cons p rest ih =>
    intro m h hp
    have hrest : ∀ p ∈ rest, p.length ≤ q := fun x hx => hp x (List.mem_cons_of_mem _ hx)
    unfold url.parseQuery
    split
    · exact ih m h hrest
    · split
      · exact ih m h hrest
      · rename_i hne
        simp only
        split
        · exact ih m h hrest
        · split
          · exact ih m h hrest
          · rename_i value hval
            refine ih _ (add_values_lt q m _ value h ?_) hrest
            have hpne : p ≠ [] := by
              intro he; apply hne; simp [he]
            have h1 := cut_after_lt '=' p hpne
            have h2 := unescape_length _ _ _ hval
            have h3 := hp p (List.mem_cons_self _ _)
            exact Nat.lt_of_le_of_lt h2 (Nat.lt_of_lt_of_le h1 h3)

theorem ParseQuery_values_lt (query : List Char) :
    ∀ kv ∈ url.ParseQuery query, ∀ y ∈ kv.2, y.length < query.length :=
  parseQuery_values_lt query.length _ [] (by simp) (split_piece_le '&' query)

theorem mem_of_lookup : ∀ (v : url.Values) (k : List Char) (x : List (List Char)),
    v.lookup k = some x → (k, x) ∈ v := by
  intro v
  induction v with
  | nil => intro k x h; simp at h
  | cons p rest ih =>
    intro k x h
    obtain ⟨k1, x1⟩ := p
    by_cases hk : k = k1
    · subst hk
      simp only [List.lookup_cons, beq_self_eq_true, Option.some.injEq] at h
      subst h
      exact List.mem_cons_self _ _
    · have hb : (k == k1) = false := by simpa using hk
      simp only [List.lookup_cons, hb] at h
      exact List.mem_cons_of_mem _ (ih k x h)

theorem Get_length_lt (query : List Char) (kv : List Char × List (List Char))
    (hkv : kv ∈ url.ParseQuery query) (key : List Char) :
    ((url.ParseQuery query).Get key).length < query.length := by
  have hq : 0 < query.length := by
    cases query with
    | nil => simp [url.ParseQuery, url.split, url.parseQuery, List.isEmpty] at hkv
    | cons c rest => simp
  unfold url.Values.Get
  split
  · rename_i first rest heq
    exact ParseQuery_values_lt query _ (mem_of_lookup _ _ _ heq) first (List.mem_cons_self _ _)
  · simpa using hq

theorem getSchemeLoop_rest (rawURL : List Char) : ∀ (l : List Char) (i : Nat)
    (scheme rest : List Char), url.getSchemeLoop rawURL i l = some (scheme, rest) →
    rest = rawURL ∨ rest.length ≤ l.length := by
  intro l
  induction l with
  | nil =>
    intro i scheme rest h
    simp only [url.getSchemeLoop, Option.some.injEq, Prod.mk.injEq] at h
    exact Or.inl h.2.symm
  | cons c l1 ih =>
    intro i scheme rest h
    simp only [url.getSchemeLoop] at h
    split_ifs at h
    · rcases ih _ _ _ h with h1 | h1
      · exact Or.inl h1
      · exact Or.inr (by simp only [List.length_cons]; omega)
    · simp only [Option.some.injEq, Prod.mk.injEq] at h
      exact Or.inl h.2.symm
    · rcases ih _ _ _ h with h1 | h1
      · exact Or.inl h1
      · exact Or.inr (by simp only [List.length_cons]; omega)
    · simp only [Option.some.injEq, Prod.mk.injEq] at h
      exact Or.inr (by rw [← h.2]; simp)
    · simp only [Option.some.injEq, Prod.mk.injEq] at h
      exact Or.inl h.2.symm

theorem getScheme_rest_le (rawURL scheme rest : List Char)
    (h : url.getScheme rawURL = some (scheme, rest)) : rest.length ≤ rawURL.length := by
  rcases getSchemeLoop_rest rawURL rawURL 0 scheme rest h with h1 | h1
  · rw [h1]
  · exact h1

theorem setPath_RawQuery (u v : url.URL) (p : List Char) (h : u.setPath p = some v) :
    v.RawQuery = u.RawQuery := by
  unfold url.URL.setPath at h
  split at h
  · simp at h
  · simp only [Option.some.injEq] at h
    rw [← h]

theorem setFragment_RawQuery (u v : url.URL) (f : List Char) (h : u.setFragment f = some v) :
    v.RawQuery = u.RawQuery := by
  unfold url.URL.setFragment at h
  split at h
  · simp at h
  · simp only [Option.some.injEq] at h
    rw [← h]

theorem parse_RawQuery (rawURL : List Char) (u : url.URL) (h : url.parse rawURL = some u) :
    u.RawQuery.length ≤ rawURL.length - 1 := by
  unfold url.parse at h
  split_ifs at h with h1 h2
  · simp only [Option.some.injEq] at h
    rw [← h]; simp
  · simp only at h
    split at h
    · simp at h
    · rename_i scheme rest hs
      have hle := getScheme_rest_le _ _ _ hs
      have hcut : (url.cut '?' rest).2.1.length ≤ rest.length - 1 := by
        cases rest with
        | nil => simp [url.cut]
        | cons c r =>
          have := cut_after_lt '?' (c :: r) (List.cons_ne_nil _ _)
          omega
      generalize hpr : (if rest.getLast? = some '?' ∧ url.countQ rest = 1 then
          (rest.dropLast, (⟨List.map Char.toLower scheme, [], none, [], [], [], false, true,
            [], [], []⟩ : url.URL))
        else
          ((url.cut '?' rest).1, (⟨List.map Char.toLower scheme, [], none, [], [], [], false,
            false, (url.cut '?' rest).2.1, [], []⟩ : url.URL))) = pr at h
      have hq : pr.2.RawQuery.length ≤ rest.length - 1 := by
        rw [← hpr]
        split_ifs
        · simp
        · exact hcut
      have hgoal : u.RawQuery = pr.2.RawQuery := by
        split_ifs at h
        all_goals
          first
          | (simp only [Option.some.injEq] at h
             rw [← h])
          | (have h3 := setPath_RawQuery _ _ _ h
             exact h3)
          | (split at h
             · simp at h
             · have h3 := setPath_RawQuery _ _ _ h
               exact h3)
      rw [hgoal]
      omega

theorem Parse_RawQuery (rawURL : List Char) (u : url.URL) (h : url.Parse rawURL = some u) :
    u.RawQuery.length ≤ rawURL.length - 1 := by
  unfold url.Parse at h
  simp only at h
  have hb := cut_before_le '#' rawURL
  split at h
  · simp at h
  · rename_i v hv
    have h1 := parse_RawQuery _ _ hv
    split_ifs at h
    · simp only [Option.some.injEq] at h
      rw [← h]; omega
    · rw [setFragment_RawQuery _ _ _ h]; omega

theorem queryPrefixed_length (s : String) : (queryPrefixed s).data.length - 1 ≤ s.length := by
  unfold queryPrefixed
  split_ifs
  · have hd : ("?" ++ s).data = '?' :: s.data := rfl
    rw [hd]
    show (s.data.length + 1) - 1 ≤ s.data.length
    omega
  · show s.data.length - 1 ≤ s.data.length
    omega

theorem maskURL_congr (f g : String → String → String) (s : String)
    (h : ∀ (k v : String), v.length < s.length → f k v = g k v) :
    maskURL (some f) s = maskURL (some g) s := by
  cases hp : url.Parse (queryPrefixed s).data with
  | none =>
    simp only [queryPrefixed] at hp
    simp only [maskURL, hp]
  | some u =>
    rw [maskURL_parsed f s u hp, maskURL_parsed g s u hp]
    have hlen : u.RawQuery.length ≤ s.length :=
      Nat.le_trans (Parse_RawQuery _ _ hp) (queryPrefixed_length s)
    have hmap : (u.Query.map fun (kv : List Char × List (List Char)) =>
        (kv.1, [(f (String.mk kv.1) (String.mk (u.Query.Get kv.1))).data])) =
        (u.Query.map fun (kv : List Char × List (List Char)) =>
        (kv.1, [(g (String.mk kv.1) (String.mk (u.Query.Get kv.1))).data])) := by
      apply List.map_congr_left
      intro kv hkv
      have hg := Get_length_lt u.RawQuery kv hkv kv.1
      have hlt : (String.mk (u.Query.Get kv.1)).length < s.length := by
        show (url.Values.Get (url.ParseQuery u.RawQuery) kv.1).length < s.length
        omega
      rw [h _ _ hlt]
    rw [hmap]

theorem HideN_stable (tab : UnicodeTables) (defaultConverter : Option Converter) :
    ∀ (n m : Nat) (c : Converter) (key val : String), val.length < n → val.length < m →
    c.HideN tab defaultConverter n key val = c.HideN tab defaultConverter m key val := by
  intro n
  induction n with
  | zero => intro m c key val h; omega
  | succ n ih =>
    intro m c key val hn hm
    cases m with
    | zero => omega
    | succ m =>
      unfold Converter.HideN
      split
      · rfl
      · rename_i rule _
        split
        · rfl
        · rfl
        · rfl
        · rfl
        · cases defaultConverter with
          | none => rfl
          | some conv =>
            simp only [Option.map_some']
            apply maskURL_congr
            intro k v hv
            exact ih m conv k v (by omega) (by omega)
        · rfl

/-- Any fuel above the length of the value gives the result of `Hide`: the
nesting through `maskURL` never exhausts it. -/
theorem Hide_fuel (tab : UnicodeTables) (defaultConverter : Option Converter) (c : Converter)
    (key val : String) (n : Nat) (h : val.length < n) :
    c.HideN tab defaultConverter n key val = c.Hide tab defaultConverter key val :=
  HideN_stable tab defaultConverter n (val.length + 1) c key val h (Nat.lt_succ_self _)

/-- The recursion of `(*Converter).Hide` as the source writes it: the URL rule
calls `Hide` of the default converter on the values of the query. -/
theorem Hide_unfold (tab : UnicodeTables) (defaultConverter : Option Converter) (c : Converter)
    (key val : String) :
    c.Hide tab defaultConverter key val =
      match c.fields.lookup key with
      | none => val
      | some rule =>
        match rule.transform with
        | .fullExclude => fullExclude val
        | .maskName => maskName tab val
        | .maskEmail => maskEmail val
        | .maskCardAndPhone => maskCardAndPhone tab val
        | .maskURL =>
          maskURL (defaultConverter.map fun converter =>
            converter.Hide tab defaultConverter) val
        | .custom f => f val := by
  unfold Converter.Hide
  conv_lhs => unfold Converter.HideN
  cases hl : c.fields.lookup key with
  | none => rfl
  | some rule =>
    dsimp only
    cases ht : rule.transform with
    | fullExclude => rfl
    | maskName => rfl
    | maskEmail => rfl
    | maskCardAndPhone => rfl
    | custom f => rfl
    | maskURL =>
      dsimp only
      cases defaultConverter with
      | none => rfl
      | some conv =>
        simp only [Option.map_some']
        apply maskURL_congr
        intro k v hv
        exact HideN_stable tab (some conv) val.length (v.length + 1) conv k v hv
          (Nat.lt_succ_self _)

end hide

namespace hide

/-! ## `NewConverter`: when the construction panics -/

theorem lookup_isSome_iff_mem_keys (fields : List (String × rule)) (k : String) :
    (fields.lookup k).isSome = true ↔ k ∈ fields.map Prod.fst := by
  rw [List.lookup_isSome_iff]
  simp only [List.mem_map]
  constructor
  · rintro ⟨p, hp, hk⟩
    exact ⟨p, hp, (eq_of_beq hk).symm⟩
  · rintro ⟨p, hp, hk⟩
    exact ⟨p, hp, by simp [hk]⟩

theorem NewConverterFields_keys (r : rule) : ∀ (fs : List String)
    (fields : List (String × rule)), (fields.map Prod.fst).Nodup →
    match NewConverterFields r fs fields with
    | none => ¬ (fields.map Prod.fst ++ fs).Nodup
    | some out => out.map Prod.fst = fields.map Prod.fst ++ fs ∧
        (fields.map Prod.fst ++ fs).Nodup := by
  intro fs
  induction fs with
  | nil => intro fields h; simpa [NewConverterFields] using h
  | cons f rest ih =>
    intro fields h
    unfold NewConverterFields
    by_cases hl : (fields.lookup f).isSome = true
    · simp only [hl, if_true]
      have hm := (lookup_isSome_iff_mem_keys fields f).mp hl
      intro hnd
      rw [List.nodup_append] at hnd
      exact hnd.2.2 hm (List.mem_cons_self _ _)
    · simp only [hl]
      have hm : f ∉ fields.map Prod.fst := fun hm =>
        hl ((lookup_isSome_iff_mem_keys fields f).mpr hm)
      have h1 : ((fields ++ [(f, r)]).map Prod.fst).Nodup := by
        simp only [List.map_append, List.map_cons, List.map_nil]
        refine List.Nodup.append h (List.nodup_singleton f) ?_
        intro a ha hb
        simp only [List.mem_singleton] at hb
        subst hb
        exact hm ha
      have h2 := ih (fields ++ [(f, r)]) h1
      have he : (fields ++ [(f, r)]).map Prod.fst ++ rest = fields.map Prod.fst ++ f :: rest := by
        simp
      rw [he] at h2
      exact h2

theorem NewConverterRules_keys : ∀ (rules : List rule) (fields : List (String × rule)),
    (fields.map Prod.fst).Nodup →
    ((NewConverterRules rules fields).isSome = true ↔
      (fields.map Prod.fst ++ rules.flatMap rule.Fields).Nodup) := by
  intro rules
  induction rules with
  | nil => intro fields h; simpa [NewConverterRules] using h
  | cons r rest ih =>
    intro fields h
    unfold NewConverterRules
    have h1 := NewConverterFields_keys r r.Fields fields h
    cases hf : NewConverterFields r r.Fields fields with
    | none =>
      rw [hf] at h1
      simp only [Option.isSome_none, Bool.false_eq_true, List.flatMap_cons, false_iff]
      intro hnd
      apply h1
      rw [← List.append_assoc] at hnd
      exact (List.nodup_append.mp hnd).1
    | some out =>
      rw [hf] at h1
      simp only
      rw [ih out (by rw [h1.1]; exact h1.2), h1.1, List.flatMap_cons, List.append_assoc]

/-- C21, counterexample: one rule that lists a field twice; no field is
claimed by two different rules, and the construction panics. -/
theorem single_rule_with_repeated_field_panics :
    List.Pairwise (fun a b : rule => List.Disjoint a.Fields b.Fields) [twiceRule] ∧
      NewConverter [twiceRule] = none := by
  exact ⟨List.pairwise_singleton _ _, rfl⟩

/-- C21, amended: `NewConverter` returns a Converter exactly when no field
name occurs twice in the field lists of the rules taken together, that is when
no rule lists a field twice and no field is listed by two of the rules; in
every other case it panics. -/
theorem NewConverter_succeeds_iff (rules : List rule) :
    (NewConverter rules = none ↔
      ¬ ((∀ r ∈ rules, r.Fields.Nodup) ∧
        rules.Pairwise (fun a b => List.Disjoint a.Fields b.Fields))) ∧
    ((NewConverter rules).isSome = true ↔
      (∀ r ∈ rules, r.Fields.Nodup) ∧
        rules.Pairwise (fun a b => List.Disjoint a.Fields b.Fields)) := by
  have h := NewConverterRules_keys rules [] (by simp)
  simp only [List.map_nil, List.nil_append, List.nodup_flatMap] at h
  have hs : (NewConverter rules).isSome = (NewConverterRules rules []).isSome := by
    simp [NewConverter]
  refine ⟨?_, by rw [hs]; exact h⟩
  rw [← h, ← hs]
  cases NewConverter rules <;> simp

end hide

namespace retry

/-! ## The retry policy -/

/-- C26: for every response with status code `s`, a context that is not done
and no transport error, `DefaultRetryPolicy` returns `(retry, nil)` where
`retry` is true exactly when `s = 429`, `s = 0`, or `s ≥ 500` and `s ≠ 501`;
and whatever its arguments, the error it returns is the context's own. -/
theorem DefaultRetryPolicy_status (resp : Response) :
    DefaultRetryPolicy none (some resp) none =
      some (decide (resp.StatusCode = 429 ∨ resp.StatusCode = 0 ∨
        (resp.StatusCode ≥ 500 ∧ resp.StatusCode ≠ 501)), none) ∧
    ∀ (ctxErr : Option ContextError) (r : Option Response) (err : Option TransportError),
      DefaultRetryPolicy ctxErr r err = none ∨
        ∃ b, DefaultRetryPolicy ctxErr r err = some (b, ctxErr) := by
  constructor
  · simp only [DefaultRetryPolicy, baseRetryPolicy]
    by_cases h1 : resp.StatusCode = 429
    · simp [h1]
    · by_cases h2 : resp.StatusCode = 0 ∨ (resp.StatusCode ≥ 500 ∧ resp.StatusCode ≠ 501)
      · simp only [h1, if_false, h2, if_true]
        simp [h2]
      · simp only [h1, if_false, h2]
        simp only [not_or] at h2
        simp [h1, h2.1, h2.2]
  · intro ctxErr r err
    cases ctxErr with
    | some e => exact Or.inr ⟨false, rfl⟩
    | none =>
      simp only [DefaultRetryPolicy]
      cases hb : baseRetryPolicy r err with
      | none => exact Or.inl rfl
      | some p => exact Or.inr ⟨p.1, rfl⟩

/-! ## The `Retry-After` header -/

theorem foldl_digits_le (ds : List Char) : ∀ (acc : Nat),
    acc ≤ ds.foldl (fun a c => a * 10 + (c.toNat - 48)) acc := by
  induction ds with
  | nil => intro acc; exact Nat.le_refl _
  | cons c rest ih =>
    intro acc
    simp only [List.foldl_cons]
    exact Nat.le_trans (by omega) (ih _)

theorem parseUintLoop_digits : ∀ (ds : List Char) (acc : Nat),
    (∀ c ∈ ds, '0' ≤ c ∧ c ≤ '9') →
    ds.foldl (fun a c => a * 10 + (c.toNat - 48)) acc ≤ 2 ^ 64 - 1 →
    parseUintLoop ds acc = some (ds.foldl (fun a c => a * 10 + (c.toNat - 48)) acc) := by
  intro ds
  induction ds with
  | nil => intro acc _ _; rfl
  | cons c rest ih =>
    intro acc hd hle
    have hc := hd c (List.mem_cons_self _ _)
    simp only [List.foldl_cons] at hle ⊢
    have hm := foldl_digits_le rest (acc * 10 + (c.toNat - 48))
    have h1 : ¬ acc ≥ (2 ^ 64 - 1) / 10 + 1 := by omega
    have h2 : ¬ acc * 10 + (c.toNat - 48) > 2 ^ 64 - 1 := by omega
    simp only [parseUintLoop, hc, and_self, if_true, h1, if_false, h2]
    exact ih _ (fun x hx => hd x (List.mem_cons_of_mem _ hx)) hle

theorem digitChar_digit (m : Nat) (h : m < 10) :
    ('0' ≤ Nat.digitChar m ∧ Nat.digitChar m ≤ '9') ∧ (Nat.digitChar m).toNat - 48 = m := by
  interval_cases m <;> decide

theorem toDigitsCore_digits : ∀ (fuel n : Nat) (ds : List Char), n < fuel →
    (∀ c ∈ ds, '0' ≤ c ∧ c ≤ '9') →
    (∀ c ∈ Nat.toDigitsCore 10 fuel n ds, '0' ≤ c ∧ c ≤ '9') ∧
    Nat.toDigitsCore 10 fuel n ds ≠ [] ∧
    ∀ acc, ∃ k, (Nat.toDigitsCore 10 fuel n ds).foldl (fun a c => a * 10 + (c.toNat - 48)) acc =
      ds.foldl (fun a c => a * 10 + (c.toNat - 48)) (acc * 10 ^ k + n) := by
  intro fuel
  induction fuel with
  | zero => intro n ds h; omega
  | succ fuel ih =>
    intro n ds hn hds
    have hd := digitChar_digit (n % 10) (Nat.mod_lt _ (by omega))
    have hds1 : ∀ c ∈ Nat.digitChar (n % 10) :: ds, '0' ≤ c ∧ c ≤ '9' := by
      intro c hc
      rcases List.mem_cons.mp hc with rfl | hm
      · exact hd.1
      · exact hds c hm
    simp only [Nat.toDigitsCore]
    by_cases h0 : n / 10 = 0
    · simp only [h0, if_true]
      refine ⟨hds1, List.cons_ne_nil _ _, fun acc => ⟨1, ?_⟩⟩
      simp only [List.foldl_cons, hd.2, pow_one]
      congr 1
      omega
    · simp only [h0, if_false]
      obtain ⟨h1, h2, h3⟩ := ih (n / 10) (Nat.digitChar (n % 10) :: ds) (by omega) hds1
      refine ⟨h1, h2, fun acc => ?_⟩
      obtain ⟨k, hk⟩ := h3 acc
      refine ⟨k + 1, ?_⟩
      rw [hk]
      simp only [List.foldl_cons, hd.2]
      congr 1
      rw [pow_succ]
      have := Nat.div_add_mod n 10
      nlinarith [Nat.div_add_mod n 10]

theorem repr_digits (n : Nat) :
    (∀ c ∈ (Nat.repr n).data, '0' ≤ c ∧ c ≤ '9') ∧ (Nat.repr n).data ≠ [] ∧
    (Nat.repr n).data.foldl (fun a c => a * 10 + (c.toNat - 48)) 0 = n := by
  have hr : (Nat.repr n).data = Nat.toDigitsCore 10 (n + 1) n [] := rfl
  obtain ⟨h1, h2, h3⟩ := toDigitsCore_digits (n + 1) n [] (Nat.lt_succ_self _) (by simp)
  rw [hr]
  refine ⟨h1, h2, ?_⟩
  obtain ⟨k, hk⟩ := h3 0
  rw [hk]
  simp

theorem ParseUint_repr (n : Nat) (h : n ≤ 2 ^ 64 - 1) : ParseUint (Nat.repr n).data = some n := by
  obtain ⟨h1, h2, h3⟩ := repr_digits n
  simp only [ParseUint, h2, if_false]
  rw [parseUintLoop_digits _ 0 h1 (by rw [h3]; exact h), h3]

theorem parseUintLoop_some : ∀ (ds : List Char) (acc v : Nat),
    parseUintLoop ds acc = some v →
    v = ds.foldl (fun a c => a * 10 + (c.toNat - 48)) acc := by
  intro ds
  induction ds with
  | nil => intro acc v h; simp only [parseUintLoop, Option.some.injEq] at h; simp [h]
  | cons c rest ih =>
    intro acc v h
    simp only [parseUintLoop] at h
    split_ifs at h
    exact ih _ _ h

theorem ParseUint_repr_some (n v : Nat) (h : ParseUint (Nat.repr n).data = some v) : v = n := by
  obtain ⟨_, h2, h3⟩ := repr_digits n
  simp only [ParseUint, h2, if_false] at h
  rw [parseUintLoop_some _ _ _ h, h3]

theorem repr_head (n : Nat) : ∃ c rest, (Nat.repr n).data = c :: rest ∧ '0' ≤ c ∧ c ≤ '9' := by
  obtain ⟨h1, h2, _⟩ := repr_digits n
  cases hd : (Nat.repr n).data with
  | nil => exact absurd hd h2
  | cons c rest => exact ⟨c, rest, rfl, h1 c (by rw [hd]; exact List.mem_cons_self _ _)⟩

theorem ParseInt_repr (n : Nat) (h : n < 2 ^ 63) : ParseInt (Nat.repr n) = some (n : Int) := by
  obtain ⟨c, rest, hd, hc⟩ := repr_head n
  have hu := ParseUint_repr n (by omega)
  rw [hd] at hu
  have hminus : (c == '-') = false := by
    rw [beq_eq_false_iff_ne]; rintro rfl; revert hc; decide
  have hplus : (c == '+') = false := by
    rw [beq_eq_false_iff_ne]; rintro rfl; revert hc; decide
  have hlt : ¬ n ≥ 2 ^ 63 := by omega
  simp [ParseInt, hd, hminus, hplus, hu, hlt]
  omega

theorem ParseInt_neg_repr (m : Nat) (x : Int)
    (h : ParseInt ("-" ++ Nat.repr (m + 1)) = some x) : x < 0 := by
  have hd : ("-" ++ Nat.repr (m + 1)).data = '-' :: (Nat.repr (m + 1)).data := rfl
  simp only [ParseInt, hd] at h
  cases hu : ParseUint (Nat.repr (m + 1)).data with
  | none => simp [hu] at h
  | some un =>
    have hun := ParseUint_repr_some _ _ hu
    subst hun
    simp only [beq_self_eq_true, Bool.or_true, if_true, hu, Bool.not_true, Bool.false_and,
      Bool.true_and] at h
    split_ifs at h
    all_goals
      simp only [Option.some.injEq] at h
      omega

theorem matchFold_minus (t n : List Char) (c : Char)
    (hc : c = 'S' ∨ c = 'M' ∨ c = 'T' ∨ c = 'W' ∨ c = 'F') :
    matchFold ('-' :: t) (c :: n) = false := by
  have h1 : ∀ x : Bool, ((if ('-' : Char) = c then true
      else decide (('-' : Char).toNat ||| 0x20 = c.toNat ||| 0x20) &&
        decide (97 ≤ ('-' : Char).toNat ||| 0x20) &&
        decide (('-' : Char).toNat ||| 0x20 ≤ 122)) && x) = false := by
    rcases hc with rfl | rfl | rfl | rfl | rfl <;> decide
  simp only [matchFold]
  exact h1 _

theorem lookupDayName_minus (rest : List Char) : lookupDayName ('-' :: rest) = false := by
  have h3 : ∀ n : Nat, List.take (n + 1) ('-' :: rest) = '-' :: List.take n rest := fun _ => rfl
  have hS := matchFold_minus (List.take 2 rest)
  simp only [lookupDayName, shortDayNames, List.any_cons, List.any_nil, Bool.or_false]
  have e1 : "Sun".length = 2 + 1 := rfl
  have e2 : "Mon".length = 2 + 1 := rfl
  have e3 : "Tue".length = 2 + 1 := rfl
  have e4 : "Wed".length = 2 + 1 := rfl
  have e5 : "Thu".length = 2 + 1 := rfl
  have e6 : "Fri".length = 2 + 1 := rfl
  have e7 : "Sat".length = 2 + 1 := rfl
  rw [e1, e2, e3, e4, e5, e6, e7, h3]
  rw [hS ['u', 'n'] 'S' (by simp), hS ['o', 'n'] 'M' (by simp), hS ['u', 'e'] 'T' (by simp),
    hS ['e', 'd'] 'W' (by simp), hS ['h', 'u'] 'T' (by simp), hS ['r', 'i'] 'F' (by simp),
    hS ['a', 't'] 'S' (by simp)]
  simp

/-- C27, counterexample: for the header `9223372037` the delay returned is not
9223372037 seconds (the product leaves the range of `int64`). -/
theorem retry_after_seconds_overflow :
    parseRetryAfterHeader clock0 [Nat.repr 9223372037] ≠ (9223372037 * Second, true) := by
  decide

/-- C27, amended: `parseRetryAfterHeader` looks only at the first header
value.  When that is the decimal representation of an integer `n` with
`0 ≤ n ≤ 9223372036` (the seconds a `time.Duration` can hold) it returns
exactly `n` seconds and true, whatever the other elements are; for an empty
list, an empty first element or a negative integer it returns `(0, false)`. -/
theorem parseRetryAfterHeader_first_value (clock : Clock) (n : Nat) (rest : List String)
    (hn : n ≤ 9223372036) :
    parseRetryAfterHeader clock (Nat.repr n :: rest) = ((n : Int) * Second, true) ∧
    parseRetryAfterHeader clock [] = (0, false) ∧
    parseRetryAfterHeader clock ("" :: rest) = (0, false) ∧
    ∀ m : Nat, parseRetryAfterHeader clock (("-" ++ Nat.repr (m + 1)) :: rest) = (0, false) := by
  refine ⟨?_, rfl, rfl, ?_⟩
  · have hne : Nat.repr n ≠ "" := by
      intro he
      have := (repr_digits n).2.1
      rw [he] at this
      exact this rfl
    have hp := ParseInt_repr n (by omega)
    have hnn : ¬ ((n : Int) < 0) := by omega
    simp only [parseRetryAfterHeader, hne, if_false, hp, hnn]
    simp only [wrapInt64, Second, Prod.mk.injEq, and_true]
    omega
  · intro m
    have hd : ("-" ++ Nat.repr (m + 1)).data = '-' :: (Nat.repr (m + 1)).data := rfl
    have hne : "-" ++ Nat.repr (m + 1) ≠ "" := by
      intro he
      rw [he] at hd
      exact absurd hd (by simp)
    simp only [parseRetryAfterHeader, hne, if_false]
    cases hp : ParseInt ("-" ++ Nat.repr (m + 1)) with
    | some x =>
      have := ParseInt_neg_repr m x hp
      simp [this]
    | none =>
      simp only [Clock.Parse, hd, lookupDayName_minus]
      simp

theorem parseRetryAfterHeader_first_value_witness :
    (2 : Nat) ≤ 9223372036 ∧
    parseRetryAfterHeader clock0 (Nat.repr 2 :: ["3"]) = (((2 : Nat) : Int) * Second, true) :=
  ⟨by decide, (parseRetryAfterHeader_first_value clock0 2 ["3"] (by decide)).1⟩

end retry

namespace utils

/-! ## `split`: the inputs on which it panics -/

theorem classOf_ne_zero (tab : CaseTables) (r : Char) : classOf tab r ≠ 0 := by
  unfold classOf
  split_ifs <;> decide

theorem splitRuns_total (tab : CaseTables) : ∀ (l : List Char) (runes : List (List Char))
    (lastClass : Nat), runes ≠ [] → (∀ x ∈ runes, x ≠ []) →
    ∃ out, splitRuns tab l runes lastClass = some out ∧ out ≠ [] ∧ ∀ x ∈ out, x ≠ [] := by
  intro l
  induction l with
  | nil => intro runes _ h1 h2; exact ⟨runes, rfl, h1, h2⟩
  | cons r rest ih =>
    intro runes lastClass h1 h2
    simp only [splitRuns]
    split_ifs with hc
    · obtain ⟨last, hl⟩ : ∃ last, runes.getLast? = some last := by
        cases hg : runes.getLast? with
        | none => exact absurd (List.getLast?_eq_none_iff.mp hg) h1
        | some last => exact ⟨last, rfl⟩
      simp only [hl]
      apply ih
      · simp
      · intro x hx
        simp only [List.mem_append, List.mem_singleton] at hx
        rcases hx with hx | rfl
        · exact h2 x (List.mem_of_mem_dropLast hx)
        · simp
    · apply ih
      · simp
      · intro x hx
        simp only [List.mem_append, List.mem_singleton] at hx
        rcases hx with hx | rfl
        · exact h2 x hx
        · simp

theorem splitRuns_first (tab : CaseTables) (c : Char) (rest : List Char) :
    (classOf tab c = 3 → splitRuns tab (c :: rest) [] 0 = none) ∧
    (classOf tab c ≠ 3 → ∃ out, splitRuns tab (c :: rest) [] 0 = some out ∧ out ≠ [] ∧
      ∀ x ∈ out, x ≠ []) := by
  constructor
  · intro h
    simp [splitRuns, h]
  · intro h
    have h0 := classOf_ne_zero tab c
    simp only [splitRuns, h0, h, or_self, if_false, List.nil_append]
    exact splitRuns_total tab rest [[c]] _ (by simp) (by simp)

theorem moveUpper_total (tab : CaseTables) : ∀ (count i : Nat) (runes : List (List Char)),
    (count = 0 ∨ i + count + 1 ≤ runes.length) →
    (∀ j x, i ≤ j → runes[j]? = some x → x ≠ []) →
    ∃ out, moveUpper tab count i runes = some out := by
  intro count
  induction count with
  | zero => intro i runes _ _; exact ⟨runes, rfl⟩
  | succ count ih =>
    intro i runes hlen hne
    have hl : i + count + 2 ≤ runes.length := by omega
    obtain ⟨a, ha⟩ : ∃ a, runes[i]? = some a :=
      ⟨runes[i], List.getElem?_eq_getElem (by omega)⟩
    obtain ⟨b, hb⟩ : ∃ b, runes[i + 1]? = some b :=
      ⟨runes[i + 1], List.getElem?_eq_getElem (by omega)⟩
    have hane := hne i a (Nat.le_refl _) ha
    have hbne := hne (i + 1) b (by omega) hb
    obtain ⟨a0, at1, rfl⟩ := List.exists_cons_of_ne_nil hane
    obtain ⟨b0, bt, rfl⟩ := List.exists_cons_of_ne_nil hbne
    have hnext : ∀ j x, i + 1 ≤ j → runes[j]? = some x → x ≠ [] :=
      fun j x hj hx => hne j x (by omega) hx
    simp only [moveUpper, ha, hb, List.head?_cons]
    split_ifs with hu hlo
    · obtain ⟨l, hlast⟩ : ∃ l, (a0 :: at1).getLast? = some l := by
        cases hg : (a0 :: at1).getLast? with
        | none => simp at hg
        | some l => exact ⟨l, rfl⟩
      simp only [hlast]
      apply ih
      · right
        simp only [List.length_set]
        omega
      · intro j x hj hx
        by_cases hji : j = i + 1
        · subst hji
          rw [List.getElem?_set_ne (by omega), List.getElem?_set_self (by omega)] at hx
          simp only [Option.some.injEq] at hx
          rw [← hx]; simp
        · rw [List.getElem?_set_ne (by omega), List.getElem?_set_ne (by omega)] at hx
          exact hne j x (by omega) hx
    · exact ih (i + 1) runes (by omega) hnext
    · exact ih (i + 1) runes (by omega) hnext

/-- `split` panics exactly on the texts that start with a digit. -/
theorem split_none_iff (tab : CaseTables) (src : String) :
    split tab src = none ↔ ∃ c rest, src.data = c :: rest ∧ IsLower tab c = false ∧
      IsUpper tab c = false ∧ IsDigit tab c = true := by
  have hcls : ∀ c, classOf tab c = 3 ↔
      (IsLower tab c = false ∧ IsUpper tab c = false ∧ IsDigit tab c = true) := by
    intro c
    unfold classOf
    cases IsLower tab c <;> cases IsUpper tab c <;> cases IsDigit tab c <;> simp
  unfold split
  cases hd : src.data with
  | nil => simp [splitRuns, moveUpper]
  | cons c rest =>
    obtain ⟨h1, h2⟩ := splitRuns_first tab c rest
    by_cases h3 : classOf tab c = 3
    · simp only [h1 h3, true_iff]
      exact ⟨c, rest, rfl, (hcls c).mp h3⟩
    · obtain ⟨out, ho, hne, hall⟩ := h2 h3
      obtain ⟨out2, ho2⟩ := moveUpper_total tab (out.length - 1) 0 out
        (by
          right
          have : 0 < out.length := List.length_pos.mpr hne
          omega)
        (fun j x _ hx => hall x (List.getElem?_mem hx))
      simp only [ho, ho2]
      refine ⟨fun h => by simp at h, ?_⟩
      rintro ⟨c1, rest1, he, hc⟩
      simp only [List.cons.injEq] at he
      rw [← he.1] at hc
      exact absurd ((hcls c).mpr hc) h3

/-- C30: `split` does not return on a text that starts with a digit: the first
loop indexes the last run while there is none.  `ToSnakeCase` panics on
`1abc`, and `GetOpNameBySnakeCase` and `GetOpName` panic on the name of an
`init` function, whose last path element is a number. -/
theorem split_panics_on_leading_digit (tab : CaseTables) :
    split tab "1abc" = none ∧ ToSnakeCase tab "1abc" = none ∧
    GetOpNameBySnakeCase tab "main.init.0" = none ∧ GetOpName tab "main.init.0" = none := by
  have h1 : split tab "1abc" = none :=
    (split_none_iff tab "1abc").mpr ⟨'1', ['a', 'b', 'c'], rfl, rfl, rfl, rfl⟩
  have hp : lastOfPath "main.init.0" = "0" := by decide
  have h0 : split tab "0" = none := (split_none_iff tab "0").mpr ⟨'0', [], rfl, rfl, rfl, rfl⟩
  refine ⟨h1, ?_, ?_, ?_⟩
  · simp only [ToSnakeCase, h1, Option.map_none']
  · simp only [GetOpNameBySnakeCase, hp, h0, Option.map_none']
  · simp only [GetOpName, hp, h0, Option.map_none']

/-- The cases of `TestGetOpNameBySnakeCase` and `TestGetOpName`. -/
theorem naming_tests :
    GetOpNameBySnakeCase caseTab0
      "da-data-proxy/internal/service.(*dadataService).ParseAddress" = some "parse_address" ∧
    GetOpNameBySnakeCase caseTab0 "observability.TestGetOpName" = some "test_get_op_name" ∧
    GetOpNameBySnakeCase caseTab0 "wb_sender.SMSStatusBRMCode" = some "sms_status_brm_code" ∧
    GetOpNameBySnakeCase caseTab0 "GetS3Files" = some "get_s3_files" ∧
    GetOpName caseTab0 "wb_sender.SMSStatusBRMCode" = some "sms status brm code" ∧
    GetOpName caseTab0 "GetS3Files" = some "get s3 files" := by
  decide

end utils

namespace hide

open TokenState

/-! ## The encoder never reaches the `invalid state` branch -/

theorem readValue_error : ∀ (buf : List Char) (s : ScanState) (e : Error),
    readValue s buf = .error e → e = .ErrUnexpectedEOF ∨ e = .SyntaxError := by
  intro buf
  induction buf with
  | nil =>
    intro s e h
    simp only [readValue] at h
    split at h
    · simp at h
    · simp only [Except.error.injEq] at h; exact Or.inl h.symm
  | cons c cs ih =>
    intro s e h
    simp only [readValue] at h
    split at h
    · simp at h
    · simp only [Except.error.injEq] at h; exact Or.inr h.symm
    · split at h
      · simp at h
      · rename_i err herr
        simp only [Except.error.injEq] at h
        subst h
        exact ih _ _ herr

theorem literalInterface_error (lit : List Char) (e : Error)
    (h : literalInterface lit = .error e) : e = .Panic := by
  unfold literalInterface at h
  split at h
  · simp only [Except.error.injEq] at h; exact h.symm
  · split_ifs at h
    · split at h
      · simp at h
      · simp only [Except.error.injEq] at h; exact h.symm
    · simp only [Except.error.injEq] at h; exact h.symm

theorem Decode_error (buf : List Char) (e : Error) (h : Decode buf = .error e) :
    e = .ErrUnexpectedEOF ∨ e = .SyntaxError ∨ e = .Panic := by
  unfold Decode at h
  split at h
  · rename_i err herr
    simp only [Except.error.injEq] at h
    subst h
    rcases readValue_error _ _ _ herr with h1 | h1
    · exact Or.inl h1
    · exact Or.inr (Or.inl h1)
  · split at h
    · rename_i err herr
      simp only [Except.error.injEq] at h
      subst h
      exact Or.inr (Or.inr (literalInterface_error _ _ herr))
    · simp at h

theorem tokenLoop_error : ∀ (buf : List Char) (st : TokenState) (stack : List TokenState)
    (e : Error), tokenLoop st stack buf = .error e →
    e = .EOF ∨ e = .ErrUnexpectedEOF ∨ e = .SyntaxError ∨ e = .Panic := by
  intro buf
  induction buf with
  | nil =>
    intro st stack e h
    simp only [tokenLoop, Except.error.injEq] at h
    exact Or.inl h.symm
  | cons c cs ih =>
    intro st stack e h
    have hdec : ∀ (st1 : TokenState),
        (match Decode (c :: cs) with
          | .error err => (.error err : Except Error (Token × Decoder))
          | .ok (t, rest) => .ok (t, ⟨rest, st1, stack⟩)) = .error e →
        e = .EOF ∨ e = .ErrUnexpectedEOF ∨ e = .SyntaxError ∨ e = .Panic := by
      intro st1 heq
      cases hD : Decode (c :: cs) with
      | error err =>
        simp only [hD, Except.error.injEq] at heq
        subst heq
        exact Or.inr (Decode_error _ _ hD)
      | ok p => simp [hD] at heq
    have hsyn : (Except.error Error.SyntaxError : Except Error (Token × Decoder)) = .error e →
        e = .EOF ∨ e = .ErrUnexpectedEOF ∨ e = .SyntaxError ∨ e = .Panic := by
      intro heq
      simp only [Except.error.injEq] at heq
      exact Or.inr (Or.inr (Or.inl heq.symm))
    have hpan : (Except.error Error.Panic : Except Error (Token × Decoder)) = .error e →
        e = .EOF ∨ e = .ErrUnexpectedEOF ∨ e = .SyntaxError ∨ e = .Panic := by
      intro heq
      simp only [Except.error.injEq] at heq
      exact Or.inr (Or.inr (Or.inr heq.symm))
    unfold tokenLoop at h
    by_cases h1 : isSpace c = true
    · simp only [h1, if_true] at h; exact ih _ _ _ h
    simp only [h1, Bool.false_eq_true, if_false] at h
    by_cases h2 : (c == '[') = true
    · simp only [h2, if_true] at h
      split at h
      · simp at h
      · exact hsyn h
    simp only [h2, Bool.false_eq_true, if_false] at h
    by_cases h3 : (c == ']') = true
    · simp only [h3, if_true] at h
      split at h
      · split at h
        · simp at h
        · exact hpan h
      · exact hsyn h
    simp only [h3, Bool.false_eq_true, if_false] at h
    by_cases h4 : (c == '\x7b') = true
    · simp only [h4, if_true] at h
      split at h
      · simp at h
      · exact hsyn h
    simp only [h4, Bool.false_eq_true, if_false] at h
    by_cases h5 : (c == '\x7d') = true
    · simp only [h5, if_true] at h
      split at h
      · split at h
        · simp at h
        · exact hpan h
      · exact hsyn h
    simp only [h5, Bool.false_eq_true, if_false] at h
    by_cases h6 : (c == ':') = true
    · simp only [h6, if_true] at h
      split at h
      · exact ih _ _ _ h
      · exact hsyn h
    simp only [h6, Bool.false_eq_true, if_false] at h
    by_cases h7 : (c == ',') = true
    · simp only [h7, if_true] at h
      split at h
      · exact ih _ _ _ h
      · split at h
        · exact ih _ _ _ h
        · exact hsyn h
    simp only [h7, Bool.false_eq_true, if_false] at h
    split at h
    · exact hdec _ h
    · split at h
      · exact hdec _ h
      · exact hsyn h

theorem drain_error : ∀ (fuel : Nat) (dec : Decoder) (toks : List Token) (e : Error),
    drain fuel dec = some (toks, e) →
    e = .EOF ∨ e = .ErrUnexpectedEOF ∨ e = .SyntaxError ∨ e = .Panic := by
  intro fuel
  induction fuel with
  | zero => intro dec toks e h; simp [drain] at h
  | succ fuel ih =>
    intro dec toks e h
    simp only [drain] at h
    split at h
    · rename_i err herr
      simp only [Option.some.injEq, Prod.mk.injEq] at h
      rw [← h.2]
      exact tokenLoop_error _ _ _ _ herr
    · split at h
      · rename_i toks1 e1 h1
        simp only [Option.some.injEq, Prod.mk.injEq] at h
        rw [← h.2]
        exact ih _ _ _ h1
      · simp at h

theorem beforeNextValue_not_object (enc : Encoder) : (beforeNextValue enc).state ≠ object := by
  unfold beforeNextValue
  split_ifs <;> simp_all [object, fieldName, fieldValue, arrayValue, array]

theorem pushState_ok_state (enc enc1 : Encoder) (h : pushState enc = .ok enc1) :
    enc.state = object ∨ enc.state = fieldValue ∨ enc.state = array ∨
      enc.state = arrayValue ∨ enc.state = unknown := by
  unfold pushState at h
  split_ifs at h with h1 h2 h3
  · rcases h1 with h1 | h1
    · exact Or.inl h1
    · exact Or.inr (Or.inl h1)
  · rcases h2 with h2 | h2
    · exact Or.inr (Or.inr (Or.inl h2))
    · exact Or.inr (Or.inr (Or.inr (Or.inl h2)))
  · exact Or.inr (Or.inr (Or.inr (Or.inr h3)))

theorem open_delim_state (tab : UnicodeTables) (g : Option Converter) (enc enc1 : Encoder)
    (t : Token) (ht : t = .delim '\x7b' ∨ t = .delim '[')
    (h : processToken tab g enc t = .ok enc1) :
    (beforeNextValue enc).state = unknown ∨ (beforeNextValue enc).state = fieldValue ∨
      (beforeNextValue enc).state = array ∨ (beforeNextValue enc).state = arrayValue := by
  have hno := beforeNextValue_not_object enc
  have key : ∀ (suffix : String) (e2 : Encoder),
      pushState { beforeNextValue enc with
        strBuilder := (beforeNextValue enc).strBuilder ++ suffix } = .ok e2 →
      (beforeNextValue enc).state = unknown ∨ (beforeNextValue enc).state = fieldValue ∨
        (beforeNextValue enc).state = array ∨ (beforeNextValue enc).state = arrayValue := by
    intro suffix e2 hp
    rcases pushState_ok_state _ _ hp with h1 | h1 | h1 | h1 | h1
    · exact absurd h1 hno
    · exact Or.inr (Or.inl h1)
    · exact Or.inr (Or.inr (Or.inl h1))
    · exact Or.inr (Or.inr (Or.inr h1))
    · exact Or.inl h1
  rcases ht with rfl | rfl
  · simp only [processToken, if_true, setState] at h
    split at h
    · simp at h
    · rename_i e2 hp
      exact key _ e2 hp
  · have hne : ¬ (('[' : Char) = '\x7b') := by decide
    have hne2 : ¬ (('[' : Char) = '\x7d') := by decide
    simp only [processToken, hne, hne2, if_false, if_true, setState] at h
    have h1 : ¬ (array = object) := by decide
    have h2 : ¬ (array = objectEnd) := by decide
    simp only [h1, h2, if_false, if_true] at h
    split at h
    · simp at h
    · rename_i e2 hp
      exact key _ e2 hp

/-- C28: for every input, the loop of `MaskSensitiveJSONFields` accepts every
token the tokenizer returns: whenever a `\x7b` or `[` is pushed the state is
one of unknown, field-value, array and array-value, so `pushState` never takes
its `invalid state` branch.  The error returned is the tokenizer's own (nil
when that is the end of the input) and the string returned is the output
emitted for the tokens read, never the empty string of the internal-error
returns. -/
theorem invalid_state_unreachable (tab : UnicodeTables) (g : Option Converter)
    (body : String) :
    ∃ toks e enc, decodeAll body = some (toks, e) ∧
      processTokens tab g ⟨"", unknown, [], ""⟩ toks = .ok enc ∧
      MaskSensitiveJSONFields tab g body =
        some (enc.strBuilder, if e = .EOF then none else some e) ∧
      (e = .EOF ∨ e = .ErrUnexpectedEOF ∨ e = .SyntaxError ∨ e = .Panic) ∧
      ∀ pre t post, toks = pre ++ t :: post → (t = .delim '\x7b' ∨ t = .delim '[') →
        ∃ enc1, processTokens tab g ⟨"", unknown, [], ""⟩ pre = .ok enc1 ∧
          ((beforeNextValue enc1).state = unknown ∨ (beforeNextValue enc1).state = fieldValue ∨
            (beforeNextValue enc1).state = array ∨
            (beforeNextValue enc1).state = arrayValue) := by
  obtain ⟨toks, e, hd⟩ := decodeAll_total body
  obtain ⟨enc, hp, hm⟩ := mask_result tab g body toks e hd
  refine ⟨toks, e, enc, hd, hp, hm, drain_error _ _ _ _ hd, ?_⟩
  intro pre t post htoks ht
  rw [htoks, processTokens_append] at hp
  cases hpre : processTokens tab g ⟨"", unknown, [], ""⟩ pre with
  | error err => simp [hpre] at hp
  | ok enc1 =>
    refine ⟨enc1, rfl, ?_⟩
    simp only [hpre, processTokens] at hp
    cases ht1 : processToken tab g enc1 t with
    | error err => simp [ht1] at hp
    | ok enc2 => exact open_delim_state tab g enc1 enc2 t ht ht1

theorem invalid_state_unreachable_witness :
    ∃ toks e enc, decodeAll partialInput = some (toks, e) ∧
      processTokens tab0 (some testConverter) ⟨"", unknown, [], ""⟩ toks = .ok enc ∧
      MaskSensitiveJSONFields tab0 (some testConverter) partialInput =
        some (enc.strBuilder, if e = .EOF then none else some e) ∧
      (e = .EOF ∨ e = .ErrUnexpectedEOF ∨ e = .SyntaxError ∨ e = .Panic) ∧
      ∀ pre t post, toks = pre ++ t :: post → (t = .delim '\x7b' ∨ t = .delim '[') →
        ∃ enc1, processTokens tab0 (some testConverter) ⟨"", unknown, [], ""⟩ pre = .ok enc1 ∧
          ((beforeNextValue enc1).state = unknown ∨ (beforeNextValue enc1).state = fieldValue ∨
            (beforeNextValue enc1).state = array ∨
            (beforeNextValue enc1).state = arrayValue) :=
  invalid_state_unreachable tab0 (some testConverter) partialInput

end hide

namespace hide

/-! ## Fully excluded secrets do not show in the output -/

theorem fullExclude_of_length (s t : String) (h : s.length = t.length) :
    fullExclude s = fullExclude t := by
  have h1 : s.data.length = t.data.length := h
  simp only [fullExclude, h1]

theorem Hide_fullyExcludes (tab : UnicodeTables) (c : Converter) (k s : String)
    (h : c.fullyExcludes k = true) : Hide tab (some c) k s = fullExclude s := by
  simp only [Converter.fullyExcludes] at h
  cases hl : c.fields.lookup k with
  | none => simp [hl] at h
  | some r =>
    simp only [hl] at h
    cases ht : r.transform <;> simp [ht, Transform.isFullExclude] at h
    simp only [Hide, Converter.Hide, Converter.HideN, hl, ht]

mutual
theorem masked_sameButSecrets (tab : UnicodeTables) (c : Converter) :
    (d d1 : JValue) → (field : Option String) →
    d.sameButSecrets c.fullyExcludes field d1 = true →
    d.masked (Hide tab (some c)) (field.getD "") = d1.masked (Hide tab (some c)) (field.getD "")
  | .null, d1, _, h => by
    cases d1 <;> simp [JValue.sameButSecrets] at h
    rfl
  | .bool b, d1, _, h => by
    cases d1 <;> simp [JValue.sameButSecrets] at h
    simp [JValue.masked, h]
  | .num lit, d1, _, h => by
    cases d1 <;> simp [JValue.sameButSecrets] at h
    simp [JValue.masked, h]
  | .str s, d1, field, h => by
    cases d1 <;> simp only [JValue.sameButSecrets] at h <;> try (simp at h)
    rename_i s1
    simp only [JValue.masked, JValue.str.injEq]
    cases field with
    | none =>
      simp only [beq_iff_eq] at h
      rw [h]
    | some k =>
      simp only [Option.getD_some]
      by_cases hk : c.fullyExcludes k = true
      · simp only [hk, if_true, beq_iff_eq] at h
        rw [Hide_fullyExcludes tab c k s hk, Hide_fullyExcludes tab c k s1 hk]
        exact fullExclude_of_length s s1 h
      · simp only [hk, Bool.false_eq_true, if_false, beq_iff_eq] at h
        rw [h]
  | .arr es, d1, _, h => by
    cases d1 <;> simp only [JValue.sameButSecrets] at h <;> try (simp at h)
    rename_i es1
    simp only [JValue.masked, masked_sameButSecrets_elems tab c es es1 h]
  | .obj ms, d1, _, h => by
    cases d1 <;> simp only [JValue.sameButSecrets] at h <;> try (simp at h)
    rename_i ms1
    simp only [JValue.masked, masked_sameButSecrets_members tab c ms ms1 h]
theorem masked_sameButSecrets_elems (tab : UnicodeTables) (c : Converter) :
    (es es1 : JElems) → es.sameButSecrets c.fullyExcludes es1 = true →
    es.masked (Hide tab (some c)) = es1.masked (Hide tab (some c))
  | .nil, es1, h => by
    cases es1 <;> simp [JElems.sameButSecrets] at h
    rfl
  | .cons v rest, es1, h => by
    cases es1 with
    | nil => simp [JElems.sameButSecrets] at h
    | cons v1 rest1 =>
      simp only [JElems.sameButSecrets, Bool.and_eq_true] at h
      have h1 := masked_sameButSecrets tab c v v1 none h.1
      simp only [Option.getD_none] at h1
      simp only [JElems.masked, h1, masked_sameButSecrets_elems tab c rest rest1 h.2]
theorem masked_sameButSecrets_members (tab : UnicodeTables) (c : Converter) :
    (ms ms1 : JMembers) → ms.sameButSecrets c.fullyExcludes ms1 = true →
    ms.masked (Hide tab (some c)) = ms1.masked (Hide tab (some c))
  | .nil, ms1, h => by
    cases ms1 <;> simp [JMembers.sameButSecrets] at h
    rfl
  | .cons k v rest, ms1, h => by
    cases ms1 with
    | nil => simp [JMembers.sameButSecrets] at h
    | cons k1 v1 rest1 =>
      simp only [JMembers.sameButSecrets, Bool.and_eq_true, beq_iff_eq] at h
      obtain ⟨⟨hk, hv⟩, hr⟩ := h
      subst hk
      have h1 := masked_sameButSecrets tab c v v1 (some k) hv
      simp only [Option.getD_some] at h1
      simp only [JMembers.masked, h1, masked_sameButSecrets_members tab c rest rest1 hr]
end

/-- C29: for a fixed Converter and two JSON documents that are identical
except for the contents of strings that are the direct value of a member whose
name has a full-exclusion rule, corresponding strings having the same number
of characters, `MaskSensitiveJSONFields` returns identical results. -/
theorem excluded_secrets_do_not_interfere (tab : UnicodeTables) (c : Converter)
    (body1 body2 : String) (d1 d2 : JValue) (h1 : IsDocument body1 d1)
    (h2 : IsDocument body2 d2) (hsame : d1.sameButSecrets c.fullyExcludes none d2 = true) :
    MaskSensitiveJSONFields tab (some c) body1 = MaskSensitiveJSONFields tab (some c) body2 := by
  rw [mask_document tab (some c) body1 d1 h1, mask_document tab (some c) body2 d2 h2]
  have := masked_sameButSecrets tab c d1 d2 none hsame
  simp only [Option.getD_none] at this
  rw [this]

set_option maxRecDepth 100000 in
theorem excluded_secrets_do_not_interfere_witness :
    IsDocument secretBody secretDoc ∧ IsDocument secretBody2 secretDoc2 ∧
    secretDoc.sameButSecrets testConverter.fullyExcludes none secretDoc2 = true ∧
    MaskSensitiveJSONFields tab0 (some testConverter) secretBody =
      MaskSensitiveJSONFields tab0 (some testConverter) secretBody2 :=
  ⟨by decide, by decide, by decide,
    excluded_secrets_do_not_interfere tab0 testConverter secretBody secretBody2 secretDoc
      secretDoc2 (by decide) (by decide) (by decide)⟩

end hide

namespace hide

/-! ## `Attrs` -/

theorem hideAttr_key (tab : UnicodeTables) (g : Option Converter) (a : slog.Attr) :
    (hideAttr tab g a).Key = a.Key := by
  unfold hideAttr
  split <;> rfl

theorem AttrsLoop_getElem? (tab : UnicodeTables) (g : Option Converter) :
    ∀ (count i : Nat) (attrs : List slog.Attr) (j : Nat),
    (AttrsLoop tab g count i attrs)[j]? =
      if i ≤ j ∧ j < i + count then attrs[j]?.map (hideAttr tab g) else attrs[j]? := by
  intro count
  induction count with
  | zero =>
    intro i attrs j
    have : ¬ (i ≤ j ∧ j < i + 0) := by omega
    simp only [AttrsLoop, this, if_false]
  | succ count ih =>
    intro i attrs j
    have hstep : ∀ a, attrs[i]? = some a →
        (AttrsLoop tab g (count + 1) i attrs)[j]? =
          (AttrsLoop tab g count (i + 1) (attrs.set i (hideAttr tab g a)))[j]? := by
      intro a ha
      have hset : ∀ b, attrs[i]? = some b → attrs.set i b = attrs := by
        intro b hb
        apply List.ext_getElem?
        intro n
        by_cases hn : n = i
        · subst hn
          rw [List.getElem?_set_self (by
            rcases List.getElem?_eq_some_iff.mp hb with ⟨h, _⟩
            exact h), hb]
        · rw [List.getElem?_set_ne (by omega)]
      simp only [AttrsLoop, ha]
      cases a with
      | mk key v =>
        cases v <;> simp only [hideAttr] <;> try rw [hset _ ha]
    cases ha : attrs[i]? with
    | none =>
      have hlen : attrs.length ≤ i := by
        by_contra hc
        rw [List.getElem?_eq_getElem (by omega)] at ha
        exact absurd ha (by simp)
      simp only [AttrsLoop, ha]
      rw [ih]
      by_cases hj : i ≤ j
      · have hnone : attrs[j]? = none := List.getElem?_eq_none (by omega)
        simp [hnone]
      · have h1 : ¬ (i + 1 ≤ j ∧ j < i + 1 + count) := by omega
        have h2 : ¬ (i ≤ j ∧ j < i + (count + 1)) := by omega
        simp only [h1, h2, if_false]
    | some a =>
      have hi : i < attrs.length := (List.getElem?_eq_some_iff.mp ha).1
      rw [hstep a ha, ih]
      by_cases hji : j = i
      · subst hji
        have h1 : ¬ (j + 1 ≤ j ∧ j < j + 1 + count) := by omega
        have h2 : j ≤ j ∧ j < j + (count + 1) := by omega
        simp [h1, List.getElem?_set_self hi, ha]
      · rw [List.getElem?_set_ne (by omega)]
        by_cases hr : i + 1 ≤ j ∧ j < i + 1 + count
        · have h2 : i ≤ j ∧ j < i + (count + 1) := by omega
          simp only [hr, h2, and_self, if_true]
        · have h2 : ¬ (i ≤ j ∧ j < i + (count + 1)) := by omega
          simp only [hr, h2, if_false]

theorem Attrs_eq_map (tab : UnicodeTables) (g : Option Converter) (attrs : List slog.Attr) :
    Attrs tab g attrs = attrs.map (hideAttr tab g) := by
  apply List.ext_getElem?
  intro j
  rw [Attrs, AttrsLoop_getElem?, List.getElem?_map]
  by_cases hj : j < attrs.length
  · have : 0 ≤ j ∧ j < 0 + attrs.length := by omega
    simp only [this, and_self, if_true]
  · have : ¬ (0 ≤ j ∧ j < 0 + attrs.length) := by omega
    have hnone : attrs[j]? = none := List.getElem?_eq_none (by omega)
    simp only [this, if_false, hnone, Option.map_none']

/-- C25: for every list of attributes, `Attrs` returns a list of the same
length with the same keys in the same order, in which every attribute of kind
string `(key, v)` has the value `Hide(key, v)` and every attribute of another
kind is unchanged; the empty list stays empty. -/
theorem Attrs_hides_strings (tab : UnicodeTables) (g : Option Converter)
    (attrs : List slog.Attr) :
    (Attrs tab g attrs).length = attrs.length ∧
    (Attrs tab g attrs).map slog.Attr.Key = attrs.map slog.Attr.Key ∧
    (∀ (i : Nat) (key v : String), attrs[i]? = some (.mk key (.StringValue v)) →
      (Attrs tab g attrs)[i]? = some (.mk key (.StringValue (Hide tab g key v)))) ∧
    (∀ (i : Nat) (a : slog.Attr), attrs[i]? = some a → a.Value.Kind ≠ .KindString →
      (Attrs tab g attrs)[i]? = some a) ∧
    Attrs tab g [] = [] := by
  rw [Attrs_eq_map]
  refine ⟨by simp, ?_, ?_, ?_, rfl⟩
  · rw [List.map_map]
    apply List.map_congr_left
    intro a _
    exact hideAttr_key tab g a
  · intro i key v h
    rw [List.getElem?_map, h]
    rfl
  · intro i a h hk
    rw [List.getElem?_map, h]
    cases a with
    | mk key v =>
      cases v <;> first | rfl | exact absurd rfl hk

set_option maxRecDepth 100000 in
theorem Attrs_hides_strings_witness :
    (Attrs tab0 (some testConverter) secretAttrs).length = secretAttrs.length ∧
    (Attrs tab0 (some testConverter) secretAttrs).map slog.Attr.Key =
      secretAttrs.map slog.Attr.Key ∧
    (∀ (i : Nat) (key v : String), secretAttrs[i]? = some (.mk key (.StringValue v)) →
      (Attrs tab0 (some testConverter) secretAttrs)[i]? =
        some (.mk key (.StringValue (Hide tab0 (some testConverter) key v)))) ∧
    (∀ (i : Nat) (a : slog.Attr), secretAttrs[i]? = some a → a.Value.Kind ≠ .KindString →
      (Attrs tab0 (some testConverter) secretAttrs)[i]? = some a) ∧
    Attrs tab0 (some testConverter) [] = [] :=
  Attrs_hides_strings tab0 (some testConverter) secretAttrs

set_option maxRecDepth 100000 in
/-- The cases of `TestHideAttrs`. -/
theorem Attrs_tests :
    Attrs tab0 (some testConverter) [] = [] ∧
    Attrs tab0 (some testConverter) [.mk "id" (.Int64Value 2), .mk "error" (.BoolValue true)] =
      [.mk "id" (.Int64Value 2), .mk "error" (.BoolValue true)] ∧
    Attrs tab0 (some testConverter) secretAttrs =
      [slog.StringAttr "token" "***********", slog.StringAttr "password" "**********"] ∧
    Attrs tab0 (some testConverter) [slog.StringAttr "token" "", slog.StringAttr "password" ""] =
      [slog.StringAttr "token" "", slog.StringAttr "password" ""] :=
  ⟨rfl, rfl, rfl, rfl⟩

end hide

namespace hide

/-! ## The token stream of a value is read back as the value -/

theorem tokens_head (v : JValue) : ∃ t ts, v.tokens = t :: ts ∧ t ≠ .delim ']' := by
  cases v with
  | null => exact ⟨_, _, rfl, by simp⟩
  | bool b => exact ⟨_, _, rfl, by simp⟩
  | num lit => exact ⟨_, _, rfl, by simp⟩
  | str s => exact ⟨_, _, rfl, by simp⟩
  | arr es => exact ⟨_, _, rfl, by simp⟩
  | obj ms => exact ⟨_, _, rfl, by simp⟩

mutual
theorem parseTokens_value : (v : JValue) → ∀ (fuel : Nat) (rest : List Token),
    v.tokens.length ≤ fuel →
    parseTokens fuel .value (v.tokens ++ rest) = some (.value v, rest)
  | .null, fuel, rest, h => by
    cases fuel with
    | zero => simp [JValue.tokens] at h
    | succ n => simp [JValue.tokens, parseTokens]
  | .bool b, fuel, rest, h => by
    cases fuel with
    | zero => simp [JValue.tokens] at h
    | succ n => simp [JValue.tokens, parseTokens]
  | .num lit, fuel, rest, h => by
    cases fuel with
    | zero => simp [JValue.tokens] at h
    | succ n => simp [JValue.tokens, parseTokens]
  | .str s, fuel, rest, h => by
    cases fuel with
    | zero => simp [JValue.tokens] at h
    | succ n => simp [JValue.tokens, parseTokens]
  | .arr es, fuel, rest, h => by
    cases fuel with
    | zero => simp [JValue.tokens] at h
    | succ n =>
      simp only [JValue.tokens, List.length_cons, List.length_append, List.length_singleton]
        at h
      have := parseTokens_elems es n rest (by omega)
      have e : (JValue.arr es).tokens ++ rest =
          .delim '[' :: (es.tokens ++ .delim ']' :: rest) := by simp [JValue.tokens]
      rw [e]
      simp only [parseTokens, if_true, this]
  | .obj ms, fuel, rest, h => by
    cases fuel with
    | zero => simp [JValue.tokens] at h
    | succ n =>
      simp only [JValue.tokens, List.length_cons, List.length_append, List.length_singleton]
        at h
      have := parseTokens_members ms n rest (by omega)
      have hne : ¬ (('\x7b' : Char) = '[') := by decide
      have e : (JValue.obj ms).tokens ++ rest =
          .delim '\x7b' :: (ms.tokens ++ .delim '\x7d' :: rest) := by simp [JValue.tokens]
      rw [e]
      simp only [parseTokens, hne, if_false, if_true, this]
theorem parseTokens_elems : (es : JElems) → ∀ (fuel : Nat) (rest : List Token),
    es.tokens.length + 1 ≤ fuel →
    parseTokens fuel .elems (es.tokens ++ .delim ']' :: rest) = some (.elems es, rest)
  | .nil, fuel, rest, h => by
    cases fuel with
    | zero => omega
    | succ n => simp [JElems.tokens, parseTokens]
  | .cons v es, fuel, rest, h => by
    cases fuel with
    | zero => omega
    | succ n =>
      simp only [JElems.tokens, List.length_append] at h
      obtain ⟨t, ts, ht, hne⟩ := tokens_head v
      have hv := parseTokens_value v n (es.tokens ++ .delim ']' :: rest) (by omega)
      have hes := parseTokens_elems es n rest (by
        have : 1 ≤ v.tokens.length := by rw [ht]; simp
        omega)
      have e : (JElems.cons v es).tokens ++ .delim ']' :: rest =
          t :: (ts ++ (es.tokens ++ .delim ']' :: rest)) := by
        simp [JElems.tokens, ht]
      rw [e]
      rw [ht] at hv
      simp only [List.cons_append] at hv
      simp only [parseTokens, hne, if_false, hv, hes]
theorem parseTokens_members : (ms : JMembers) → ∀ (fuel : Nat) (rest : List Token),
    ms.tokens.length + 1 ≤ fuel →
    parseTokens fuel .members (ms.tokens ++ .delim '\x7d' :: rest) = some (.members ms, rest)
  | .nil, fuel, rest, h => by
    cases fuel with
    | zero => omega
    | succ n => simp [JMembers.tokens, parseTokens]
  | .cons k v ms, fuel, rest, h => by
    cases fuel with
    | zero => omega
    | succ n =>
      simp only [JMembers.tokens, List.length_cons, List.length_append] at h
      obtain ⟨t, ts, ht, _⟩ := tokens_head v
      have hv := parseTokens_value v n (ms.tokens ++ .delim '\x7d' :: rest) (by omega)
      have hms := parseTokens_members ms n rest (by
        have : 1 ≤ v.tokens.length := by rw [ht]; simp
        omega)
      have e : (JMembers.cons k v ms).tokens ++ .delim '\x7d' :: rest =
          .str k :: (v.tokens ++ (ms.tokens ++ .delim '\x7d' :: rest)) := by
        simp [JMembers.tokens]
      rw [e]
      simp only [parseTokens, hv, hms]
end

theorem parseTokens_sound : ∀ (fuel : Nat) (goal : ParseGoal) (toks : List Token)
    (p : Parsed) (rest : List Token), parseTokens fuel goal toks = some (p, rest) →
    match goal, p with
    | .value, .value v => toks = v.tokens ++ rest
    | .elems, .elems es => toks = es.tokens ++ .delim ']' :: rest
    | .members, .members ms => toks = ms.tokens ++ .delim '\x7d' :: rest
    | _, _ => False := by
  intro fuel
  induction fuel with
  | zero => intro goal toks p rest h; simp [parseTokens] at h
  | succ n ih =>
    intro goal toks p rest h
    cases toks with
    | nil => simp [parseTokens] at h
    | cons tok toks1 =>
      cases goal with
      | value =>
        cases tok with
        | null =>
          simp only [parseTokens, Option.some.injEq, Prod.mk.injEq] at h
          obtain ⟨rfl, rfl⟩ := h
          rfl
        | bool b =>
          simp only [parseTokens, Option.some.injEq, Prod.mk.injEq] at h
          obtain ⟨rfl, rfl⟩ := h
          rfl
        | number lit =>
          simp only [parseTokens, Option.some.injEq, Prod.mk.injEq] at h
          obtain ⟨rfl, rfl⟩ := h
          rfl
        | str s =>
          simp only [parseTokens, Option.some.injEq, Prod.mk.injEq] at h
          obtain ⟨rfl, rfl⟩ := h
          rfl
        | delim c =>
          simp only [parseTokens] at h
          split_ifs at h with h1 h2
          · cases hp : parseTokens n .elems toks1 with
            | none => simp [hp] at h
            | some pr =>
              obtain ⟨p1, r1⟩ := pr
              have := ih _ _ _ _ hp
              cases p1 with
              | elems es =>
                simp only [hp, Option.some.injEq, Prod.mk.injEq] at h
                obtain ⟨rfl, rfl⟩ := h
                simp only at this
                subst h1
                simp [JValue.tokens, this]
              | value v => simp at this
              | members ms => simp at this
          · cases hp : parseTokens n .members toks1 with
            | none => simp [hp] at h
            | some pr =>
              obtain ⟨p1, r1⟩ := pr
              have := ih _ _ _ _ hp
              cases p1 with
              | members ms =>
                simp only [hp, Option.some.injEq, Prod.mk.injEq] at h
                obtain ⟨rfl, rfl⟩ := h
                simp only at this
                subst h2
                simp [JValue.tokens, this]
              | value v => simp at this
              | elems es => simp at this
      | elems =>
        simp only [parseTokens] at h
        split_ifs at h with h1
        · simp only [Option.some.injEq, Prod.mk.injEq] at h
          obtain ⟨rfl, rfl⟩ := h
          simp [JElems.tokens, h1]
        · cases hp : parseTokens n .value (tok :: toks1) with
          | none => simp [hp] at h
          | some pr =>
            obtain ⟨p1, r1⟩ := pr
            have hv := ih _ _ _ _ hp
            cases p1 with
            | value v =>
              simp only [hp] at h
              cases hq : parseTokens n .elems r1 with
              | none => simp [hq] at h
              | some qr =>
                obtain ⟨q1, r2⟩ := qr
                have hes := ih _ _ _ _ hq
                cases q1 with
                | elems es =>
                  simp only [hq, Option.some.injEq, Prod.mk.injEq] at h
                  obtain ⟨rfl, rfl⟩ := h
                  simp only at hv hes
                  simp [JElems.tokens, hv, hes]
                | value v1 => simp at hes
                | members ms => simp at hes
            | elems es => simp at hv
            | members ms => simp at hv
      | members =>
        cases tok with
        | delim c =>
          simp only [parseTokens] at h
          split_ifs at h with h1
          simp only [Option.some.injEq, Prod.mk.injEq] at h
          obtain ⟨rfl, rfl⟩ := h
          simp [JMembers.tokens, h1]
        | str k =>
          simp only [parseTokens] at h
          cases hp : parseTokens n .value toks1 with
          | none => simp [hp] at h
          | some pr =>
            obtain ⟨p1, r1⟩ := pr
            have hv := ih _ _ _ _ hp
            cases p1 with
            | value v =>
              simp only [hp] at h
              cases hq : parseTokens n .members r1 with
              | none => simp [hq] at h
              | some qr =>
                obtain ⟨q1, r2⟩ := qr
                have hms := ih _ _ _ _ hq
                cases q1 with
                | members ms =>
                  simp only [hq, Option.some.injEq, Prod.mk.injEq] at h
                  obtain ⟨rfl, rfl⟩ := h
                  simp only at hv hms
                  simp [JMembers.tokens, hv, hms]
                | value v1 => simp at hms
                | elems es => simp at hms
            | elems es => simp at hv
            | members ms => simp at hv
        | null => simp [parseTokens] at h
        | bool b => simp [parseTokens] at h
        | number lit => simp [parseTokens] at h

end hide

namespace hide

/-! ## `Unmarshal` into a map: the texts it accepts -/

theorem parseTokens_tokens (d : JValue) :
    parseTokens (d.tokens.length + 1) .value d.tokens = some (.value d, []) := by
  have := parseTokens_value d (d.tokens.length + 1) [] (by omega)
  simpa using this

theorem Unmarshal_some_iff (s : String) (m : List (String × GoValue)) :
    Unmarshal s = some m ↔
      ∃ d, IsDocument s d ∧ d.depth ≤ maxNestingDepth ∧
        ((d = .null ∧ m = []) ∨ ∃ ms, d = .obj ms ∧ ms.toGo [] = some m) := by
  constructor
  · intro h
    unfold Unmarshal at h
    cases hd : decodeAll s with
    | none => simp [hd] at h
    | some p =>
      obtain ⟨toks, e⟩ := p
      cases e <;> simp only [hd] at h <;> try (simp at h)
      cases hp : parseTokens (toks.length + 1) .value toks with
      | none => simp [hp] at h
      | some pr =>
        obtain ⟨p1, rest⟩ := pr
        have hs := parseTokens_sound _ _ _ _ _ hp
        cases p1 with
        | elems es => simp at hs
        | members ms => simp at hs
        | value v =>
          simp only at hs
          cases rest with
          | cons t ts => simp [hp] at h
          | nil =>
            simp only [hp, List.append_nil] at h hs
            subst hs
            by_cases hdep : v.depth > maxNestingDepth
            · simp [hdep] at h
            · simp only [hdep, if_false] at h
              refine ⟨v, hd, by omega, ?_⟩
              cases v with
              | null =>
                simp only [Option.some.injEq] at h
                exact Or.inl ⟨rfl, h.symm⟩
              | obj ms => exact Or.inr ⟨ms, rfl, h⟩
              | bool b => simp at h
              | num lit => simp at h
              | str x => simp at h
              | arr es => simp at h
  · rintro ⟨d, hdoc, hdep, hcase⟩
    unfold IsDocument at hdoc
    have hdep1 : ¬ d.depth > maxNestingDepth := by omega
    simp only [Unmarshal, hdoc, parseTokens_tokens, hdep1, if_false]
    rcases hcase with ⟨rfl, rfl⟩ | ⟨ms, rfl, hm⟩
    · rfl
    · exact hm

mutual
theorem toGo_isSome : (v : JValue) → v.toGo.isSome = v.numbersInRange
  | .null => rfl
  | .bool _ => rfl
  | .str _ => rfl
  | .num lit => by
    simp only [JValue.toGo, JValue.numbersInRange, Option.isSome_map']
  | .arr es => by
    simp only [JValue.toGo, JValue.numbersInRange, Option.isSome_map', toGo_isSome_elems es]
  | .obj ms => by
    simp only [JValue.toGo, JValue.numbersInRange, Option.isSome_map',
      toGo_isSome_members ms []]
theorem toGo_isSome_elems : (es : JElems) → es.toGo.isSome = es.numbersInRange
  | .nil => rfl
  | .cons v rest => by
    have h1 := toGo_isSome v
    have h2 := toGo_isSome_elems rest
    simp only [JElems.toGo, JElems.numbersInRange, ← h1, ← h2]
    cases v.toGo <;> cases rest.toGo <;> rfl
theorem toGo_isSome_members : (ms : JMembers) → ∀ (acc : List (String × GoValue)),
    (ms.toGo acc).isSome = ms.numbersInRange
  | .nil, _ => rfl
  | .cons k v rest, acc => by
    have h1 := toGo_isSome v
    simp only [JMembers.toGo, JMembers.numbersInRange, ← h1]
    cases hv : v.toGo with
    | none => rfl
    | some x => simp only [toGo_isSome_members rest, Option.isSome_some, Bool.true_and]
end

theorem Unmarshal_isSome_iff (s : String) : (Unmarshal s).isSome = true ↔ ParsesAsMap s := by
  constructor
  · intro h
    obtain ⟨m, hm⟩ := Option.isSome_iff_exists.mp h
    obtain ⟨d, hdoc, hdep, hcase⟩ := (Unmarshal_some_iff s m).mp hm
    refine ⟨d, hdoc, hdep, ?_⟩
    rcases hcase with ⟨rfl, _⟩ | ⟨ms, rfl, hgo⟩
    · exact ⟨rfl, Or.inl rfl⟩
    · refine ⟨?_, Or.inr ⟨ms, rfl⟩⟩
      have := toGo_isSome_members ms []
      rw [hgo] at this
      simpa [JValue.numbersInRange] using this.symm
  · rintro ⟨d, hdoc, hdep, hnum, hcase⟩
    rcases hcase with rfl | ⟨ms, rfl⟩
    · rw [(Unmarshal_some_iff s []).mpr ⟨_, hdoc, hdep, Or.inl ⟨rfl, rfl⟩⟩]
      rfl
    · have := toGo_isSome_members ms []
      simp only [JValue.numbersInRange] at hnum
      rw [hnum] at this
      obtain ⟨m, hm⟩ := Option.isSome_iff_exists.mp this
      rw [(Unmarshal_some_iff s m).mpr ⟨_, hdoc, hdep, Or.inr ⟨ms, rfl, hm⟩⟩]
      rfl


mutual
theorem masked_numbersInRange (h : String → String → String) :
    (d : JValue) → (field : String) → (d.masked h field).numbersInRange = d.numbersInRange
  | .null, _ => rfl
  | .bool _, _ => rfl
  | .num _, _ => rfl
  | .str _, _ => rfl
  | .arr es, _ => by
    simp only [JValue.masked, JValue.numbersInRange, masked_numbersInRange_elems h es]
  | .obj ms, _ => by
    simp only [JValue.masked, JValue.numbersInRange, masked_numbersInRange_members h ms]
theorem masked_numbersInRange_elems (h : String → String → String) :
    (es : JElems) → (es.masked h).numbersInRange = es.numbersInRange
  | .nil => rfl
  | .cons v rest => by
    simp only [JElems.masked, JElems.numbersInRange, masked_numbersInRange h v "",
      masked_numbersInRange_elems h rest]
theorem masked_numbersInRange_members (h : String → String → String) :
    (ms : JMembers) → (ms.masked h).numbersInRange = ms.numbersInRange
  | .nil => rfl
  | .cons k v rest => by
    simp only [JMembers.masked, JMembers.numbersInRange, masked_numbersInRange h v k,
      masked_numbersInRange_members h rest]
end

end hide

namespace hide

/-! ## `JSON`: a text attribute or a group -/

theorem not_isDocument_empty (d : JValue) : ¬ IsDocument "" d := by
  intro h
  have h1 : decodeAll "" = some ([], .EOF) := by decide
  unfold IsDocument at h
  rw [h1] at h
  simp only [Option.some.injEq, Prod.mk.injEq, and_true] at h
  obtain ⟨t, ts, ht, _⟩ := tokens_head d
  rw [ht] at h
  exact absurd h (by simp)

theorem not_parsesAsMap_empty : ¬ ParsesAsMap "" := by
  rintro ⟨d, hd, _⟩
  exact not_isDocument_empty d hd

theorem render_ne_empty (d : JValue) (h : d = .null ∨ ∃ ms, d = .obj ms) : d.render ≠ "" := by
  rcases h with rfl | ⟨ms, rfl⟩
  · decide
  · intro he
    have := congrArg String.length he
    simp only [JValue.render, String.length_append] at this
    have h1 : "\x7b".length = 1 := rfl
    have h2 : "".length = 0 := rfl
    omega

theorem Unmarshal_of_empty_mask (tab : UnicodeTables) (g : Option Converter) (body : String)
    (err : Option Error) (h : MaskSensitiveJSONFields tab g body = some ("", err)) :
    Unmarshal body = none := by
  cases hu : Unmarshal body with
  | none => rfl
  | some m =>
    obtain ⟨d, hdoc, _, hcase⟩ := (Unmarshal_some_iff body m).mp hu
    rw [mask_document tab g body d hdoc] at h
    simp only [Option.some.injEq, Prod.mk.injEq] at h
    have hne : (d.masked (Hide tab g) "").render ≠ "" := by
      apply render_ne_empty
      rcases hcase with ⟨rfl, _⟩ | ⟨ms, rfl, _⟩
      · exact Or.inl rfl
      · exact Or.inr ⟨_, rfl⟩
    exact absurd h.1 hne

theorem MaskSensitiveJSONFields_total (tab : UnicodeTables) (g : Option Converter)
    (body : String) : ∃ out err, MaskSensitiveJSONFields tab g body = some (out, err) := by
  obtain ⟨toks, e, hd⟩ := decodeAll_total body
  obtain ⟨enc, _, hm⟩ := mask_result tab g body toks e hd
  exact ⟨_, _, hm⟩

theorem take_limit (val : List Nat) (limit : Int) (hl : 0 ≤ limit) :
    ¬ ((if (val.length : Int) < limit then (val.length : Int) else limit) < 0) ∧
    val.take (if (val.length : Int) < limit then (val.length : Int) else limit).toNat =
      val.take (min limit.toNat val.length) := by
  split_ifs with h
  · refine ⟨by omega, ?_⟩
    have : min limit.toNat val.length = val.length := by omega
    rw [this]
    simp
  · refine ⟨by omega, ?_⟩
    have : min limit.toNat val.length = limit.toNat := by omega
    rw [this]

theorem utf8DecodeN_encode : ∀ (cs : List Char) (fuel : Nat), cs.length ≤ fuel →
    url.utf8DecodeN fuel (url.utf8Encode cs) = cs
  | [], fuel, _ => by cases fuel <;> rfl
  | c :: cs, fuel, h => by
    obtain ⟨f, rfl⟩ : ∃ f, fuel = f + 1 := ⟨fuel - 1, by simp only [List.length_cons] at h; omega⟩
    have hne : ∃ b bs, url.utf8EncodeChar c = b :: bs := by
      unfold url.utf8EncodeChar
      simp only
      split_ifs <;> exact ⟨_, _, rfl⟩
    obtain ⟨b, bs, hb⟩ := hne
    have hd := decodeRune_encode c (url.utf8Encode cs)
    rw [utf8Encode_cons]
    rw [hb] at hd ⊢
    simp only [List.cons_append] at hd ⊢
    simp only [url.utf8DecodeN, hd]
    have hdrop : List.drop (b :: bs).length (b :: (bs ++ url.utf8Encode cs)) =
        url.utf8Encode cs := by
      rw [← List.cons_append, List.drop_left]
    rw [hdrop, utf8DecodeN_encode cs f (by simp only [List.length_cons] at h; omega)]

theorem utf8Encode_length (cs : List Char) : cs.length ≤ (url.utf8Encode cs).length := by
  induction cs with
  | nil => simp
  | cons c cs ih =>
    rw [utf8Encode_cons, List.length_append, List.length_cons]
    have : 1 ≤ (url.utf8EncodeChar c).length := by
      unfold url.utf8EncodeChar
      simp only
      split_ifs <;> simp
    omega

/-- The text of the bytes of a text is that text. -/
theorem textOf_utf8Encode (s : String) : textOf (url.utf8Encode s.data) = s := by
  unfold textOf url.utf8Decode
  rw [utf8DecodeN_encode s.data _ (utf8Encode_length s.data)]

theorem JSON_eq (tab : UnicodeTables) (g : Option Converter) (key : String) (val : List Nat)
    (limit : Int) (textAttr : Bool) (hl : 0 ≤ limit) (out : String) (err : Option Error)
    (hm : MaskSensitiveJSONFields tab g (textOf (val.take (min limit.toNat val.length))) =
      some (out, err)) :
    JSON tab g key val limit textAttr =
      if err.isSome || textAttr then
        some (.text (key ++ "_text")
          (if out = "" then val.take (min limit.toNat val.length)
            else url.utf8Encode out.data))
      else
        match Unmarshal
          (if out = "" then textOf (val.take (min limit.toNat val.length)) else out) with
        | none =>
          some (.text (key ++ "_text")
            (if out = "" then val.take (min limit.toNat val.length)
              else url.utf8Encode out.data))
        | some mapVal =>
          some (.group
            (slog.Group key (mapVal.flatMap fun kv => [GoValue.string kv.1, kv.2]))) := by
  obtain ⟨h1, h2⟩ := take_limit val limit hl
  have ht : textOf (if out = "" then val.take (min limit.toNat val.length)
        else url.utf8Encode out.data) =
      if out = "" then textOf (val.take (min limit.toNat val.length)) else out := by
    split_ifs
    · rfl
    · exact textOf_utf8Encode out
  simp only [JSON, h1, if_false, h2, hm, ht]

end hide

namespace hide

set_option maxRecDepth 100000 in
/-- C22, counterexample: the body `null` with a limit of 10 bytes and
`textAttr` false.  The encoder returns `null` with a nil error, which is not a
JSON object, and `JSON` returns a group attribute named `k` with no entry. -/
theorem null_body_gives_group :
    MaskSensitiveJSONFields tab0 (some testConverter) (textOf nullBytes) =
      some ("null", none) ∧
    (¬ ∃ ms, IsDocument "null" (.obj ms)) ∧
    JSON tab0 (some testConverter) "k" nullBytes 10 false =
      some (.group (.mk "k" (.GroupValue []))) := by
  refine ⟨by decide, ?_, rfl⟩
  rintro ⟨ms, h⟩
  have h1 : decodeAll "null" = some ([.null], .EOF) := by decide
  unfold IsDocument at h
  rw [h1] at h
  simp [JValue.tokens] at h

/-- C22, amended: for every key, body, limit `≥ 0` and flag, `JSON` returns a
text attribute named `key_text` (its value given by its bytes) exactly when the encoder returned an error, or
`textAttr` is true, or `json.Unmarshal` does not accept the masked output as a
map, that is unless the masked output is one JSON value that is an object or
null, nested at most 10000 deep and with its numbers in the range of
`float64`; in every other case it returns a group attribute named `key`. -/
theorem JSON_text_or_group (tab : UnicodeTables) (g : Option Converter) (key : String)
    (val : List Nat) (limit : Int) (textAttr : Bool) (hl : 0 ≤ limit) :
    ∃ out err,
      MaskSensitiveJSONFields tab g (textOf (val.take (min limit.toNat val.length))) =
        some (out, err) ∧
      (((err.isSome = true ∨ textAttr = true ∨ ¬ ParsesAsMap out) ∧
          JSON tab g key val limit textAttr =
            some (.text (key ++ "_text")
              (if out = "" then val.take (min limit.toNat val.length)
                else url.utf8Encode out.data))) ∨
        (err = none ∧ textAttr = false ∧ ParsesAsMap out ∧
          ∃ entries, JSON tab g key val limit textAttr =
            some (.group (.mk key (.GroupValue entries))))) := by
  obtain ⟨out, err, hm⟩ := MaskSensitiveJSONFields_total tab g
    (textOf (val.take (min limit.toNat val.length)))
  refine ⟨out, err, hm, ?_⟩
  rw [JSON_eq tab g key val limit textAttr hl out err hm]
  by_cases h1 : err.isSome = true
  · exact Or.inl ⟨Or.inl h1, by simp [h1]⟩
  by_cases h2 : textAttr = true
  · exact Or.inl ⟨Or.inr (Or.inl h2), by simp [h2]⟩
  have he : err = none := by
    cases err with
    | none => rfl
    | some e => simp at h1
  have ht : textAttr = false := by simpa using h2
  subst he
  subst ht
  simp only [Option.isSome_none, Bool.or_self, Bool.false_eq_true, if_false]
  by_cases ho : out = ""
  · subst ho
    left
    refine ⟨Or.inr (Or.inr not_parsesAsMap_empty), ?_⟩
    simp only [if_true, Unmarshal_of_empty_mask tab g _ none hm]
  · simp only [ho, if_false]
    cases hu : Unmarshal out with
    | none =>
      left
      refine ⟨Or.inr (Or.inr ?_), rfl⟩
      intro hp
      have := (Unmarshal_isSome_iff out).mpr hp
      rw [hu] at this
      simp at this
    | some m =>
      right
      refine ⟨by simp, by simp, (Unmarshal_isSome_iff out).mp (by rw [hu]; rfl), _, rfl⟩

set_option maxRecDepth 100000 in
theorem JSON_text_or_group_witness :
    (0 : Int) ≤ 10 ∧
    ∃ out err,
      MaskSensitiveJSONFields tab0 (some testConverter)
        (textOf (nullBytes.take (min (10 : Int).toNat nullBytes.length))) = some (out, err) ∧
      (((err.isSome = true ∨ false = true ∨ ¬ ParsesAsMap out) ∧
          JSON tab0 (some testConverter) "k" nullBytes 10 false =
            some (.text ("k" ++ "_text")
              (if out = "" then nullBytes.take (min (10 : Int).toNat nullBytes.length)
                else url.utf8Encode out.data))) ∨
        (err = none ∧ false = false ∧ ParsesAsMap out ∧
          ∃ entries, JSON tab0 (some testConverter) "k" nullBytes 10 false =
            some (.group (.mk "k" (.GroupValue entries))))) :=
  ⟨by decide, JSON_text_or_group tab0 (some testConverter) "k" nullBytes 10 false (by decide)⟩

/-! ## `JSON`: the bytes it reads -/

theorem take_take_limit (val : List Nat) (limit : Int) :
    (val.take (min limit.toNat val.length)).take
        (min limit.toNat (val.take (min limit.toNat val.length)).length) =
      val.take (min limit.toNat val.length) := by
  apply List.take_of_length_le
  simp only [List.length_take]
  omega

set_option maxRecDepth 1000000 in
/-- C23: for every body and limit `≥ 0` the encoder is run on the first
`min(limit, len(body))` bytes of the body and the result of `JSON` is the one
it returns on that prefix alone: bytes past the limit have no influence.  The
value of a text attribute is the masked string of the prefix (its bytes), or,
when that string is empty, the bytes of the prefix exactly as they are.  The
test input with limit 100 yields the masked text that ends in `"cvc":123`; the
body of `TestWrongType` comes back as it is; and of the two bytes of U+00E9 a
limit of 1 keeps the byte `0xC3`. -/
theorem JSON_reads_truncation (tab : UnicodeTables) (g : Option Converter) (key : String)
    (val : List Nat) (limit : Int) (textAttr : Bool) (hl : 0 ≤ limit) :
    JSON tab g key val limit textAttr =
      JSON tab g key (val.take (min limit.toNat val.length)) limit textAttr ∧
    (∃ out err,
      MaskSensitiveJSONFields tab g (textOf (val.take (min limit.toNat val.length))) =
        some (out, err) ∧
      (JSON tab g key val limit textAttr =
          some (.text (key ++ "_text")
            (if out = "" then val.take (min limit.toNat val.length)
              else url.utf8Encode out.data)) ∨
        ∃ entries, JSON tab g key val limit textAttr =
          some (.group (.mk key (.GroupValue entries))))) ∧
    JSON tab0 (some testConverter) "json" testInputBytes 100 false =
      some (.text "json_text" (url.utf8Encode
        "\x7b\"username\":\"employee\",\"email\":\"emp*****@now.com\",\"id\":2,\"age\":null,\"cvc\":123".data)) ∧
    JSON tab0 (some testConverter) "name" (url.utf8Encode wrongTypeBody.data) 10000 true =
      some (.text "name_text" (url.utf8Encode wrongTypeBody.data)) ∧
    JSON tab0 (some testConverter) "k" cutCharBytes 1 true = some (.text "k_text" [195]) := by
  obtain ⟨out, err, hm⟩ := MaskSensitiveJSONFields_total tab g
    (textOf (val.take (min limit.toNat val.length)))
  have hm2 := hm
  rw [← take_take_limit val limit] at hm2
  refine ⟨?_, ⟨out, err, hm, ?_⟩, rfl, rfl, rfl⟩
  · rw [JSON_eq tab g key val limit textAttr hl out err hm,
      JSON_eq tab g key _ limit textAttr hl out err hm2, take_take_limit]
  · rw [JSON_eq tab g key val limit textAttr hl out err hm]
    split_ifs
    · exact Or.inl rfl
    · exact Or.inl rfl
    · split
      · exact Or.inl (by simp [*])
      · exact Or.inr ⟨_, rfl⟩
    · split
      · exact Or.inl (by simp [*])
      · exact Or.inr ⟨_, rfl⟩

set_option maxRecDepth 1000000 in
theorem JSON_reads_truncation_witness :
    (0 : Int) ≤ 100 ∧
    JSON tab0 (some testConverter) "json" testInputBytes 100 false =
      JSON tab0 (some testConverter) "json"
        (testInputBytes.take (min (100 : Int).toNat testInputBytes.length)) 100 false :=
  ⟨by decide,
    (JSON_reads_truncation tab0 (some testConverter) "json" testInputBytes 100 false (by decide)).1⟩

end hide


namespace hide

/-! ## `JSON`: the entries of the group -/

theorem argsToAttrSlice_pairs : ∀ (m : List (String × GoValue)),
    slog.argsToAttrSlice (m.flatMap fun kv => [GoValue.string kv.1, kv.2]) =
      m.map fun kv => slog.Any kv.1 kv.2
  | [] => rfl
  | kv :: rest => by
    have e : ((kv :: rest).flatMap fun kv => [GoValue.string kv.1, kv.2]) =
        GoValue.string kv.1 :: kv.2 :: (rest.flatMap fun kv => [GoValue.string kv.1, kv.2]) := by
      simp [List.flatMap_cons]
    rw [e, slog.argsToAttrSlice, argsToAttrSlice_pairs rest, List.map_cons]

theorem Any_not_emptyGroup (k : String) (v : GoValue) :
    (slog.Any k v).Value.isEmptyGroup = false := by
  cases v <;> rfl

theorem Group_pairs (key : String) (m : List (String × GoValue)) :
    slog.Group key (m.flatMap fun kv => [GoValue.string kv.1, kv.2]) =
      .mk key (.GroupValue (m.map fun kv => slog.Any kv.1 kv.2)) := by
  simp only [slog.Group, slog.GroupValue, argsToAttrSlice_pairs]
  congr 2
  apply List.filter_eq_self.mpr
  intro a ha
  simp only [List.mem_map] at ha
  obtain ⟨kv, _, rfl⟩ := ha
  simp [Any_not_emptyGroup]

theorem lookup_replace (k : String) (v : GoValue) (k1 : String) :
    ∀ (m : List (String × GoValue)),
      (m.map fun kv => if kv.1 = k then (k, v) else kv).lookup k1 =
        if k1 = k then (m.lookup k).map (fun _ => v) else m.lookup k1
  | [] => by simp
  | (a, b) :: rest => by
    have ih := lookup_replace k v k1 rest
    by_cases ha : a = k
    · subst ha
      by_cases hk : k1 = a
      · subst hk
        simp [List.lookup_cons]
      · have hb : (k1 == a) = false := by simpa using hk
        simp only [List.map_cons, if_true, List.lookup_cons, hb, ih, hk, if_false]
    · by_cases hk : k1 = a
      · subst hk
        simp [List.lookup_cons, ha]
      · have hb : (k1 == a) = false := by simpa using hk
        have hc : (k == a) = false := by simpa using fun h => ha h.symm
        simp only [List.map_cons, ha, if_false, List.lookup_cons, hb, hc, ih]

theorem lookup_isSome_iff (k : String) :
    ∀ (m : List (String × GoValue)), (m.lookup k).isSome = true ↔ k ∈ m.map Prod.fst
  | [] => by simp
  | (a, b) :: rest => by
    have ih := lookup_isSome_iff k rest
    by_cases hk : k = a
    · subst hk
      simp [List.lookup_cons]
    · have hb : (k == a) = false := by simpa using hk
      simp only [List.lookup_cons, hb, ih, List.map_cons, List.mem_cons, hk, false_or]

theorem mapSet_lookup (m : List (String × GoValue)) (k k1 : String) (v : GoValue) :
    (mapSet m k v).lookup k1 = if k1 = k then some v else m.lookup k1 := by
  unfold mapSet
  by_cases h1 : (m.lookup k).isSome = true
  · rw [if_pos h1, lookup_replace]
    by_cases hk : k1 = k
    · obtain ⟨x, hx⟩ := Option.isSome_iff_exists.mp h1
      simp [hk, hx]
    · simp [hk]
  · rw [if_neg h1]
    have hn : m.lookup k = none := by
      cases hl : m.lookup k with
      | none => rfl
      | some x => simp [hl] at h1
    by_cases hk : k1 = k
    · subst hk
      simp [List.lookup_append, hn, List.lookup_cons]
    · have hb : (k1 == k) = false := by simpa using hk
      cases hl : m.lookup k1 with
      | none => simp [List.lookup_append, hl, List.lookup_cons, hb, hk]
      | some x => simp [List.lookup_append, hl, hk]

theorem mapSet_keys (m : List (String × GoValue)) (k : String) (v : GoValue) :
    (mapSet m k v).map Prod.fst =
      if k ∈ m.map Prod.fst then m.map Prod.fst else m.map Prod.fst ++ [k] := by
  unfold mapSet
  by_cases h1 : (m.lookup k).isSome = true
  · rw [if_pos h1, if_pos ((lookup_isSome_iff k m).mp h1), List.map_map]
    apply List.map_congr_left
    intro p _
    by_cases hp : p.1 = k
    · simp [hp]
    · simp [hp]
  · rw [if_neg h1, if_neg (fun h => h1 ((lookup_isSome_iff k m).mpr h))]
    simp

theorem mapSet_nodup (m : List (String × GoValue)) (k : String) (v : GoValue)
    (h : (m.map Prod.fst).Nodup) : ((mapSet m k v).map Prod.fst).Nodup := by
  rw [mapSet_keys]
  split_ifs with hk
  · exact h
  · exact List.Nodup.append h (List.nodup_singleton k) (by simpa using hk)

theorem mapSet_mem_keys (m : List (String × GoValue)) (k k1 : String) (v : GoValue) :
    k1 ∈ (mapSet m k v).map Prod.fst ↔ k1 ∈ m.map Prod.fst ∨ k1 = k := by
  rw [mapSet_keys]
  split_ifs with hk
  · constructor
    · exact Or.inl
    · rintro (h | rfl)
      · exact h
      · exact hk
  · simp

/-- The map `objectInterface` builds from the members `ms`: its keys are
distinct, they are the keys set before and the names of the members, and the
value of a key is the Go value of the last member of that name. -/
theorem toGo_members_map : (ms : JMembers) → ∀ (acc m : List (String × GoValue)),
    ms.toGo acc = some m → (acc.map Prod.fst).Nodup →
    (m.map Prod.fst).Nodup ∧
    (∀ k, k ∈ m.map Prod.fst ↔ k ∈ acc.map Prod.fst ∨ k ∈ ms.names) ∧
    (∀ k, m.lookup k =
      match ms.lastValue k with
      | some v => v.toGo
      | none => acc.lookup k)
  | .nil, acc, m, h, hn => by
    simp only [JMembers.toGo, Option.some.injEq] at h
    subst h
    refine ⟨hn, ?_, ?_⟩
    · intro k
      simp [JMembers.names]
    · intro k
      simp [JMembers.lastValue]
  | .cons k0 v rest, acc, m, h, hn => by
    simp only [JMembers.toGo] at h
    cases hv : v.toGo with
    | none => simp [hv] at h
    | some x =>
      simp only [hv] at h
      obtain ⟨h1, h2, h3⟩ := toGo_members_map rest (mapSet acc k0 x) m h
        (mapSet_nodup acc k0 x hn)
      refine ⟨h1, ?_, ?_⟩
      · intro k
        rw [h2 k, mapSet_mem_keys]
        simp only [JMembers.names, List.mem_cons]
        tauto
      · intro k
        rw [h3 k]
        simp only [JMembers.lastValue]
        cases hl : rest.lastValue k with
        | some y => rfl
        | none =>
          simp only [mapSet_lookup]
          by_cases hk : k = k0
          · subst hk
            simp [hv]
          · have : ¬ k0 = k := fun h => hk h.symm
            simp [hk, this]

end hide

namespace hide

theorem masked_names (h : String → String → String) :
    (ms : JMembers) → (ms.masked h).names = ms.names.map (h "")
  | .nil => rfl
  | .cons k v rest => by
    simp only [JMembers.masked, JMembers.names, List.map_cons, masked_names h rest]

theorem lookup_of_mem : ∀ (m : List (String × GoValue)) (kv : String × GoValue),
    (m.map Prod.fst).Nodup → kv ∈ m → m.lookup kv.1 = some kv.2
  | [], _, _, h => by simp at h
  | (a, b) :: rest, kv, hn, h => by
    simp only [List.map_cons, List.nodup_cons] at hn
    rcases List.mem_cons.mp h with rfl | h
    · simp [List.lookup_cons]
    · have hne : ¬ kv.1 = a := by
        intro he
        apply hn.1
        rw [← he]
        exact List.mem_map_of_mem Prod.fst h
      have hb : (kv.1 == a) = false := by simpa using hne
      simp only [List.lookup_cons, hb]
      exact lookup_of_mem rest kv hn.2 h

set_option maxRecDepth 1000000 in
/-- C24, counterexample: the body `{"a":1e999}` is a valid JSON object within
the limit, and with `textAttr` false `JSON` returns the text attribute
`k_text` holding the body: `json.Unmarshal` fails on a number beyond the range
of `float64`. -/
theorem huge_number_object_gives_text :
    IsDocument hugeNumberBody hugeNumberDoc ∧
    JSON tab0 (some testConverter) "k" (url.utf8Encode hugeNumberBody.data) 100 false =
      some (.text "k_text" (url.utf8Encode hugeNumberBody.data)) :=
  ⟨by decide, rfl⟩

set_option maxRecDepth 1000000 in
/-- C24, amended: for every body whose first `min(limit, len(body))` bytes are
a JSON object, nested at most 10000 deep and with every number in the range of
`float64`, `JSON` with `textAttr` false returns a group attribute named `key`.
Its entries have distinct keys, the keys are the field names of the object as
the encoder wrote them (`Hide("", name)`), and the entry of a key is
`slog.Any` of the decoded masked value of the last field of that name, where
masking is applied at every depth.  On the 7-field test input the entries are
the 7 attributes the test expects. -/
theorem JSON_group_entries (tab : UnicodeTables) (g : Option Converter) (key : String)
    (val : List Nat) (limit : Int) (ms : JMembers) (hl : 0 ≤ limit)
    (hd : IsDocument (textOf (val.take (min limit.toNat val.length))) (.obj ms))
    (hdepth : (JValue.obj ms).depth ≤ maxNestingDepth)
    (hnum : (JValue.obj ms).numbersInRange = true) :
    (∃ entries, JSON tab g key val limit false =
        some (.group (.mk key (.GroupValue entries))) ∧
      (entries.map slog.Attr.Key).Nodup ∧
      (∀ k, k ∈ entries.map slog.Attr.Key ↔ k ∈ ms.names.map (Hide tab g "")) ∧
      (∀ a, a ∈ entries → ∃ v x, (ms.masked (Hide tab g)).lastValue a.Key = some v ∧
        v.toGo = some x ∧ a = slog.Any a.Key x)) ∧
    (∃ entries, JSON tab0 (some testConverter) "json" testInputBytes 10000 false =
        some (.group (.mk "json" (.GroupValue entries))) ∧
      entries.length = 7 ∧ ∀ a, a ∈ entries ↔ a ∈ testEntries) := by
  refine ⟨?_, testEntries, rfl, rfl, fun a => Iff.rfl⟩
  have hm := mask_document tab g _ _ hd
  have hv : ((JValue.obj ms).masked (Hide tab g) "").numbersValid = true := by
    rw [masked_numbersValid]
    exact isDocument_numbersValid _ _ hd
  have hdoc := render_isDocument _ hv (by rw [masked_depth]; exact hdepth)
  have hne : ((JValue.obj ms).masked (Hide tab g) "").render ≠ "" :=
    render_ne_empty _ (Or.inr ⟨_, rfl⟩)
  have hsome : ((ms.masked (Hide tab g)).toGo []).isSome = true := by
    rw [toGo_isSome_members, masked_numbersInRange_members]
    simpa only [JValue.numbersInRange] using hnum
  obtain ⟨m, hgo⟩ := Option.isSome_iff_exists.mp hsome
  have hu : Unmarshal ((JValue.obj ms).masked (Hide tab g) "").render = some m := by
    apply (Unmarshal_some_iff _ m).mpr
    refine ⟨_, hdoc, ?_, Or.inr ⟨_, rfl, hgo⟩⟩
    rw [masked_depth]
    exact hdepth
  obtain ⟨h1, h2, h3⟩ := toGo_members_map _ [] m hgo (by simp)
  have hkeys : (m.map fun kv => slog.Any kv.1 kv.2).map slog.Attr.Key = m.map Prod.fst := by
    rw [List.map_map]
    apply List.map_congr_left
    intro kv _
    rfl
  refine ⟨m.map fun kv => slog.Any kv.1 kv.2, ?_, ?_, ?_, ?_⟩
  · rw [JSON_eq tab g key val limit false hl _ _ hm]
    simp only [hne, if_false, hu]
    rw [← Group_pairs]
    rfl
  · rw [hkeys]
    exact h1
  · intro k
    rw [hkeys, h2 k, masked_names]
    simp
  · intro a ha
    obtain ⟨kv, hkv, rfl⟩ := List.mem_map.mp ha
    have hl := lookup_of_mem m kv h1 hkv
    rw [h3 kv.1] at hl
    cases hlast : (ms.masked (Hide tab g)).lastValue kv.1 with
    | none => simp [hlast] at hl
    | some v =>
      simp only [hlast] at hl
      exact ⟨v, kv.2, hlast, hl, rfl⟩

set_option maxRecDepth 1000000 in
theorem JSON_group_entries_witness :
    (0 : Int) ≤ 10000 ∧
    IsDocument (textOf (testInputBytes.take (min (10000 : Int).toNat testInputBytes.length)))
      (.obj testMembers) ∧
    (JValue.obj testMembers).depth ≤ maxNestingDepth ∧
    (JValue.obj testMembers).numbersInRange = true ∧
    ∃ entries, JSON tab0 (some testConverter) "json" testInputBytes 10000 false =
        some (.group (.mk "json" (.GroupValue entries))) ∧
      (entries.map slog.Attr.Key).Nodup ∧
      (∀ k, k ∈ entries.map slog.Attr.Key ↔
        k ∈ testMembers.names.map (Hide tab0 (some testConverter) "")) ∧
      (∀ a, a ∈ entries → ∃ v x,
        (testMembers.masked (Hide tab0 (some testConverter))).lastValue a.Key = some v ∧
        v.toGo = some x ∧ a = slog.Any a.Key x) :=
  ⟨by decide, by decide, by decide, by decide,
    (JSON_group_entries tab0 (some testConverter) "json" testInputBytes 10000 testMembers
      (by decide) (by decide) (by decide) (by decide)).1⟩

end hide
